import Mathlib

/-!
# B+Tree index (`src/P3_2/BTree/src/btree.cpp`): shallow embedding

Conventions of the embedding.

* Keys (`int`) are `Int`; they are only compared, never added, so no wrap-around arises.
  `PageId` (an unsigned 32-bit number) is `Nat`.  The capacities `leafOccupancy` and
  `nodeOccupancy` (set from constants of `btree.h`) are members of the state and parameters
  of the node operations.
* A C array is a `List`; `a[i]` is `List.getD a i 0` and `a[i] = v` is `List.set a i v`.
  An access outside the bounds of the array (undefined in C++) therefore reads zero and a
  write outside the bounds is dropped.
* A loop index `i` that can reach `-1` is carried as the natural number `i + 1`.
* The pages of the index file are a list; page id `p >= 1` is element `p - 1`, page id 0 is
  no page.  The calls made to the buffer manager are recorded, in order, in `bufLog`.
  A pointer to a page is the page id; a struct read through it is the current content.
* The pointer `newChildEntry` (null, or the address of a `PageKeyPair` local to the
  splitting function) is an `Option PageKeyPair` passed by value.
* Loops and recursions whose termination depends on the shape of the stored tree take a
  `fuel` argument and answer `Res.outOfFuel` when it runs out.
-/

namespace BTree

/-- Comparison operators of a scan, `enum Operator` (declared in `btree.h`). -/
inductive Operator where
  | LT
  | LTE
  | GTE
  | GT
  deriving DecidableEq, Repr

/-- Record identifier supplied by the client. -/
structure RecordId where
  page_number : Nat
  slot_number : Nat
  deriving DecidableEq, Repr

instance : Inhabited RecordId := ⟨⟨0, 0⟩⟩

/-- Key/record-id pair handed to the recursive insert. -/
structure RIDKeyPair where
  rid : RecordId
  key : Int
  deriving DecidableEq, Repr

/-- Key/page pair pushed up by a split. -/
structure PageKeyPair where
  pageNo : Nat
  key : Int
  deriving DecidableEq, Repr


/-- Attribute types, `enum Datatype` (declared in `btree.h`). -/
inductive Datatype where
  | INTEGER
  | DOUBLE
  | STRING
  deriving DecidableEq, Repr

/-- Leaf page, `struct LeafNodeInt` (declared in `btree.h`): `leafOccupancy` keys and record
ids side by side, and the page id of the right sibling. -/
structure LeafNodeInt where
  keyArray : List Int
  ridArray : List RecordId
  rightSibPageNo : Nat
  deriving DecidableEq, Repr

/-- Internal page, `struct NonLeafNodeInt` (declared in `btree.h`): `nodeOccupancy` keys and
`nodeOccupancy + 1` child page ids. -/
structure NonLeafNodeInt where
  level : Int
  keyArray : List Int
  pageNoArray : List Nat
  deriving DecidableEq, Repr

/-- Header page, `struct IndexMetaInfo` (declared in `btree.h`). -/
structure IndexMetaInfo where
  relationName : List Char
  attrByteOffset : Int
  attrType : Datatype
  rootPageNo : Nat
  deriving DecidableEq, Repr

/-- A page of the index file.  The source casts the raw page to one of the three structs;
`blank` is a freshly allocated page (all bytes zero), which may be cast to any of them. -/
inductive Page where
  | blank
  | header (m : IndexMetaInfo)
  | leaf (n : LeafNodeInt)
  | nonLeaf (n : NonLeafNodeInt)
  deriving DecidableEq, Repr

/-- A call made to the buffer manager. -/
inductive BufCall where
  | readPage (pageNo : Nat)
  | allocPage (pageNo : Nat)
  | unPinPage (pageNo : Nat) (dirty : Bool)
  | flushFile
  deriving DecidableEq, Repr

/-- The exceptions that can leave the index. -/
inductive Exn where
  | BadIndexInfo
  | BadOpcodes
  | BadScanrange
  | NoSuchKeyFound
  | ScanNotInitialized
  | IndexScanCompleted
  | InvalidPage
  deriving DecidableEq, Repr

/-- State of a `BTreeIndex` object together with the file it works on: the pages of the
file, the log of buffer-manager calls, and the member variables of the class. -/
structure BTreeIndex where
  pages : List Page
  bufLog : List BufCall
  headerPageNum : Nat
  rootPageNum : Nat
  initRootPageNo : Nat
  leafOccupancy : Nat
  nodeOccupancy : Nat
  scanExecuting : Bool
  nextEntry : Int
  currentPageNum : Nat
  currentPageData : Option Nat
  lowValInt : Int
  highValInt : Int
  lowOp : Operator
  highOp : Operator
  deriving DecidableEq, Repr

/-- How a member function ends: it returns `a` in state `s`, it throws `e` leaving state `s`,
it leaves the embedding (`fault`: a page is used as a struct it does not hold), or the fuel
of a loop ran out. -/
inductive Res (α : Type) where
  | ok (a : α) (s : BTreeIndex)
  | exn (e : Exn) (s : BTreeIndex)
  | fault
  | outOfFuel
  deriving DecidableEq, Repr

/-- Sequencing: the rest of the function runs only after a normal return. -/
def Res.bind {α β : Type} (r : Res α) (f : α → BTreeIndex → Res β) : Res β :=
  match r with
  | Res.ok a s => f a s
  | Res.exn e s => Res.exn e s
  | Res.fault => Res.fault
  | Res.outOfFuel => Res.outOfFuel

/-- A leaf page with every byte zero. -/
def zeroLeaf (leafOccupancy : Nat) : LeafNodeInt :=
  { keyArray := List.replicate leafOccupancy 0
    ridArray := List.replicate leafOccupancy ⟨0, 0⟩
    rightSibPageNo := 0 }

/-- An internal page with every byte zero. -/
def zeroNonLeaf (nodeOccupancy : Nat) : NonLeafNodeInt :=
  { level := 0
    keyArray := List.replicate nodeOccupancy 0
    pageNoArray := List.replicate (nodeOccupancy + 1) 0 }

/-- Modelled from the spec: the page store behind the buffer manager (not under src/).
The page with id `pageNo`, if the file has one. -/
def pageAt (pageNo : Nat) (s : BTreeIndex) : Option Page :=
  match pageNo with
  | 0 => none
  | p + 1 => s.pages.get? p

/-- Modelled from the spec: `bufMgr->readPage(file, pageNo, page)`, section 6: the page is
pinned and returned; a page id the file does not have is refused by the file layer. -/
def readPage (pageNo : Nat) (s : BTreeIndex) : Res Unit :=
  match pageAt pageNo s with
  | none => Res.exn Exn.InvalidPage s
  | some _ => Res.ok () { s with bufLog := s.bufLog ++ [BufCall.readPage pageNo] }

/-- Modelled from the spec: `bufMgr->allocPage(file, pageNo, page)`, section 6: a new page,
zero-filled and pinned, with the next page id of the file. -/
def allocPage (s : BTreeIndex) : Nat × BTreeIndex :=
  (s.pages.length + 1,
   { s with pages := s.pages ++ [Page.blank]
            bufLog := s.bufLog ++ [BufCall.allocPage (s.pages.length + 1)] })

/-- Modelled from the spec: `bufMgr->unPinPage(file, pageNo, dirty)`, section 6. -/
def unPinPage (pageNo : Nat) (dirty : Bool) (s : BTreeIndex) : BTreeIndex :=
  { s with bufLog := s.bufLog ++ [BufCall.unPinPage pageNo dirty] }

/-- Store through a pointer into the page with id `pageNo`. -/
def setPage (pageNo : Nat) (p : Page) (s : BTreeIndex) : BTreeIndex :=
  { s with
    pages := match pageNo with
      | 0 => s.pages
      | q + 1 => s.pages.set q p }

/-- The cast `(LeafNodeInt *) page` of the page with id `pageNo`. -/
def leafAt (pageNo : Nat) (s : BTreeIndex) : Res LeafNodeInt :=
  match pageAt pageNo s with
  | some (Page.leaf n) => Res.ok n s
  | some Page.blank => Res.ok (zeroLeaf s.leafOccupancy) s
  | _ => Res.fault

/-- The cast `(NonLeafNodeInt *) page` of the page with id `pageNo`. -/
def nonLeafAt (pageNo : Nat) (s : BTreeIndex) : Res NonLeafNodeInt :=
  match pageAt pageNo s with
  | some (Page.nonLeaf n) => Res.ok n s
  | some Page.blank => Res.ok (zeroNonLeaf s.nodeOccupancy) s
  | _ => Res.fault

/-- The cast `(IndexMetaInfo *) page` of the page with id `pageNo`. -/
def headerAt (pageNo : Nat) (s : BTreeIndex) : Res IndexMetaInfo :=
  match pageAt pageNo s with
  | some (Page.header m) => Res.ok m s
  | some Page.blank => Res.ok ⟨[], 0, Datatype.INTEGER, 0⟩ s
  | _ => Res.fault

/-- The cast `(LeafNodeInt *) currentPageData`; `currentPageData` holds the id of the page
whose frame the pointer addresses. -/
def currentLeaf (s : BTreeIndex) : Res LeafNodeInt :=
  match s.currentPageData with
  | none => Res.fault
  | some p => leafAt p s

/-- The cast `(NonLeafNodeInt *) currentPageData`. -/
def currentNonLeaf (s : BTreeIndex) : Res NonLeafNodeInt :=
  match s.currentPageData with
  | none => Res.fault
  | some p => nonLeafAt p s

/-- The pair `currentPageNum = p; bufMgr->readPage(file, currentPageNum, currentPageData)`
occurring in `startScan` and `scanNext`. -/
def readCurrent (p : Nat) (s : BTreeIndex) : Res Unit :=
  (readPage p { s with currentPageNum := p }).bind fun _ s =>
    Res.ok () { s with currentPageData := some p }

/-- Member function `BTreeIndex::keyIsInRange` (btree.cpp 519-529). -/
def keyIsInRange (lowVal : Int) (LOP : Operator) (highVal : Int) (GOP : Operator)
    (key : Int) : Bool :=
  if LOP = Operator.GTE ∧ GOP = Operator.LTE then
    decide (key ≤ highVal) && decide (key ≥ lowVal)
  else if LOP = Operator.GT ∧ GOP = Operator.LTE then
    decide (key ≤ highVal) && decide (key > lowVal)
  else if LOP = Operator.GTE ∧ GOP = Operator.LT then
    decide (key < highVal) && decide (key ≥ lowVal)
  else
    decide (key < highVal) && decide (key > lowVal)

/-- The loop `while (i >= 0 && pageNoArray[i] == 0) i--;` shared by `findSubTree`,
`insertNonLeafNode` and `startScan`.  The argument and the result are `i + 1`. -/
def lastChild (pageNoArray : List Nat) : Nat → Nat
  | 0 => 0
  | i + 1 => if pageNoArray.getD i 0 = 0 then lastChild pageNoArray i else i + 1

/-- The loop `while (i > 0 && keyArray[i-1] >= key) i--;` of `findSubTree` and `startScan`.
The argument and the result are `i`. -/
def findSubTree.descend (keyArray : List Int) (key : Int) : Nat → Nat
  | 0 => 0
  | i + 1 => if keyArray.getD i 0 ≥ key then findSubTree.descend keyArray key i else i + 1

/-- The index `i` at which `findSubTree` (and the descent of `startScan`) reads
`pageNoArray[i]`; `none` stands for `i = -1`. -/
def findSubTree.index (nodeOccupancy : Nat) (curNode : NonLeafNodeInt) (key : Int) :
    Option Nat :=
  match lastChild curNode.pageNoArray (nodeOccupancy + 1) with
  | 0 => none
  | i + 1 => some (findSubTree.descend curNode.keyArray key i)

/-- Member function `BTreeIndex::findSubTree` (btree.cpp 468-479); the result is `nextNodeNo`. -/
def findSubTree (nodeOccupancy : Nat) (curNode : NonLeafNodeInt) (key : Int) : Nat :=
  match findSubTree.index nodeOccupancy curNode key with
  | none => 0
  | some i => curNode.pageNoArray.getD i 0

/-- The shifting loop of `insertNonLeafNode` (btree.cpp 332-336); the argument and the
first component of the result are `i`. -/
def insertNonLeafNode.shift (key : Int) : Nat → NonLeafNodeInt → Nat × NonLeafNodeInt
  | 0, curNode => (0, curNode)
  | i + 1, curNode =>
    if curNode.keyArray.getD i 0 > key then
      insertNonLeafNode.shift key i
        { curNode with
          keyArray := curNode.keyArray.set (i + 1) (curNode.keyArray.getD i 0)
          pageNoArray := curNode.pageNoArray.set (i + 2) (curNode.pageNoArray.getD (i + 1) 0) }
    else (i + 1, curNode)

/-- Member function `BTreeIndex::insertNonLeafNode` (btree.cpp 327-340). -/
def insertNonLeafNode (nodeOccupancy : Nat) (curNode : NonLeafNodeInt)
    (newChildEntry : PageKeyPair) : NonLeafNodeInt :=
  match lastChild curNode.pageNoArray (nodeOccupancy + 1) with
  | 0 =>
    -- i = -1: `keyArray[-1]` is outside the array, `pageNoArray[0]` is stored
    { curNode with pageNoArray := curNode.pageNoArray.set 0 newChildEntry.pageNo }
  | i + 1 =>
    let r := insertNonLeafNode.shift newChildEntry.key i curNode
    { r.2 with
      keyArray := r.2.keyArray.set r.1 newChildEntry.key
      pageNoArray := r.2.pageNoArray.set (r.1 + 1) newChildEntry.pageNo }

/-- The loop `while (i >= 0 && ridArray[i].page_number == 0) i--;` of `insertLeafNode`
(btree.cpp 354-356).  The argument and the result are `i + 1`. -/
def insertLeafNode.locate (ridArray : List RecordId) : Nat → Nat
  | 0 => 0
  | i + 1 =>
    if (ridArray.getD i default).page_number = 0 then insertLeafNode.locate ridArray i
    else i + 1

/-- The shifting loop of `insertLeafNode` (btree.cpp 358-362).  The argument and the first
component of the result are `i + 1`. -/
def insertLeafNode.shift (key : Int) : Nat → LeafNodeInt → Nat × LeafNodeInt
  | 0, leafNode => (0, leafNode)
  | i + 1, leafNode =>
    if leafNode.keyArray.getD i 0 > key then
      insertLeafNode.shift key i
        { leafNode with
          keyArray := leafNode.keyArray.set (i + 1) (leafNode.keyArray.getD i 0)
          ridArray := leafNode.ridArray.set (i + 1) (leafNode.ridArray.getD i default) }
    else (i + 1, leafNode)

/-- Member function `BTreeIndex::insertLeafNode` (btree.cpp 347-367). -/
def insertLeafNode (leafOccupancy : Nat) (leafNode : LeafNodeInt) (dataEntry : RIDKeyPair) :
    LeafNodeInt :=
  if (leafNode.ridArray.getD 0 default).page_number = 0 then
    { leafNode with
      keyArray := leafNode.keyArray.set 0 dataEntry.key
      ridArray := leafNode.ridArray.set 0 dataEntry.rid }
  else
    let r := insertLeafNode.shift dataEntry.key
      (insertLeafNode.locate leafNode.ridArray leafOccupancy) leafNode
    { r.2 with
      keyArray := r.2.keyArray.set r.1 dataEntry.key
      ridArray := r.2.ridArray.set r.1 dataEntry.rid }

/-- Member function `BTreeIndex::updateRoot` (btree.cpp 486-507). -/
def updateRoot (prevPageId : Nat) (newChildEntry : PageKeyPair) (s : BTreeIndex) : Res Unit :=
  let a := allocPage s
  let newRootPageNo := a.1
  (nonLeafAt newRootPageNo a.2).bind fun newRootPage s =>
    let newRootPage : NonLeafNodeInt :=
      { level := if s.initRootPageNo = s.rootPageNum then 1 else 0
        pageNoArray := (newRootPage.pageNoArray.set 0 prevPageId).set 1 newChildEntry.pageNo
        keyArray := newRootPage.keyArray.set 0 newChildEntry.key }
    let s := setPage newRootPageNo (Page.nonLeaf newRootPage) s
    (readPage s.headerPageNum s).bind fun _ s =>
      (headerAt s.headerPageNum s).bind fun metaPage s =>
        let s := setPage s.headerPageNum
          (Page.header { metaPage with rootPageNo := newRootPageNo }) s
        let s := { s with rootPageNum := newRootPageNo }
        let s := unPinPage s.headerPageNum true s
        Res.ok () (unPinPage newRootPageNo true s)

/-- The migration loop of `splitLeafNode` (btree.cpp 434-439): `n` iterations starting at
slot `i`, on the pair (leafNode, newLeafNode). -/
def splitLeafNode.migrate (midPoint : Nat) :
    Nat → Nat → LeafNodeInt × LeafNodeInt → LeafNodeInt × LeafNodeInt
  | 0, _, st => st
  | n + 1, i, st =>
    splitLeafNode.migrate midPoint n (i + 1)
      ({ st.1 with
          keyArray := st.1.keyArray.set i 0
          ridArray := st.1.ridArray.set i { st.1.ridArray.getD i default with page_number := 0 } },
       { st.2 with
          keyArray := st.2.keyArray.set (i - midPoint) (st.1.keyArray.getD i 0)
          ridArray := st.2.ridArray.set (i - midPoint) (st.1.ridArray.getD i default) })

/-- The choice of `midPoint` in `splitLeafNode` (btree.cpp 429-432). -/
def splitLeafNode.midPoint (leafOccupancy : Nat) (leafNode : LeafNodeInt) (key : Int) : Nat :=
  if leafOccupancy % 2 = 1 ∧ leafNode.keyArray.getD (leafOccupancy / 2) 0 < key then
    leafOccupancy / 2 + 1
  else leafOccupancy / 2

/-- The two leaves after the migration and the insertion of `splitLeafNode`
(btree.cpp 429-447), as the pair (leafNode, newLeafNode); `newPageNo` is the page id of the
new leaf.  For `midPoint = 0` the comparison reads `keyArray[-1]`, outside the array. -/
def splitLeafNode.nodes (leafOccupancy : Nat) (leafNode newLeafNode : LeafNodeInt)
    (newPageNo : Nat) (dataEntry : RIDKeyPair) : LeafNodeInt × LeafNodeInt :=
  let midPoint := splitLeafNode.midPoint leafOccupancy leafNode dataEntry.key
  let st := splitLeafNode.migrate midPoint (leafOccupancy - midPoint) midPoint
    (leafNode, newLeafNode)
  let pivot : Int := match midPoint with
    | 0 => 0
    | m + 1 => st.1.keyArray.getD m 0
  let st : LeafNodeInt × LeafNodeInt :=
    if pivot < dataEntry.key then (st.1, insertLeafNode leafOccupancy st.2 dataEntry)
    else (insertLeafNode leafOccupancy st.1 dataEntry, st.2)
  ({ st.1 with rightSibPageNo := newPageNo },
   { st.2 with rightSibPageNo := st.1.rightSibPageNo })

/-- Member function `BTreeIndex::splitLeafNode` (btree.cpp 421-460); the result is the entry left in
`newChildEntry`. -/
def splitLeafNode (leafNode : LeafNodeInt) (leafPageNo : Nat) (dataEntry : RIDKeyPair)
    (s : BTreeIndex) : Res (Option PageKeyPair) :=
  let a := allocPage s
  let newPageNo := a.1
  (leafAt newPageNo a.2).bind fun newLeafNode s =>
    let st := splitLeafNode.nodes s.leafOccupancy leafNode newLeafNode newPageNo dataEntry
    let s := setPage leafPageNo (Page.leaf st.1) s
    let s := setPage newPageNo (Page.leaf st.2) s
    let newKeyPair : PageKeyPair := { pageNo := newPageNo, key := st.2.keyArray.getD 0 0 }
    let s := unPinPage newPageNo true s
    let s := unPinPage leafPageNo true s
    if s.rootPageNum = leafPageNo then
      (updateRoot leafPageNo newKeyPair s).bind fun _ s => Res.ok (some newKeyPair) s
    else Res.ok (some newKeyPair) s

/-- The choice of `pushupIndex` in `splitNonLeafNode` (btree.cpp 384-389). -/
def splitNonLeafNode.pushupIndex (nodeOccupancy : Nat) (prevNode : NonLeafNodeInt)
    (key : Int) : Nat :=
  if nodeOccupancy % 2 = 0 then
    if key < prevNode.keyArray.getD (nodeOccupancy / 2) 0 then nodeOccupancy / 2 - 1
    else nodeOccupancy / 2
  else nodeOccupancy / 2

/-- The moving loop of `splitNonLeafNode` (btree.cpp 393-398): `n` iterations starting at
index `i`, on the pair (prevNode, newNode). -/
def splitNonLeafNode.move (midPoint : Nat) :
    Nat → Nat → NonLeafNodeInt × NonLeafNodeInt → NonLeafNodeInt × NonLeafNodeInt
  | 0, _, st => st
  | n + 1, i, st =>
    splitNonLeafNode.move midPoint n (i + 1)
      ({ st.1 with
          pageNoArray := st.1.pageNoArray.set (i + 1) 0
          keyArray := st.1.keyArray.set (i + 1) 0 },
       { st.2 with
          keyArray := st.2.keyArray.set (i - midPoint) (st.1.keyArray.getD i 0)
          pageNoArray := st.2.pageNoArray.set (i - midPoint) (st.1.pageNoArray.getD (i + 1) 0) })

/-- The two nodes after `splitNonLeafNode` has moved the right half, cleared the pushed-up
slot, copied the level and placed the incoming entry (btree.cpp 384-403), as the pair
(prevNode, newNode). -/
def splitNonLeafNode.nodes (nodeOccupancy : Nat) (prevNode newNode : NonLeafNodeInt)
    (newChildEntry : PageKeyPair) : NonLeafNodeInt × NonLeafNodeInt :=
  let pushupIndex := splitNonLeafNode.pushupIndex nodeOccupancy prevNode newChildEntry.key
  let midPoint := pushupIndex + 1
  let st := splitNonLeafNode.move midPoint (nodeOccupancy - midPoint) midPoint
    (prevNode, newNode)
  let prevNode : NonLeafNodeInt :=
    { st.1 with
      pageNoArray := st.1.pageNoArray.set pushupIndex 0
      keyArray := st.1.keyArray.set pushupIndex 0 }
  let newNode : NonLeafNodeInt := { st.2 with level := prevNode.level }
  if newChildEntry.key < newNode.keyArray.getD 0 0 then
    (insertNonLeafNode nodeOccupancy prevNode newChildEntry, newNode)
  else (prevNode, insertNonLeafNode nodeOccupancy newNode newChildEntry)

/-- Member function `BTreeIndex::splitNonLeafNode` (btree.cpp 376-411); the result is the entry left in
`newChildEntry`. -/
def splitNonLeafNode (prevNode : NonLeafNodeInt) (prevPageNo : Nat)
    (newChildEntry : PageKeyPair) (s : BTreeIndex) : Res (Option PageKeyPair) :=
  let a := allocPage s
  let newPageNo := a.1
  (nonLeafAt newPageNo a.2).bind fun newNode s =>
    let pushupIndex :=
      splitNonLeafNode.pushupIndex s.nodeOccupancy prevNode newChildEntry.key
    let pushupEntry : PageKeyPair :=
      { pageNo := newPageNo, key := prevNode.keyArray.getD pushupIndex 0 }
    let st := splitNonLeafNode.nodes s.nodeOccupancy prevNode newNode newChildEntry
    let s := setPage prevPageNo (Page.nonLeaf st.1) s
    let s := setPage newPageNo (Page.nonLeaf st.2) s
    let s := unPinPage prevPageNo true s
    let s := unPinPage newPageNo true s
    if prevPageNo = s.rootPageNum then
      (updateRoot prevPageNo pushupEntry s).bind fun _ s => Res.ok (some pushupEntry) s
    else Res.ok (some pushupEntry) s

/-- Member function `BTreeIndex::recInsert` (btree.cpp 283-320); the result is the value left in
`newChildEntry`.  The page `curPageNo` has been pinned by the caller; `fuel` bounds the
depth of the recursion, and a leaf needs none. -/
def recInsert : Nat → Bool → Nat → RIDKeyPair → BTreeIndex → Res (Option PageKeyPair)
  | fuel, nodeIsLeaf, curPageNo, dataEntry, s =>
    if nodeIsLeaf = false then
      (nonLeafAt curPageNo s).bind fun curNode s =>
        let nextPageNo := findSubTree s.nodeOccupancy curNode dataEntry.key
        (readPage nextPageNo s).bind fun _ s =>
          match fuel with
          | 0 => Res.outOfFuel
          | fuel + 1 =>
            (recInsert fuel (curNode.level == 1) nextPageNo dataEntry s).bind
              fun newChildEntry s =>
                match newChildEntry with
                | none => Res.ok none (unPinPage curPageNo false s)
                | some e =>
                  (nonLeafAt curPageNo s).bind fun curNode s =>
                    if curNode.pageNoArray.getD s.nodeOccupancy 0 = 0 then
                      let s := setPage curPageNo
                        (Page.nonLeaf (insertNonLeafNode s.nodeOccupancy curNode e)) s
                      Res.ok none (unPinPage curPageNo true s)
                    else splitNonLeafNode curNode curPageNo e s
    else
      (leafAt curPageNo s).bind fun leaf s =>
        if (leaf.ridArray.getD (s.leafOccupancy - 1) default).page_number = 0 then
          let s := setPage curPageNo (Page.leaf (insertLeafNode s.leafOccupancy leaf dataEntry)) s
          Res.ok none (unPinPage curPageNo true s)
        else splitLeafNode leaf curPageNo dataEntry s

/-- Member function `BTreeIndex::insertEntry` (btree.cpp 120-129). -/
def insertEntry (fuel : Nat) (key : Int) (rid : RecordId) (s : BTreeIndex) : Res Unit :=
  let dataEntry : RIDKeyPair := { rid := rid, key := key }
  (readPage s.rootPageNum s).bind fun _ s =>
    let isInitRoot := decide (s.rootPageNum = s.initRootPageNo)
    (recInsert fuel isInitRoot s.rootPageNum dataEntry s).bind fun _ s => Res.ok () s

/-- Member function `BTreeIndex::endScan` (btree.cpp 264-273). -/
def endScan (s : BTreeIndex) : Res Unit :=
  if s.scanExecuting = false then Res.exn Exn.ScanNotInitialized s
  else
    let s := { s with scanExecuting := false }
    let s := unPinPage s.currentPageNum false s
    Res.ok () { s with currentPageNum := 4294967295, currentPageData := none, nextEntry := -1 }

/-- The descent loop of `startScan` (btree.cpp 160-176), entered with the root pinned as
the current page. -/
def startScan.descend : Nat → BTreeIndex → Res Unit
  | 0, _ => Res.outOfFuel
  | fuel + 1, s =>
    (currentNonLeaf s).bind fun curNode s =>
      let atLeafLevelNext := curNode.level == 1
      let nextPageNum := findSubTree s.nodeOccupancy curNode s.lowValInt
      let s := unPinPage s.currentPageNum false s
      (readCurrent nextPageNum s).bind fun _ s =>
        if atLeafLevelNext then Res.ok () s else startScan.descend fuel s

/-- The `for` loop of `startScan` over the slots of the leaf `curNode` (btree.cpp 188-215):
`n` slots are left and `i` is the next one; the result is `targetFound`.  `nullVal` is
false whenever an iteration starts, since an iteration that sets it leaves the loop. -/
def startScan.slots (curNode : LeafNodeInt) : Nat → Nat → BTreeIndex → Res Bool
  | 0, _, s => Res.ok false s
  | n + 1, i, s =>
    let curKey := curNode.keyArray.getD i 0
    let nullVal :=
      decide (i + 1 < s.leafOccupancy) &&
        decide ((curNode.ridArray.getD (i + 1) default).page_number = 0)
    if keyIsInRange s.lowValInt s.lowOp s.highValInt s.highOp curKey = true then
      Res.ok true { s with nextEntry := (i : Int), scanExecuting := true }
    else if (s.highOp = Operator.LT ∧ curKey ≥ s.highValInt) ∨
        (s.highOp = Operator.LTE ∧ curKey > s.highValInt) then
      Res.exn Exn.NoSuchKeyFound (unPinPage s.currentPageNum false s)
    else if s.leafOccupancy = i + 1 ∨ nullVal = true then
      let s := unPinPage s.currentPageNum false s
      if curNode.rightSibPageNo = 0 then Res.exn Exn.NoSuchKeyFound s
      else
        (readCurrent curNode.rightSibPageNo s).bind fun _ s =>
          if nullVal = true then Res.ok false s else startScan.slots curNode n (i + 1) s
    else startScan.slots curNode n (i + 1) s

/-- The loop `while (!targetFound)` of `startScan` (btree.cpp 180-217). -/
def startScan.leaves : Nat → BTreeIndex → Res Unit
  | 0, _ => Res.outOfFuel
  | fuel + 1, s =>
    (currentLeaf s).bind fun curNode s =>
      if (curNode.ridArray.getD 0 default).page_number = 0 then
        Res.exn Exn.NoSuchKeyFound (unPinPage s.currentPageNum false s)
      else
        (startScan.slots curNode s.leafOccupancy 0 s).bind fun targetFound s =>
          if targetFound = true then Res.ok () s else startScan.leaves fuel s

/-- The part of `startScan` after the checks of its arguments (btree.cpp 151-217): an
executing scan is ended, the root is pinned as the current page, and the two loops run. -/
def startScan.position (fuel : Nat) (s : BTreeIndex) : Res Unit :=
  (if s.scanExecuting = true then endScan s else Res.ok () s).bind fun _ s =>
    (readCurrent s.rootPageNum s).bind fun _ s =>
      (if s.initRootPageNo ≠ s.rootPageNum then startScan.descend fuel s
        else Res.ok () s).bind fun _ s =>
        startScan.leaves fuel s

/-- Member function `BTreeIndex::startScan` (btree.cpp 140-218). -/
def startScan (fuel : Nat) (lowValParm : Int) (lowOpParm : Operator) (highValParm : Int)
    (highOpParm : Operator) (s : BTreeIndex) : Res Unit :=
  let s := { s with lowValInt := lowValParm, highValInt := highValParm }
  if (lowOpParm ≠ Operator.GT ∧ lowOpParm ≠ Operator.GTE) ∨
      (highOpParm ≠ Operator.LT ∧ highOpParm ≠ Operator.LTE) then
    Res.exn Exn.BadOpcodes s
  else if s.lowValInt > s.highValInt then Res.exn Exn.BadScanrange s
  else startScan.position fuel { s with highOp := highOpParm, lowOp := lowOpParm }

/-- Read of `ridArray[i]` for an `int` index: zero outside the array. -/
def ridAt (ridArray : List RecordId) (i : Int) : RecordId :=
  if i < 0 then default else ridArray.getD i.toNat default

/-- Read of `keyArray[i]` for an `int` index: zero outside the array. -/
def keyAt (keyArray : List Int) (i : Int) : Int :=
  if i < 0 then 0 else keyArray.getD i.toNat 0

/-- Member function `BTreeIndex::scanNext` (btree.cpp 231-257); the result is the value stored in `outRid`.
With `nextEntry == leafOccupancy` the first operand of `||` reads
`ridArray[leafOccupancy]`, outside the array, and the second operand is true. -/
def scanNext (s : BTreeIndex) : Res RecordId :=
  if s.scanExecuting = false then Res.exn Exn.ScanNotInitialized s
  else
    (currentLeaf s).bind fun curNode s =>
      (if (ridAt curNode.ridArray s.nextEntry).page_number = 0 ∨
            s.nextEntry = (s.leafOccupancy : Int) then
          let s := unPinPage s.currentPageNum false s
          if curNode.rightSibPageNo = 0 then Res.exn Exn.IndexScanCompleted s
          else
            (readCurrent curNode.rightSibPageNo s).bind fun _ s =>
              (currentLeaf s).bind fun curNode s =>
                Res.ok curNode { s with nextEntry := 0 }
        else Res.ok curNode s).bind fun curNode s =>
        let curKey := keyAt curNode.keyArray s.nextEntry
        if keyIsInRange s.lowValInt s.lowOp s.highValInt s.highOp curKey = true then
          Res.ok (ridAt curNode.ridArray s.nextEntry)
            { s with nextEntry := s.nextEntry + 1 }
        else Res.exn Exn.IndexScanCompleted s

/-- The create path of the constructor (btree.cpp 62-82) up to the bulk load: a new file
with the header page and an empty root leaf.  `strncpy` copies the relation name up to its
first NUL, and byte 19 of the field is set to NUL.  The scan members, which the constructor
leaves unset, are zero here. -/
def BTreeIndex.create (leafOccupancy nodeOccupancy : Nat) (relationName : List Char)
    (attrByteOffset : Int) (attrType : Datatype) : BTreeIndex :=
  { pages :=
      [Page.header
          { relationName := (relationName.takeWhile fun c => c != Char.ofNat 0).take 19
            attrByteOffset := attrByteOffset
            attrType := attrType
            rootPageNo := 2 },
        Page.leaf (zeroLeaf leafOccupancy)]
    bufLog :=
      [BufCall.allocPage 1, BufCall.allocPage 2, BufCall.unPinPage 2 true,
        BufCall.unPinPage 1 true]
    headerPageNum := 1
    rootPageNum := 2
    initRootPageNo := 2
    leafOccupancy := leafOccupancy
    nodeOccupancy := nodeOccupancy
    scanExecuting := false
    nextEntry := 0
    currentPageNum := 0
    currentPageData := none
    lowValInt := 0
    highValInt := 0
    lowOp := Operator.GTE
    highOp := Operator.LTE }

/-- A client calling `insertEntry` once per element of `es`, in order (as the bulk load of
the constructor does, btree.cpp 88-92); it stops at the first call that does not return. -/
def insertEntries (fuel : Nat) : List (Int × RecordId) → BTreeIndex → Res Unit
  | [], s => Res.ok () s
  | e :: es, s => (insertEntry fuel e.1 e.2 s).bind fun _ s => insertEntries fuel es s

/-- A client calling `scanNext` until it throws: the record ids handed out, and how the
last call ended.  `n` bounds the number of calls. -/
def scanLoop : Nat → BTreeIndex → List RecordId × Res RecordId
  | 0, _ => ([], Res.outOfFuel)
  | n + 1, s =>
    match scanNext s with
    | Res.ok rid s => ((scanLoop n s).1.cons rid, (scanLoop n s).2)
    | r => ([], r)

/-- A client running one scan: `startScan`, then `scanNext` until it throws.  The result is
how `startScan` ended and the record ids handed out. -/
def runScan (fuel : Nat) (lowVal : Int) (lowOp : Operator) (highVal : Int)
    (highOp : Operator) (s : BTreeIndex) : Res Unit × List RecordId :=
  match startScan fuel lowVal lowOp highVal highOp s with
  | Res.ok u s => (Res.ok u s, (scanLoop fuel s).1)
  | r => (r, [])

/-- The entries of the occupied slots of a leaf, read left to right up to the first vacant
slot (`n` slots starting at slot `i`). -/
def leafEntries (leaf : LeafNodeInt) : Nat → Nat → List (Int × RecordId)
  | 0, _ => []
  | n + 1, i =>
    if (leaf.ridArray.getD i default).page_number = 0 then []
    else (leaf.keyArray.getD i 0, leaf.ridArray.getD i default) :: leafEntries leaf n (i + 1)

/-- The entries met when the leaf sibling chain is read left to right from page `pageNo`,
following `rightSibPageNo` until it is 0; `fuel` bounds the number of leaves. -/
def chainEntries : Nat → Nat → BTreeIndex → List (Int × RecordId)
  | 0, _, _ => []
  | fuel + 1, pageNo, s =>
    match leafAt pageNo s with
    | Res.ok leaf _ =>
      leafEntries leaf s.leafOccupancy 0 ++
        (if leaf.rightSibPageNo = 0 then [] else chainEntries fuel leaf.rightSibPageNo s)
    | _ => []

/-- The exception a call ended with, if it threw. -/
def Res.thrown {α : Type} : Res α → Option Exn
  | Res.exn e _ => some e
  | _ => none

/-- The state a call returned in, if it returned normally. -/
def Res.state {α : Type} : Res α → Option BTreeIndex
  | Res.ok _ s => some s
  | _ => none

/-- A client building an index with capacities `leafOccupancy`, `nodeOccupancy`: the create
path of the constructor, then one `insertEntry` per element of `es`. -/
def BTreeIndex.build (fuel leafOccupancy nodeOccupancy : Nat) (es : List (Int × RecordId)) :
    Option BTreeIndex :=
  (insertEntries fuel es
    (BTreeIndex.create leafOccupancy nodeOccupancy [] 0 Datatype.INTEGER)).state

/-- The keys met along the leaf sibling chain that starts at the initial root leaf. -/
def chainKeys (fuel : Nat) (s : BTreeIndex) : List Int :=
  (chainEntries fuel s.initRootPageNo s).map Prod.fst

/-! ## Reference notions used to state and prove the single-leaf results -/

/-- Reference insertion into a list of entries ordered by key: the new entry goes behind
every entry whose key is not greater. -/
def stableInsert (e : Int × RecordId) : List (Int × RecordId) → List (Int × RecordId)
  | [] => [e]
  | b :: l => if e.1 < b.1 then e :: b :: l else b :: stableInsert e l

/-- The entry that ends up in slot `|pre|` when the shifting loop has moved `suf` one slot
to the right: the first entry of `suf`, or the old content if `suf` is empty. -/
def headOr (suf : List (Int × RecordId)) (x : Int × RecordId) : Int × RecordId :=
  match suf with
  | [] => x
  | b :: _ => b

/-- The leaf page holding exactly the entries `es` in its first slots, every other slot
zero, and no right sibling. -/
def leafOf (leafOccupancy : Nat) (es : List (Int × RecordId)) : LeafNodeInt :=
  { keyArray := es.map Prod.fst ++ List.replicate (leafOccupancy - es.length) 0
    ridArray := es.map Prod.snd ++ List.replicate (leafOccupancy - es.length) ⟨0, 0⟩
    rightSibPageNo := 0 }

/-- The index is a single leaf, the initial root, holding the entries `es` in key order. -/
def SingleLeaf (s : BTreeIndex) (es : List (Int × RecordId)) : Prop :=
  s.rootPageNum = s.initRootPageNo ∧
    pageAt s.rootPageNum s = some (Page.leaf (leafOf s.leafOccupancy es)) ∧
    es.length ≤ s.leafOccupancy ∧
    es.Pairwise (fun a b => a.1 ≤ b.1) ∧ ∀ b ∈ es, b.2.page_number ≠ 0

/-- The entries `es` inserted one after the other into the ordered list `cur`. -/
def stableInsertAll (cur es : List (Int × RecordId)) : List (Int × RecordId) :=
  es.foldl (fun acc e => stableInsert e acc) cur

/-- The upper-bound test of `startScan` (btree.cpp 201). -/
def pastUpper (s : BTreeIndex) (k : Int) : Prop :=
  (s.highOp = Operator.LT ∧ k ≥ s.highValInt) ∨ (s.highOp = Operator.LTE ∧ k > s.highValInt)

/-- The range test with the bounds stored in the index. -/
def inScanRange (s : BTreeIndex) (k : Int) : Bool :=
  keyIsInRange s.lowValInt s.lowOp s.highValInt s.highOp k

/-- The current page of the scan is the leaf holding exactly `es`. -/
def CurrentLeafIs (s : BTreeIndex) (es : List (Int × RecordId)) : Prop :=
  (∃ p, s.currentPageData = some p ∧
      pageAt p s = some (Page.leaf (leafOf s.leafOccupancy es))) ∧
    es.length ≤ s.leafOccupancy ∧ ∀ b ∈ es, b.2.page_number ≠ 0

/-- The two states hold the same scan bounds and operators. -/
def SameRange (s s' : BTreeIndex) : Prop :=
  s'.lowValInt = s.lowValInt ∧ s'.lowOp = s.lowOp ∧ s'.highValInt = s.highValInt ∧
    s'.highOp = s.highOp

/-! ## Pin counts, reachability and scan sessions -/

/-- The change a call to the buffer manager makes to the pin count of page `p`. -/
def pinChange (p : Nat) : BufCall → Int
  | BufCall.readPage q => if q = p then 1 else 0
  | BufCall.allocPage q => if q = p then 1 else 0
  | BufCall.unPinPage q _ => if q = p then -1 else 0
  | BufCall.flushFile => 0

/-- The net change of the pin count of page `p` over a log of buffer-manager calls. -/
def netPins (p : Nat) (log : List BufCall) : Int :=
  (log.map (pinChange p)).sum

/-- No call of the log unpins a page that is not pinned, when the pin counts before the
log are `held`. -/
def NoOverUnpin (held : Nat → Int) : List BufCall → Prop
  | [] => True
  | c :: cs =>
    (∀ p, 0 ≤ held p + pinChange p c) ∧ NoOverUnpin (fun p => held p + pinChange p c) cs

/-- The state the index object is left in by a call that returned or threw. -/
def Res.endState {α : Type} : Res α → Option BTreeIndex
  | Res.ok _ s => some s
  | Res.exn _ s => some s
  | _ => none

/-- The occupied child page ids of the internal page `p` (none for any other page). -/
def occupiedChildren (s : BTreeIndex) (p : Nat) : List Nat :=
  match pageAt p s with
  | some (Page.nonLeaf n) => n.pageNoArray.filter (fun c => decide (c ≠ 0))
  | _ => []

/-- The pages reached from page `p` by following occupied child page ids, `fuel` levels
deep. -/
def reachablePages : Nat → Nat → BTreeIndex → List Nat
  | 0, p, _ => [p]
  | fuel + 1, p, s =>
    p :: (occupiedChildren s p).flatMap (fun c => reachablePages fuel c s)

/-- A client calling `scanNext` `n` times, whether the calls return or throw. -/
def scanNextCalls : Nat → BTreeIndex → Option BTreeIndex
  | 0, s => some s
  | n + 1, s =>
    match (scanNext s).endState with
    | some s' => scanNextCalls n s'
    | none => none

/-- A client running a scan session: `startScan`, `n` calls of `scanNext`, `endScan`.  The
result is the log of the buffer-manager calls made during the session. -/
def scanSession (fuel : Nat) (lowVal : Int) (lowOp : Operator) (highVal : Int)
    (highOp : Operator) (n : Nat) (s : BTreeIndex) : Option (List BufCall) :=
  match (startScan fuel lowVal lowOp highVal highOp s).endState with
  | none => none
  | some s1 =>
    match scanNextCalls n s1 with
    | none => none
    | some s2 =>
      match (endScan s2).endState with
      | none => none
      | some s3 => some (s3.bufLog.drop s.bufLog.length)

/-- The log `d` releases one pin of page `q` that is held when the log starts, pins and
unpins every other page equally often, and never unpins a page that is not pinned. -/
def Releases (q : Nat) (d : List BufCall) : Prop :=
  (∀ p, netPins p d = if p = q then -1 else 0) ∧
    NoOverUnpin (fun p => if p = q then 1 else 0) d

/-- The log `d` unpins every page exactly as often as it pins it, and never unpins a page
that is not pinned. -/
def Neutral (d : List BufCall) : Prop :=
  (∀ p, netPins p d = 0) ∧ NoOverUnpin (fun _ => 0) d

/-! ## The constructor, the destructor and the index files -/

/-- The index file name computed by the constructor (btree.cpp 42-45): the relation name, a
dot, and the attribute offset in decimal. -/
def indexName (relationName : List Char) (attrByteOffset : Int) : List Char :=
  relationName ++ '.' :: (toString attrByteOffset).toList

/-- Modelled from the spec: opening an existing blob file by name (section 6, Paged File);
the files are kept as pairs of a name and the pages, and `none` stands for
`FileNotFoundException`. -/
def findFile (files : List (List Char × List Page)) (name : List Char) : Option (List Page) :=
  match files with
  | [] => none
  | f :: fs => if f.1 = name then some f.2 else findFile fs name

/-- An object whose members are all zero before the constructor runs. -/
def BTreeIndex.zeroed : BTreeIndex :=
  { pages := []
    bufLog := []
    headerPageNum := 0
    rootPageNum := 0
    initRootPageNo := 0
    leafOccupancy := 0
    nodeOccupancy := 0
    scanExecuting := false
    nextEntry := 0
    currentPageNum := 0
    currentPageData := none
    lowValInt := 0
    highValInt := 0
    lowOp := Operator.LT
    highOp := Operator.LT }

/-- The open path of the constructor (btree.cpp 36-60) on the existing file `pages`.
`object` holds the members before the constructor runs: the path assigns `leafOccupancy`,
`nodeOccupancy`, `scanExecuting`, `headerPageNum` and `rootPageNum` and no other member.
The first page of a file has the id 1. -/
def BTreeIndex.openFile (leafOccupancy nodeOccupancy : Nat) (object : BTreeIndex)
    (pages : List Page) (relationName : List Char) (attrByteOffset : Int)
    (attrType : Datatype) : Res Unit :=
  let s : BTreeIndex :=
    { object with
      pages := pages
      bufLog := []
      leafOccupancy := leafOccupancy
      nodeOccupancy := nodeOccupancy
      scanExecuting := false
      headerPageNum := 1 }
  (readPage s.headerPageNum s).bind fun _ s =>
    (headerAt s.headerPageNum s).bind fun metaInfo s =>
      let s := { s with rootPageNum := metaInfo.rootPageNo }
      if metaInfo.relationName ≠ relationName ∨ metaInfo.attrType ≠ attrType ∨
          metaInfo.attrByteOffset ≠ attrByteOffset then
        Res.exn Exn.BadIndexInfo s
      else Res.ok () (unPinPage s.headerPageNum false s)

/-- The constructor `BTreeIndex::BTreeIndex` (btree.cpp 33-98) with the files `files` on
disk; `relation` lists the keys and record ids that the scan of the relation hands to the
bulk load. -/
def BTreeIndex.construct (fuel leafOccupancy nodeOccupancy : Nat) (object : BTreeIndex)
    (files : List (List Char × List Page)) (relation : List (Int × RecordId))
    (relationName : List Char) (attrByteOffset : Int) (attrType : Datatype) : Res Unit :=
  match findFile files (indexName relationName attrByteOffset) with
  | some pages =>
    BTreeIndex.openFile leafOccupancy nodeOccupancy object pages relationName attrByteOffset
      attrType
  | none =>
    (insertEntries fuel relation
        (BTreeIndex.create leafOccupancy nodeOccupancy relationName attrByteOffset
          attrType)).bind fun _ s =>
      Res.ok () { s with bufLog := s.bufLog ++ [BufCall.flushFile] }

/-- The destructor (btree.cpp 106-112): the scan flag is cleared and the file is flushed. -/
def BTreeIndex.destruct (s : BTreeIndex) : BTreeIndex :=
  { s with scanExecuting := false, bufLog := s.bufLog ++ [BufCall.flushFile] }

/-- The files on disk after the index `s` over the file `name` has been destructed: the
file holds the pages of the index. -/
def closeFile (files : List (List Char × List Page)) (name : List Char) (s : BTreeIndex) :
    List (List Char × List Page) :=
  (name, (BTreeIndex.destruct s).pages) :: files

/-! ## Invariants of the header page -/

/-- A property of the state a call ends in, whether the call returns or throws. -/
def Res.Holds {α : Type} (P : BTreeIndex → Prop) : Res α → Prop
  | Res.ok _ s => P s
  | Res.exn _ s => P s
  | Res.fault => True
  | Res.outOfFuel => True

/-- The property `P` of states is kept by each kind of step the insert path takes: a call
logged by the buffer manager, the allocation of a page, the store of a leaf into a page
that is zero-filled or holds a leaf, the store of an internal node into a page that is
zero-filled or holds an internal node of the same level, and `updateRoot`. -/
structure StepClosed (P : BTreeIndex → Prop) : Prop where
  log : ∀ s l, P s → P { s with bufLog := l }
  alloc : ∀ s, P s → P (allocPage s).2
  leaf : ∀ s q x, P s →
    (pageAt q s = some Page.blank ∨ ∃ n, pageAt q s = some (Page.leaf n)) →
    P (setPage q (Page.leaf x) s)
  nonLeaf : ∀ s q x, P s →
    (pageAt q s = some Page.blank ∨
      ∃ n, pageAt q s = some (Page.nonLeaf n) ∧ x.level = n.level) →
    P (setPage q (Page.nonLeaf x) s)
  root : ∀ s prev e, P s → (updateRoot prev e s).Holds P

/-- The state `s'` has the file content and the tree members of `s`: the pages, the header
and root page ids, the initial root page id and the capacities. -/
def SameFile (s s' : BTreeIndex) : Prop :=
  s'.pages = s.pages ∧ s'.headerPageNum = s.headerPageNum ∧ s'.rootPageNum = s.rootPageNum ∧
    s'.initRootPageNo = s.initRootPageNo ∧ s'.leafOccupancy = s.leafOccupancy ∧
    s'.nodeOccupancy = s.nodeOccupancy

/-- The pair that ends up in slot `|lo|` of an internal node when the shifting loop of
`insertNonLeafNode` has moved the pairs `hi` one slot to the right: the first pair of `hi`,
or the old content if `hi` is empty. -/
def headOrPair (hi : List (Int × Nat)) (x : Int × Nat) : Int × Nat :=
  match hi with
  | [] => x
  | b :: _ => b

/-- The occupied key slots of an internal node: the keys in front of its last occupied
child slot. -/
def occupiedKeys (nodeOccupancy : Nat) (node : NonLeafNodeInt) : List Int :=
  node.keyArray.take (lastChild node.pageNoArray (nodeOccupancy + 1) - 1)

/-- The state `splitLeafNode` is in after it has stored the two leaves and unpinned them,
before it looks at the root (btree.cpp 421-455). -/
def splitLeafNode.written (leafNode : LeafNodeInt) (leafPageNo : Nat) (dataEntry : RIDKeyPair)
    (s : BTreeIndex) : BTreeIndex :=
  let st := splitLeafNode.nodes s.leafOccupancy leafNode (zeroLeaf s.leafOccupancy)
    (s.pages.length + 1) dataEntry
  unPinPage leafPageNo true
    (unPinPage (s.pages.length + 1) true
      (setPage (s.pages.length + 1) (Page.leaf st.2)
        (setPage leafPageNo (Page.leaf st.1) (allocPage s).2)))

/-- The entry `splitLeafNode` pushes up: the first key of the new leaf and its page id. -/
def splitLeafNode.pushup (leafNode : LeafNodeInt) (dataEntry : RIDKeyPair) (s : BTreeIndex) :
    PageKeyPair :=
  { pageNo := s.pages.length + 1
    key := (splitLeafNode.nodes s.leafOccupancy leafNode (zeroLeaf s.leafOccupancy)
      (s.pages.length + 1) dataEntry).2.keyArray.getD 0 0 }

/-- The state `splitNonLeafNode` is in after it has stored the two nodes and unpinned them,
before it looks at the root (btree.cpp 376-406). -/
def splitNonLeafNode.written (prevNode : NonLeafNodeInt) (prevPageNo : Nat)
    (newChildEntry : PageKeyPair) (s : BTreeIndex) : BTreeIndex :=
  let st := splitNonLeafNode.nodes s.nodeOccupancy prevNode (zeroNonLeaf s.nodeOccupancy)
    newChildEntry
  unPinPage (s.pages.length + 1) true
    (unPinPage prevPageNo true
      (setPage (s.pages.length + 1) (Page.nonLeaf st.2)
        (setPage prevPageNo (Page.nonLeaf st.1) (allocPage s).2)))

/-- The entry `splitNonLeafNode` pushes up: the key at the push index and the page id of
the new node. -/
def splitNonLeafNode.pushup (prevNode : NonLeafNodeInt) (newChildEntry : PageKeyPair)
    (s : BTreeIndex) : PageKeyPair :=
  { pageNo := s.pages.length + 1
    key := prevNode.keyArray.getD
      (splitNonLeafNode.pushupIndex s.nodeOccupancy prevNode newChildEntry.key) 0 }

/-- An example: an index file with two slots per leaf and per internal node whose root
leaf (page 2) is full, with the entries of key 10 and key 20. -/
def fullLeafIndex : BTreeIndex :=
  { BTreeIndex.create 2 2 ['r'] 0 Datatype.INTEGER with
    pages :=
      [Page.header ⟨['r'], 0, Datatype.INTEGER, 2⟩,
        Page.leaf ⟨[10, 20], [⟨1, 0⟩, ⟨1, 1⟩], 0⟩] }

/-! ## Dirty flags -/

/-- The pages `recInsert` visits on its way down from page `cur`, as far as the fuel
reaches: the internal pages chosen by `findSubTree` for `key`, and the page visited as a
leaf. -/
def descentPath : Nat → Bool → Nat → Int → BTreeIndex → List Nat
  | _, true, cur, _, _ => [cur]
  | 0, false, cur, _, _ => [cur]
  | fuel + 1, false, cur, key, s =>
    match pageAt cur s with
    | some (Page.nonLeaf n) =>
      cur :: descentPath fuel (n.level == 1) (findSubTree s.nodeOccupancy n key) key s
    | _ => [cur]

/-- The number of internal pages on the way down from page `cur` to the page visited as a
leaf, if the fuel reaches it: an internal visit is a visit of an internal page, and the
leaf visit one of a leaf page or a zero-filled page. -/
def descentDepth : Nat → Bool → Nat → Int → BTreeIndex → Option Nat
  | _, true, cur, _, s =>
    match pageAt cur s with
    | some (Page.leaf _) => some 0
    | some Page.blank => some 0
    | _ => none
  | 0, false, _, _, _ => none
  | fuel + 1, false, cur, key, s =>
    match pageAt cur s with
    | some (Page.nonLeaf n) =>
      (descentDepth fuel (n.level == 1) (findSubTree s.nodeOccupancy n key) key s).map
        (fun d => d + 1)
    | _ => none

/-- The calls `d` were made between the states `s` and `s'`, no page was dropped, and every
page whose content differs between `s` and `s'` is unpinned with the dirty flag in `d`;
the pages unpinned with the dirty flag are pages of `W`, the header page, or pages the
file did not have in `s`. -/
def Wrote (W : List Nat) (s s' : BTreeIndex) (d : List BufCall) : Prop :=
  s'.bufLog = s.bufLog ++ d ∧ s.pages.length ≤ s'.pages.length ∧
    s'.headerPageNum = s.headerPageNum ∧ s'.nodeOccupancy = s.nodeOccupancy ∧
    (∀ q, pageAt q s' ≠ pageAt q s → BufCall.unPinPage q true ∈ d) ∧
    (∀ q, BufCall.unPinPage q true ∈ d →
      q ∈ W ∨ q = s.headerPageNum ∨ s.pages.length < q)

/-- The log of `s'` is the log of `s` followed by calls none of which unpins a page with
the dirty flag. -/
def CleanSince (s s' : BTreeIndex) : Prop :=
  ∃ d, s'.bufLog = s.bufLog ++ d ∧ ∀ q, BufCall.unPinPage q true ∉ d

/-! ## Separator correctness -/

/-- The keys stored in the subtree below page `p`: the keys of the occupied slots if the
parent takes `p` for a leaf (`isLeaf`), else the keys below the child slots of the internal
node at `p` up to its last occupied one; `fuel` bounds the depth. -/
def subtreeKeys : Nat → Bool → Nat → BTreeIndex → List Int
  | _, true, p, s =>
    match leafAt p s with
    | Res.ok leaf _ => (leafEntries leaf s.leafOccupancy 0).map Prod.fst
    | _ => []
  | 0, false, _, _ => []
  | fuel + 1, false, p, s =>
    match nonLeafAt p s with
    | Res.ok node _ =>
      (List.range (lastChild node.pageNoArray (s.nodeOccupancy + 1))).flatMap fun i =>
        subtreeKeys fuel (node.level == 1) (node.pageNoArray.getD i 0) s
    | _ => []

/-- The range of child `i` of a node with the occupied keys `keyArray[0 .. m-1]`, as the
spec states it: `[k_i, k_{i+1})` with `k_0 = -infinity` and `k_{m+1} = +infinity`, where
`k_i` is `keyArray[i-1]`. -/
def inChildRange (keyArray : List Int) (m i : Nat) (k : Int) : Bool :=
  (decide (i = 0) || decide (keyArray.getD (i - 1) 0 ≤ k)) &&
    (decide (i = m) || decide (k < keyArray.getD i 0))

/-- Separator correctness of one internal node: every key stored below the child slot `i`
lies in the range of child `i`. -/
def nodeSeparatorsHold (fuel : Nat) (s : BTreeIndex) (node : NonLeafNodeInt) : Bool :=
  (List.range (lastChild node.pageNoArray (s.nodeOccupancy + 1))).all fun i =>
    (subtreeKeys fuel (node.level == 1) (node.pageNoArray.getD i 0) s).all fun k =>
      inChildRange node.keyArray (lastChild node.pageNoArray (s.nodeOccupancy + 1) - 1) i k

/-- Separator correctness (spec section 3, invariant 2) of every internal node of the
file. -/
def separatorsHold (fuel : Nat) (s : BTreeIndex) : Bool :=
  s.pages.all fun pg =>
    match pg with
    | Page.nonLeaf node => nodeSeparatorsHold fuel s node
    | _ => true

/-- The ids of the pages of the file that hold an internal node. -/
def internalPages (s : BTreeIndex) : List Nat :=
  (List.range s.pages.length).filterMap fun i =>
    match s.pages.getD i Page.blank with
    | Page.nonLeaf _ => some (i + 1)
    | _ => none

/-- Page `p` holds a leaf with the entries `B` in its first slots, the other slots
vacant. -/
def IsLeafBlock (s : BTreeIndex) (p : Nat) (B : List (Int × RecordId)) : Prop :=
  ∃ tk tr sib, pageAt p s = some (Page.leaf ⟨B.map Prod.fst ++ tk, B.map Prod.snd ++ tr, sib⟩) ∧
    B.length + tr.length = s.leafOccupancy ∧ tk.length = tr.length ∧
    (∀ r ∈ tr, r.page_number = 0) ∧ (∀ b ∈ B, b.2.page_number ≠ 0)

/-- The tree is its initial root leaf, holding the entries `B` with strictly increasing
keys; the file has no internal page. -/
structure LevelZero (s : BTreeIndex) (B : List (Int × RecordId)) : Prop where
  hL : 2 ≤ s.leafOccupancy
  hN : 1 ≤ s.nodeOccupancy
  root : s.rootPageNum = s.initRootPageNo
  leaf : IsLeafBlock s s.rootPageNum B
  sorted : B.Pairwise (fun a b => a.1 < b.1)
  header : ∃ m, pageAt s.headerPageNum s = some (Page.header m)
  only : ∀ q n, pageAt q s ≠ some (Page.nonLeaf n)

/-- The first key of a list of entries (0 for the empty list). -/
def headKey (B : List (Int × RecordId)) : Int :=
  (B.head?.map Prod.fst).getD 0

/-- The (key, right child) pairs of a root over the leaves `rest` (page id and entries):
the separator in front of a leaf is its first key. -/
def sepPairs (rest : List (Nat × List (Int × RecordId))) : List (Int × Nat) :=
  rest.map fun c => (headKey c.2, c.1)

/-- The tree is a root of level 1 over the leaves `cs` (page id and entries, left to
right): the root holds the page ids of the leaves as children and, in front of every leaf
but the first, its first key as separator.  No leaf is empty, the keys of all entries, read
left to right, are strictly increasing, and the root is the only internal page of the
file. -/
structure LevelOne (s : BTreeIndex) (cs : List (Nat × List (Int × RecordId))) : Prop where
  hL : 2 ≤ s.leafOccupancy
  hN : 1 ≤ s.nodeOccupancy
  root_ne : s.rootPageNum ≠ s.initRootPageNo
  root : ∃ c0 b0 rest tk z, cs = (c0, b0) :: rest ∧
    pageAt s.rootPageNum s =
      some (Page.nonLeaf ⟨1, (sepPairs rest).map Prod.fst ++ tk,
        c0 :: ((sepPairs rest).map Prod.snd ++ List.replicate z 0)⟩) ∧
    rest.length + tk.length = s.nodeOccupancy ∧ rest.length + 1 + z = s.nodeOccupancy + 1
  only : ∀ q n, pageAt q s = some (Page.nonLeaf n) → q = s.rootPageNum
  leaves : ∀ c ∈ cs, IsLeafBlock s c.1 c.2 ∧ c.2 ≠ []
  sorted : (cs.flatMap Prod.snd).Pairwise (fun a b => a.1 < b.1)
  nodup : (cs.map Prod.fst).Nodup

/-! ## The earlier version (`src/P3/BTree/src/btree.cpp`) -/

/-- Member function `BTreeIndex::keyIsInRange` of the earlier version
(src/P3/BTree/src/btree.cpp 449-460).  Its first two branches return, so the second `if`
statement runs exactly when both have failed. -/
def P3.keyIsInRange (lowVal : Int) (LOp : Operator) (highVal : Int) (GOp : Operator)
    (curKey : Int) : Bool :=
  if LOp = Operator.LT ∧ GOp = Operator.GT then
    decide (lowVal < curKey) && decide (curKey < highVal)
  else if LOp = Operator.LTE ∧ GOp = Operator.GT then
    decide (lowVal < curKey) && decide (curKey ≤ highVal)
  else if LOp = Operator.LT ∧ GOp = Operator.GTE then
    decide (lowVal ≤ curKey) && decide (curKey < highVal)
  else
    decide (lowVal ≤ curKey) && decide (curKey ≤ highVal)

/-- The condition `i >= 0 && leafNode->keyArray[i] > dataEntry.key` of the shifting loop of
`insertLeafNode` (src/P3/BTree/src/btree.cpp 322; the same in the later version).  The
argument is `i + 1`. -/
def P3.insertLeafNode.shiftCond (key : Int) (i : Nat) (leafNode : LeafNodeInt) : Bool :=
  match i with
  | 0 => false
  | i + 1 => decide (leafNode.keyArray.getD i 0 > key)

/-- The body of the shifting loop of `insertLeafNode` of the earlier version
(src/P3/BTree/src/btree.cpp 323-324): the two stores into slot `i + 1`, and no change of
`i`.  The argument and the first component of the result are `i + 1`. -/
def P3.insertLeafNode.shiftBody (i : Nat) (leafNode : LeafNodeInt) : Nat × LeafNodeInt :=
  (i,
   { leafNode with
     keyArray := leafNode.keyArray.set i (leafNode.keyArray.getD (i - 1) 0)
     ridArray := leafNode.ridArray.set i (leafNode.ridArray.getD (i - 1) default) })

/-- The shifting loop of `insertLeafNode` of the earlier version
(src/P3/BTree/src/btree.cpp 322-325); `fuel` bounds the number of iterations, and the
result is `none` when it runs out. -/
def P3.insertLeafNode.shift (key : Int) : Nat → Nat → LeafNodeInt → Option (Nat × LeafNodeInt)
  | 0, i, leafNode =>
    if P3.insertLeafNode.shiftCond key i leafNode = true then none else some (i, leafNode)
  | fuel + 1, i, leafNode =>
    if P3.insertLeafNode.shiftCond key i leafNode = true then
      P3.insertLeafNode.shift key fuel (P3.insertLeafNode.shiftBody i leafNode).1
        (P3.insertLeafNode.shiftBody i leafNode).2
    else some (i, leafNode)

/-- Member function `BTreeIndex::insertLeafNode` of the earlier version
(src/P3/BTree/src/btree.cpp 311-330); the locating loop (lines 318-320) is the one of the
later version.  The result is `none` when the shifting loop does not end within `fuel`
iterations. -/
def P3.insertLeafNode (fuel leafOccupancy : Nat) (leafNode : LeafNodeInt)
    (dataEntry : RIDKeyPair) : Option LeafNodeInt :=
  if (leafNode.ridArray.getD 0 default).page_number = 0 then
    some
      { leafNode with
        keyArray := leafNode.keyArray.set 0 dataEntry.key
        ridArray := leafNode.ridArray.set 0 dataEntry.rid }
  else
    (P3.insertLeafNode.shift dataEntry.key fuel
      (insertLeafNode.locate leafNode.ridArray leafOccupancy) leafNode).map fun r =>
      { r.2 with
        keyArray := r.2.keyArray.set r.1 dataEntry.key
        ridArray := r.2.ridArray.set r.1 dataEntry.rid }

/-! ## Array accesses of the internal split -/

/-- The four arrays `splitNonLeafNode` indexes: the key and child arrays of the node that
is split (`prevNode`) and of the new node. -/
inductive NodeArray where
  | prevKey
  | prevPageNo
  | newKey
  | newPageNo
  deriving DecidableEq, Repr

/-- The indices at which the loop `while (i >= 0 && pageNoArray[i] == 0) i--;` of
`insertNonLeafNode` (btree.cpp 329-331) reads `pageNoArray`, in program order.  The
argument is `i + 1`. -/
def insertNonLeafNode.locateAccesses (pageNoArray : List Nat) : Nat → List Int
  | 0 => []
  | i + 1 =>
    (i : Int) ::
      (if pageNoArray.getD i 0 = 0 then insertNonLeafNode.locateAccesses pageNoArray i
        else [])

/-- The array accesses of the shifting loop of `insertNonLeafNode` (btree.cpp 332-336), in
program order: `true` marks `keyArray`, `false` marks `pageNoArray`.  The argument is
`i`. -/
def insertNonLeafNode.shiftAccesses (key : Int) : Nat → NonLeafNodeInt → List (Bool × Int)
  | 0, _ => []
  | i + 1, curNode =>
    if curNode.keyArray.getD i 0 > key then
      [(true, (i : Int)), (true, (i : Int)), (true, (i : Int) + 1), (false, (i : Int) + 1),
          (false, (i : Int) + 2)] ++
        insertNonLeafNode.shiftAccesses key i
          { curNode with
            keyArray := curNode.keyArray.set (i + 1) (curNode.keyArray.getD i 0)
            pageNoArray :=
              curNode.pageNoArray.set (i + 2) (curNode.pageNoArray.getD (i + 1) 0) }
    else [(true, (i : Int))]

/-- The array accesses of `insertNonLeafNode` (btree.cpp 327-340), in program order: the
locating loop, the shifting loop, and the two stores of the new entry at `keyArray[i]` and
`pageNoArray[i+1]`, where `i` is `-1` when the locating loop found no child. -/
def insertNonLeafNode.accesses (nodeOccupancy : Nat) (curNode : NonLeafNodeInt)
    (newChildEntry : PageKeyPair) : List (Bool × Int) :=
  (insertNonLeafNode.locateAccesses curNode.pageNoArray (nodeOccupancy + 1)).map
      (fun i => (false, i)) ++
    match lastChild curNode.pageNoArray (nodeOccupancy + 1) with
    | 0 => [(true, -1), (false, 0)]
    | i + 1 =>
      insertNonLeafNode.shiftAccesses newChildEntry.key i curNode ++
        [(true, ((insertNonLeafNode.shift newChildEntry.key i curNode).1 : Int)),
          (false, ((insertNonLeafNode.shift newChildEntry.key i curNode).1 : Int) + 1)]

/-- The array accesses of the moving loop of `splitNonLeafNode` (btree.cpp 393-398), in
program order: `n` iterations starting at index `i`. -/
def splitNonLeafNode.moveAccesses (midPoint : Nat) : Nat → Nat → List (NodeArray × Int)
  | 0, _ => []
  | n + 1, i =>
    [(NodeArray.prevKey, (i : Int)), (NodeArray.newKey, (i : Int) - midPoint),
        (NodeArray.prevPageNo, (i : Int) + 1), (NodeArray.newPageNo, (i : Int) - midPoint),
        (NodeArray.prevPageNo, (i : Int) + 1), (NodeArray.prevKey, (i : Int) + 1)] ++
      splitNonLeafNode.moveAccesses midPoint n (i + 1)

/-- The array accesses of `splitNonLeafNode` (btree.cpp 384-403), in program order: the
choice of the push index, the key pushed up, the moving loop, the two stores that clear
slot `pushupIndex`, the read of `newNode->keyArray[0]`, and `insertNonLeafNode` on the node
chosen by it. -/
def splitNonLeafNode.accesses (nodeOccupancy : Nat) (prevNode newNode : NonLeafNodeInt)
    (newChildEntry : PageKeyPair) : List (NodeArray × Int) :=
  let pushupIndex := splitNonLeafNode.pushupIndex nodeOccupancy prevNode newChildEntry.key
  let midPoint := pushupIndex + 1
  let st := splitNonLeafNode.move midPoint (nodeOccupancy - midPoint) midPoint
    (prevNode, newNode)
  let prevNode1 : NonLeafNodeInt :=
    { st.1 with
      pageNoArray := st.1.pageNoArray.set pushupIndex 0
      keyArray := st.1.keyArray.set pushupIndex 0 }
  let newNode1 : NonLeafNodeInt := { st.2 with level := prevNode1.level }
  (if nodeOccupancy % 2 = 0 then [(NodeArray.prevKey, ((nodeOccupancy / 2 : Nat) : Int))]
    else []) ++
    [(NodeArray.prevKey, (pushupIndex : Int))] ++
    splitNonLeafNode.moveAccesses midPoint (nodeOccupancy - midPoint) midPoint ++
    [(NodeArray.prevPageNo, (pushupIndex : Int)), (NodeArray.prevKey, (pushupIndex : Int)),
      (NodeArray.newKey, 0)] ++
    if newChildEntry.key < newNode1.keyArray.getD 0 0 then
      (insertNonLeafNode.accesses nodeOccupancy prevNode1 newChildEntry).map fun a =>
        (if a.1 = true then NodeArray.prevKey else NodeArray.prevPageNo, a.2)
    else
      (insertNonLeafNode.accesses nodeOccupancy newNode1 newChildEntry).map fun a =>
        (if a.1 = true then NodeArray.newKey else NodeArray.newPageNo, a.2)

/-- The access is outside the array: the key arrays have the indices `0 .. N-1`, the child
arrays the indices `0 .. N`. -/
def NodeArray.outside (nodeOccupancy : Nat) (a : NodeArray × Int) : Bool :=
  match a.1 with
  | NodeArray.prevKey => decide (a.2 < 0) || decide ((nodeOccupancy : Int) ≤ a.2)
  | NodeArray.newKey => decide (a.2 < 0) || decide ((nodeOccupancy : Int) ≤ a.2)
  | NodeArray.prevPageNo => decide (a.2 < 0) || decide ((nodeOccupancy : Int) < a.2)
  | NodeArray.newPageNo => decide (a.2 < 0) || decide ((nodeOccupancy : Int) < a.2)

/-! ## Invariants of the leaf pages -/

/-- C5: `keyIsInRange` is the four-way table over the valid operator pairs: strict or
non-strict lower bound by `GT`/`GTE`, strict or non-strict upper bound by `LT`/`LTE`. -/
theorem keyIsInRange_four_way_table (low high k : Int) :
    (keyIsInRange low Operator.GT high Operator.LT k = true ↔ (low < k ∧ k < high)) ∧
    (keyIsInRange low Operator.GT high Operator.LTE k = true ↔ (low < k ∧ k ≤ high)) ∧
    (keyIsInRange low Operator.GTE high Operator.LT k = true ↔ (low ≤ k ∧ k < high)) ∧
    (keyIsInRange low Operator.GTE high Operator.LTE k = true ↔ (low ≤ k ∧ k ≤ high)) := by
  refine ⟨?_, ?_, ?_, ?_⟩ <;> simp [keyIsInRange] <;> constructor <;> intro h <;> omega

/-! ## Validation of the scan arguments -/

theorem Res.thrown_bind {α β : Type} (r : Res α) (f : α → BTreeIndex → Res β) (e : Exn)
    (h : (r.bind f).thrown = some e) :
    r.thrown = some e ∨ ∃ a s, r = Res.ok a s ∧ (f a s).thrown = some e := by
  cases r with
  | ok a s => exact Or.inr ⟨a, s, rfl, h⟩
  | exn e' s => exact Or.inl h
  | fault => simp [Res.bind, Res.thrown] at h
  | outOfFuel => simp [Res.bind, Res.thrown] at h

theorem readPage_thrown (p : Nat) (s : BTreeIndex) (e : Exn)
    (h : (readPage p s).thrown = some e) : e = Exn.InvalidPage := by
  unfold readPage at h
  split at h <;> simp [Res.thrown] at h
  exact h.symm

theorem readCurrent_thrown (p : Nat) (s : BTreeIndex) (e : Exn)
    (h : (readCurrent p s).thrown = some e) : e = Exn.InvalidPage := by
  unfold readCurrent at h
  rcases Res.thrown_bind _ _ _ h with h | ⟨_, _, _, h⟩
  · exact readPage_thrown _ _ _ h
  · simp [Res.thrown] at h

theorem leafAt_thrown (p : Nat) (s : BTreeIndex) : (leafAt p s).thrown = none := by
  unfold leafAt
  split <;> rfl

theorem nonLeafAt_thrown (p : Nat) (s : BTreeIndex) : (nonLeafAt p s).thrown = none := by
  unfold nonLeafAt
  split <;> rfl

theorem currentLeaf_thrown (s : BTreeIndex) : (currentLeaf s).thrown = none := by
  unfold currentLeaf
  split
  · rfl
  · exact leafAt_thrown _ _

theorem currentNonLeaf_thrown (s : BTreeIndex) : (currentNonLeaf s).thrown = none := by
  unfold currentNonLeaf
  split
  · rfl
  · exact nonLeafAt_thrown _ _

theorem endScan_thrown (s : BTreeIndex) (e : Exn) (h : (endScan s).thrown = some e) :
    e = Exn.ScanNotInitialized ∧ s.scanExecuting = false := by
  unfold endScan at h
  split at h
  · simp [Res.thrown] at h
    exact ⟨h.symm, by assumption⟩
  · simp [Res.thrown] at h

theorem startScan_descend_thrown (fuel : Nat) (s : BTreeIndex) (e : Exn)
    (h : (startScan.descend fuel s).thrown = some e) : e = Exn.InvalidPage := by
  induction fuel generalizing s with
  | zero => simp [startScan.descend, Res.thrown] at h
  | succ fuel ih =>
    unfold startScan.descend at h
    rcases Res.thrown_bind _ _ _ h with h | ⟨curNode, s1, _, h⟩
    · simp [currentNonLeaf_thrown] at h
    · rcases Res.thrown_bind _ _ _ h with h | ⟨_, s2, _, h⟩
      · exact readCurrent_thrown _ _ _ h
      · split at h
        · simp [Res.thrown] at h
        · exact ih _ h

theorem startScan_slots_thrown (curNode : LeafNodeInt) (n i : Nat) (s : BTreeIndex) (e : Exn)
    (h : (startScan.slots curNode n i s).thrown = some e) :
    e = Exn.NoSuchKeyFound ∨ e = Exn.InvalidPage := by
  induction n generalizing i s with
  | zero => simp [startScan.slots, Res.thrown] at h
  | succ n ih =>
    unfold startScan.slots at h
    simp only at h
    split at h
    · simp [Res.thrown] at h
    · split at h
      · simp [Res.thrown] at h
        exact Or.inl h.symm
      · split at h
        · split at h
          · simp [Res.thrown] at h
            exact Or.inl h.symm
          · rcases Res.thrown_bind _ _ _ h with h | ⟨_, s2, _, h⟩
            · exact Or.inr (readCurrent_thrown _ _ _ h)
            · split at h
              · simp [Res.thrown] at h
              · exact ih _ _ h
        · exact ih _ _ h

theorem startScan_leaves_thrown (fuel : Nat) (s : BTreeIndex) (e : Exn)
    (h : (startScan.leaves fuel s).thrown = some e) :
    e = Exn.NoSuchKeyFound ∨ e = Exn.InvalidPage := by
  induction fuel generalizing s with
  | zero => simp [startScan.leaves, Res.thrown] at h
  | succ fuel ih =>
    unfold startScan.leaves at h
    rcases Res.thrown_bind _ _ _ h with h | ⟨curNode, s1, _, h⟩
    · simp [currentLeaf_thrown] at h
    · split at h
      · simp [Res.thrown] at h
        exact Or.inl h.symm
      · rcases Res.thrown_bind _ _ _ h with h | ⟨b, s2, _, h⟩
        · exact startScan_slots_thrown _ _ _ _ _ h
        · split at h
          · simp [Res.thrown] at h
          · exact ih _ h

/-- What `startScan` throws once both checks of its arguments have passed. -/
theorem startScan_position_thrown (fuel : Nat) (s : BTreeIndex) (e : Exn)
    (h : (startScan.position fuel s).thrown = some e) :
    e = Exn.NoSuchKeyFound ∨ e = Exn.InvalidPage := by
  unfold startScan.position at h
  rcases Res.thrown_bind _ _ _ h with h | ⟨_, s1, _, h⟩
  · split at h
    · rename_i hx
      have := (endScan_thrown _ _ h).2
      simp [hx] at this
    · simp [Res.thrown] at h
  · rcases Res.thrown_bind _ _ _ h with h | ⟨_, s2, _, h⟩
    · exact Or.inr (readCurrent_thrown _ _ _ h)
    · rcases Res.thrown_bind _ _ _ h with h | ⟨_, s3, _, h⟩
      · split at h
        · exact Or.inr (startScan_descend_thrown _ _ _ h)
        · simp [Res.thrown] at h
      · exact startScan_leaves_thrown _ _ _ h

/-- C6: `startScan` throws `BadOpcodesException` exactly when the lower operator is not
`GT`/`GTE` or the upper operator is not `LT`/`LTE`, whatever the two bound values are (so
also when the lower bound exceeds the upper bound). -/
theorem startScan_badOpcodes_iff (fuel : Nat) (lowVal highVal : Int) (lowOp highOp : Operator)
    (s : BTreeIndex) :
    (startScan fuel lowVal lowOp highVal highOp s).thrown = some Exn.BadOpcodes ↔
      ((lowOp ≠ Operator.GT ∧ lowOp ≠ Operator.GTE) ∨
        (highOp ≠ Operator.LT ∧ highOp ≠ Operator.LTE)) := by
  constructor
  · intro h
    by_contra hops
    unfold startScan at h
    simp only [if_neg hops] at h
    split at h
    · simp [Res.thrown] at h
    · rcases startScan_position_thrown _ _ _ h with h | h <;> cases h
  · intro hops
    unfold startScan
    simp only [if_pos hops]
    rfl

/-- C7: with a lower operator in `GT`/`GTE` and an upper operator in `LT`/`LTE`,
`startScan` throws `BadScanrangeException` exactly when the lower bound value is greater
than the upper bound value. -/
theorem startScan_badScanrange_iff (fuel : Nat) (lowVal highVal : Int)
    (lowOp highOp : Operator) (s : BTreeIndex)
    (hlow : lowOp = Operator.GT ∨ lowOp = Operator.GTE)
    (hhigh : highOp = Operator.LT ∨ highOp = Operator.LTE) :
    (startScan fuel lowVal lowOp highVal highOp s).thrown = some Exn.BadScanrange ↔
      lowVal > highVal := by
  have hops : ¬ ((lowOp ≠ Operator.GT ∧ lowOp ≠ Operator.GTE) ∨
      (highOp ≠ Operator.LT ∧ highOp ≠ Operator.LTE)) := by
    rcases hlow with h | h <;> rcases hhigh with h' | h' <;> simp [h, h']
  constructor
  · intro h
    by_contra hle
    unfold startScan at h
    simp only [if_neg hops, if_neg hle] at h
    rcases startScan_position_thrown _ _ _ h with h | h <;> cases h
  · intro hgt
    unfold startScan
    simp only [if_neg hops, if_pos hgt]
    rfl

/-- Witness of C7 on a new index with `(5, GT, 3, LTE)`. -/
theorem startScan_badScanrange_iff_witness :
    (startScan 1 5 Operator.GT 3 Operator.LTE
        (BTreeIndex.create 2 2 [] 0 Datatype.INTEGER)).thrown = some Exn.BadScanrange ↔
      (5 : Int) > 3 :=
  startScan_badScanrange_iff 1 5 3 Operator.GT Operator.LTE
    (BTreeIndex.create 2 2 [] 0 Datatype.INTEGER) (Or.inl rfl) (Or.inr rfl)

/-- C9: `scanNext` and `endScan` each throw `ScanNotInitializedException` exactly when
`scanExecuting` is false at the call, and then the whole state (members, pages, log of
buffer-manager calls) is the one before the call and no record id is returned. -/
theorem scanNext_endScan_notInitialized (s : BTreeIndex) :
    ((scanNext s).thrown = some Exn.ScanNotInitialized ↔ s.scanExecuting = false) ∧
    ((endScan s).thrown = some Exn.ScanNotInitialized ↔ s.scanExecuting = false) ∧
    (∀ s', scanNext s = Res.exn Exn.ScanNotInitialized s' → s' = s) ∧
    (∀ s', endScan s = Res.exn Exn.ScanNotInitialized s' → s' = s) := by
  have hnext : (scanNext s).thrown = some Exn.ScanNotInitialized → s.scanExecuting = false := by
    intro h
    by_contra hx
    unfold scanNext at h
    simp only [if_neg hx] at h
    rcases Res.thrown_bind _ _ _ h with h | ⟨curNode, s1, _, h⟩
    · simp [currentLeaf_thrown] at h
    · rcases Res.thrown_bind _ _ _ h with h | ⟨curNode2, s2, _, h⟩
      · split at h
        · split at h
          · simp [Res.thrown] at h
          · rcases Res.thrown_bind _ _ _ h with h | ⟨_, s3, _, h⟩
            · cases readCurrent_thrown _ _ _ h
            · rcases Res.thrown_bind _ _ _ h with h | ⟨_, s4, _, h⟩
              · simp [currentLeaf_thrown] at h
              · simp [Res.thrown] at h
        · simp [Res.thrown] at h
      · split at h <;> simp [Res.thrown] at h
  have hend : (endScan s).thrown = some Exn.ScanNotInitialized → s.scanExecuting = false :=
    fun h => (endScan_thrown _ _ h).2
  refine ⟨⟨hnext, ?_⟩, ⟨hend, ?_⟩, ?_, ?_⟩
  · intro hx
    simp [scanNext, hx, Res.thrown]
  · intro hx
    simp [endScan, hx, Res.thrown]
  · intro s' h
    have hx := hnext (by rw [h]; rfl)
    simp [scanNext, hx] at h
    exact h.symm
  · intro s' h
    have hx := hend (by rw [h]; rfl)
    simp [endScan, hx] at h
    exact h.symm

/-! ## What a normal return of `startScan` implies -/

theorem SameRange.inScanRange_eq {s s' : BTreeIndex} (h : SameRange s s') (k : Int) :
    inScanRange s' k = inScanRange s k := by
  obtain ⟨h1, h2, h3, h4⟩ := h
  simp only [inScanRange, h1, h2, h3, h4]

theorem SameRange.trans {s s' s'' : BTreeIndex} (h : SameRange s s') (h' : SameRange s' s'') :
    SameRange s s'' :=
  ⟨h'.1.trans h.1, h'.2.1.trans h.2.1, h'.2.2.1.trans h.2.2.1, h'.2.2.2.trans h.2.2.2⟩

theorem Res.ok_bind {α β : Type} (r : Res α) (f : α → BTreeIndex → Res β) (b : β)
    (s' : BTreeIndex) (h : r.bind f = Res.ok b s') :
    ∃ a s1, r = Res.ok a s1 ∧ f a s1 = Res.ok b s' := by
  cases r with
  | ok a s1 => exact ⟨a, s1, rfl, h⟩
  | exn e s1 => simp [Res.bind] at h
  | fault => simp [Res.bind] at h
  | outOfFuel => simp [Res.bind] at h

theorem readCurrent_sameRange (p : Nat) (s : BTreeIndex) (u : Unit) (s' : BTreeIndex)
    (h : readCurrent p s = Res.ok u s') : SameRange s s' := by
  unfold readCurrent readPage at h
  split at h
  · simp [Res.bind] at h
  · simp only [Res.bind, Res.ok.injEq, true_and] at h
    subst h
    exact ⟨rfl, rfl, rfl, rfl⟩

theorem endScan_sameRange (s : BTreeIndex) (u : Unit) (s' : BTreeIndex)
    (h : endScan s = Res.ok u s') : SameRange s s' := by
  unfold endScan at h
  split at h
  · simp at h
  · simp only [Res.ok.injEq, true_and] at h
    subst h
    exact ⟨rfl, rfl, rfl, rfl⟩

theorem leafAt_ok (p : Nat) (s : BTreeIndex) (n : LeafNodeInt) (s' : BTreeIndex)
    (h : leafAt p s = Res.ok n s') : s' = s := by
  unfold leafAt at h
  split at h <;> simp at h <;> exact h.2.symm

theorem nonLeafAt_ok (p : Nat) (s : BTreeIndex) (n : NonLeafNodeInt) (s' : BTreeIndex)
    (h : nonLeafAt p s = Res.ok n s') : s' = s := by
  unfold nonLeafAt at h
  split at h <;> simp at h <;> exact h.2.symm

theorem currentLeaf_ok (s : BTreeIndex) (n : LeafNodeInt) (s' : BTreeIndex)
    (h : currentLeaf s = Res.ok n s') : s' = s := by
  unfold currentLeaf at h
  split at h
  · simp at h
  · exact leafAt_ok _ _ _ _ h

theorem currentNonLeaf_ok (s : BTreeIndex) (n : NonLeafNodeInt) (s' : BTreeIndex)
    (h : currentNonLeaf s = Res.ok n s') : s' = s := by
  unfold currentNonLeaf at h
  split at h
  · simp at h
  · exact nonLeafAt_ok _ _ _ _ h

theorem startScan_descend_sameRange (fuel : Nat) (s : BTreeIndex) (u : Unit)
    (s' : BTreeIndex) (h : startScan.descend fuel s = Res.ok u s') : SameRange s s' := by
  induction fuel generalizing s with
  | zero => simp [startScan.descend] at h
  | succ fuel ih =>
    unfold startScan.descend at h
    obtain ⟨curNode, s1, h1, ha⟩ := Res.ok_bind _ _ _ _ h
    clear h
    have := currentNonLeaf_ok _ _ _ h1
    subst this
    obtain ⟨_, s2, h2, hb⟩ := Res.ok_bind _ _ _ _ ha
    clear ha
    have hr : SameRange s1 s2 := by
      have := readCurrent_sameRange _ _ _ _ h2
      exact ⟨this.1, this.2.1, this.2.2.1, this.2.2.2⟩
    split at hb
    · simp only [Res.ok.injEq, true_and] at hb
      subst hb
      exact hr
    · exact hr.trans (ih _ hb)

/-- The slot loop of `startScan` keeps the bounds, and reports a hit only at a key that
satisfies the range test. -/
theorem startScan_slots_ok (curNode : LeafNodeInt) (n i : Nat) (s : BTreeIndex) (b : Bool)
    (s' : BTreeIndex) (h : startScan.slots curNode n i s = Res.ok b s') :
    SameRange s s' ∧ (b = true → ∃ k, inScanRange s k = true) := by
  induction n generalizing i s with
  | zero =>
    simp only [startScan.slots, Res.ok.injEq] at h
    obtain ⟨rfl, rfl⟩ := h
    exact ⟨⟨rfl, rfl, rfl, rfl⟩, by simp⟩
  | succ n ih =>
    unfold startScan.slots at h
    simp only at h
    split at h
    · rename_i hin
      simp only [Res.ok.injEq] at h
      obtain ⟨rfl, rfl⟩ := h
      exact ⟨⟨rfl, rfl, rfl, rfl⟩, fun _ => ⟨_, hin⟩⟩
    · split at h
      · simp at h
      · split at h
        · split at h
          · simp at h
          · obtain ⟨_, s2, h2, h⟩ := Res.ok_bind _ _ _ _ h
            have hr : SameRange s s2 := by
              have := readCurrent_sameRange _ _ _ _ h2
              exact ⟨this.1, this.2.1, this.2.2.1, this.2.2.2⟩
            split at h
            · simp only [Res.ok.injEq] at h
              obtain ⟨rfl, rfl⟩ := h
              exact ⟨hr, by simp⟩
            · obtain ⟨hr2, hk⟩ := ih _ _ h
              refine ⟨hr.trans hr2, fun hb => ?_⟩
              obtain ⟨k, hk⟩ := hk hb
              exact ⟨k, by rw [← hr.inScanRange_eq]; exact hk⟩
        · exact ih _ _ h

theorem startScan_leaves_ok (fuel : Nat) (s : BTreeIndex) (u : Unit) (s' : BTreeIndex)
    (h : startScan.leaves fuel s = Res.ok u s') : ∃ k, inScanRange s k = true := by
  induction fuel generalizing s with
  | zero => simp [startScan.leaves] at h
  | succ fuel ih =>
    unfold startScan.leaves at h
    obtain ⟨curNode, s1, h1, ha⟩ := Res.ok_bind _ _ _ _ h
    clear h
    have := currentLeaf_ok _ _ _ h1
    subst this
    split at ha
    · simp at ha
    · obtain ⟨b, s2, h2, hb⟩ := Res.ok_bind _ _ _ _ ha
      clear ha
      obtain ⟨hr, hk⟩ := startScan_slots_ok _ _ _ _ _ _ h2
      split at hb
      · rename_i hbt
        exact hk hbt
      · obtain ⟨k, hk⟩ := ih _ hb
        exact ⟨k, by rw [← hr.inScanRange_eq]; exact hk⟩

/-- A call of `startScan` returns normally only if some key satisfies the range test of its
arguments. -/
theorem startScan_ok (fuel : Nat) (lo : Int) (lop : Operator) (hi : Int) (hop : Operator)
    (s : BTreeIndex) (u : Unit) (s' : BTreeIndex)
    (h : startScan fuel lo lop hi hop s = Res.ok u s') :
    ∃ k, keyIsInRange lo lop hi hop k = true := by
  unfold startScan at h
  simp only at h
  split at h
  · simp at h
  · split at h
    · simp at h
    · unfold startScan.position at h
      obtain ⟨_, s1, h1, h⟩ := Res.ok_bind _ _ _ _ h
      have hr1 : SameRange
          { s with lowValInt := lo, highValInt := hi, highOp := hop, lowOp := lop } s1 := by
        split at h1
        · exact endScan_sameRange _ _ _ h1
        · simp only [Res.ok.injEq, true_and] at h1
          subst h1
          exact ⟨rfl, rfl, rfl, rfl⟩
      obtain ⟨_, s2, h2, h⟩ := Res.ok_bind _ _ _ _ h
      have hr2 := readCurrent_sameRange _ _ _ _ h2
      obtain ⟨_, s3, h3, h⟩ := Res.ok_bind _ _ _ _ h
      have hr3 : SameRange s2 s3 := by
        split at h3
        · exact startScan_descend_sameRange _ _ _ _ h3
        · simp only [Res.ok.injEq, true_and] at h3
          subst h3
          exact ⟨rfl, rfl, rfl, rfl⟩
      obtain ⟨k, hk⟩ := startScan_leaves_ok _ _ _ _ h
      have hall := (hr1.trans (hr2.trans hr3)).inScanRange_eq k
      rw [hk] at hall
      exact ⟨k, hall.symm⟩

/-! ## Arrays as lists: the loops of `insertLeafNode` -/

theorem getD_append_cons {α : Type} (A : List α) (x : α) (rest : List α) (d : α) (n : Nat)
    (h : n = A.length) : (A ++ x :: rest).getD n d = x := by
  subst h
  induction A with
  | nil => rfl
  | cons a A ih => simpa using ih

theorem set_append_cons {α : Type} (A : List α) (x y : α) (rest : List α) (n : Nat)
    (h : n = A.length) : (A ++ x :: rest).set n y = A ++ y :: rest := by
  subst h
  induction A with
  | nil => rfl
  | cons a A ih => simp [ih]

theorem headOr_append (suf : List (Int × RecordId)) (b x : Int × RecordId) :
    headOr (suf ++ [b]) x = headOr suf b := by
  cases suf <;> rfl

theorem insertLeafNode_shift_spec (key : Int) (pre suf : List (Int × RecordId))
    (hpre : ∀ b, pre.getLast? = some b → b.1 ≤ key) (hsuf : ∀ b ∈ suf, b.1 > key)
    (x : Int × RecordId) (tk : List Int) (tr : List RecordId) (sib : Nat) :
    insertLeafNode.shift key (pre.length + suf.length)
        ⟨pre.map Prod.fst ++ suf.map Prod.fst ++ x.1 :: tk,
          pre.map Prod.snd ++ suf.map Prod.snd ++ x.2 :: tr, sib⟩ =
      (pre.length,
        ⟨pre.map Prod.fst ++ (headOr suf x).1 :: suf.map Prod.fst ++ tk,
          pre.map Prod.snd ++ (headOr suf x).2 :: suf.map Prod.snd ++ tr, sib⟩) := by
  induction suf using List.reverseRecOn generalizing x tk tr with
  | nil =>
    simp only [List.map_nil, List.append_nil, List.length_nil, Nat.add_zero, headOr]
    rcases List.eq_nil_or_concat pre with rfl | ⟨pre', b, rfl⟩
    · simp [insertLeafNode.shift]
    · simp only [List.concat_eq_append] at hpre ⊢
      have hb : b.1 ≤ key := hpre b (by simp)
      have hget : (List.map Prod.fst (pre' ++ [b]) ++ x.1 :: tk).getD pre'.length 0 = b.1 := by
        have := getD_append_cons (pre'.map Prod.fst) b.1 (x.1 :: tk) 0 pre'.length (by simp)
        simpa using this
      rw [List.length_append, List.length_singleton]
      unfold insertLeafNode.shift
      simp only [hget]
      rw [if_neg (by omega)]
      simp
  | append_singleton suf' b ih =>
    have hb : b.1 > key := hsuf b (by simp)
    have hlen : pre.length + (suf' ++ [b]).length = (pre.length + suf'.length) + 1 := by
      simp; omega
    rw [hlen]
    unfold insertLeafNode.shift
    have hgetK : (List.map Prod.fst pre ++ List.map Prod.fst (suf' ++ [b]) ++ x.1 :: tk).getD
        (pre.length + suf'.length) 0 = b.1 := by
      have := getD_append_cons (pre.map Prod.fst ++ suf'.map Prod.fst) b.1 (x.1 :: tk) 0
        (pre.length + suf'.length) (by simp)
      simpa using this
    have hgetR : (List.map Prod.snd pre ++ List.map Prod.snd (suf' ++ [b]) ++ x.2 :: tr).getD
        (pre.length + suf'.length) default = b.2 := by
      have := getD_append_cons (pre.map Prod.snd ++ suf'.map Prod.snd) b.2 (x.2 :: tr) default
        (pre.length + suf'.length) (by simp)
      simpa using this
    have hsetK : (List.map Prod.fst pre ++ List.map Prod.fst (suf' ++ [b]) ++ x.1 :: tk).set
        (pre.length + suf'.length + 1) b.1 =
        pre.map Prod.fst ++ suf'.map Prod.fst ++ b.1 :: (b.1 :: tk) := by
      have := set_append_cons (pre.map Prod.fst ++ suf'.map Prod.fst ++ [b.1]) x.1 b.1 tk
        (pre.length + suf'.length + 1) (by simp [Nat.add_assoc])
      simpa using this
    have hsetR : (List.map Prod.snd pre ++ List.map Prod.snd (suf' ++ [b]) ++ x.2 :: tr).set
        (pre.length + suf'.length + 1) b.2 =
        pre.map Prod.snd ++ suf'.map Prod.snd ++ b.2 :: (b.2 :: tr) := by
      have := set_append_cons (pre.map Prod.snd ++ suf'.map Prod.snd ++ [b.2]) x.2 b.2 tr
        (pre.length + suf'.length + 1) (by simp [Nat.add_assoc])
      simpa using this
    simp only [hgetK, hgetR, hsetK, hsetR]
    rw [if_pos hb]
    have := ih (fun c hc => hsuf c (by simp [hc])) b (b.1 :: tk) (b.2 :: tr)
    rw [this, headOr_append]
    simp

theorem insertLeafNode_locate_spec (R tr : List RecordId)
    (hR : ∀ r, R.getLast? = some r → r.page_number ≠ 0)
    (htr : ∀ r ∈ tr, r.page_number = 0) :
    insertLeafNode.locate (R ++ tr) (R.length + tr.length) = R.length := by
  induction tr using List.reverseRecOn with
  | nil =>
    simp only [List.append_nil, List.length_nil, Nat.add_zero]
    rcases List.eq_nil_or_concat R with rfl | ⟨R', r, rfl⟩
    · rfl
    · simp only [List.concat_eq_append] at hR ⊢
      have hr : r.page_number ≠ 0 := hR r (by simp)
      rw [List.length_append, List.length_singleton]
      unfold insertLeafNode.locate
      have hget : (R' ++ [r]).getD R'.length default = r :=
        getD_append_cons R' r [] default R'.length rfl
      rw [hget, if_neg hr]
  | append_singleton tr' r ih =>
    have hr : r.page_number = 0 := htr r (by simp)
    have hlen : R.length + (tr' ++ [r]).length = (R.length + tr'.length) + 1 := by
      simp [Nat.add_assoc]
    rw [hlen]
    unfold insertLeafNode.locate
    have hget : (R ++ (tr' ++ [r])).getD (R.length + tr'.length) default = r := by
      have := getD_append_cons (R ++ tr') r [] default (R.length + tr'.length) (by simp)
      simpa using this
    rw [hget, if_pos hr]
    have h2 : R ++ (tr' ++ [r]) = (R ++ tr') ++ [r] := by simp
    rw [h2]
    have := ih (fun c hc => htr c (by simp [hc]))
    -- reading one slot less: the last slot is not looked at
    have hmono : ∀ (A : List RecordId) (z : RecordId) (n : Nat), n ≤ A.length →
        insertLeafNode.locate (A ++ [z]) n = insertLeafNode.locate A n := by
      intro A z n
      induction n with
      | zero => intro _; rfl
      | succ n ihn =>
        intro hn
        unfold insertLeafNode.locate
        have : (A ++ [z]).getD n default = A.getD n default := by
          simp only [List.getD_eq_getElem?_getD]
          rw [List.getElem?_append_left (by omega)]
        rw [this, ihn (by omega)]
    rw [hmono _ _ _ (by simp), this]

/-- In a list ordered by key, `stableInsert` splits the list into the entries with key at
most the new key and the entries with a greater key. -/
theorem stableInsert_split (e : Int × RecordId) (es : List (Int × RecordId))
    (hs : es.Pairwise (fun a b => a.1 ≤ b.1)) :
    ∃ pre suf, es = pre ++ suf ∧ (∀ b ∈ pre, b.1 ≤ e.1) ∧ (∀ b ∈ suf, b.1 > e.1) ∧
      stableInsert e es = pre ++ e :: suf := by
  induction es with
  | nil => exact ⟨[], [], rfl, by simp, by simp, rfl⟩
  | cons b l ih =>
    rw [List.pairwise_cons] at hs
    by_cases hlt : e.1 < b.1
    · refine ⟨[], b :: l, rfl, by simp, ?_, by simp [stableInsert, hlt]⟩
      intro c hc
      rcases List.mem_cons.mp hc with rfl | hc
      · exact hlt
      · have := hs.1 c hc
        omega
    · obtain ⟨pre, suf, hl, hpre, hsuf, hins⟩ := ih hs.2
      refine ⟨b :: pre, suf, by simp [hl], ?_, hsuf, by simp [stableInsert, hlt, hins]⟩
      intro c hc
      rcases List.mem_cons.mp hc with rfl | hc
      · omega
      · exact hpre c hc

theorem stableInsert_pairwise (e : Int × RecordId) (es : List (Int × RecordId))
    (hs : es.Pairwise (fun a b => a.1 ≤ b.1)) :
    (stableInsert e es).Pairwise (fun a b => a.1 ≤ b.1) := by
  obtain ⟨pre, suf, hl, hpre, hsuf, hins⟩ := stableInsert_split e es hs
  rw [hins]
  rw [hl, List.pairwise_append] at hs
  rw [List.pairwise_append, List.pairwise_cons]
  refine ⟨hs.1, ⟨fun c hc => le_of_lt (hsuf c hc), hs.2.1⟩, ?_⟩
  intro a ha c hc
  rcases List.mem_cons.mp hc with rfl | hc
  · exact hpre a ha
  · exact hs.2.2 a ha c hc

theorem stableInsert_length (e : Int × RecordId) (es : List (Int × RecordId)) :
    (stableInsert e es).length = es.length + 1 := by
  induction es with
  | nil => rfl
  | cons b l ih =>
    unfold stableInsert
    split <;> simp [ih]

theorem stableInsert_mem (e : Int × RecordId) (es : List (Int × RecordId))
    (c : Int × RecordId) : c ∈ stableInsert e es ↔ c = e ∨ c ∈ es := by
  induction es with
  | nil => simp [stableInsert]
  | cons b l ih =>
    unfold stableInsert
    split
    · simp
    · simp [ih]
      tauto

/-- Among the entries of one key the new entry comes last and the others keep their
order. -/
theorem stableInsert_filter (e : Int × RecordId) (es : List (Int × RecordId))
    (hs : es.Pairwise (fun a b => a.1 ≤ b.1)) (k : Int) :
    (stableInsert e es).filter (fun c => decide (c.1 = k)) =
      es.filter (fun c => decide (c.1 = k)) ++ [e].filter (fun c => decide (c.1 = k)) := by
  obtain ⟨pre, suf, hl, hpre, hsuf, hins⟩ := stableInsert_split e es hs
  rw [hins, hl]
  simp only [List.filter_append, List.filter_cons, List.filter_nil]
  by_cases hk : e.1 = k
  · have hsufk : suf.filter (fun c => decide (c.1 = k)) = [] := by
      rw [List.filter_eq_nil_iff]
      intro c hc
      have := hsuf c hc
      simp
      omega
    simp [hk, hsufk]
  · simp [hk]

/-! ## Inserting into a single leaf -/

theorem insertLeafNode_spec (L : Nat) (es : List (Int × RecordId)) (x : Int) (y : RecordId)
    (tk : List Int) (tr : List RecordId) (sib : Nat) (e : RIDKeyPair)
    (hs : es.Pairwise (fun a b => a.1 ≤ b.1)) (hrid : ∀ b ∈ es, b.2.page_number ≠ 0)
    (hy : y.page_number = 0) (htr : ∀ r ∈ tr, r.page_number = 0)
    (hL : L = es.length + (tr.length + 1)) :
    insertLeafNode L ⟨es.map Prod.fst ++ x :: tk, es.map Prod.snd ++ y :: tr, sib⟩ e =
      ⟨(stableInsert (e.key, e.rid) es).map Prod.fst ++ tk,
        (stableInsert (e.key, e.rid) es).map Prod.snd ++ tr, sib⟩ := by
  cases es with
  | nil =>
    simp [insertLeafNode, hy, stableInsert]
  | cons b l =>
    have hb : b.2.page_number ≠ 0 := hrid b (by simp)
    have hloc : insertLeafNode.locate (List.map Prod.snd (b :: l) ++ y :: tr) L =
        (b :: l).length := by
      have := insertLeafNode_locate_spec ((b :: l).map Prod.snd) (y :: tr)
        (by
          intro r hr
          rw [List.getLast?_eq_getLast _ (by simp)] at hr
          have hmem := List.getLast_mem (l := (b :: l).map Prod.snd) (by simp)
          simp only [Option.some.injEq] at hr
          rw [hr] at hmem
          obtain ⟨c, hc, rfl⟩ := List.mem_map.mp hmem
          exact hrid c hc)
        (by
          intro r hr
          rcases List.mem_cons.mp hr with rfl | hr
          · exact hy
          · exact htr r hr)
      simpa [hL] using this
    obtain ⟨pre, suf, hl, hpre, hsuf, hins⟩ := stableInsert_split (e.key, e.rid) (b :: l) hs
    have hshift := insertLeafNode_shift_spec e.key pre suf
      (by
        intro c hc
        have hne : pre ≠ [] := by
          intro h
          simp [h] at hc
        rw [List.getLast?_eq_getLast _ hne] at hc
        simp only [Option.some.injEq] at hc
        exact hpre c (hc ▸ List.getLast_mem hne))
      hsuf (x, y) tk tr sib
    unfold insertLeafNode
    have h0 : ((List.map Prod.snd (b :: l) ++ y :: tr).getD 0 default).page_number ≠ 0 := by
      simpa using hb
    simp only [if_neg h0, hloc]
    rw [hins]
    have hlen : (b :: l).length = pre.length + suf.length := by
      rw [hl]; simp
    have hk : List.map Prod.fst (b :: l) ++ x :: tk =
        pre.map Prod.fst ++ suf.map Prod.fst ++ (x, y).1 :: tk := by
      rw [hl]; simp
    have hr : List.map Prod.snd (b :: l) ++ y :: tr =
        pre.map Prod.snd ++ suf.map Prod.snd ++ (x, y).2 :: tr := by
      rw [hl]; simp
    rw [hlen, hk, hr, hshift]
    simp only
    have hsetK := set_append_cons (pre.map Prod.fst) (headOr suf (x, y)).1 e.key
      (suf.map Prod.fst ++ tk) pre.length (by simp)
    have hsetR := set_append_cons (pre.map Prod.snd) (headOr suf (x, y)).2 e.rid
      (suf.map Prod.snd ++ tr) pre.length (by simp)
    simp only [List.append_assoc, List.cons_append] at hsetK hsetR ⊢
    rw [hsetK, hsetR]
    simp

theorem pageAt_setPage_same (p : Nat) (x : Page) (s : BTreeIndex)
    (h : ∃ q, pageAt p s = some q) : pageAt p (setPage p x s) = some x := by
  cases p with
  | zero => obtain ⟨q, hq⟩ := h; simp [pageAt] at hq
  | succ n =>
    obtain ⟨q, hq⟩ := h
    simp only [pageAt] at hq ⊢
    simp only [setPage]
    have hn : n < s.pages.length := by
      by_contra hcon
      rw [List.get?_eq_getElem?, List.getElem?_eq_none (by omega)] at hq
      cases hq
    simp [List.get?_eq_getElem?, List.getElem?_set, hn]

theorem getD_replicate_tail {α : Type} (A : List α) (z d : α) (m i : Nat)
    (hi : A.length ≤ i) (him : i < A.length + m) : (A ++ List.replicate m z).getD i d = z := by
  simp only [List.getD_eq_getElem?_getD]
  rw [List.getElem?_append_right hi, List.getElem?_replicate, if_pos (by omega)]
  rfl

/-- One `insertEntry` into a single leaf that is not full. -/
theorem insertEntry_singleLeaf (fuel : Nat) (key : Int) (rid : RecordId) (s : BTreeIndex)
    (es : List (Int × RecordId)) (h : SingleLeaf s es) (hlen : es.length < s.leafOccupancy)
    (hrid : rid.page_number ≠ 0) :
    ∃ s', insertEntry fuel key rid s = Res.ok () s' ∧
      SingleLeaf s' (stableInsert (key, rid) es) ∧ s'.leafOccupancy = s.leafOccupancy := by
  obtain ⟨hroot, hpage, _, hs, hr⟩ := h
  have hleafspec := insertLeafNode_spec s.leafOccupancy es 0 ⟨0, 0⟩
    (List.replicate (s.leafOccupancy - es.length - 1) 0)
    (List.replicate (s.leafOccupancy - es.length - 1) ⟨0, 0⟩) 0 ⟨rid, key⟩ hs hr rfl
    (by intro r hr; rw [List.eq_of_mem_replicate hr])
    (by simp; omega)
  have hrep : ∀ {α : Type} (z : α), List.replicate (s.leafOccupancy - es.length) z =
      z :: List.replicate (s.leafOccupancy - es.length - 1) z := by
    intro α z
    have : s.leafOccupancy - es.length = (s.leafOccupancy - es.length - 1) + 1 := by omega
    rw [this, List.replicate_succ]
    simp
  have hlast : ((leafOf s.leafOccupancy es).ridArray.getD (s.leafOccupancy - 1)
      default).page_number = 0 := by
    unfold leafOf
    simp only
    rw [getD_replicate_tail _ _ _ _ _ (by simp; omega) (by simp; omega)]
  have hins : insertLeafNode s.leafOccupancy (leafOf s.leafOccupancy es) ⟨rid, key⟩ =
      leafOf s.leafOccupancy (stableInsert (key, rid) es) := by
    unfold leafOf
    rw [hrep, hrep, hleafspec, stableInsert_length]
    have : s.leafOccupancy - (es.length + 1) = s.leafOccupancy - es.length - 1 := by omega
    rw [this]
  refine ⟨unPinPage s.rootPageNum true
      (setPage s.rootPageNum
        (Page.leaf (leafOf s.leafOccupancy (stableInsert (key, rid) es)))
        { s with bufLog := s.bufLog ++ [BufCall.readPage s.rootPageNum] }), ?_, ?_, rfl⟩
  · have hp2 : pageAt s.rootPageNum
        { s with bufLog := s.bufLog ++ [BufCall.readPage s.rootPageNum] } =
        some (Page.leaf (leafOf s.leafOccupancy es)) := hpage
    have hdec : decide (s.rootPageNum = s.initRootPageNo) = true := by simp [hroot]
    unfold insertEntry
    simp only [readPage, hpage, Res.bind, hdec]
    unfold recInsert
    simp only [Bool.true_eq_false, if_false, leafAt, hp2, Res.bind, hlast, if_true, hins]
  · refine ⟨hroot, ?_, ?_, stableInsert_pairwise _ _ hs, ?_⟩
    · have := pageAt_setPage_same s.rootPageNum
        (Page.leaf (leafOf s.leafOccupancy (stableInsert (key, rid) es)))
        { s with bufLog := s.bufLog ++ [BufCall.readPage s.rootPageNum] } ⟨_, hpage⟩
      exact this
    · rw [stableInsert_length]
      exact hlen
    · intro b hb
      rcases (stableInsert_mem _ _ _).mp hb with rfl | hb
      · exact hrid
      · exact hr b hb

theorem stableInsertAll_pairwise (cur es : List (Int × RecordId))
    (hs : cur.Pairwise (fun a b => a.1 ≤ b.1)) :
    (stableInsertAll cur es).Pairwise (fun a b => a.1 ≤ b.1) := by
  induction es generalizing cur with
  | nil => exact hs
  | cons e es ih => exact ih _ (stableInsert_pairwise e cur hs)

theorem stableInsertAll_length (cur es : List (Int × RecordId)) :
    (stableInsertAll cur es).length = cur.length + es.length := by
  induction es generalizing cur with
  | nil => rfl
  | cons e es ih =>
    have := ih (stableInsert e cur)
    simp only [stableInsertAll, List.foldl_cons, List.length_cons] at this ⊢
    rw [this, stableInsert_length]
    omega

theorem stableInsertAll_filter (cur es : List (Int × RecordId))
    (hs : cur.Pairwise (fun a b => a.1 ≤ b.1)) (k : Int) :
    (stableInsertAll cur es).filter (fun c => decide (c.1 = k)) =
      cur.filter (fun c => decide (c.1 = k)) ++ es.filter (fun c => decide (c.1 = k)) := by
  induction es generalizing cur with
  | nil => simp [stableInsertAll]
  | cons e es ih =>
    have := ih (stableInsert e cur) (stableInsert_pairwise e cur hs)
    simp only [stableInsertAll, List.foldl_cons] at this ⊢
    rw [this, stableInsert_filter e cur hs k]
    by_cases hk : e.1 = k <;> simp [List.filter_cons, hk]

theorem insertEntries_singleLeaf (fuel : Nat) (es : List (Int × RecordId)) (s : BTreeIndex)
    (cur : List (Int × RecordId)) (h : SingleLeaf s cur)
    (hlen : cur.length + es.length ≤ s.leafOccupancy)
    (hrid : ∀ e ∈ es, e.2.page_number ≠ 0) :
    ∃ s', insertEntries fuel es s = Res.ok () s' ∧
      SingleLeaf s' (stableInsertAll cur es) ∧ s'.leafOccupancy = s.leafOccupancy := by
  induction es generalizing s cur with
  | nil => exact ⟨s, rfl, h, rfl⟩
  | cons e es ih =>
    simp only [List.length_cons] at hlen
    obtain ⟨s1, h1, hs1, hL1⟩ := insertEntry_singleLeaf fuel e.1 e.2 s cur h (by omega)
      (hrid e (by simp))
    obtain ⟨s2, h2, hs2, hL2⟩ := ih s1 (stableInsert (e.1, e.2) cur) hs1
      (by rw [stableInsert_length, hL1]; omega) (fun c hc => hrid c (by simp [hc]))
    refine ⟨s2, ?_, hs2, by rw [hL2, hL1]⟩
    simp only [insertEntries, h1, Res.bind, h2]

theorem create_singleLeaf (L N : Nat) (relationName : List Char) (attrByteOffset : Int)
    (attrType : Datatype) :
    SingleLeaf (BTreeIndex.create L N relationName attrByteOffset attrType) [] := by
  refine ⟨rfl, ?_, by simp, List.Pairwise.nil, by simp⟩
  simp [pageAt, BTreeIndex.create, leafOf, zeroLeaf]

theorem leafEntries_spec (pre es : List (Int × RecordId)) (tk : List Int)
    (tr : List RecordId) (sib n : Nat) (hn : es.length ≤ n)
    (hrid : ∀ b ∈ es, b.2.page_number ≠ 0)
    (htail : n = es.length ∨ ∃ y tr', tr = y :: tr' ∧ y.page_number = 0) :
    leafEntries ⟨pre.map Prod.fst ++ es.map Prod.fst ++ tk,
      pre.map Prod.snd ++ es.map Prod.snd ++ tr, sib⟩ n pre.length = es := by
  induction es generalizing pre n with
  | nil =>
    cases n with
    | zero => rfl
    | succ m =>
      rcases htail with h | ⟨y, tr', rfl, hy⟩
      · simp at h
      · unfold leafEntries
        have := getD_append_cons (pre.map Prod.snd) y tr' default pre.length (by simp)
        simp only [List.map_nil, List.append_nil]
        rw [this, if_pos hy]
  | cons b es ih =>
    cases n with
    | zero => simp at hn
    | succ m =>
      unfold leafEntries
      have hk := getD_append_cons (pre.map Prod.fst) b.1 (es.map Prod.fst ++ tk) 0
        pre.length (by simp)
      have hr := getD_append_cons (pre.map Prod.snd) b.2 (es.map Prod.snd ++ tr) default
        pre.length (by simp)
      simp only [List.map_cons, List.append_assoc, List.cons_append] at hk hr ⊢
      rw [hk, hr, if_neg (hrid b (by simp))]
      have := ih (pre ++ [b]) m (by simpa using hn) (fun c hc => hrid c (by simp [hc]))
        (by
          rcases htail with h | h
          · left; simpa using h
          · right; exact h)
      simp only [List.map_append, List.map_cons, List.map_nil, List.append_assoc,
        List.singleton_append, List.length_append, List.length_singleton,
        List.cons_append, List.nil_append] at this
      rw [this]

theorem leafEntries_leafOf (L : Nat) (es : List (Int × RecordId)) (hlen : es.length ≤ L)
    (hrid : ∀ b ∈ es, b.2.page_number ≠ 0) : leafEntries (leafOf L es) L 0 = es := by
  have := leafEntries_spec [] es (List.replicate (L - es.length) 0)
    (List.replicate (L - es.length) ⟨0, 0⟩) 0 L hlen hrid
    (by
      rcases Nat.eq_or_lt_of_le hlen with h | h
      · left; exact h.symm
      · right
        refine ⟨⟨0, 0⟩, List.replicate (L - es.length - 1) ⟨0, 0⟩, ?_, rfl⟩
        have : L - es.length = (L - es.length - 1) + 1 := by omega
        rw [this, List.replicate_succ]
        simp)
  simpa [leafOf] using this

theorem chainEntries_singleLeaf (fuel : Nat) (s : BTreeIndex) (es : List (Int × RecordId))
    (h : SingleLeaf s es) : chainEntries (fuel + 1) s.initRootPageNo s = es := by
  obtain ⟨hroot, hpage, hlen, _, hr⟩ := h
  rw [← hroot]
  unfold chainEntries
  simp only [leafAt, hpage]
  rw [leafEntries_leafOf _ _ hlen hr]
  simp [leafOf]

/-! ## Scanning a single leaf -/

theorem startScan_slots_found (s : BTreeIndex) (pre skip : List (Int × RecordId))
    (e : Int × RecordId) (rest : List (Int × RecordId)) (tk : List Int) (tr : List RecordId)
    (sib n : Nat)
    (hskip : ∀ b ∈ skip, inScanRange s b.1 = false ∧ ¬ pastUpper s b.1)
    (he : inScanRange s e.1 = true)
    (hrid : ∀ b ∈ skip ++ e :: rest, b.2.page_number ≠ 0)
    (hL : pre.length + (skip.length + (rest.length + 1)) ≤ s.leafOccupancy)
    (hn : pre.length + n = s.leafOccupancy) :
    startScan.slots
        ⟨pre.map Prod.fst ++ (skip ++ e :: rest).map Prod.fst ++ tk,
          pre.map Prod.snd ++ (skip ++ e :: rest).map Prod.snd ++ tr, sib⟩ n pre.length s =
      Res.ok true
        { s with nextEntry := ((pre.length + skip.length : Nat) : Int), scanExecuting := true } := by
  induction skip generalizing pre n with
  | nil =>
    obtain ⟨m, rfl⟩ : ∃ m, n = m + 1 := ⟨n - 1, by omega⟩
    unfold startScan.slots
    have hk := getD_append_cons (pre.map Prod.fst) e.1 (rest.map Prod.fst ++ tk) 0
      pre.length (by simp)
    simp only [List.nil_append, List.map_cons, List.append_assoc, List.cons_append] at hk ⊢
    simp only [inScanRange] at he
    simp only [hk, he, if_true, List.length_nil, Nat.add_zero]
  | cons b skip ih =>
    obtain ⟨m, rfl⟩ : ∃ m, n = m + 1 := ⟨n - 1, by simp at hL; omega⟩
    have hb := hskip b (by simp)
    unfold startScan.slots
    have hk := getD_append_cons (pre.map Prod.fst) b.1
      ((skip ++ e :: rest).map Prod.fst ++ tk) 0 pre.length (by simp)
    have hnext : ∃ c cs, skip ++ e :: rest = c :: cs ∧ c.2.page_number ≠ 0 := by
      cases skip with
      | nil => exact ⟨e, rest, rfl, hrid e (by simp)⟩
      | cons c cs => exact ⟨c, cs ++ e :: rest, rfl, hrid c (by simp)⟩
    obtain ⟨c, cs, hc, hcr⟩ := hnext
    have hr : (List.map Prod.snd pre ++ b.2 :: (List.map Prod.snd (skip ++ e :: rest) ++ tr)).getD
        (pre.length + 1) default = c.2 := by
      rw [hc]
      have := getD_append_cons (pre.map Prod.snd ++ [b.2]) c.2 (cs.map Prod.snd ++ tr) default
        (pre.length + 1) (by simp)
      simpa using this
    simp only [List.cons_append, List.map_cons, List.append_assoc] at hk hr ⊢
    simp only [inScanRange] at hb
    have hpast : ¬ ((s.highOp = Operator.LT ∧ b.1 ≥ s.highValInt) ∨
        (s.highOp = Operator.LTE ∧ b.1 > s.highValInt)) := hb.2
    have hLne : ¬ (s.leafOccupancy = pre.length + 1) := by
      simp at hL; omega
    simp only [hk, hb.1, Bool.false_eq_true, if_false, if_neg hpast, hr, hcr, decide_False,
      Bool.and_false, hLne, or_self]
    have := ih (pre ++ [b]) m (fun x hx => hskip x (by simp [hx]))
      (fun x hx => hrid x (by simp at hx ⊢; tauto))
      (by simp at hL ⊢; omega) (by simp; omega)
    simp only [List.map_append, List.map_cons, List.map_nil, List.append_assoc,
      List.singleton_append, List.length_append, List.length_singleton,
      List.cons_append, List.nil_append] at this ⊢
    rw [this]
    have hlen : pre.length + 1 + skip.length = pre.length + (b :: skip).length := by
      simp [List.length_cons]; omega
    rw [hlen]

theorem startScan_slots_none (s : BTreeIndex) (pre : List (Int × RecordId))
    (b : Int × RecordId) (rest : List (Int × RecordId)) (tk : List Int) (tr : List RecordId)
    (n : Nat)
    (hrest : ∀ c ∈ b :: rest, inScanRange s c.1 = false)
    (hrid : ∀ c ∈ b :: rest, c.2.page_number ≠ 0)
    (hL : pre.length + (rest.length + 1) ≤ s.leafOccupancy)
    (hn : pre.length + n = s.leafOccupancy)
    (htail : pre.length + (rest.length + 1) = s.leafOccupancy ∨
      ∃ y tr', tr = y :: tr' ∧ y.page_number = 0) :
    (startScan.slots
        ⟨pre.map Prod.fst ++ (b :: rest).map Prod.fst ++ tk,
          pre.map Prod.snd ++ (b :: rest).map Prod.snd ++ tr, 0⟩ n pre.length s).thrown =
      some Exn.NoSuchKeyFound := by
  induction rest generalizing pre b n with
  | nil =>
    obtain ⟨m, rfl⟩ : ∃ m, n = m + 1 := ⟨n - 1, by simp at hL; omega⟩
    have hb := hrest b (by simp)
    unfold startScan.slots
    have hk := getD_append_cons (pre.map Prod.fst) b.1 tk 0 pre.length (by simp)
    simp only [List.map_cons, List.map_nil, List.append_assoc, List.cons_append,
      List.nil_append] at hk ⊢
    simp only [inScanRange] at hb
    simp only [hk, hb, Bool.false_eq_true, if_false]
    split
    · rfl
    · have hcond : s.leafOccupancy = pre.length + 1 ∨
          (decide (pre.length + 1 < s.leafOccupancy) &&
            decide (((List.map Prod.snd pre ++ b.2 :: tr).getD (pre.length + 1)
              default).page_number = 0)) = true := by
        rcases htail with h | ⟨y, tr', rfl, hy⟩
        · left; simp at h; omega
        · by_cases hlt : pre.length + 1 < s.leafOccupancy
          · right
            have := getD_append_cons (pre.map Prod.snd ++ [b.2]) y tr' default
              (pre.length + 1) (by simp)
            simp only [List.append_assoc, List.singleton_append] at this
            rw [this]
            simp [hy, hlt]
          · left; simp at hL; omega
      rw [if_pos hcond]
      simp [Res.thrown]
  | cons c rest ih =>
    obtain ⟨m, rfl⟩ : ∃ m, n = m + 1 := ⟨n - 1, by simp at hL; omega⟩
    have hb := hrest b (by simp)
    unfold startScan.slots
    have hk := getD_append_cons (pre.map Prod.fst) b.1
      ((c :: rest).map Prod.fst ++ tk) 0 pre.length (by simp)
    have hr : (List.map Prod.snd pre ++ b.2 :: (List.map Prod.snd (c :: rest) ++ tr)).getD
        (pre.length + 1) default = c.2 := by
      have := getD_append_cons (pre.map Prod.snd ++ [b.2]) c.2 (rest.map Prod.snd ++ tr) default
        (pre.length + 1) (by simp)
      simpa using this
    have hcr : c.2.page_number ≠ 0 := hrid c (by simp)
    simp only [List.cons_append, List.map_cons, List.append_assoc] at hk hr ⊢
    simp only [inScanRange] at hb
    have hLne : ¬ (s.leafOccupancy = pre.length + 1) := by
      simp at hL; omega
    simp only [hk, hb, Bool.false_eq_true, if_false]
    split
    · rfl
    · simp only [hr, hcr, decide_False, Bool.and_false, hLne, or_self, Bool.false_eq_true,
        if_false]
      have := ih (pre ++ [b]) c m (fun x hx => hrest x (by simp at hx ⊢; tauto))
        (fun x hx => hrid x (by simp at hx ⊢; tauto))
        (by simp at hL ⊢; omega) (by simp; omega)
        (by
          rcases htail with h | h
          · left; simp at h ⊢; omega
          · right; exact h)
      simp only [List.map_append, List.map_cons, List.map_nil, List.append_assoc,
        List.singleton_append, List.length_append, List.length_singleton,
        List.cons_append, List.nil_append] at this
      exact this

theorem currentLeaf_of_currentLeafIs (s : BTreeIndex) (es : List (Int × RecordId))
    (h : CurrentLeafIs s es) : currentLeaf s = Res.ok (leafOf s.leafOccupancy es) s := by
  obtain ⟨⟨p, hp, hpage⟩, _, _⟩ := h
  simp [currentLeaf, hp, leafAt, hpage]

theorem replicate_tail_cases {α : Type} (z : α) (L n : Nat) (hn : n ≤ L) :
    n = L ∨ ∃ y tr', List.replicate (L - n) z = y :: tr' ∧ y = z := by
  rcases Nat.eq_or_lt_of_le hn with h | h
  · left; exact h
  · right
    refine ⟨z, List.replicate (L - n - 1) z, ?_, rfl⟩
    have : L - n = (L - n - 1) + 1 := by omega
    rw [this, List.replicate_succ]
    simp

theorem getD_append_replicate_zero (A : List RecordId) (m i : Nat) (hi : A.length ≤ i) :
    ((A ++ List.replicate m (⟨0, 0⟩ : RecordId)).getD i default).page_number = 0 := by
  simp only [List.getD_eq_getElem?_getD]
  rw [List.getElem?_append_right hi, List.getElem?_replicate]
  split <;> rfl

theorem startScan_leaves_none (fuel : Nat) (s : BTreeIndex) (es : List (Int × RecordId))
    (h : CurrentLeafIs s es) (hnone : ∀ b ∈ es, inScanRange s b.1 = false) :
    (startScan.leaves (fuel + 1) s).thrown = some Exn.NoSuchKeyFound := by
  have hcur := currentLeaf_of_currentLeafIs s es h
  obtain ⟨_, hlen, hrid⟩ := h
  unfold startScan.leaves
  simp only [hcur, Res.bind]
  cases es with
  | nil =>
    have h0 : ((leafOf s.leafOccupancy []).ridArray.getD 0 default).page_number = 0 :=
      getD_append_replicate_zero [] _ 0 (by simp)
    rw [if_pos h0]
    rfl
  | cons b rest =>
    have h0 : ((leafOf s.leafOccupancy (b :: rest)).ridArray.getD 0 default).page_number ≠ 0 := by
      simpa [leafOf] using hrid b (by simp)
    rw [if_neg h0]
    have hslots := startScan_slots_none s [] b rest
      (List.replicate (s.leafOccupancy - (b :: rest).length) 0)
      (List.replicate (s.leafOccupancy - (b :: rest).length) ⟨0, 0⟩) s.leafOccupancy
      hnone hrid (by simpa using hlen) (by simp)
      (by
        rcases replicate_tail_cases (⟨0, 0⟩ : RecordId) s.leafOccupancy (b :: rest).length hlen
          with h | ⟨y, tr', h, hy⟩
        · left; simp at h ⊢; omega
        · right; exact ⟨y, tr', h, by rw [hy]⟩)
    simp only [List.map_nil, List.nil_append, List.length_nil] at hslots
    have hleaf : leafOf s.leafOccupancy (b :: rest) =
        ⟨List.map Prod.fst (b :: rest) ++ List.replicate (s.leafOccupancy - (b :: rest).length) 0,
          List.map Prod.snd (b :: rest) ++
            List.replicate (s.leafOccupancy - (b :: rest).length) ⟨0, 0⟩, 0⟩ := rfl
    rw [hleaf]
    generalize startScan.slots _ _ _ _ = r at hslots ⊢
    cases r <;> simp_all [Res.thrown, Res.bind]

theorem startScan_leaves_found (fuel : Nat) (s : BTreeIndex) (skip : List (Int × RecordId))
    (e : Int × RecordId) (rest : List (Int × RecordId))
    (h : CurrentLeafIs s (skip ++ e :: rest))
    (hskip : ∀ b ∈ skip, inScanRange s b.1 = false ∧ ¬ pastUpper s b.1)
    (he : inScanRange s e.1 = true) :
    startScan.leaves (fuel + 1) s =
      Res.ok () { s with nextEntry := (skip.length : Int), scanExecuting := true } := by
  have hcur := currentLeaf_of_currentLeafIs s _ h
  obtain ⟨_, hlen, hrid⟩ := h
  unfold startScan.leaves
  simp only [hcur, Res.bind]
  have h0 : ((leafOf s.leafOccupancy (skip ++ e :: rest)).ridArray.getD 0
      default).page_number ≠ 0 := by
    cases skip with
    | nil => simpa [leafOf] using hrid e (by simp)
    | cons c cs => simpa [leafOf] using hrid c (by simp)
  rw [if_neg h0]
  have hslots := startScan_slots_found s [] skip e rest
    (List.replicate (s.leafOccupancy - (skip ++ e :: rest).length) 0)
    (List.replicate (s.leafOccupancy - (skip ++ e :: rest).length) ⟨0, 0⟩) 0 s.leafOccupancy
    hskip he hrid (by simpa using hlen) (by simp)
  simp only [List.map_nil, List.nil_append, List.length_nil, Nat.zero_add] at hslots
  have hleaf : leafOf s.leafOccupancy (skip ++ e :: rest) =
      ⟨List.map Prod.fst (skip ++ e :: rest) ++
          List.replicate (s.leafOccupancy - (skip ++ e :: rest).length) 0,
        List.map Prod.snd (skip ++ e :: rest) ++
          List.replicate (s.leafOccupancy - (skip ++ e :: rest).length) ⟨0, 0⟩, 0⟩ := rfl
  rw [hleaf, hslots]
  simp

/-- The calls of `scanNext` from slot `|pre|` of a single leaf hand out the record ids of
the entries up to the first one out of range. -/
theorem scanLoop_singleLeaf (fuel : Nat) (s : BTreeIndex) (pre rest : List (Int × RecordId))
    (h : CurrentLeafIs s (pre ++ rest)) (hexec : s.scanExecuting = true)
    (hnext : s.nextEntry = (pre.length : Int)) (hfuel : rest.length < fuel) :
    (scanLoop fuel s).1 =
      (rest.takeWhile (fun b => inScanRange s b.1)).map Prod.snd := by
  induction rest generalizing pre s fuel with
  | nil =>
    obtain ⟨f, rfl⟩ : ∃ f, fuel = f + 1 := ⟨fuel - 1, by simp at hfuel; omega⟩
    have hcur := currentLeaf_of_currentLeafIs s _ h
    obtain ⟨_, hlen, hrid⟩ := h
    simp only [List.append_nil] at hcur hlen
    have hx : ¬ (s.scanExecuting = false) := by simp [hexec]
    have hzero : (ridAt (leafOf s.leafOccupancy pre).ridArray (pre.length : Int)).page_number
        = 0 := by
      simp only [ridAt, leafOf]
      rw [if_neg (by omega)]
      simp only [Int.toNat_ofNat]
      exact getD_append_replicate_zero _ _ _ (by simp)
    have hsib : (leafOf s.leafOccupancy pre).rightSibPageNo = 0 := rfl
    unfold scanLoop scanNext
    simp only [hexec, Bool.true_eq_false, if_false, hcur, Res.bind, hnext, hzero, true_or,
      if_true, hsib, List.takeWhile_nil, List.map_nil]
  | cons b rest ih =>
    obtain ⟨f, rfl⟩ : ∃ f, fuel = f + 1 := ⟨fuel - 1, by simp at hfuel; omega⟩
    have hcur := currentLeaf_of_currentLeafIs s _ h
    have hfull := h
    obtain ⟨_, hlen, hrid⟩ := h
    have hx : ¬ (s.scanExecuting = false) := by simp [hexec]
    have hr : ridAt (leafOf s.leafOccupancy (pre ++ b :: rest)).ridArray (pre.length : Int)
        = b.2 := by
      simp only [ridAt, leafOf]
      rw [if_neg (by omega)]
      simp only [Int.toNat_ofNat, List.map_append, List.map_cons, List.append_assoc,
        List.cons_append]
      exact getD_append_cons _ _ _ _ _ (by simp)
    have hk : keyAt (leafOf s.leafOccupancy (pre ++ b :: rest)).keyArray (pre.length : Int)
        = b.1 := by
      simp only [keyAt, leafOf]
      rw [if_neg (by omega)]
      simp only [Int.toNat_ofNat, List.map_append, List.map_cons, List.append_assoc,
        List.cons_append]
      exact getD_append_cons _ _ _ _ _ (by simp)
    have hb : b.2.page_number ≠ 0 := hrid b (by simp)
    have hne : ¬ ((pre.length : Int) = (s.leafOccupancy : Int)) := by
      simp at hlen; omega
    unfold scanLoop scanNext
    by_cases hP : inScanRange s b.1 = true
    · have hP' : keyIsInRange s.lowValInt s.lowOp s.highValInt s.highOp b.1 = true := hP
      have hrec : (scanLoop f { s with nextEntry := (pre.length : Int) + 1 }).1 =
          List.map Prod.snd (List.takeWhile (fun b => inScanRange s b.1) rest) :=
        ih f { s with nextEntry := (pre.length : Int) + 1 } (pre ++ [b])
          (by simpa [CurrentLeafIs] using hfull) hexec (by simp) (by simpa using hfuel)
      simp only [hexec] at hrec
      simp only [hexec, Bool.true_eq_false, if_false, hcur, Res.bind, hnext, hr, hb, hne,
        or_self, hk, hP', if_true, List.takeWhile_cons, hP, List.map_cons, hrec]
    · have hP' : ¬ (keyIsInRange s.lowValInt s.lowOp s.highValInt s.highOp b.1 = true) := hP
      simp only [hexec, Bool.true_eq_false, if_false, hcur, Res.bind, hnext, hr, hb, hne,
        or_self, hk, hP', List.takeWhile_cons, hP, List.map_nil, Bool.false_eq_true]

/-- On a single-leaf index the part of `startScan` after the checks pins the root leaf as
the current page and runs the loop over the leaves. -/
theorem startScan_position_singleLeaf (fuel : Nat) (s : BTreeIndex)
    (es : List (Int × RecordId)) (h : SingleLeaf s es) :
    ∃ s3, startScan.position (fuel + 1) s = startScan.leaves (fuel + 1) s3 ∧
      CurrentLeafIs s3 es ∧ s3.lowValInt = s.lowValInt ∧ s3.lowOp = s.lowOp ∧
      s3.highValInt = s.highValInt ∧ s3.highOp = s.highOp := by
  obtain ⟨hroot, hpage, hlen, _, hrid⟩ := h
  simp only [pageAt] at hpage
  have hpage' := hpage
  rw [hroot] at hpage'
  by_cases hx : s.scanExecuting = true
  · refine ⟨{ s with
        scanExecuting := false
        nextEntry := -1
        currentPageNum := s.rootPageNum
        currentPageData := some s.rootPageNum
        bufLog := s.bufLog ++ [BufCall.unPinPage s.currentPageNum false] ++
          [BufCall.readPage s.rootPageNum] }, ?_, ⟨⟨s.rootPageNum, rfl, ?_⟩, hlen, hrid⟩,
      rfl, rfl, rfl, rfl⟩
    · simp only [startScan.position, hx, if_true, endScan, Bool.true_eq_false, if_false,
        unPinPage, Res.bind, readCurrent, readPage, pageAt, hpage', hroot, ne_eq,
        not_true_eq_false]
    · simp only [pageAt]
      exact hpage
  · refine ⟨{ s with
        currentPageNum := s.rootPageNum
        currentPageData := some s.rootPageNum
        bufLog := s.bufLog ++ [BufCall.readPage s.rootPageNum] }, ?_,
      ⟨⟨s.rootPageNum, rfl, ?_⟩, hlen, hrid⟩, rfl, rfl, rfl, rfl⟩
    · simp only [startScan.position, hx, Bool.false_eq_true, if_false, Res.bind, readCurrent,
        readPage, pageAt, hpage', hroot, ne_eq, not_true_eq_false]
    · simp only [pageAt]
      exact hpage

theorem keyIsInRange_convex (lo : Int) (lop : Operator) (hi : Int) (hop : Operator)
    (a b c : Int) (hab : a ≤ b) (hbc : b ≤ c) (ha : keyIsInRange lo lop hi hop a = true)
    (hc : keyIsInRange lo lop hi hop c = true) : keyIsInRange lo lop hi hop b = true := by
  unfold keyIsInRange at ha hc ⊢
  split at ha <;> rename_i h1
  · simp only [if_pos h1] at hc ⊢
    simp at ha hc ⊢
    omega
  · split at ha <;> rename_i h2
    · simp only [if_neg h1, if_pos h2] at hc ⊢
      simp at ha hc ⊢
      omega
    · split at ha <;> rename_i h3
      · simp only [if_neg h1, if_neg h2, if_pos h3] at hc ⊢
        simp at ha hc ⊢
        omega
      · simp only [if_neg h1, if_neg h2, if_neg h3] at hc ⊢
        simp at ha hc ⊢
        omega

/-- A key below a key that is in range is not past the upper bound. -/
theorem not_pastUpper_of_le (s : BTreeIndex) (b e : Int) (hbe : b ≤ e)
    (he : inScanRange s e = true) : ¬ pastUpper s b := by
  unfold inScanRange keyIsInRange at he
  unfold pastUpper
  split at he <;> rename_i h1
  · simp at he
    rintro (⟨h, _⟩ | ⟨_, h⟩)
    · rw [h1.2] at h; cases h
    · omega
  · split at he <;> rename_i h2
    · simp at he
      rintro (⟨h, _⟩ | ⟨_, h⟩)
      · rw [h2.2] at h; cases h
      · omega
    · split at he <;> rename_i h3
      · simp at he
        rintro (⟨_, h⟩ | ⟨_, h⟩) <;> omega
      · simp at he
        rintro (⟨_, h⟩ | ⟨_, h⟩) <;> omega

theorem split_first {α : Type} (P : α → Bool) (l : List α) :
    (∀ b ∈ l, P b = false) ∨
      ∃ skip e rest, l = skip ++ e :: rest ∧ (∀ b ∈ skip, P b = false) ∧ P e = true := by
  induction l with
  | nil => left; simp
  | cons a l ih =>
    by_cases ha : P a = true
    · right; exact ⟨[], a, l, rfl, by simp, ha⟩
    · have ha' : P a = false := by simpa using ha
      rcases ih with h | ⟨skip, e, rest, rfl, hskip, he⟩
      · left
        intro b hb
        rcases List.mem_cons.mp hb with rfl | hb
        · exact ha'
        · exact h b hb
      · right
        refine ⟨a :: skip, e, rest, rfl, ?_, he⟩
        intro b hb
        rcases List.mem_cons.mp hb with rfl | hb
        · exact ha'
        · exact hskip b hb

/-- In a list ordered by key whose entries all lie above an in-range key, the in-range
entries are the leading ones. -/
theorem filter_eq_takeWhile_inRange (lo : Int) (lop : Operator) (hi : Int) (hop : Operator)
    (a : Int) (ha : keyIsInRange lo lop hi hop a = true) (l : List (Int × RecordId))
    (hl : ∀ x ∈ l, a ≤ x.1) (hs : l.Pairwise (fun x y => x.1 ≤ y.1)) :
    l.filter (fun b => keyIsInRange lo lop hi hop b.1) =
      l.takeWhile (fun b => keyIsInRange lo lop hi hop b.1) := by
  induction l with
  | nil => rfl
  | cons x l ih =>
    rw [List.pairwise_cons] at hs
    by_cases hx : keyIsInRange lo lop hi hop x.1 = true
    · simp only [List.filter_cons, List.takeWhile_cons, hx, if_true]
      rw [ih (fun y hy => hl y (by simp [hy])) hs.2]
    · simp only [List.filter_cons, List.takeWhile_cons, hx, if_false, Bool.false_eq_true]
      rw [List.filter_eq_nil_iff]
      intro y hy hPy
      exact hx (keyIsInRange_convex lo lop hi hop a x.1 y.1 (hl x (by simp)) (hs.1 y hy) ha hPy)

/-- One scan of a single-leaf index hands out, in slot order, the record ids of exactly the
entries in range. -/
theorem runScan_singleLeaf (fuel : Nat) (lo : Int) (lop : Operator) (hi : Int)
    (hop : Operator) (s : BTreeIndex) (es : List (Int × RecordId)) (h : SingleLeaf s es)
    (hlow : lop = Operator.GT ∨ lop = Operator.GTE)
    (hhigh : hop = Operator.LT ∨ hop = Operator.LTE) (hle : lo ≤ hi)
    (hfuel : es.length < fuel) :
    (runScan fuel lo lop hi hop s).2 =
      (es.filter (fun b => keyIsInRange lo lop hi hop b.1)).map Prod.snd := by
  obtain ⟨f, rfl⟩ : ∃ f, fuel = f + 1 := ⟨fuel - 1, by omega⟩
  have hops : ¬ ((lop ≠ Operator.GT ∧ lop ≠ Operator.GTE) ∨
      (hop ≠ Operator.LT ∧ hop ≠ Operator.LTE)) := by
    rcases hlow with h | h <;> rcases hhigh with h' | h' <;> simp [h, h']
  have hsorted := h.2.2.2.1
  obtain ⟨s3, hpos, hcur, h1, h2, h3, h4⟩ := startScan_position_singleLeaf f
    { s with lowValInt := lo, highValInt := hi, highOp := hop, lowOp := lop } es h
  have hstart : startScan (f + 1) lo lop hi hop s = startScan.leaves (f + 1) s3 := by
    unfold startScan
    simp only [if_neg hops, if_neg (not_lt.mpr hle)]
    exact hpos
  have hP : ∀ k, inScanRange s3 k = keyIsInRange lo lop hi hop k := by
    intro k
    simp only [inScanRange, h1, h2, h3, h4]
  unfold runScan
  rw [hstart]
  rcases split_first (fun b : Int × RecordId => keyIsInRange lo lop hi hop b.1) es with
    hnone | ⟨skip, e, rest, rfl, hskip, he⟩
  · have hthrown := startScan_leaves_none f s3 es hcur (fun b hb => by rw [hP]; exact hnone b hb)
    have hfilter : es.filter (fun b => keyIsInRange lo lop hi hop b.1) = [] := by
      rw [List.filter_eq_nil_iff]
      intro b hb
      simp [hnone b hb]
    rw [hfilter]
    generalize startScan.leaves (f + 1) s3 = r at hthrown
    cases r <;> simp_all [Res.thrown]
  · rw [List.pairwise_append, List.pairwise_cons] at hsorted
    have hfound := startScan_leaves_found f s3 skip e rest hcur
      (fun b hb => ⟨by rw [hP]; exact hskip b hb,
        not_pastUpper_of_le s3 b.1 e.1 (hsorted.2.2 b hb e (by simp)) (by rw [hP]; exact he)⟩)
      (by rw [hP]; exact he)
    rw [hfound]
    simp only
    have hloop := scanLoop_singleLeaf (f + 1)
      { s3 with nextEntry := (skip.length : Int), scanExecuting := true } skip (e :: rest)
      hcur rfl rfl (by simp at hfuel ⊢; omega)
    rw [hloop]
    have hP' : (fun b : Int × RecordId =>
        inScanRange { s3 with nextEntry := (skip.length : Int), scanExecuting := true } b.1) =
        fun b => keyIsInRange lo lop hi hop b.1 := by
      funext b
      exact hP b.1
    rw [hP', List.filter_append]
    have hskipnil : skip.filter (fun b => keyIsInRange lo lop hi hop b.1) = [] := by
      rw [List.filter_eq_nil_iff]
      intro b hb
      simp [hskip b hb]
    rw [hskipnil, List.nil_append]
    rw [filter_eq_takeWhile_inRange lo lop hi hop e.1 he (e :: rest)
      (by
        intro x hx
        rcases List.mem_cons.mp hx with rfl | hx
        · exact le_refl _
        · exact hsorted.2.1.1 x hx)
      (List.pairwise_cons.mpr hsorted.2.1)]

/-! ## Claims on scans of an index without a split -/

/-- On a single-leaf index none of whose keys is in range, `startScan` with valid arguments
throws `NoSuchKeyFoundException`. -/
theorem startScan_singleLeaf_none (fuel : Nat) (lo : Int) (lop : Operator) (hi : Int)
    (hop : Operator) (s : BTreeIndex) (es : List (Int × RecordId)) (h : SingleLeaf s es)
    (hlow : lop = Operator.GT ∨ lop = Operator.GTE)
    (hhigh : hop = Operator.LT ∨ hop = Operator.LTE) (hle : lo ≤ hi)
    (hnone : ∀ b ∈ es, keyIsInRange lo lop hi hop b.1 = false) :
    (startScan (fuel + 1) lo lop hi hop s).thrown = some Exn.NoSuchKeyFound := by
  have hops : ¬ ((lop ≠ Operator.GT ∧ lop ≠ Operator.GTE) ∨
      (hop ≠ Operator.LT ∧ hop ≠ Operator.LTE)) := by
    rcases hlow with h | h <;> rcases hhigh with h' | h' <;> simp [h, h']
  obtain ⟨s3, hpos, hcur, h1, h2, h3, h4⟩ := startScan_position_singleLeaf fuel
    { s with lowValInt := lo, highValInt := hi, highOp := hop, lowOp := lop } es h
  have hstart : startScan (fuel + 1) lo lop hi hop s = startScan.leaves (fuel + 1) s3 := by
    unfold startScan
    simp only [if_neg hops, if_neg (not_lt.mpr hle)]
    exact hpos
  rw [hstart]
  refine startScan_leaves_none fuel s3 es hcur (fun b hb => ?_)
  simp only [inScanRange, h1, h2, h3, h4]
  exact hnone b hb

/-- C8 (counterexample): on a new index, `startScan` with `(100, GT, 100, LT)` throws
`NoSuchKeyFoundException`, not `BadScanrangeException`. -/
theorem startScan_100_gt_100_lt_not_bad_scanrange :
    (startScan 1 100 Operator.GT 100 Operator.LT
        (BTreeIndex.create 2 2 [] 0 Datatype.INTEGER)).thrown = some Exn.NoSuchKeyFound ∧
      (startScan 1 100 Operator.GT 100 Operator.LT
        (BTreeIndex.create 2 2 [] 0 Datatype.INTEGER)).thrown ≠ some Exn.BadScanrange := by
  decide!

/-- C8 (amended): `startScan` with equal bounds and the operators `GT`, `LT` (for instance
`(100, GT, 100, LT)`) passes the range check, which rejects only a lower bound greater than
the upper bound: it never throws `BadScanrangeException`.  No key lies in the empty range,
so the call never returns normally, and on a new index it throws
`NoSuchKeyFoundException`. -/
theorem startScan_empty_open_range (fuel : Nat) (v : Int) (s : BTreeIndex) :
    (startScan fuel v Operator.GT v Operator.LT s).thrown ≠ some Exn.BadScanrange ∧
      (startScan fuel v Operator.GT v Operator.LT s).state = none ∧
      ∀ (L N : Nat) (relationName : List Char) (attrByteOffset : Int) (attrType : Datatype),
        (startScan (fuel + 1) v Operator.GT v Operator.LT
          (BTreeIndex.create L N relationName attrByteOffset attrType)).thrown =
          some Exn.NoSuchKeyFound := by
  refine ⟨?_, ?_, ?_⟩
  · intro h
    unfold startScan at h
    simp only [ne_eq, not_true_eq_false, false_and, reduceCtorEq, not_false_eq_true, true_and,
      or_self, if_false, gt_iff_lt, lt_self_iff_false] at h
    rcases startScan_position_thrown _ _ _ h with h | h <;> cases h
  · cases hr : startScan fuel v Operator.GT v Operator.LT s with
    | ok u s' =>
      obtain ⟨k, hk⟩ := startScan_ok _ _ _ _ _ _ _ _ hr
      simp [keyIsInRange] at hk
      omega
    | exn e s' => rfl
    | fault => rfl
    | outOfFuel => rfl
  · intro L N relationName attrByteOffset attrType
    exact startScan_singleLeaf_none fuel v Operator.GT v Operator.LT _ []
      (create_singleLeaf L N relationName attrByteOffset attrType) (Or.inl rfl) (Or.inl rfl)
      (le_refl v) (by simp)

/-- C3 (counterexample): with `leafOccupancy = 2`, three entries of key 1 inserted with the
record ids `⟨1, 0⟩`, `⟨1, 1⟩`, `⟨1, 2⟩` stand in the leaf chain, and are handed out by the
scan `(>= 1, <= 1)`, in the order `⟨1, 0⟩`, `⟨1, 2⟩`, `⟨1, 1⟩`: the split of the full leaf
puts the third entry into the left leaf, before the second one. -/
theorem duplicates_reordered_by_leaf_split :
    (BTreeIndex.build 8 2 2 [(1, ⟨1, 0⟩), (1, ⟨1, 1⟩), (1, ⟨1, 2⟩)]).map
      (fun s =>
        (chainEntries 8 s.initRootPageNo s, (runScan 8 1 Operator.GTE 1 Operator.LTE s).2)) =
      some ([(1, ⟨1, 0⟩), (1, ⟨1, 2⟩), (1, ⟨1, 1⟩)], [⟨1, 0⟩, ⟨1, 2⟩, ⟨1, 1⟩]) := by
  decide!

/-- C3 (amended): as long as no leaf has split, that is for every sequence of at most
`leafOccupancy` calls of `insertEntry` (record ids with a nonzero page number) on a new
index, every call returns, the tree is still the initial root leaf, the entries of each key
stand in the leaf chain in the order in which they were inserted, and a scan with valid
arguments hands out the record ids of the in-range entries in chain order. -/
theorem duplicates_keep_order_without_split (L N : Nat) (relationName : List Char)
    (attrByteOffset : Int) (attrType : Datatype) (fuel chainFuel : Nat)
    (es : List (Int × RecordId)) (hlen : es.length ≤ L)
    (hrid : ∀ e ∈ es, e.2.page_number ≠ 0) :
    ∃ s, insertEntries fuel es
          (BTreeIndex.create L N relationName attrByteOffset attrType) = Res.ok () s ∧
      s.rootPageNum = s.initRootPageNo ∧
      (∀ k : Int,
        (chainEntries (chainFuel + 1) s.initRootPageNo s).filter (fun e => decide (e.1 = k)) =
          es.filter (fun e => decide (e.1 = k))) ∧
      ∀ (lo : Int) (lop : Operator) (hi : Int) (hop : Operator) (n : Nat),
        (lop = Operator.GT ∨ lop = Operator.GTE) → (hop = Operator.LT ∨ hop = Operator.LTE) →
        lo ≤ hi → es.length < n →
        (runScan n lo lop hi hop s).2 =
          ((chainEntries (chainFuel + 1) s.initRootPageNo s).filter
            (fun e => keyIsInRange lo lop hi hop e.1)).map Prod.snd := by
  obtain ⟨s, hs, hleaf, _⟩ := insertEntries_singleLeaf fuel es
    (BTreeIndex.create L N relationName attrByteOffset attrType) []
    (create_singleLeaf L N relationName attrByteOffset attrType)
    (by simpa [BTreeIndex.create] using hlen) hrid
  have hchain := chainEntries_singleLeaf chainFuel s _ hleaf
  refine ⟨s, hs, hleaf.1, ?_, ?_⟩
  · intro k
    rw [hchain, stableInsertAll_filter [] es List.Pairwise.nil k]
    simp
  · intro lo lop hi hop n hlow hhigh hle hn
    rw [hchain]
    have hlen' : (stableInsertAll [] es).length = es.length := by
      simpa using stableInsertAll_length [] es
    exact runScan_singleLeaf n lo lop hi hop s _ hleaf hlow hhigh hle (by rw [hlen']; exact hn)

/-- Witness of C3 (amended): five entries of key 42 in a leaf of eight slots. -/
theorem duplicates_keep_order_without_split_witness :
    ∃ s, insertEntries 1
          [(42, ⟨1, 0⟩), (42, ⟨1, 1⟩), (42, ⟨1, 2⟩), (42, ⟨1, 3⟩), (42, ⟨1, 4⟩)]
          (BTreeIndex.create 8 2 [] 0 Datatype.INTEGER) = Res.ok () s ∧
      s.rootPageNum = s.initRootPageNo ∧
      (∀ k : Int,
        (chainEntries (0 + 1) s.initRootPageNo s).filter (fun e => decide (e.1 = k)) =
          [(42, ⟨1, 0⟩), (42, ⟨1, 1⟩), (42, ⟨1, 2⟩), (42, ⟨1, 3⟩), ((42 : Int), (⟨1, 4⟩ : RecordId))].filter
            (fun e => decide (e.1 = k))) ∧
      ∀ (lo : Int) (lop : Operator) (hi : Int) (hop : Operator) (n : Nat),
        (lop = Operator.GT ∨ lop = Operator.GTE) → (hop = Operator.LT ∨ hop = Operator.LTE) →
        lo ≤ hi →
        [(42, ⟨1, 0⟩), (42, ⟨1, 1⟩), (42, ⟨1, 2⟩), (42, ⟨1, 3⟩),
          ((42 : Int), (⟨1, 4⟩ : RecordId))].length < n →
        (runScan n lo lop hi hop s).2 =
          ((chainEntries (0 + 1) s.initRootPageNo s).filter
            (fun e => keyIsInRange lo lop hi hop e.1)).map Prod.snd :=
  duplicates_keep_order_without_split 8 2 [] 0 Datatype.INTEGER 1 0
    [(42, ⟨1, 0⟩), (42, ⟨1, 1⟩), (42, ⟨1, 2⟩), (42, ⟨1, 3⟩), (42, ⟨1, 4⟩)]
    (by decide) (by decide)

/-! ## Failing inputs: duplicates of a separator, and the split of an internal node -/

/-- C10 (failing input): with `leafOccupancy = nodeOccupancy = 2`, after inserting the keys
1, 1, 1, 1, 2 the leaf sibling chain reads 1, 1, 1, 2, 1 (no internal node has split: the
root is the only internal page, at level 1, over three leaves); after inserting the
distinct keys 10, 20, 30, 40, 50, 25, 15 (the fifth insert splits the internal root) it
reads 10, 20, 15, 25, 30, 40, 50.  Neither is non-decreasing. -/
theorem sorted_leaves_fails :
    (BTreeIndex.build 8 2 2
        [(1, ⟨1, 0⟩), (1, ⟨1, 1⟩), (1, ⟨1, 2⟩), (1, ⟨1, 3⟩), (2, ⟨1, 4⟩)]).map
      (fun s => (pageAt s.rootPageNum s, chainKeys 8 s)) =
      some (some (Page.nonLeaf ⟨1, [1, 1], [2, 3, 5]⟩), [1, 1, 1, 2, 1]) ∧
    (BTreeIndex.build 8 2 2
        [(10, ⟨1, 0⟩), (20, ⟨1, 1⟩), (30, ⟨1, 2⟩), (40, ⟨1, 3⟩), (50, ⟨1, 4⟩),
          (25, ⟨1, 5⟩), (15, ⟨1, 6⟩)]).map (chainKeys 8) =
      some [10, 20, 15, 25, 30, 40, 50] := by
  decide!

/-- C1 (failing input): with `leafOccupancy = nodeOccupancy = 2`, inserting the distinct
keys 1, 2, 3, 4, 5 splits the internal root on the fifth insert; the split clears the child
slot next to the pushed-up key, so the node at page 4 keeps the children 2 and 5 and the
leaf at page 3 (key 2) hangs on the sibling chain only.  All five keys are stored, yet the
scan `(>= 2, <= 2)` ends in `NoSuchKeyFoundException` and the scan `(>= 1, <= 5)` hands
out the record ids of the keys 3, 4, 5 only. -/
theorem scan_after_internal_split_fails :
    (BTreeIndex.build 8 2 2
        [(1, ⟨1, 0⟩), (2, ⟨1, 1⟩), (3, ⟨1, 2⟩), (4, ⟨1, 3⟩), (5, ⟨1, 4⟩)]).map
      (fun s =>
        (chainEntries 8 s.initRootPageNo s, pageAt 4 s,
          (startScan 8 2 Operator.GTE 2 Operator.LTE s).thrown,
          (runScan 8 1 Operator.GTE 5 Operator.LTE s).2)) =
      some ([(1, ⟨1, 0⟩), (2, ⟨1, 1⟩), (3, ⟨1, 2⟩), (4, ⟨1, 3⟩), (5, ⟨1, 4⟩)],
        some (Page.nonLeaf ⟨1, [2, 0], [2, 0, 5]⟩),
        some Exn.NoSuchKeyFound,
        [⟨1, 2⟩, ⟨1, 3⟩, ⟨1, 4⟩]) := by
  decide!

/-- C2 (failing input): with `leafOccupancy = nodeOccupancy = 2`, after inserting the keys
1, 1, 1, 1, 2 the tree is one level-1 root over three leaves (no internal node has split),
and the scan `(>= 1, <= 1)` hands out three record ids: the entry `(1, ⟨1, 1⟩)` sits in
the last leaf of the chain, behind the key 2, and is not handed out. -/
theorem scan_level_one_misses_duplicate :
    (BTreeIndex.build 8 2 2
        [(1, ⟨1, 0⟩), (1, ⟨1, 1⟩), (1, ⟨1, 2⟩), (1, ⟨1, 3⟩), (2, ⟨1, 4⟩)]).map
      (fun s =>
        (pageAt s.rootPageNum s, chainEntries 8 s.initRootPageNo s,
          (runScan 8 1 Operator.GTE 1 Operator.LTE s).2)) =
      some (some (Page.nonLeaf ⟨1, [1, 1], [2, 3, 5]⟩),
        [(1, ⟨1, 0⟩), (1, ⟨1, 3⟩), (1, ⟨1, 2⟩), (2, ⟨1, 4⟩), (1, ⟨1, 1⟩)],
        [⟨1, 0⟩, ⟨1, 3⟩, ⟨1, 2⟩]) := by
  decide!

/-- C4 (failing input): with `leafOccupancy = nodeOccupancy = 2`, after inserting the keys
1, 1, 2, 1, 1, 3 the key 2 is stored (last leaf of the chain) and `startScan (>= 2, <= 2)`
throws `NoSuchKeyFoundException`: the descent reaches the leaf holding 1, 3, whose key 3
is past the upper bound. -/
theorem startScan_no_such_key_with_stored_key :
    (BTreeIndex.build 8 2 2
        [(1, ⟨1, 0⟩), (1, ⟨1, 1⟩), (2, ⟨1, 2⟩), (1, ⟨1, 3⟩), (1, ⟨1, 4⟩), (3, ⟨1, 5⟩)]).map
      (fun s =>
        (pageAt s.rootPageNum s, chainKeys 8 s,
          (startScan 8 2 Operator.GTE 2 Operator.LTE s).thrown)) =
      some (some (Page.nonLeaf ⟨1, [1, 1], [2, 3, 5]⟩), [1, 1, 1, 3, 1, 2],
        some Exn.NoSuchKeyFound) := by
  decide!

/-! ## Child selection -/

theorem lastChild_spec (pids : List Nat) (z : Nat)
    (hlast : ∀ p, pids.getLast? = some p → p ≠ 0) :
    lastChild (pids ++ List.replicate z 0) (pids.length + z) = pids.length := by
  induction z with
  | zero =>
    simp only [List.replicate_zero, List.append_nil, Nat.add_zero]
    rcases List.eq_nil_or_concat pids with rfl | ⟨ps, p, rfl⟩
    · rfl
    · simp only [List.concat_eq_append] at hlast ⊢
      have hp : p ≠ 0 := hlast p (by simp)
      rw [List.length_append, List.length_singleton]
      unfold lastChild
      rw [getD_append_cons ps p [] 0 ps.length rfl, if_neg hp]
  | succ z ih =>
    have hlen : pids.length + (z + 1) = (pids.length + z) + 1 := by omega
    rw [hlen]
    unfold lastChild
    have hget : (pids ++ List.replicate (z + 1) 0).getD (pids.length + z) 0 = 0 := by
      simp only [List.getD_eq_getElem?_getD]
      rw [List.getElem?_append_right (by omega), List.getElem?_replicate]
      split <;> rfl
    rw [hget, if_pos rfl]
    have hmono : ∀ (A : List Nat) (x : Nat) (n : Nat), n ≤ A.length →
        lastChild (A ++ [x]) n = lastChild A n := by
      intro A x n
      induction n with
      | zero => intro _; rfl
      | succ n ihn =>
        intro hn
        unfold lastChild
        have : (A ++ [x]).getD n 0 = A.getD n 0 := by
          simp only [List.getD_eq_getElem?_getD]
          rw [List.getElem?_append_left (by omega)]
        rw [this, ihn (by omega)]
    have hsplit : pids ++ List.replicate (z + 1) 0 = (pids ++ List.replicate z 0) ++ [0] := by
      rw [List.replicate_succ', List.append_assoc]
    rw [hsplit, hmono _ _ _ (by simp), ih]

/-- In a non-decreasing list the keys below `k` come first. -/
theorem sorted_split_lt (k : Int) (keys : List Int) (hs : keys.Pairwise (fun a b => a ≤ b)) :
    ∃ lo hi, keys = lo ++ hi ∧ (∀ a ∈ lo, a < k) ∧ (∀ a ∈ hi, k ≤ a) := by
  induction keys with
  | nil => exact ⟨[], [], rfl, by simp, by simp⟩
  | cons b l ih =>
    rw [List.pairwise_cons] at hs
    by_cases hlt : b < k
    · obtain ⟨lo, hi, hl, hlo, hhi⟩ := ih hs.2
      refine ⟨b :: lo, hi, by simp [hl], ?_, hhi⟩
      intro a ha
      rcases List.mem_cons.mp ha with rfl | ha
      · exact hlt
      · exact hlo a ha
    · refine ⟨[], b :: l, rfl, by simp, ?_⟩
      intro a ha
      rcases List.mem_cons.mp ha with rfl | ha
      · omega
      · have := hs.1 a ha
        omega

theorem findSubTree_descend_spec (k : Int) (lo hi tk : List Int) (hlo : ∀ a ∈ lo, a < k)
    (hhi : ∀ a ∈ hi, k ≤ a) :
    findSubTree.descend (lo ++ hi ++ tk) k (lo.length + hi.length) = lo.length := by
  induction hi using List.reverseRecOn generalizing tk with
  | nil =>
    simp only [List.append_nil, List.length_nil, Nat.add_zero]
    rcases List.eq_nil_or_concat lo with rfl | ⟨ls, a, rfl⟩
    · rfl
    · simp only [List.concat_eq_append] at hlo ⊢
      have ha : a < k := hlo a (by simp)
      rw [List.length_append, List.length_singleton]
      unfold findSubTree.descend
      have hget : (ls ++ [a] ++ tk).getD ls.length 0 = a := by
        have := getD_append_cons ls a tk 0 ls.length rfl
        simpa using this
      rw [hget, if_neg (by omega)]
  | append_singleton hs a ih =>
    have ha : k ≤ a := hhi a (by simp)
    have hlen : lo.length + (hs ++ [a]).length = (lo.length + hs.length) + 1 := by
      simp [Nat.add_assoc]
    rw [hlen]
    unfold findSubTree.descend
    have hget : (lo ++ (hs ++ [a]) ++ tk).getD (lo.length + hs.length) 0 = a := by
      have := getD_append_cons (lo ++ hs) a tk 0 (lo.length + hs.length) (by simp)
      simpa using this
    rw [hget, if_pos (by omega)]
    have := ih (a :: tk) (fun c hc => hhi c (by simp [hc]))
    simpa using this

/-- The child index read by `findSubTree` in a node whose occupied children are the slots
`0 .. m` and whose keys `0 .. m-1` are non-decreasing: the number of keys below the probe
key. -/
theorem findSubTree_index_spec (N : Nat) (node : NonLeafNodeInt) (keys tk : List Int)
    (pids : List Nat) (z : Nat) (k : Int)
    (hkeys : node.keyArray = keys ++ tk) (hpids : node.pageNoArray = pids ++ List.replicate z 0)
    (hlen : pids.length = keys.length + 1) (hN : pids.length + z = N + 1)
    (hocc : ∀ p ∈ pids, p ≠ 0) (hs : keys.Pairwise (fun a b => a ≤ b)) :
    ∃ lo hi, keys = lo ++ hi ∧ (∀ a ∈ lo, a < k) ∧ (∀ a ∈ hi, k ≤ a) ∧
      findSubTree.index N node k = some lo.length := by
  obtain ⟨lo, hi, hl, hlo, hhi⟩ := sorted_split_lt k keys hs
  refine ⟨lo, hi, hl, hlo, hhi, ?_⟩
  have hlast := lastChild_spec pids z (by
    intro p hp
    have hne : pids ≠ [] := by
      intro h
      simp [h] at hp
    rw [List.getLast?_eq_getLast _ hne] at hp
    simp only [Option.some.injEq] at hp
    exact hocc p (hp ▸ List.getLast_mem hne))
  unfold findSubTree.index
  rw [hpids, ← hN, hlast, hlen, hkeys]
  subst hl
  simp only [List.length_append]
  rw [findSubTree_descend_spec k lo hi tk hlo hhi]

/-- C20 (counterexample): in the node with the one separator 5 over the children 2 and 3,
`findSubTree` with the probe key 5 reads child slot 0 and selects page 2, the child to the
left of the separator, not the child at index 1. -/
theorem findSubTree_equal_separator_selects_left_child :
    findSubTree.index 2 ⟨1, [5, 0], [2, 3, 0]⟩ 5 = some 0 ∧
      findSubTree 2 ⟨1, [5, 0], [2, 3, 0]⟩ 5 = 2 := by
  decide

/-- C20 (amended): in an internal node whose occupied children are the slots `0 .. m` and
whose keys `0 .. m-1` are non-decreasing, `findSubTree` with a probe key equal to the
separator `key[j]` selects the child at an index `i <= j`: every key before slot `i` is
smaller than the probe key and the keys of the slots `i .. j` all equal it, so the selected
child is the one to the left of the first separator equal to the probe key. -/
theorem findSubTree_equal_separator_goes_left (N : Nat) (node : NonLeafNodeInt)
    (keys tk : List Int) (pids : List Nat) (z j : Nat)
    (hkeys : node.keyArray = keys ++ tk) (hpids : node.pageNoArray = pids ++ List.replicate z 0)
    (hlen : pids.length = keys.length + 1) (hN : pids.length + z = N + 1)
    (hocc : ∀ p ∈ pids, p ≠ 0) (hs : keys.Pairwise (fun a b => a ≤ b))
    (hj : j < keys.length) :
    ∃ i, i ≤ j ∧ (∀ t, t < i → keys.getD t 0 < keys.getD j 0) ∧
      (∀ t, i ≤ t → t ≤ j → keys.getD t 0 = keys.getD j 0) ∧
      findSubTree.index N node (keys.getD j 0) = some i ∧
      findSubTree N node (keys.getD j 0) = pids.getD i 0 := by
  obtain ⟨lo, hi, hl, hlo, hhi, hidx⟩ :=
    findSubTree_index_spec N node keys tk pids z (keys.getD j 0) hkeys hpids hlen hN hocc hs
  subst hl
  have hget : ∀ t, t < lo.length → (lo ++ hi).getD t 0 ∈ lo := by
    intro t ht
    rw [List.getD_eq_getElem?_getD, List.getElem?_append_left ht, List.getElem?_eq_getElem ht]
    exact List.getElem_mem ht
  have hget2 : ∀ t, lo.length ≤ t → t < (lo ++ hi).length → (lo ++ hi).getD t 0 ∈ hi := by
    intro t ht hlt
    have h2 : t - lo.length < hi.length := by
      rw [List.length_append] at hlt
      omega
    rw [List.getD_eq_getElem?_getD, List.getElem?_append_right ht, List.getElem?_eq_getElem h2]
    exact List.getElem_mem h2
  have hij : lo.length ≤ j := by
    by_contra hcon
    have := hlo _ (hget j (by omega))
    omega
  refine ⟨lo.length, hij, ?_, ?_, hidx, ?_⟩
  · intro t ht
    exact hlo _ (hget t ht)
  · intro t h1 h2
    have hge := hhi _ (hget2 t h1 (by omega))
    have hle : (lo ++ hi).getD t 0 ≤ (lo ++ hi).getD j 0 := by
      rcases Nat.lt_or_ge t j with h3 | h3
      · have h4 : t < (lo ++ hi).length := by omega
        rw [List.getD_eq_getElem?_getD, List.getD_eq_getElem?_getD,
          List.getElem?_eq_getElem h4, List.getElem?_eq_getElem hj]
        exact List.pairwise_iff_getElem.mp hs t j h4 hj h3
      · have : t = j := by omega
        subst this
        exact Int.le_refl _
    omega
  · unfold findSubTree
    rw [hidx, hpids]
    simp only [List.getD_eq_getElem?_getD]
    rw [List.getElem?_append_left (by omega)]

/-- Witness of C20 (amended): the node with the keys 5, 5 over the children 2, 3, 4 and the
probe key `key[1] = 5`. -/
theorem findSubTree_equal_separator_goes_left_witness :
    ∃ i, i ≤ 1 ∧ (∀ t, t < i → ([5, 5] : List Int).getD t 0 < ([5, 5] : List Int).getD 1 0) ∧
      (∀ t, i ≤ t → t ≤ 1 → ([5, 5] : List Int).getD t 0 = ([5, 5] : List Int).getD 1 0) ∧
      findSubTree.index 3 ⟨1, [5, 5, 0], [2, 3, 4, 0]⟩ (([5, 5] : List Int).getD 1 0) = some i ∧
      findSubTree 3 ⟨1, [5, 5, 0], [2, 3, 4, 0]⟩ (([5, 5] : List Int).getD 1 0) =
        ([2, 3, 4] : List Nat).getD i 0 :=
  findSubTree_equal_separator_goes_left 3 ⟨1, [5, 5, 0], [2, 3, 4, 0]⟩ [5, 5] [0] [2, 3, 4] 1 1
    rfl rfl rfl rfl (by decide) (by decide) (by decide)

/-! ## Failing inputs around internal splits and scan sessions -/

/-- C12 (failing input): with `leafOccupancy = nodeOccupancy = 2`, after inserting the keys
1, 2, 3, 4, 5 the root is page 8 and the pages reached from it over occupied child page ids
are 8, 4, 2, 5, 7, 6; the leaf at page 3 holds the entry of key 2 and is not among them. -/
theorem leaf_unreachable_after_internal_split :
    (BTreeIndex.build 8 2 2
        [(1, ⟨1, 0⟩), (2, ⟨1, 1⟩), (3, ⟨1, 2⟩), (4, ⟨1, 3⟩), (5, ⟨1, 4⟩)]).map
      (fun s => (s.rootPageNum, reachablePages 8 s.rootPageNum s)) =
      some (8, [8, 4, 2, 5, 7, 6]) ∧
    (BTreeIndex.build 8 2 2
        [(1, ⟨1, 0⟩), (2, ⟨1, 1⟩), (3, ⟨1, 2⟩), (4, ⟨1, 3⟩), (5, ⟨1, 4⟩)]).map
      (fun s => (chainEntries 1 3 s, pageAt 4 s)) =
      some ([(2, ⟨1, 1⟩)], some (Page.nonLeaf ⟨1, [2, 0], [2, 0, 5]⟩)) := by
  decide!

/-- C13 (failing input): with `leafOccupancy = nodeOccupancy = 2`, the five `insertEntry`
calls with the distinct keys 2, 5, 1, 3, 4 all return; the full-range scan that follows
(`>=` smallest int, `<=` largest int) ends in `startScan` with the buffer manager's
`InvalidPageException` and hands out no record id, although the five entries are stored
in the leaves. -/
theorem full_scan_after_internal_split_emits_nothing :
    (BTreeIndex.build 8 2 2
        [(2, ⟨1, 0⟩), (5, ⟨1, 1⟩), (1, ⟨1, 2⟩), (3, ⟨1, 3⟩), (4, ⟨1, 4⟩)]).map
      (fun s =>
        (chainEntries 8 s.initRootPageNo s,
          (runScan 8 (-2147483648) Operator.GTE 2147483647 Operator.LTE s).1.thrown,
          (runScan 8 (-2147483648) Operator.GTE 2147483647 Operator.LTE s).2)) =
      some ([(1, ⟨1, 2⟩), (2, ⟨1, 0⟩), (3, ⟨1, 3⟩), (4, ⟨1, 4⟩), (5, ⟨1, 1⟩)],
        some Exn.InvalidPage, []) := by
  decide!

/-- C14 (failing input): with `leafOccupancy = nodeOccupancy = 2`, after inserting the keys
2, 5, 1, 3, 4 the internal node at page 4 has the child slots 0, 5, 6: slot 0 is vacant and
the slots behind it are occupied.  For the key 0 `findSubTree` selects page 4 in the root
and slot 0 of page 4, page id 0; `insertEntry` of key 0 and `startScan (>= 0, <= 9)` both descend into it and end
with the `InvalidPageException` of `readPage` for page 0. -/
theorem descent_selects_vacant_child_slot :
    (BTreeIndex.build 8 2 2
        [(2, ⟨1, 0⟩), (5, ⟨1, 1⟩), (1, ⟨1, 2⟩), (3, ⟨1, 3⟩), (4, ⟨1, 4⟩)]).map
      (fun s =>
        (pageAt s.rootPageNum s, pageAt 4 s,
          (insertEntry 8 0 ⟨1, 5⟩ s).thrown,
          (startScan 8 0 Operator.GTE 9 Operator.LTE s).thrown)) =
      some (some (Page.nonLeaf ⟨0, [2, 0], [4, 7, 0]⟩),
        some (Page.nonLeaf ⟨1, [0, 3], [0, 5, 6]⟩),
        some Exn.InvalidPage, some Exn.InvalidPage) ∧
    findSubTree.index 2 ⟨0, [2, 0], [4, 7, 0]⟩ 0 = some 0 ∧
    findSubTree 2 ⟨0, [2, 0], [4, 7, 0]⟩ 0 = 4 ∧
    findSubTree.index 2 ⟨1, [0, 3], [0, 5, 6]⟩ 0 = some 0 ∧
    findSubTree 2 ⟨1, [0, 3], [0, 5, 6]⟩ 0 = 0 := by
  decide!

/-- C16 (failing input): with `leafOccupancy = nodeOccupancy = 2` and the one stored entry
of key 1, the session `startScan (>= 1, <= 1)`, `scanNext` (returns the record id),
`scanNext` (the leaf chain ends: `IndexScanCompletedException`), `endScan` pins page 2 once
and unpins it twice: the second `scanNext` unpins the leaf before it throws, leaves
`scanExecuting` set, and `endScan` unpins the same page again. -/
theorem scan_session_unpins_leaf_twice :
    (BTreeIndex.build 8 2 2 [(1, ⟨1, 0⟩)]).bind
        (scanSession 8 1 Operator.GTE 1 Operator.LTE 2) =
      some [BufCall.readPage 2, BufCall.unPinPage 2 false, BufCall.unPinPage 2 false] ∧
    netPins 2 [BufCall.readPage 2, BufCall.unPinPage 2 false, BufCall.unPinPage 2 false] =
      -1 ∧
    ((BTreeIndex.build 8 2 2 [(1, ⟨1, 0⟩)]).bind fun s =>
        (startScan 8 1 Operator.GTE 1 Operator.LTE s).state.bind fun s1 =>
          (scanNext s1).state.map fun s2 =>
            ((scanNext s2).thrown, (scanNext s2).endState.map fun s3 => s3.scanExecuting)) =
      some (some Exn.IndexScanCompleted, some true) := by
  decide!

/-! ## Pin balance of `insertEntry` -/

theorem netPins_cons (p : Nat) (c : BufCall) (d : List BufCall) :
    netPins p (c :: d) = pinChange p c + netPins p d := by
  simp [netPins]

theorem netPins_append (p : Nat) (a b : List BufCall) :
    netPins p (a ++ b) = netPins p a + netPins p b := by
  simp [netPins]

theorem NoOverUnpin_append (h : Nat → Int) (a b : List BufCall) :
    NoOverUnpin h (a ++ b) ↔ NoOverUnpin h a ∧ NoOverUnpin (fun p => h p + netPins p a) b := by
  induction a generalizing h with
  | nil => simp [NoOverUnpin, netPins]
  | cons c a ih =>
    have hf : (fun p => h p + pinChange p c + netPins p a) =
        fun p => h p + netPins p (c :: a) := by
      funext p
      rw [netPins_cons]
      omega
    rw [List.cons_append]
    constructor
    · rintro ⟨h1, h2⟩
      have h3 := (ih _).mp h2
      rw [hf] at h3
      exact ⟨⟨h1, h3.1⟩, h3.2⟩
    · rintro ⟨⟨h1, h2⟩, h3⟩
      refine ⟨h1, (ih _).mpr ⟨h2, ?_⟩⟩
      rw [hf]
      exact h3

theorem NoOverUnpin_mono (h h' : Nat → Int) (d : List BufCall) (hle : ∀ p, h p ≤ h' p)
    (hd : NoOverUnpin h d) : NoOverUnpin h' d := by
  induction d generalizing h h' with
  | nil => trivial
  | cons c d ih =>
    refine ⟨fun p => ?_, ih _ _ (fun p => ?_) hd.2⟩
    · have := hd.1 p
      have := hle p
      omega
    · have := hle p
      omega

theorem releases_unpin (q : Nat) (b : Bool) : Releases q [BufCall.unPinPage q b] := by
  refine ⟨fun p => ?_, fun p => ?_, trivial⟩
  · simp only [netPins, List.map, pinChange, List.sum_cons, List.sum_nil, eq_comm]
    split <;> simp
  · simp only [pinChange, eq_comm]
    split <;> simp

theorem neutral_read (q : Nat) (d : List BufCall) (hd : Releases q d) :
    Neutral (BufCall.readPage q :: d) := by
  refine ⟨fun p => ?_, fun p => ?_, ?_⟩
  · rw [netPins_cons, hd.1 p]
    simp only [pinChange, eq_comm]
    split <;> simp
  · simp only [pinChange]
    split <;> simp
  · refine NoOverUnpin_mono _ _ _ (fun p => ?_) hd.2
    simp only [pinChange, eq_comm]
    split <;> simp

theorem neutral_alloc (q : Nat) (d : List BufCall) (hd : Releases q d) :
    Neutral (BufCall.allocPage q :: d) := by
  refine ⟨fun p => ?_, fun p => ?_, ?_⟩
  · rw [netPins_cons, hd.1 p]
    simp only [pinChange, eq_comm]
    split <;> simp
  · simp only [pinChange]
    split <;> simp
  · refine NoOverUnpin_mono _ _ _ (fun p => ?_) hd.2
    simp only [pinChange, eq_comm]
    split <;> simp

theorem neutral_append_releases (q : Nat) (a b : List BufCall) (ha : Neutral a)
    (hb : Releases q b) : Releases q (a ++ b) := by
  refine ⟨fun p => ?_, ?_⟩
  · rw [netPins_append, ha.1 p, hb.1 p]
    simp
  · rw [NoOverUnpin_append]
    refine ⟨NoOverUnpin_mono _ _ _ (fun p => ?_) ha.2, ?_⟩
    · split <;> simp
    · have hf : (fun p => (if p = q then (1 : Int) else 0) + netPins p a) =
          fun p => if p = q then 1 else 0 := by
        funext p
        rw [ha.1 p]
        simp
      rw [hf]
      exact hb.2

theorem releases_append_neutral (q : Nat) (a b : List BufCall) (ha : Releases q a)
    (hb : Neutral b) : Releases q (a ++ b) := by
  refine ⟨fun p => ?_, ?_⟩
  · rw [netPins_append, ha.1 p, hb.1 p]
    simp
  · rw [NoOverUnpin_append]
    refine ⟨ha.2, ?_⟩
    have hf : (fun p => (if p = q then (1 : Int) else 0) + netPins p a) = fun _ => 0 := by
      funext p
      rw [ha.1 p]
      split <;> simp
    rw [hf]
    exact hb.2

theorem neutral_nil : Neutral [] :=
  ⟨fun _ => rfl, trivial⟩

/-- The calls of a non-leaf split: the new page is pinned, then the split page and the new
page are released. -/
theorem releases_split (n q : Nat) (b c : Bool) :
    Releases q [BufCall.allocPage n, BufCall.unPinPage q b, BufCall.unPinPage n c] := by
  refine ⟨fun p => ?_, fun p => ?_, fun p => ?_, fun p => ?_, trivial⟩
  · simp only [netPins, List.map, pinChange, List.sum_cons, List.sum_nil, eq_comm]
    split <;> split <;> simp
  · simp only [pinChange, eq_comm]
    split <;> split <;> simp
  · simp only [pinChange, eq_comm]
    split <;> split <;> simp
  · simp only [pinChange, eq_comm]
    split <;> split <;> simp

theorem readPage_ok (p : Nat) (s : BTreeIndex) (u : Unit) (s' : BTreeIndex)
    (h : readPage p s = Res.ok u s') :
    s' = { s with bufLog := s.bufLog ++ [BufCall.readPage p] } := by
  unfold readPage at h
  split at h
  · simp at h
  · simp only [Res.ok.injEq, true_and] at h
    exact h.symm

theorem headerAt_ok (p : Nat) (s : BTreeIndex) (m : IndexMetaInfo) (s' : BTreeIndex)
    (h : headerAt p s = Res.ok m s') : s' = s := by
  unfold headerAt at h
  split at h <;> simp at h <;> exact h.2.symm

theorem updateRoot_pins (prev : Nat) (e : PageKeyPair) (s : BTreeIndex) (u : Unit)
    (s' : BTreeIndex) (h : updateRoot prev e s = Res.ok u s') :
    ∃ d, s'.bufLog = s.bufLog ++ d ∧ Neutral d := by
  unfold updateRoot at h
  simp only at h
  obtain ⟨n, s1, h1, ha⟩ := Res.ok_bind _ _ _ _ h
  clear h
  have := nonLeafAt_ok _ _ _ _ h1
  subst this
  obtain ⟨_, s2, h2, hb⟩ := Res.ok_bind _ _ _ _ ha
  clear ha
  have := readPage_ok _ _ _ _ h2
  subst this
  obtain ⟨m, s3, h3, hc⟩ := Res.ok_bind _ _ _ _ hb
  clear hb
  have := headerAt_ok _ _ _ _ h3
  subst this
  simp only [Res.ok.injEq, true_and] at hc
  subst hc
  refine ⟨[BufCall.allocPage (s.pages.length + 1), BufCall.readPage s.headerPageNum,
    BufCall.unPinPage s.headerPageNum true, BufCall.unPinPage (s.pages.length + 1) true],
    by simp [unPinPage, setPage, allocPage], ?_⟩
  exact neutral_alloc _ _
    (neutral_append_releases _ [_, _] [_] (neutral_read _ _ (releases_unpin _ _))
      (releases_unpin _ _))

theorem splitLeafNode_pins (leaf : LeafNodeInt) (cur : Nat) (e : RIDKeyPair) (s : BTreeIndex)
    (r : Option PageKeyPair) (s' : BTreeIndex) (h : splitLeafNode leaf cur e s = Res.ok r s') :
    ∃ d, s'.bufLog = s.bufLog ++ d ∧ Releases cur d := by
  unfold splitLeafNode at h
  simp only at h
  obtain ⟨n, s1, h1, ha⟩ := Res.ok_bind _ _ _ _ h
  clear h
  have := leafAt_ok _ _ _ _ h1
  subst this
  have hrel : Releases cur [BufCall.allocPage (s.pages.length + 1),
      BufCall.unPinPage (s.pages.length + 1) true, BufCall.unPinPage cur true] :=
    neutral_append_releases _ [_, _] [_] (neutral_alloc _ _ (releases_unpin _ _))
      (releases_unpin _ _)
  split at ha
  · obtain ⟨_, s2, h2, hb⟩ := Res.ok_bind _ _ _ _ ha
    clear ha
    obtain ⟨d, hd, hn⟩ := updateRoot_pins _ _ _ _ _ h2
    simp only [Res.ok.injEq] at hb
    obtain ⟨_, rfl⟩ := hb
    refine ⟨_ ++ d, ?_, releases_append_neutral _ _ _ hrel hn⟩
    rw [hd]
    simp [unPinPage, setPage, allocPage]
  · simp only [Res.ok.injEq] at ha
    obtain ⟨_, rfl⟩ := ha
    exact ⟨_, by simp [unPinPage, setPage, allocPage], hrel⟩

theorem splitNonLeafNode_pins (node : NonLeafNodeInt) (cur : Nat) (e : PageKeyPair)
    (s : BTreeIndex) (r : Option PageKeyPair) (s' : BTreeIndex)
    (h : splitNonLeafNode node cur e s = Res.ok r s') :
    ∃ d, s'.bufLog = s.bufLog ++ d ∧ Releases cur d := by
  unfold splitNonLeafNode at h
  simp only at h
  obtain ⟨n, s1, h1, ha⟩ := Res.ok_bind _ _ _ _ h
  clear h
  have := nonLeafAt_ok _ _ _ _ h1
  subst this
  have hrel := releases_split (s.pages.length + 1) cur true true
  split at ha
  · obtain ⟨_, s2, h2, hb⟩ := Res.ok_bind _ _ _ _ ha
    clear ha
    obtain ⟨d, hd, hn⟩ := updateRoot_pins _ _ _ _ _ h2
    simp only [Res.ok.injEq] at hb
    obtain ⟨_, rfl⟩ := hb
    refine ⟨_ ++ d, ?_, releases_append_neutral _ _ _ hrel hn⟩
    rw [hd]
    simp [unPinPage, setPage, allocPage]
  · simp only [Res.ok.injEq] at ha
    obtain ⟨_, rfl⟩ := ha
    exact ⟨_, by simp [unPinPage, setPage, allocPage], hrel⟩

theorem recInsert_pins (fuel : Nat) (nodeIsLeaf : Bool) (cur : Nat) (e : RIDKeyPair)
    (s : BTreeIndex) (r : Option PageKeyPair) (s' : BTreeIndex)
    (h : recInsert fuel nodeIsLeaf cur e s = Res.ok r s') :
    ∃ d, s'.bufLog = s.bufLog ++ d ∧ Releases cur d := by
  induction fuel generalizing nodeIsLeaf cur s r s' with
  | zero =>
    unfold recInsert at h
    split at h
    · obtain ⟨n, s1, h1, ha⟩ := Res.ok_bind _ _ _ _ h
      obtain ⟨_, s2, h2, hb⟩ := Res.ok_bind _ _ _ _ ha
      simp at hb
    · obtain ⟨leaf, s1, h1, ha⟩ := Res.ok_bind _ _ _ _ h
      clear h
      have := leafAt_ok _ _ _ _ h1
      subst this
      split at ha
      · simp only [Res.ok.injEq] at ha
        obtain ⟨_, rfl⟩ := ha
        exact ⟨[BufCall.unPinPage cur true], by simp [unPinPage, setPage], releases_unpin _ _⟩
      · exact splitLeafNode_pins _ _ _ _ _ _ ha
  | succ fuel ih =>
    unfold recInsert at h
    split at h
    · obtain ⟨node, s1, h1, ha⟩ := Res.ok_bind _ _ _ _ h
      clear h
      have := nonLeafAt_ok _ _ _ _ h1
      subst this
      obtain ⟨_, s2, h2, hb⟩ := Res.ok_bind _ _ _ _ ha
      clear ha
      have := readPage_ok _ _ _ _ h2
      subst this
      simp only at hb
      obtain ⟨nc, s3, h3, hc⟩ := Res.ok_bind _ _ _ _ hb
      clear hb
      obtain ⟨d1, hd1, hr1⟩ := ih _ _ _ _ _ h3
      have hneu := neutral_read _ _ hr1
      simp only at hd1
      cases nc with
      | none =>
        simp only [Res.ok.injEq] at hc
        obtain ⟨_, rfl⟩ := hc
        refine ⟨(_ :: d1) ++ [BufCall.unPinPage cur false], ?_,
          neutral_append_releases _ _ _ hneu (releases_unpin _ _)⟩
        simp [unPinPage, hd1]
      | some pe =>
        simp only at hc
        obtain ⟨node2, s4, h4, hd⟩ := Res.ok_bind _ _ _ _ hc
        clear hc
        have := nonLeafAt_ok _ _ _ _ h4
        subst this
        split at hd
        · simp only [Res.ok.injEq] at hd
          obtain ⟨_, rfl⟩ := hd
          refine ⟨(_ :: d1) ++ [BufCall.unPinPage cur true], ?_,
            neutral_append_releases _ _ _ hneu (releases_unpin _ _)⟩
          simp [unPinPage, setPage, hd1]
        · obtain ⟨d2, hd2, hr2⟩ := splitNonLeafNode_pins _ _ _ _ _ _ hd
          refine ⟨(_ :: d1) ++ d2, ?_, neutral_append_releases _ _ _ hneu hr2⟩
          rw [hd2, hd1]
          simp
    · obtain ⟨leaf, s1, h1, ha⟩ := Res.ok_bind _ _ _ _ h
      clear h
      have := leafAt_ok _ _ _ _ h1
      subst this
      split at ha
      · simp only [Res.ok.injEq] at ha
        obtain ⟨_, rfl⟩ := ha
        exact ⟨[BufCall.unPinPage cur true], by simp [unPinPage, setPage], releases_unpin _ _⟩
      · exact splitLeafNode_pins _ _ _ _ _ _ ha

theorem insertEntry_pins (fuel : Nat) (key : Int) (rid : RecordId) (s : BTreeIndex)
    (u : Unit) (s' : BTreeIndex) (h : insertEntry fuel key rid s = Res.ok u s') :
    ∃ d, s'.bufLog = s.bufLog ++ d ∧ Neutral d := by
  unfold insertEntry at h
  simp only at h
  obtain ⟨_, s1, h1, ha⟩ := Res.ok_bind _ _ _ _ h
  clear h
  have := readPage_ok _ _ _ _ h1
  subst this
  obtain ⟨r, s2, h2, hb⟩ := Res.ok_bind _ _ _ _ ha
  clear ha
  simp only [Res.ok.injEq, true_and] at hb
  subst hb
  obtain ⟨d, hd, hr⟩ := recInsert_pins _ _ _ _ _ _ _ h2
  exact ⟨_ :: d, by simp [hd], neutral_read _ _ hr⟩

theorem Res.eq_ok_of_isSome (r : Res Unit) (s0 : BTreeIndex) (h : r.state.isSome = true) :
    r = Res.ok () (r.state.getD s0) := by
  cases r <;> simp [Res.state] at h ⊢

/-- C15: when `insertEntry` returns, the buffer-manager calls it made are appended to the
log, every page is unpinned in them exactly as often as it is pinned (`readPage` or
`allocPage`), so the pin counts are those before the call, and no call of them unpins a
page whose pin count, counted from the start of `insertEntry`, is zero.  This holds for
every state of the index, every entry and every recursion depth. -/
theorem insertEntry_pin_balance (fuel : Nat) (key : Int) (rid : RecordId) (s s' : BTreeIndex)
    (h : insertEntry fuel key rid s = Res.ok () s') :
    ∃ d, s'.bufLog = s.bufLog ++ d ∧ (∀ p, netPins p d = 0) ∧ NoOverUnpin (fun _ => 0) d :=
  insertEntry_pins fuel key rid s () s' h

/-- Witness of C15: the third insert into a leaf of two slots, which splits the root leaf and
creates a new root. -/
theorem insertEntry_pin_balance_witness :
    ∃ d,
      ((insertEntry 8 3 ⟨1, 2⟩
            ((BTreeIndex.build 8 2 2 [(1, ⟨1, 0⟩), (2, ⟨1, 1⟩)]).getD
              (BTreeIndex.create 2 2 [] 0 Datatype.INTEGER))).state.getD
          (BTreeIndex.create 2 2 [] 0 Datatype.INTEGER)).bufLog =
        ((BTreeIndex.build 8 2 2 [(1, ⟨1, 0⟩), (2, ⟨1, 1⟩)]).getD
            (BTreeIndex.create 2 2 [] 0 Datatype.INTEGER)).bufLog ++ d ∧
      (∀ p, netPins p d = 0) ∧ NoOverUnpin (fun _ => 0) d :=
  insertEntry_pin_balance 8 3 ⟨1, 2⟩ _ _
    (Res.eq_ok_of_isSome _ (BTreeIndex.create 2 2 [] 0 Datatype.INTEGER) (by decide!))

/-! ## The page store -/

theorem pageAt_some_le (p : Nat) (s : BTreeIndex) (x : Page) (h : pageAt p s = some x) :
    1 ≤ p ∧ p ≤ s.pages.length := by
  cases p with
  | zero => simp [pageAt] at h
  | succ n =>
    simp only [pageAt, List.get?_eq_getElem?] at h
    have hn : n < s.pages.length := by
      by_contra hcon
      rw [List.getElem?_eq_none (by omega)] at h
      cases h
    omega

theorem pageAt_setPage_ne (p q : Nat) (x : Page) (s : BTreeIndex) (h : p ≠ q) :
    pageAt p (setPage q x s) = pageAt p s := by
  cases p with
  | zero => rfl
  | succ n =>
    cases q with
    | zero => rfl
    | succ m =>
      simp only [pageAt, setPage, List.get?_eq_getElem?]
      rw [List.getElem?_set_ne (by omega)]

theorem pageAt_allocPage_old (p : Nat) (s : BTreeIndex) (h : p ≤ s.pages.length) :
    pageAt p (allocPage s).2 = pageAt p s := by
  cases p with
  | zero => rfl
  | succ n =>
    simp only [pageAt, allocPage, List.get?_eq_getElem?]
    rw [List.getElem?_append_left (by omega)]

theorem pageAt_allocPage_new (s : BTreeIndex) :
    pageAt (s.pages.length + 1) (allocPage s).2 = some Page.blank := by
  simp [pageAt, allocPage, List.get?_eq_getElem?]

theorem leafAt_kind (p : Nat) (s : BTreeIndex) (n : LeafNodeInt) (s' : BTreeIndex)
    (h : leafAt p s = Res.ok n s') :
    pageAt p s = some (Page.leaf n) ∨ pageAt p s = some Page.blank := by
  unfold leafAt at h
  split at h
  · rename_i m hm
    simp only [Res.ok.injEq] at h
    exact Or.inl (by rw [hm, h.1])
  · rename_i hm
    exact Or.inr hm
  · simp at h

theorem nonLeafAt_kind (p : Nat) (s : BTreeIndex) (n : NonLeafNodeInt) (s' : BTreeIndex)
    (h : nonLeafAt p s = Res.ok n s') :
    pageAt p s = some (Page.nonLeaf n) ∨ pageAt p s = some Page.blank := by
  unfold nonLeafAt at h
  split at h
  · rename_i m hm
    simp only [Res.ok.injEq] at h
    exact Or.inl (by rw [hm, h.1])
  · rename_i hm
    exact Or.inr hm
  · simp at h

/-! ## Properties kept by every outcome of a call -/

theorem Res.Holds.bind {α β : Type} (P : BTreeIndex → Prop) (r : Res α)
    (f : α → BTreeIndex → Res β) (hr : r.Holds P)
    (hf : ∀ a s, r = Res.ok a s → P s → (f a s).Holds P) : (r.bind f).Holds P := by
  cases r with
  | ok a s => exact hf a s rfl hr
  | exn e s => exact hr
  | fault => trivial
  | outOfFuel => trivial

/-- A property that does not look at the log of buffer-manager calls nor at the scan
members is kept by `readPage`. -/
theorem readPage_holds (P : BTreeIndex → Prop) (p : Nat) (s : BTreeIndex) (hs : P s)
    (hlog : ∀ l, P { s with bufLog := l }) : (readPage p s).Holds P := by
  unfold readPage
  split
  · exact hs
  · exact hlog _

theorem leafAt_holds (P : BTreeIndex → Prop) (p : Nat) (s : BTreeIndex) (hs : P s) :
    (leafAt p s).Holds P := by
  unfold leafAt
  split
  · exact hs
  · exact hs
  · trivial

theorem nonLeafAt_holds (P : BTreeIndex → Prop) (p : Nat) (s : BTreeIndex) (hs : P s) :
    (nonLeafAt p s).Holds P := by
  unfold nonLeafAt
  split
  · exact hs
  · exact hs
  · trivial

theorem headerAt_holds (P : BTreeIndex → Prop) (p : Nat) (s : BTreeIndex) (hs : P s) :
    (headerAt p s).Holds P := by
  unfold headerAt
  split
  · exact hs
  · exact hs
  · trivial

theorem headerAt_value (p : Nat) (s : BTreeIndex) (m m' : IndexMetaInfo) (s' : BTreeIndex)
    (hp : pageAt p s = some (Page.header m)) (h : headerAt p s = Res.ok m' s') : m' = m := by
  unfold headerAt at h
  rw [hp] at h
  simp only [Res.ok.injEq] at h
  exact h.1.symm

/-! ## Members and pages under the primitive steps -/

theorem setPage_members (q : Nat) (x : Page) (s : BTreeIndex) :
    (setPage q x s).headerPageNum = s.headerPageNum ∧
    (setPage q x s).rootPageNum = s.rootPageNum ∧
    (setPage q x s).initRootPageNo = s.initRootPageNo ∧
    (setPage q x s).leafOccupancy = s.leafOccupancy ∧
    (setPage q x s).nodeOccupancy = s.nodeOccupancy ∧
    (setPage q x s).bufLog = s.bufLog ∧
    (setPage q x s).pages.length = s.pages.length := by
  refine ⟨rfl, rfl, rfl, rfl, rfl, rfl, ?_⟩
  cases q <;> simp [setPage]

theorem allocPage_members (s : BTreeIndex) :
    (allocPage s).1 = s.pages.length + 1 ∧
    (allocPage s).2.headerPageNum = s.headerPageNum ∧
    (allocPage s).2.rootPageNum = s.rootPageNum ∧
    (allocPage s).2.initRootPageNo = s.initRootPageNo ∧
    (allocPage s).2.leafOccupancy = s.leafOccupancy ∧
    (allocPage s).2.nodeOccupancy = s.nodeOccupancy ∧
    (allocPage s).2.pages.length = s.pages.length + 1 := by
  refine ⟨rfl, rfl, rfl, rfl, rfl, rfl, ?_⟩
  simp [allocPage]

theorem readPage_eq (p : Nat) (s : BTreeIndex) (x : Page) (h : pageAt p s = some x) :
    readPage p s = Res.ok () { s with bufLog := s.bufLog ++ [BufCall.readPage p] } := by
  unfold readPage
  rw [h]

theorem nonLeafAt_new (s : BTreeIndex) :
    nonLeafAt (s.pages.length + 1) (allocPage s).2 =
      Res.ok (zeroNonLeaf s.nodeOccupancy) (allocPage s).2 := by
  unfold nonLeafAt
  rw [pageAt_allocPage_new]
  rfl

theorem leafAt_new (s : BTreeIndex) :
    leafAt (s.pages.length + 1) (allocPage s).2 =
      Res.ok (zeroLeaf s.leafOccupancy) (allocPage s).2 := by
  unfold leafAt
  rw [pageAt_allocPage_new]
  rfl

/-- The root node written by `updateRoot` into the new, zero-filled page. -/
theorem updateRoot_eq (prev : Nat) (e : PageKeyPair) (s : BTreeIndex) (m : IndexMetaInfo)
    (hm : pageAt s.headerPageNum s = some (Page.header m)) :
    updateRoot prev e s =
      Res.ok ()
        { s with
          pages :=
            (setPage s.headerPageNum
              (Page.header { m with rootPageNo := s.pages.length + 1 })
              { s with
                pages := s.pages ++
                  [Page.nonLeaf
                    { level := if s.initRootPageNo = s.rootPageNum then 1 else 0
                      keyArray := (List.replicate s.nodeOccupancy 0).set 0 e.key
                      pageNoArray :=
                        ((List.replicate (s.nodeOccupancy + 1) 0).set 0 prev).set 1
                          e.pageNo }] }).pages
          bufLog := s.bufLog ++
            [BufCall.allocPage (s.pages.length + 1), BufCall.readPage s.headerPageNum,
              BufCall.unPinPage s.headerPageNum true,
              BufCall.unPinPage (s.pages.length + 1) true]
          rootPageNum := s.pages.length + 1 } := by
  have hle := pageAt_some_le _ _ _ hm
  obtain ⟨q, hq⟩ : ∃ q, s.headerPageNum = q + 1 := ⟨s.headerPageNum - 1, by omega⟩
  rw [hq] at hm hle ⊢
  simp only [pageAt, List.get?_eq_getElem?] at hm
  have hlt : q < s.pages.length := by omega
  have hne : ¬ q = s.pages.length := by omega
  unfold updateRoot nonLeafAt
  simp [allocPage, pageAt, setPage, readPage, headerAt, unPinPage, Res.bind, hq, hm, hlt, hne,
    List.getElem?_append_left, List.getElem?_set, zeroNonLeaf]

/-! ## Properties kept by every outcome of `insertEntry` -/

theorem insertNonLeafNode_shift_level (key : Int) (i : Nat) (n : NonLeafNodeInt) :
    (insertNonLeafNode.shift key i n).2.level = n.level := by
  induction i generalizing n with
  | zero => rfl
  | succ i ih =>
    unfold insertNonLeafNode.shift
    split
    · rw [ih]
    · rfl

theorem insertNonLeafNode_level (N : Nat) (n : NonLeafNodeInt) (e : PageKeyPair) :
    (insertNonLeafNode N n e).level = n.level := by
  unfold insertNonLeafNode
  split
  · rfl
  · exact insertNonLeafNode_shift_level _ _ _

theorem splitNonLeafNode_move_level (mid n i : Nat) (st : NonLeafNodeInt × NonLeafNodeInt) :
    (splitNonLeafNode.move mid n i st).1.level = st.1.level := by
  induction n generalizing i st with
  | zero => rfl
  | succ n ih =>
    unfold splitNonLeafNode.move
    rw [ih]

theorem splitNonLeafNode_nodes_level (N : Nat) (prev new : NonLeafNodeInt) (e : PageKeyPair) :
    (splitNonLeafNode.nodes N prev new e).1.level = prev.level := by
  unfold splitNonLeafNode.nodes
  simp only
  split
  · rw [insertNonLeafNode_level]
    exact splitNonLeafNode_move_level _ _ _ _
  · exact splitNonLeafNode_move_level _ _ _ _

theorem StepClosed.unPinPage {P : BTreeIndex → Prop} (hP : StepClosed P) (s : BTreeIndex)
    (q : Nat) (b : Bool) (hs : P s) : P (unPinPage q b s) :=
  hP.log s _ hs

theorem StepClosed.readPage {P : BTreeIndex → Prop} (hP : StepClosed P) (s : BTreeIndex)
    (p : Nat) (hs : P s) : (readPage p s).Holds P :=
  readPage_holds P p s hs (fun l => hP.log s l hs)

theorem leafAt_kind' (p : Nat) (s : BTreeIndex) (n : LeafNodeInt) (s' : BTreeIndex)
    (h : leafAt p s = Res.ok n s') :
    pageAt p s = some Page.blank ∨ ∃ m, pageAt p s = some (Page.leaf m) := by
  rcases leafAt_kind _ _ _ _ h with hk | hk
  · exact Or.inr ⟨n, hk⟩
  · exact Or.inl hk

theorem nonLeafAt_kind' (p : Nat) (s : BTreeIndex) (n : NonLeafNodeInt) (s' : BTreeIndex)
    (x : NonLeafNodeInt) (hx : x.level = n.level) (h : nonLeafAt p s = Res.ok n s') :
    pageAt p s = some Page.blank ∨
      ∃ m, pageAt p s = some (Page.nonLeaf m) ∧ x.level = m.level := by
  rcases nonLeafAt_kind _ _ _ _ h with hk | hk
  · exact Or.inr ⟨n, hk, hx⟩
  · exact Or.inl hk

theorem splitLeafNode_closed {P : BTreeIndex → Prop} (hP : StepClosed P) (leaf : LeafNodeInt)
    (cur : Nat) (e : RIDKeyPair) (s : BTreeIndex) (hs : P s)
    (hk : pageAt cur s = some Page.blank ∨ ∃ m, pageAt cur s = some (Page.leaf m)) :
    (splitLeafNode leaf cur e s).Holds P := by
  have hcur : cur ≤ s.pages.length := by
    rcases hk with hk | ⟨m, hk⟩ <;> exact (pageAt_some_le _ _ _ hk).2
  unfold splitLeafNode
  simp only [(allocPage_members s).1, leafAt_new, Res.bind]
  have h1 := hP.leaf (allocPage s).2 cur
    (splitLeafNode.nodes (allocPage s).2.leafOccupancy leaf (zeroLeaf s.leafOccupancy)
      (s.pages.length + 1) e).1 (hP.alloc s hs)
    (by rw [pageAt_allocPage_old _ _ hcur]; exact hk)
  have h2 := hP.leaf _ (s.pages.length + 1)
    (splitLeafNode.nodes (allocPage s).2.leafOccupancy leaf (zeroLeaf s.leafOccupancy)
      (s.pages.length + 1) e).2 h1
    (Or.inl (by
      rw [pageAt_setPage_ne _ _ _ _ (by omega)]
      exact pageAt_allocPage_new s))
  have h3 := hP.unPinPage _ cur true (hP.unPinPage _ (s.pages.length + 1) true h2)
  split
  · exact Res.Holds.bind _ _ _ (hP.root _ _ _ h3) (fun _ _ _ h => h)
  · exact h3

theorem splitNonLeafNode_closed {P : BTreeIndex → Prop} (hP : StepClosed P)
    (node : NonLeafNodeInt) (cur : Nat) (e : PageKeyPair) (s : BTreeIndex) (hs : P s)
    (hk : pageAt cur s = some Page.blank ∨
      ∃ m, pageAt cur s = some (Page.nonLeaf m) ∧ node.level = m.level) :
    (splitNonLeafNode node cur e s).Holds P := by
  have hcur : cur ≤ s.pages.length := by
    rcases hk with hk | ⟨m, hk, _⟩ <;> exact (pageAt_some_le _ _ _ hk).2
  unfold splitNonLeafNode
  simp only [(allocPage_members s).1, nonLeafAt_new, Res.bind]
  have h1 := hP.nonLeaf (allocPage s).2 cur
    (splitNonLeafNode.nodes (allocPage s).2.nodeOccupancy node (zeroNonLeaf s.nodeOccupancy)
      e).1 (hP.alloc s hs)
    (by
      rw [pageAt_allocPage_old _ _ hcur, splitNonLeafNode_nodes_level]
      exact hk)
  have h2 := hP.nonLeaf _ (s.pages.length + 1)
    (splitNonLeafNode.nodes (allocPage s).2.nodeOccupancy node (zeroNonLeaf s.nodeOccupancy)
      e).2 h1
    (Or.inl (by
      rw [pageAt_setPage_ne _ _ _ _ (by omega)]
      exact pageAt_allocPage_new s))
  have h3 := hP.unPinPage _ (s.pages.length + 1) true (hP.unPinPage _ cur true h2)
  split
  · exact Res.Holds.bind _ _ _ (hP.root _ _ _ h3) (fun _ _ _ h => h)
  · exact h3

theorem recInsert_closed {P : BTreeIndex → Prop} (hP : StepClosed P) (fuel : Nat)
    (nodeIsLeaf : Bool) (cur : Nat) (e : RIDKeyPair) (s : BTreeIndex) (hs : P s) :
    (recInsert fuel nodeIsLeaf cur e s).Holds P := by
  have hleaf : ∀ cur s, P s → ((leafAt cur s).bind fun leaf s =>
      if (leaf.ridArray.getD (s.leafOccupancy - 1) default).page_number = 0 then
        let s := setPage cur (Page.leaf (insertLeafNode s.leafOccupancy leaf e)) s
        Res.ok none (unPinPage cur true s)
      else splitLeafNode leaf cur e s).Holds P := by
    intro cur s hs
    refine Res.Holds.bind _ _ _ (leafAt_holds _ _ _ hs) ?_
    intro leaf s1 h1 hs1
    have := leafAt_ok _ _ _ _ h1
    subst this
    split
    · exact hP.unPinPage _ _ _ (hP.leaf _ _ _ hs1 (leafAt_kind' _ _ _ _ h1))
    · exact splitLeafNode_closed hP _ _ _ _ hs1 (leafAt_kind' _ _ _ _ h1)
  induction fuel generalizing nodeIsLeaf cur s with
  | zero =>
    unfold recInsert
    split
    · refine Res.Holds.bind _ _ _ (nonLeafAt_holds _ _ _ hs) ?_
      intro node s1 h1 hs1
      refine Res.Holds.bind _ _ _ (hP.readPage _ _ hs1) ?_
      intro _ s2 h2 hs2
      trivial
    · exact hleaf cur s hs
  | succ fuel ih =>
    unfold recInsert
    split
    · refine Res.Holds.bind _ _ _ (nonLeafAt_holds _ _ _ hs) ?_
      intro node s1 h1 hs1
      refine Res.Holds.bind _ _ _ (hP.readPage _ _ hs1) ?_
      intro _ s2 h2 hs2
      simp only
      refine Res.Holds.bind _ _ _ (ih _ _ _ hs2) ?_
      intro nc s3 h3 hs3
      cases nc with
      | none => exact hP.unPinPage _ _ _ hs3
      | some pe =>
        simp only
        refine Res.Holds.bind _ _ _ (nonLeafAt_holds _ _ _ hs3) ?_
        intro node2 s4 h4 hs4
        have := nonLeafAt_ok _ _ _ _ h4
        subst this
        split
        · exact hP.unPinPage _ _ _
            (hP.nonLeaf _ _ _ hs4
              (nonLeafAt_kind' _ _ _ _ _ (insertNonLeafNode_level _ _ _) h4))
        · exact splitNonLeafNode_closed hP _ _ _ _ hs4 (nonLeafAt_kind' _ _ _ _ _ rfl h4)
    · exact hleaf cur s hs

theorem insertEntry_closed {P : BTreeIndex → Prop} (hP : StepClosed P) (fuel : Nat)
    (key : Int) (rid : RecordId) (s : BTreeIndex) (hs : P s) :
    (insertEntry fuel key rid s).Holds P := by
  unfold insertEntry
  simp only
  refine Res.Holds.bind _ _ _ (hP.readPage _ _ hs) ?_
  intro _ s1 h1 hs1
  refine Res.Holds.bind _ _ _ (recInsert_closed hP _ _ _ _ _ hs1) ?_
  intro _ s2 _ hs2
  exact hs2

theorem SameFile.refl (s : BTreeIndex) : SameFile s s :=
  ⟨rfl, rfl, rfl, rfl, rfl, rfl⟩

theorem currentLeaf_holds (P : BTreeIndex → Prop) (s : BTreeIndex) (hs : P s) :
    (currentLeaf s).Holds P := by
  unfold currentLeaf
  split
  · trivial
  · exact leafAt_holds _ _ _ hs

theorem currentNonLeaf_holds (P : BTreeIndex → Prop) (s : BTreeIndex) (hs : P s) :
    (currentNonLeaf s).Holds P := by
  unfold currentNonLeaf
  split
  · trivial
  · exact nonLeafAt_holds _ _ _ hs

theorem readCurrent_sameFile (s0 : BTreeIndex) (p : Nat) (s : BTreeIndex)
    (hs : SameFile s0 s) : (readCurrent p s).Holds (SameFile s0) := by
  unfold readCurrent readPage
  split
  · exact hs
  · exact hs

theorem endScan_sameFile (s0 s : BTreeIndex) (hs : SameFile s0 s) :
    (endScan s).Holds (SameFile s0) := by
  unfold endScan
  split
  · exact hs
  · exact hs

theorem startScan_descend_sameFile (s0 : BTreeIndex) (fuel : Nat) (s : BTreeIndex)
    (hs : SameFile s0 s) : (startScan.descend fuel s).Holds (SameFile s0) := by
  induction fuel generalizing s with
  | zero => trivial
  | succ fuel ih =>
    unfold startScan.descend
    refine Res.Holds.bind _ _ _ (currentNonLeaf_holds _ _ hs) ?_
    intro node s1 _ hs1
    refine Res.Holds.bind _ _ _ (readCurrent_sameFile _ _ _ hs1) ?_
    intro _ s2 _ hs2
    split
    · exact hs2
    · exact ih s2 hs2

theorem startScan_slots_sameFile (s0 : BTreeIndex) (curNode : LeafNodeInt) (n i : Nat)
    (s : BTreeIndex) (hs : SameFile s0 s) :
    (startScan.slots curNode n i s).Holds (SameFile s0) := by
  induction n generalizing i s with
  | zero => exact hs
  | succ n ih =>
    unfold startScan.slots
    simp only
    split
    · exact hs
    · split
      · exact hs
      · split
        · split
          · exact hs
          · refine Res.Holds.bind _ _ _ (readCurrent_sameFile _ _ _ hs) ?_
            intro _ s2 _ hs2
            split
            · exact hs2
            · exact ih _ s2 hs2
        · exact ih _ s hs

theorem startScan_leaves_sameFile (s0 : BTreeIndex) (fuel : Nat) (s : BTreeIndex)
    (hs : SameFile s0 s) : (startScan.leaves fuel s).Holds (SameFile s0) := by
  induction fuel generalizing s with
  | zero => trivial
  | succ fuel ih =>
    unfold startScan.leaves
    refine Res.Holds.bind _ _ _ (currentLeaf_holds _ _ hs) ?_
    intro node s1 _ hs1
    split
    · exact hs1
    · refine Res.Holds.bind _ _ _ (startScan_slots_sameFile _ _ _ _ _ hs1) ?_
      intro b s2 _ hs2
      split
      · exact hs2
      · exact ih s2 hs2

theorem startScan_sameFile (fuel : Nat) (lo : Int) (lop : Operator) (hi : Int)
    (hop : Operator) (s : BTreeIndex) :
    (startScan fuel lo lop hi hop s).Holds (SameFile s) := by
  unfold startScan
  simp only
  split
  · exact SameFile.refl s
  · split
    · exact SameFile.refl s
    · unfold startScan.position
      refine Res.Holds.bind _ _ _ ?_ ?_
      · split
        · exact endScan_sameFile _ _ (SameFile.refl s)
        · exact SameFile.refl s
      · intro _ s1 _ hs1
        refine Res.Holds.bind _ _ _ (readCurrent_sameFile _ _ _ hs1) ?_
        intro _ s2 _ hs2
        refine Res.Holds.bind _ _ _ ?_ ?_
        · split
          · exact startScan_descend_sameFile _ _ _ hs2
          · exact hs2
        · intro _ s3 _ hs3
          exact startScan_leaves_sameFile _ _ _ hs3

theorem scanNext_sameFile (s : BTreeIndex) : (scanNext s).Holds (SameFile s) := by
  unfold scanNext
  split
  · exact SameFile.refl s
  · refine Res.Holds.bind _ _ _ (currentLeaf_holds _ _ (SameFile.refl s)) ?_
    intro node s1 _ hs1
    refine Res.Holds.bind _ _ _ ?_ ?_
    · split
      · simp only
        split
        · exact hs1
        · refine Res.Holds.bind _ _ _ (readCurrent_sameFile _ _ _ hs1) ?_
          intro _ s2 _ hs2
          refine Res.Holds.bind _ _ _ (currentLeaf_holds _ _ hs2) ?_
          intro _ s3 _ hs3
          exact hs3
      · exact hs1
    · intro node2 s2 _ hs2
      simp only
      split
      · exact hs2
      · exact hs2

/-! ## Header consistency -/

theorem pageAt_congr (p : Nat) (s s' : BTreeIndex) (h : s'.pages = s.pages) :
    pageAt p s' = pageAt p s := by
  cases p with
  | zero => rfl
  | succ q => simp only [pageAt, h]

/-- C18 (failing input): an index with `leafOccupancy = nodeOccupancy = 2` is created for
the relation `r`, one entry of key 1 is inserted and the scan `(>= 1, <= 1)` hands out its
record id; the tree is the root leaf, page 2, and `initRootPageNo = rootPageNum`.  The
index is destructed and constructed again over the same file by an object whose members
were zero: the open path sets `rootPageNum = 2` and leaves `initRootPageNo` at 0, so the
test `initRootPageNo != rootPageNum` of `startScan` now takes the root for an internal
node, and the same `startScan` casts the leaf page, which still holds the entry, to
`NonLeafNodeInt`. -/
theorem reopened_index_takes_root_leaf_for_internal :
    ((BTreeIndex.construct 8 2 2 BTreeIndex.zeroed [] [] ['r'] 0 Datatype.INTEGER).bind
        fun _ s => insertEntry 8 1 ⟨1, 0⟩ s).state.map
      (fun s => (s.rootPageNum, s.initRootPageNo)) = some (2, 2) ∧
    ((BTreeIndex.construct 8 2 2 BTreeIndex.zeroed [] [] ['r'] 0 Datatype.INTEGER).bind
        fun _ s => insertEntry 8 1 ⟨1, 0⟩ s).state.map
      (fun s =>
        (chainEntries 1 s.rootPageNum s, (runScan 8 1 Operator.GTE 1 Operator.LTE s).2)) =
      some ([(1, ⟨1, 0⟩)], [⟨1, 0⟩]) ∧
    (((BTreeIndex.construct 8 2 2 BTreeIndex.zeroed [] [] ['r'] 0 Datatype.INTEGER).bind
        fun _ s => insertEntry 8 1 ⟨1, 0⟩ s).state.bind fun s =>
      (BTreeIndex.construct 8 2 2 BTreeIndex.zeroed (closeFile [] (indexName ['r'] 0) s) []
        ['r'] 0 Datatype.INTEGER).state.map
        (fun s2 => (s2.rootPageNum, s2.initRootPageNo))) = some (2, 0) ∧
    (((BTreeIndex.construct 8 2 2 BTreeIndex.zeroed [] [] ['r'] 0 Datatype.INTEGER).bind
        fun _ s => insertEntry 8 1 ⟨1, 0⟩ s).state.bind fun s =>
      (BTreeIndex.construct 8 2 2 BTreeIndex.zeroed (closeFile [] (indexName ['r'] 0) s) []
        ['r'] 0 Datatype.INTEGER).state.map
        (fun s2 =>
          (chainEntries 1 s2.rootPageNum s2,
            decide (startScan 8 1 Operator.GTE 1 Operator.LTE s2 = Res.fault)))) =
      some ([(1, ⟨1, 0⟩)], true) := by
  decide!

/-- C30: when `startScan` throws `BadOpcodesException` or `BadScanrangeException`, the state
it leaves is the state before the call with `lowValInt` and `highValInt` overwritten by
the rejected arguments: `scanExecuting`, the current page id and data, `nextEntry`, the
stored operators, the pages and the log of buffer-manager calls (hence every pin count)
are those before the call. -/
theorem startScan_rejected_state (fuel : Nat) (lowVal : Int) (lowOp : Operator)
    (highVal : Int) (highOp : Operator) (s : BTreeIndex) (e : Exn)
    (h : (startScan fuel lowVal lowOp highVal highOp s).thrown = some e)
    (he : e = Exn.BadOpcodes ∨ e = Exn.BadScanrange) :
    startScan fuel lowVal lowOp highVal highOp s =
      Res.exn e
        { pages := s.pages
          bufLog := s.bufLog
          headerPageNum := s.headerPageNum
          rootPageNum := s.rootPageNum
          initRootPageNo := s.initRootPageNo
          leafOccupancy := s.leafOccupancy
          nodeOccupancy := s.nodeOccupancy
          scanExecuting := s.scanExecuting
          nextEntry := s.nextEntry
          currentPageNum := s.currentPageNum
          currentPageData := s.currentPageData
          lowValInt := lowVal
          highValInt := highVal
          lowOp := s.lowOp
          highOp := s.highOp } := by
  unfold startScan at h ⊢
  simp only at h ⊢
  split
  · rename_i h1
    rw [if_pos h1] at h
    simp only [Res.thrown, Option.some.injEq] at h
    rw [h]
  · rename_i h1
    rw [if_neg h1] at h
    split
    · rename_i h2
      rw [if_pos h2] at h
      simp only [Res.thrown, Option.some.injEq] at h
      rw [h]
    · rename_i h2
      rw [if_neg h2] at h
      rcases startScan_position_thrown _ _ _ h with h3 | h3 <;>
        rcases he with h4 | h4 <;> rw [h3] at h4 <;> cases h4

/-- Witness of C30: a new index with the rejected range `(5, GT, 3, LTE)`. -/
theorem startScan_rejected_state_witness :
    startScan 1 5 Operator.GT 3 Operator.LTE (BTreeIndex.create 2 2 [] 0 Datatype.INTEGER) =
      Res.exn Exn.BadScanrange
        { pages := (BTreeIndex.create 2 2 [] 0 Datatype.INTEGER).pages
          bufLog := (BTreeIndex.create 2 2 [] 0 Datatype.INTEGER).bufLog
          headerPageNum := 1
          rootPageNum := 2
          initRootPageNo := 2
          leafOccupancy := 2
          nodeOccupancy := 2
          scanExecuting := false
          nextEntry := 0
          currentPageNum := 0
          currentPageData := none
          lowValInt := 5
          highValInt := 3
          lowOp := Operator.GTE
          highOp := Operator.LTE } :=
  startScan_rejected_state 1 5 Operator.GT 3 Operator.LTE
    (BTreeIndex.create 2 2 [] 0 Datatype.INTEGER) Exn.BadScanrange rfl (Or.inr rfl)

/-! ## Root growth -/

/-- The state `updateRoot` returns in, on a state whose header page is a header. -/
theorem updateRoot_spec (prevPageId : Nat) (newChildEntry : PageKeyPair)
    (s : BTreeIndex) (metaInfo : IndexMetaInfo) (hN : 1 ≤ s.nodeOccupancy)
    (hm : pageAt s.headerPageNum s = some (Page.header metaInfo)) :
    ∃ s', updateRoot prevPageId newChildEntry s = Res.ok () s' ∧
      s'.pages.length = s.pages.length + 1 ∧
      pageAt (s.pages.length + 1) s' =
        some (Page.nonLeaf
          { level := if s.initRootPageNo = s.rootPageNum then 1 else 0
            keyArray := newChildEntry.key :: List.replicate (s.nodeOccupancy - 1) 0
            pageNoArray :=
              prevPageId :: newChildEntry.pageNo :: List.replicate (s.nodeOccupancy - 1) 0 }) ∧
      pageAt s.headerPageNum s' =
        some (Page.header { metaInfo with rootPageNo := s.pages.length + 1 }) ∧
      s'.rootPageNum = s.pages.length + 1 ∧ s'.initRootPageNo = s.initRootPageNo ∧
      s'.headerPageNum = s.headerPageNum ∧
      (∀ q, q ≠ s.headerPageNum → q ≤ s.pages.length → pageAt q s' = pageAt q s) := by
  rw [updateRoot_eq prevPageId newChildEntry s metaInfo hm]
  have hle := pageAt_some_le _ _ _ hm
  obtain ⟨q, hq⟩ : ∃ q, s.headerPageNum = q + 1 := ⟨s.headerPageNum - 1, by omega⟩
  obtain ⟨n, hn⟩ : ∃ n, s.nodeOccupancy = n + 1 := ⟨s.nodeOccupancy - 1, by omega⟩
  have hqlt : q < s.pages.length := by omega
  refine ⟨_, rfl, ?_, ?_, ?_, rfl, rfl, rfl, ?_⟩
  · simp [setPage, hq]
  · simp only [pageAt, setPage, hq, List.get?_eq_getElem?, hn]
    rw [List.getElem?_set_ne (by omega), List.getElem?_append_right (by omega)]
    simp [List.replicate_succ]
  · simp only [pageAt, setPage, hq, List.get?_eq_getElem?]
    rw [List.getElem?_set_self (by simp; omega)]
  · intro p hp hple
    cases p with
    | zero => rfl
    | succ p =>
      simp only [pageAt, setPage, hq, List.get?_eq_getElem?]
      rw [List.getElem?_set_ne (by omega), List.getElem?_append_left (by omega)]

/-- C28: on a state whose header page is a header (`metaInfo`) and with at least one key
slot per internal node, `updateRoot prevPageId (sep, newPage)` returns; it appends one page
to the file, the internal node with `pageNoArray[0] = prevPageId`,
`pageNoArray[1] = newPage`, `keyArray[0] = sep`, every other slot zero, and `level = 1` if
`initRootPageNo = rootPageNum` on entry, `level = 0` otherwise; afterwards the header holds
the id of that page as `rootPageNo` (its other fields are kept), `rootPageNum` is that id,
`initRootPageNo` and `headerPageNum` are unchanged, and so is every other page. -/
theorem updateRoot_grows_root (prevPageId : Nat) (newChildEntry : PageKeyPair)
    (s : BTreeIndex) (metaInfo : IndexMetaInfo) (hN : 1 ≤ s.nodeOccupancy)
    (hm : pageAt s.headerPageNum s = some (Page.header metaInfo)) :
    ∃ s', updateRoot prevPageId newChildEntry s = Res.ok () s' ∧
      s'.pages.length = s.pages.length + 1 ∧
      pageAt (s.pages.length + 1) s' =
        some (Page.nonLeaf
          { level := if s.initRootPageNo = s.rootPageNum then 1 else 0
            keyArray := newChildEntry.key :: List.replicate (s.nodeOccupancy - 1) 0
            pageNoArray :=
              prevPageId :: newChildEntry.pageNo :: List.replicate (s.nodeOccupancy - 1) 0 }) ∧
      pageAt s.headerPageNum s' =
        some (Page.header { metaInfo with rootPageNo := s.pages.length + 1 }) ∧
      s'.rootPageNum = s.pages.length + 1 ∧ s'.initRootPageNo = s.initRootPageNo ∧
      s'.headerPageNum = s.headerPageNum ∧
      (∀ q, q ≠ s.headerPageNum → q ≤ s.pages.length → pageAt q s' = pageAt q s) :=
  updateRoot_spec prevPageId newChildEntry s metaInfo hN hm

/-- Witness of C28: `updateRoot` on a new index with two key slots per internal node. -/
theorem updateRoot_grows_root_witness :
    ∃ s', updateRoot 2 ⟨3, 7⟩ (BTreeIndex.create 2 2 ['r'] 0 Datatype.INTEGER) = Res.ok () s' ∧
      s'.pages.length = (BTreeIndex.create 2 2 ['r'] 0 Datatype.INTEGER).pages.length + 1 ∧
      pageAt ((BTreeIndex.create 2 2 ['r'] 0 Datatype.INTEGER).pages.length + 1) s' =
        some (Page.nonLeaf
          { level :=
              if (BTreeIndex.create 2 2 ['r'] 0 Datatype.INTEGER).initRootPageNo =
                (BTreeIndex.create 2 2 ['r'] 0 Datatype.INTEGER).rootPageNum then 1 else 0
            keyArray :=
              (⟨3, 7⟩ : PageKeyPair).key ::
                List.replicate ((BTreeIndex.create 2 2 ['r'] 0 Datatype.INTEGER).nodeOccupancy - 1) 0
            pageNoArray :=
              2 :: (⟨3, 7⟩ : PageKeyPair).pageNo ::
                List.replicate
                  ((BTreeIndex.create 2 2 ['r'] 0 Datatype.INTEGER).nodeOccupancy - 1) 0 }) ∧
      pageAt (BTreeIndex.create 2 2 ['r'] 0 Datatype.INTEGER).headerPageNum s' =
        some (Page.header
          { (⟨['r'], 0, Datatype.INTEGER, 2⟩ : IndexMetaInfo) with
            rootPageNo := (BTreeIndex.create 2 2 ['r'] 0 Datatype.INTEGER).pages.length + 1 }) ∧
      s'.rootPageNum = (BTreeIndex.create 2 2 ['r'] 0 Datatype.INTEGER).pages.length + 1 ∧
      s'.initRootPageNo = (BTreeIndex.create 2 2 ['r'] 0 Datatype.INTEGER).initRootPageNo ∧
      s'.headerPageNum = (BTreeIndex.create 2 2 ['r'] 0 Datatype.INTEGER).headerPageNum ∧
      (∀ q, q ≠ (BTreeIndex.create 2 2 ['r'] 0 Datatype.INTEGER).headerPageNum →
        q ≤ (BTreeIndex.create 2 2 ['r'] 0 Datatype.INTEGER).pages.length →
        pageAt q s' = pageAt q (BTreeIndex.create 2 2 ['r'] 0 Datatype.INTEGER)) :=
  updateRoot_grows_root 2 ⟨3, 7⟩ (BTreeIndex.create 2 2 ['r'] 0 Datatype.INTEGER)
    ⟨['r'], 0, Datatype.INTEGER, 2⟩ (by decide) rfl

/-! ## The node operations -/

theorem filter_lt_of_split (k : Int) (lo hi : List Int) (hlo : ∀ a ∈ lo, a < k)
    (hhi : ∀ a ∈ hi, k ≤ a) :
    ((lo ++ hi).filter fun a => decide (a < k)).length = lo.length := by
  rw [List.filter_append]
  have h1 : lo.filter (fun a => decide (a < k)) = lo := by
    rw [List.filter_eq_self]
    intro a ha
    simpa using hlo a ha
  have h2 : hi.filter (fun a => decide (a < k)) = [] := by
    rw [List.filter_eq_nil_iff]
    intro a ha
    have := hhi a ha
    simp only [decide_eq_true_eq]
    omega
  rw [h1, h2, List.append_nil]

/-- C23: in an internal node whose occupied children are the slots `0 .. m` (page ids
`pids`, the other child slots zero) and whose keys `0 .. m-1` (`keys`) are non-decreasing,
`findSubTree` with the probe key `k` reads the child slot whose index is the number of keys
smaller than `k`; that index is at most `m` and the page id returned is the one of that
slot, which is occupied. -/
theorem findSubTree_index_counts_smaller_keys (N : Nat) (node : NonLeafNodeInt)
    (keys tk : List Int) (pids : List Nat) (z : Nat) (k : Int)
    (hkeys : node.keyArray = keys ++ tk) (hpids : node.pageNoArray = pids ++ List.replicate z 0)
    (hlen : pids.length = keys.length + 1) (hN : pids.length + z = N + 1)
    (hocc : ∀ p ∈ pids, p ≠ 0) (hs : keys.Pairwise (fun a b => a ≤ b)) :
    findSubTree.index N node k = some (keys.filter fun a => decide (a < k)).length ∧
      (keys.filter fun a => decide (a < k)).length ≤ keys.length ∧
      findSubTree N node k = pids.getD (keys.filter fun a => decide (a < k)).length 0 ∧
      findSubTree N node k ≠ 0 := by
  obtain ⟨lo, hi, hl, hlo, hhi, hidx⟩ :=
    findSubTree_index_spec N node keys tk pids z k hkeys hpids hlen hN hocc hs
  have hc : (keys.filter fun a => decide (a < k)).length = lo.length := by
    rw [hl]
    exact filter_lt_of_split k lo hi hlo hhi
  have hle : lo.length ≤ keys.length := by
    rw [hl, List.length_append]
    omega
  have hres : findSubTree N node k = pids.getD lo.length 0 := by
    unfold findSubTree
    rw [hidx, hpids]
    simp only [List.getD_eq_getElem?_getD]
    rw [List.getElem?_append_left (by omega)]
  rw [hc]
  refine ⟨hidx, hle, hres, ?_⟩
  rw [hres, List.getD_eq_getElem?_getD, List.getElem?_eq_getElem (by omega)]
  exact hocc _ (List.getElem_mem _)

/-- Witness of C23: the node with the keys 10, 20, 20 over the children 2, 3, 4, 5 and the
probe key 20. -/
theorem findSubTree_index_counts_smaller_keys_witness :
    findSubTree.index 4 ⟨1, [10, 20, 20, 0], [2, 3, 4, 5, 0]⟩ 20 =
        some (([10, 20, 20] : List Int).filter fun a => decide (a < 20)).length ∧
      (([10, 20, 20] : List Int).filter fun a => decide (a < 20)).length ≤
        ([10, 20, 20] : List Int).length ∧
      findSubTree 4 ⟨1, [10, 20, 20, 0], [2, 3, 4, 5, 0]⟩ 20 =
        ([2, 3, 4, 5] : List Nat).getD
          (([10, 20, 20] : List Int).filter fun a => decide (a < 20)).length 0 ∧
      findSubTree 4 ⟨1, [10, 20, 20, 0], [2, 3, 4, 5, 0]⟩ 20 ≠ 0 :=
  findSubTree_index_counts_smaller_keys 4 ⟨1, [10, 20, 20, 0], [2, 3, 4, 5, 0]⟩ [10, 20, 20]
    [0] [2, 3, 4, 5] 1 20 rfl rfl rfl rfl (by decide) (by decide)

/-- C21: a leaf whose first `n < L` slots hold the entries `es` in key order (record ids
with nonzero page number) and whose other slots are vacant: `insertLeafNode` leaves it with
the `n + 1` entries `pre ++ (key, rid) :: suf` in the first slots, where `es = pre ++ suf`,
every key of `pre` is `<= key` and every key of `suf` is `> key`, so the new entry sits
right behind the last entry whose key is `<= key`; the entries are in key order, the slots
behind them and the right sibling are unchanged, and with `rid.page_number != 0` the first
`n + 1` slots are occupied. -/
theorem insertLeafNode_sorted_prefix (L : Nat) (es : List (Int × RecordId)) (x : Int)
    (y : RecordId) (tk : List Int) (tr : List RecordId) (sib : Nat) (e : RIDKeyPair)
    (hs : es.Pairwise (fun a b => a.1 ≤ b.1)) (hrid : ∀ b ∈ es, b.2.page_number ≠ 0)
    (hy : y.page_number = 0) (htr : ∀ r ∈ tr, r.page_number = 0)
    (hL : L = es.length + (tr.length + 1)) (he : e.rid.page_number ≠ 0) :
    ∃ pre suf, es = pre ++ suf ∧ (∀ b ∈ pre, b.1 ≤ e.key) ∧ (∀ b ∈ suf, b.1 > e.key) ∧
      insertLeafNode L ⟨es.map Prod.fst ++ x :: tk, es.map Prod.snd ++ y :: tr, sib⟩ e =
        ⟨(pre ++ (e.key, e.rid) :: suf).map Prod.fst ++ tk,
          (pre ++ (e.key, e.rid) :: suf).map Prod.snd ++ tr, sib⟩ ∧
      (pre ++ (e.key, e.rid) :: suf).Pairwise (fun a b => a.1 ≤ b.1) ∧
      (pre ++ (e.key, e.rid) :: suf).length = es.length + 1 ∧
      (∀ b ∈ pre ++ (e.key, e.rid) :: suf, b.2.page_number ≠ 0) := by
  obtain ⟨pre, suf, hl, hpre, hsuf, hins⟩ := stableInsert_split (e.key, e.rid) es hs
  refine ⟨pre, suf, hl, hpre, hsuf, ?_, ?_, ?_, ?_⟩
  · rw [← hins]
    exact insertLeafNode_spec L es x y tk tr sib e hs hrid hy htr hL
  · rw [← hins]
    exact stableInsert_pairwise _ _ hs
  · rw [← hins]
    exact stableInsert_length _ _
  · intro b hb
    rw [← hins, stableInsert_mem] at hb
    rcases hb with rfl | hb
    · exact he
    · exact hrid b hb

/-- Witness of C21: the entry of key 20 inserted into a leaf of four slots holding the keys
10, 20, 30. -/
theorem insertLeafNode_sorted_prefix_witness :
    ∃ pre suf, [((10 : Int), (⟨1, 0⟩ : RecordId)), (20, ⟨1, 1⟩), (30, ⟨1, 2⟩)] = pre ++ suf ∧
      (∀ b ∈ pre, b.1 ≤ (⟨⟨1, 3⟩, 20⟩ : RIDKeyPair).key) ∧
      (∀ b ∈ suf, b.1 > (⟨⟨1, 3⟩, 20⟩ : RIDKeyPair).key) ∧
      insertLeafNode 4
          ⟨[((10 : Int), (⟨1, 0⟩ : RecordId)), (20, ⟨1, 1⟩), (30, ⟨1, 2⟩)].map Prod.fst ++
              0 :: [],
            [((10 : Int), (⟨1, 0⟩ : RecordId)), (20, ⟨1, 1⟩), (30, ⟨1, 2⟩)].map Prod.snd ++
              ⟨0, 0⟩ :: [], 9⟩ ⟨⟨1, 3⟩, 20⟩ =
        ⟨(pre ++ ((⟨⟨1, 3⟩, 20⟩ : RIDKeyPair).key, (⟨⟨1, 3⟩, 20⟩ : RIDKeyPair).rid) ::
              suf).map Prod.fst ++ [],
          (pre ++ ((⟨⟨1, 3⟩, 20⟩ : RIDKeyPair).key, (⟨⟨1, 3⟩, 20⟩ : RIDKeyPair).rid) ::
              suf).map Prod.snd ++ [], 9⟩ ∧
      (pre ++ ((⟨⟨1, 3⟩, 20⟩ : RIDKeyPair).key, (⟨⟨1, 3⟩, 20⟩ : RIDKeyPair).rid) ::
          suf).Pairwise (fun a b => a.1 ≤ b.1) ∧
      (pre ++ ((⟨⟨1, 3⟩, 20⟩ : RIDKeyPair).key, (⟨⟨1, 3⟩, 20⟩ : RIDKeyPair).rid) ::
          suf).length =
        [((10 : Int), (⟨1, 0⟩ : RecordId)), (20, ⟨1, 1⟩), (30, ⟨1, 2⟩)].length + 1 ∧
      (∀ b ∈ pre ++ ((⟨⟨1, 3⟩, 20⟩ : RIDKeyPair).key, (⟨⟨1, 3⟩, 20⟩ : RIDKeyPair).rid) ::
          suf, b.2.page_number ≠ 0) :=
  insertLeafNode_sorted_prefix 4 [(10, ⟨1, 0⟩), (20, ⟨1, 1⟩), (30, ⟨1, 2⟩)] 0 ⟨0, 0⟩ [] [] 9
    ⟨⟨1, 3⟩, 20⟩ (by decide) (by decide) rfl (by decide) rfl (by decide)

/-! ## Inserting into an internal node -/

theorem headOrPair_append (hi : List (Int × Nat)) (b x : Int × Nat) :
    headOrPair (hi ++ [b]) x = headOrPair hi b := by
  cases hi <;> rfl

theorem pairs_split_le {α : Type} (k : Int) (l : List (Int × α))
    (hs : l.Pairwise (fun a b => a.1 ≤ b.1)) :
    ∃ lo hi, l = lo ++ hi ∧ (∀ b ∈ lo, b.1 ≤ k) ∧ (∀ b ∈ hi, b.1 > k) := by
  induction l with
  | nil => exact ⟨[], [], rfl, by simp, by simp⟩
  | cons b l ih =>
    rw [List.pairwise_cons] at hs
    by_cases hb : b.1 ≤ k
    · obtain ⟨lo, hi, hl, hlo, hhi⟩ := ih hs.2
      refine ⟨b :: lo, hi, by simp [hl], ?_, hhi⟩
      intro c hc
      rcases List.mem_cons.mp hc with rfl | hc
      · exact hb
      · exact hlo c hc
    · refine ⟨[], b :: l, rfl, by simp, ?_⟩
      intro c hc
      rcases List.mem_cons.mp hc with rfl | hc
      · omega
      · have := hs.1 c hc
        omega

/-- The shifting loop of `insertNonLeafNode` on a node holding the child `c0` and the
(key, right child) pairs `lo ++ hi`, where the last key of `lo` is not greater than `key`
and every key of `hi` is. -/
theorem insertNonLeafNode_shift_spec (key : Int) (lo hi : List (Int × Nat))
    (hlo : ∀ b, lo.getLast? = some b → b.1 ≤ key) (hhi : ∀ b ∈ hi, b.1 > key)
    (x : Int × Nat) (tk : List Int) (tp : List Nat) (lvl : Int) (c0 : Nat) :
    insertNonLeafNode.shift key (lo.length + hi.length)
        ⟨lvl, lo.map Prod.fst ++ hi.map Prod.fst ++ x.1 :: tk,
          c0 :: (lo.map Prod.snd ++ hi.map Prod.snd ++ x.2 :: tp)⟩ =
      (lo.length,
        ⟨lvl, lo.map Prod.fst ++ (headOrPair hi x).1 :: hi.map Prod.fst ++ tk,
          c0 :: (lo.map Prod.snd ++ (headOrPair hi x).2 :: hi.map Prod.snd ++ tp)⟩) := by
  induction hi using List.reverseRecOn generalizing x tk tp with
  | nil =>
    simp only [List.map_nil, List.append_nil, List.length_nil, Nat.add_zero, headOrPair]
    rcases List.eq_nil_or_concat lo with rfl | ⟨lo', b, rfl⟩
    · rfl
    · simp only [List.concat_eq_append] at hlo ⊢
      have hb : b.1 ≤ key := hlo b (by simp)
      rw [List.length_append, List.length_singleton]
      unfold insertNonLeafNode.shift
      simp only
      have hget : (List.map Prod.fst (lo' ++ [b]) ++ x.1 :: tk).getD lo'.length 0 = b.1 := by
        have := getD_append_cons (lo'.map Prod.fst) b.1 (x.1 :: tk) 0 lo'.length (by simp)
        simpa using this
      rw [hget, if_neg (by omega)]
      simp
  | append_singleton hs b ih =>
    have hb : b.1 > key := hhi b (by simp)
    have hlen : lo.length + (hs ++ [b]).length = (lo.length + hs.length) + 1 := by
      simp [Nat.add_assoc]
    rw [hlen]
    unfold insertNonLeafNode.shift
    simp only
    have hget : (List.map Prod.fst lo ++ List.map Prod.fst (hs ++ [b]) ++ x.1 :: tk).getD
        (lo.length + hs.length) 0 = b.1 := by
      have := getD_append_cons (lo.map Prod.fst ++ hs.map Prod.fst) b.1 (x.1 :: tk) 0
        (lo.length + hs.length) (by simp)
      simpa using this
    have hgetp : (c0 :: (List.map Prod.snd lo ++ List.map Prod.snd (hs ++ [b]) ++
        x.2 :: tp)).getD (lo.length + hs.length + 1) 0 = b.2 := by
      have := getD_append_cons (c0 :: (lo.map Prod.snd ++ hs.map Prod.snd)) b.2 (x.2 :: tp) 0
        (lo.length + hs.length + 1) (by simp)
      simpa using this
    have hset : (List.map Prod.fst lo ++ List.map Prod.fst (hs ++ [b]) ++ x.1 :: tk).set
        (lo.length + hs.length + 1) b.1 =
        List.map Prod.fst lo ++ List.map Prod.fst hs ++ b.1 :: b.1 :: tk := by
      have := set_append_cons (lo.map Prod.fst ++ hs.map Prod.fst ++ [b.1]) x.1 b.1 tk
        (lo.length + hs.length + 1) (by simp [Nat.add_assoc])
      simpa using this
    have hsetp : (c0 :: (List.map Prod.snd lo ++ List.map Prod.snd (hs ++ [b]) ++
        x.2 :: tp)).set (lo.length + hs.length + 2) b.2 =
        c0 :: (List.map Prod.snd lo ++ List.map Prod.snd hs ++ b.2 :: b.2 :: tp) := by
      have := set_append_cons (c0 :: (lo.map Prod.snd ++ hs.map Prod.snd ++ [b.2])) x.2 b.2 tp
        (lo.length + hs.length + 2) (by simp [Nat.add_assoc])
      simpa using this
    rw [hget, if_pos hb, hgetp, hset, hsetp]
    have := ih (fun c hc => hhi c (by simp [hc])) b (b.1 :: tk) (b.2 :: tp)
    rw [this]
    simp [headOrPair_append]

theorem lastChild_pairs (c0 : Nat) (pairs : List (Int × Nat)) (z : Nat) (hc0 : c0 ≠ 0)
    (hocc : ∀ b ∈ pairs, b.2 ≠ 0) :
    lastChild (c0 :: (pairs.map Prod.snd ++ List.replicate z 0)) (pairs.length + 1 + z) =
      pairs.length + 1 := by
  have := lastChild_spec (c0 :: pairs.map Prod.snd) z (by
    intro p hp
    have hne : c0 :: pairs.map Prod.snd ≠ [] := by simp
    rw [List.getLast?_eq_getLast _ hne] at hp
    simp only [Option.some.injEq] at hp
    have hmem := List.getLast_mem hne
    rw [hp] at hmem
    rcases List.mem_cons.mp hmem with rfl | hmem
    · exact hc0
    · obtain ⟨b, hb, rfl⟩ := List.mem_map.mp hmem
      exact hocc b hb)
  simpa using this

/-- The node after `insertNonLeafNode`, for a node with room holding the child `c0` and the
pairs `lo ++ hi` split at the key of the new entry. -/
theorem insertNonLeafNode_spec (N : Nat) (lvl : Int) (c0 : Nat) (lo hi : List (Int × Nat)) (x : Int)
    (tk : List Int) (z : Nat) (e : PageKeyPair) (hc0 : c0 ≠ 0)
    (hocc : ∀ b ∈ lo ++ hi, b.2 ≠ 0) (hlo : ∀ b ∈ lo, b.1 ≤ e.key)
    (hhi : ∀ b ∈ hi, b.1 > e.key) (hN : lo.length + hi.length + 1 + (z + 1) = N + 1) :
    insertNonLeafNode N
        ⟨lvl, (lo ++ hi).map Prod.fst ++ x :: tk,
          c0 :: ((lo ++ hi).map Prod.snd ++ List.replicate (z + 1) 0)⟩ e =
      ⟨lvl, (lo ++ (e.key, e.pageNo) :: hi).map Prod.fst ++ tk,
        c0 :: ((lo ++ (e.key, e.pageNo) :: hi).map Prod.snd ++ List.replicate z 0)⟩ := by
  have hlast := lastChild_pairs c0 (lo ++ hi) (z + 1) hc0 hocc
  have hlen : (lo ++ hi).length + 1 + (z + 1) = N + 1 := by
    rw [List.length_append]
    exact hN
  unfold insertNonLeafNode
  simp only
  rw [← hlen, hlast]
  simp only
  have hshift := insertNonLeafNode_shift_spec e.key lo hi
    (by
      intro b hb
      exact hlo b (List.mem_of_getLast?_eq_some hb))
    hhi (x, 0) tk (List.replicate z 0) lvl c0
  simp only [List.map_append, List.length_append, List.replicate_succ] at hshift ⊢
  rw [hshift]
  simp only
  have h1 : (List.map Prod.fst lo ++ (headOrPair hi (x, 0)).1 :: List.map Prod.fst hi ++ tk).set
      lo.length e.key = List.map Prod.fst lo ++ e.key :: List.map Prod.fst hi ++ tk := by
    simp
  have h2 : (c0 :: (List.map Prod.snd lo ++
      (headOrPair hi (x, 0)).2 :: List.map Prod.snd hi ++ List.replicate z 0)).set
      (lo.length + 1) e.pageNo =
      c0 :: (List.map Prod.snd lo ++ e.pageNo :: List.map Prod.snd hi ++ List.replicate z 0) := by
    simp
  rw [h1, h2]
  simp

/-- C22: an internal node with room that holds the child `c0` and the (key, right child)
pairs `pairs` in key order, all children occupied, every other child slot zero.
`insertNonLeafNode` with the pushed-up entry `(sep, newPage)` leaves the pairs
`lo ++ (sep, newPage) :: hi`, where `pairs = lo ++ hi`, every key of `lo` is `<= sep` and
every key of `hi` is `> sep`: the key goes to the position behind all keys `<= sep`, the page
id to the child slot one further right, the child `c0` and the pairs `lo` stay where they
were, and the pairs `hi` are one slot further right.  The keys are in order again, one key
slot and one zero child slot fewer are left, and with `newPage != 0` all children are
occupied. -/
theorem insertNonLeafNode_placement (N : Nat) (lvl : Int) (c0 : Nat)
    (pairs : List (Int × Nat)) (x : Int) (tk : List Int) (z : Nat) (e : PageKeyPair)
    (hc0 : c0 ≠ 0) (hocc : ∀ b ∈ pairs, b.2 ≠ 0)
    (hs : pairs.Pairwise (fun a b => a.1 ≤ b.1))
    (hN : pairs.length + 1 + (z + 1) = N + 1) :
    ∃ lo hi, pairs = lo ++ hi ∧ (∀ b ∈ lo, b.1 ≤ e.key) ∧ (∀ b ∈ hi, b.1 > e.key) ∧
      insertNonLeafNode N
          ⟨lvl, pairs.map Prod.fst ++ x :: tk,
            c0 :: (pairs.map Prod.snd ++ List.replicate (z + 1) 0)⟩ e =
        ⟨lvl, (lo ++ (e.key, e.pageNo) :: hi).map Prod.fst ++ tk,
          c0 :: ((lo ++ (e.key, e.pageNo) :: hi).map Prod.snd ++ List.replicate z 0)⟩ ∧
      (lo ++ (e.key, e.pageNo) :: hi).Pairwise (fun a b => a.1 ≤ b.1) ∧
      (e.pageNo ≠ 0 → ∀ b ∈ lo ++ (e.key, e.pageNo) :: hi, b.2 ≠ 0) := by
  obtain ⟨lo, hi, hl, hlo, hhi⟩ := pairs_split_le e.key pairs hs
  subst hl
  refine ⟨lo, hi, rfl, hlo, hhi, ?_, ?_, ?_⟩
  · exact insertNonLeafNode_spec N lvl c0 lo hi x tk z e hc0 hocc hlo hhi
      (by rw [List.length_append] at hN; exact hN)
  · rw [List.pairwise_append] at hs ⊢
    refine ⟨hs.1, ?_, ?_⟩
    · rw [List.pairwise_cons]
      exact ⟨fun c hc => le_of_lt (hhi c hc), hs.2.1⟩
    · intro a ha c hc
      rcases List.mem_cons.mp hc with rfl | hc
      · exact hlo a ha
      · exact hs.2.2 a ha c hc
  · intro hp b hb
    rcases List.mem_append.mp hb with hb | hb
    · exact hocc b (List.mem_append_left _ hb)
    · rcases List.mem_cons.mp hb with rfl | hb
      · exact hp
      · exact hocc b (List.mem_append_right _ hb)

/-- Witness of C22: the entry `(20, page 9)` pushed into the node with the keys 10, 20, 30
over the children 2, 3, 4, 5 and five key slots. -/
theorem insertNonLeafNode_placement_witness :
    ∃ lo hi, [((10 : Int), (3 : Nat)), (20, 4), (30, 5)] = lo ++ hi ∧
      (∀ b ∈ lo, b.1 ≤ (⟨9, 20⟩ : PageKeyPair).key) ∧
      (∀ b ∈ hi, b.1 > (⟨9, 20⟩ : PageKeyPair).key) ∧
      insertNonLeafNode 5
          ⟨1, [((10 : Int), (3 : Nat)), (20, 4), (30, 5)].map Prod.fst ++ 0 :: [0],
            2 :: ([((10 : Int), (3 : Nat)), (20, 4), (30, 5)].map Prod.snd ++
              List.replicate (1 + 1) 0)⟩ ⟨9, 20⟩ =
        ⟨1, (lo ++ ((⟨9, 20⟩ : PageKeyPair).key, (⟨9, 20⟩ : PageKeyPair).pageNo) :: hi).map
              Prod.fst ++ [0],
          2 :: ((lo ++ ((⟨9, 20⟩ : PageKeyPair).key, (⟨9, 20⟩ : PageKeyPair).pageNo) ::
              hi).map Prod.snd ++ List.replicate 1 0)⟩ ∧
      (lo ++ ((⟨9, 20⟩ : PageKeyPair).key, (⟨9, 20⟩ : PageKeyPair).pageNo) :: hi).Pairwise
        (fun a b => a.1 ≤ b.1) ∧
      ((⟨9, 20⟩ : PageKeyPair).pageNo ≠ 0 →
        ∀ b ∈ lo ++ ((⟨9, 20⟩ : PageKeyPair).key, (⟨9, 20⟩ : PageKeyPair).pageNo) :: hi,
          b.2 ≠ 0) :=
  insertNonLeafNode_placement 5 1 2 [(10, 3), (20, 4), (30, 5)] 0 [0] 1 ⟨9, 20⟩ (by decide)
    (by decide) (by decide) rfl

/-! ## Splitting an internal node -/

/-- C26 (failing input): an internal node with four key slots holding the keys 10, 20, 30, 40
over the children 2, 3, 4, 5, 6, and the incoming separator 15.  The push index is 1, so the
keys 30, 40 and the children 5, 6 are to move.  The loop of `splitNonLeafNode` copies
`keyArray[2] = 30` and zeroes `keyArray[3]` in the same iteration, before the next
iteration copies it: the new node gets the keys 30, 0 (not 30, 40), with the children 5, 6
and the level of the split node. -/
theorem splitNonLeafNode_move_zeroes_key_before_copy :
    splitNonLeafNode.pushupIndex 4 ⟨1, [10, 20, 30, 40], [2, 3, 4, 5, 6]⟩ 15 = 1 ∧
    (splitNonLeafNode.move 2 2 2
        (⟨1, [10, 20, 30, 40], [2, 3, 4, 5, 6]⟩, zeroNonLeaf 4)).2 =
      ⟨0, [30, 0, 0, 0], [5, 6, 0, 0, 0]⟩ ∧
    (splitNonLeafNode.nodes 4 ⟨1, [10, 20, 30, 40], [2, 3, 4, 5, 6]⟩ (zeroNonLeaf 4)
        ⟨7, 15⟩).2 =
      ⟨1, [30, 0, 0, 0], [5, 6, 0, 0, 0]⟩ := by
  decide

/-- Equal keys: an internal node with two key slots holding the keys 5, 5 over the children
2, 3, 4, and the incoming entry `(6, page 9)`.  The push index is 1 and the promoted key is
5.  After the split slot 1 of the left node is cleared, and slot 0, which is another entry,
still holds the value 5: that the promoted key is in neither node is a statement about
slots, and is one about values only when the keys are distinct. -/
theorem splitNonLeafNode_promoted_key_stays_in_left_node :
    splitNonLeafNode.pushupIndex 2 ⟨1, [5, 5], [2, 3, 4]⟩ 6 = 1 ∧
    (⟨1, [5, 5], [2, 3, 4]⟩ : NonLeafNodeInt).keyArray.getD 1 0 = 5 ∧
    (splitNonLeafNode.nodes 2 ⟨1, [5, 5], [2, 3, 4]⟩ (zeroNonLeaf 2) ⟨9, 6⟩).1 =
      ⟨1, [5, 0], [2, 0, 4]⟩ ∧
    (5 : Int) ∈ occupiedKeys 2 (splitNonLeafNode.nodes 2 ⟨1, [5, 5], [2, 3, 4]⟩
      (zeroNonLeaf 2) ⟨9, 6⟩).1 := by
  decide

theorem getD_set_cases (l : List Int) (i j : Nat) (v : Int) :
    (l.set i v).getD j 0 = l.getD j 0 ∨ (l.set i v).getD j 0 = v := by
  simp only [List.getD_eq_getElem?_getD, List.getElem?_set]
  split
  · split
    · right; rfl
    · left
      rename_i h1 h2
      subst h1
      rw [List.getElem?_eq_none (by omega)]
  · left; rfl

theorem splitNonLeafNode_move_left_keys (mid n i : Nat)
    (st : NonLeafNodeInt × NonLeafNodeInt) (j : Nat) :
    (splitNonLeafNode.move mid n i st).1.keyArray.getD j 0 = st.1.keyArray.getD j 0 ∨
      (splitNonLeafNode.move mid n i st).1.keyArray.getD j 0 = 0 := by
  induction n generalizing i st with
  | zero => exact Or.inl rfl
  | succ n ih =>
    unfold splitNonLeafNode.move
    rcases ih (i + 1) _ with h | h
    · rw [h]
      simp only
      exact getD_set_cases _ _ _ _
    · exact Or.inr h

theorem splitNonLeafNode_move_right_keys (mid n i : Nat)
    (st : NonLeafNodeInt × NonLeafNodeInt) (k : Int)
    (hk : k ∈ (splitNonLeafNode.move mid n i st).2.keyArray) :
    k ∈ st.2.keyArray ∨ k = 0 ∨ ∃ t, i ≤ t ∧ t < st.1.keyArray.length ∧
      k = st.1.keyArray.getD t 0 := by
  induction n generalizing i st with
  | zero => exact Or.inl hk
  | succ n ih =>
    unfold splitNonLeafNode.move at hk
    rcases ih (i + 1) _ hk with h | h | ⟨t, ht, htl, h⟩
    · simp only at h
      rcases List.mem_or_eq_of_mem_set h with h | h
      · exact Or.inl h
      · by_cases hi : i < st.1.keyArray.length
        · exact Or.inr (Or.inr ⟨i, Nat.le_refl _, hi, h⟩)
        · right; left
          rw [h, List.getD_eq_getElem?_getD, List.getElem?_eq_none (by omega)]
          rfl
    · exact Or.inr (Or.inl h)
    · simp only [List.length_set] at htl h
      rcases getD_set_cases st.1.keyArray (i + 1) t 0 with h2 | h2
      · exact Or.inr (Or.inr ⟨t, by omega, htl, by rw [h, h2]⟩)
      · exact Or.inr (Or.inl (by rw [h, h2]))

theorem insertNonLeafNode_shift_keys (key : Int) (i : Nat) (n : NonLeafNodeInt) (k : Int)
    (hk : k ∈ (insertNonLeafNode.shift key i n).2.keyArray) : k ∈ n.keyArray ∨ k = 0 := by
  induction i generalizing n with
  | zero => exact Or.inl hk
  | succ i ih =>
    unfold insertNonLeafNode.shift at hk
    split at hk
    · rcases ih _ hk with h | h
      · simp only at h
        rcases List.mem_or_eq_of_mem_set h with h | h
        · exact Or.inl h
        · by_cases hi : i < n.keyArray.length
          · left
            rw [h, List.getD_eq_getElem?_getD, List.getElem?_eq_getElem hi]
            exact List.getElem_mem _
          · right
            rw [h, List.getD_eq_getElem?_getD, List.getElem?_eq_none (by omega)]
            rfl
      · exact Or.inr h
    · exact Or.inl hk

theorem insertNonLeafNode_keys (N : Nat) (n : NonLeafNodeInt) (e : PageKeyPair) (k : Int)
    (hk : k ∈ (insertNonLeafNode N n e).keyArray) :
    k ∈ n.keyArray ∨ k = 0 ∨ k = e.key := by
  unfold insertNonLeafNode at hk
  split at hk
  · exact Or.inl hk
  · simp only at hk
    rcases List.mem_or_eq_of_mem_set hk with h | h
    · rcases insertNonLeafNode_shift_keys _ _ _ _ h with h | h
      · exact Or.inl h
      · exact Or.inr (Or.inl h)
    · exact Or.inr (Or.inr h)

/-! ## The states after a split -/

theorem splitLeafNode_eq (leaf : LeafNodeInt) (cur : Nat) (e : RIDKeyPair) (s : BTreeIndex) :
    splitLeafNode leaf cur e s =
      if s.rootPageNum = cur then
        (updateRoot cur (splitLeafNode.pushup leaf e s) (splitLeafNode.written leaf cur e s)).bind
          fun _ s' => Res.ok (some (splitLeafNode.pushup leaf e s)) s'
      else Res.ok (some (splitLeafNode.pushup leaf e s)) (splitLeafNode.written leaf cur e s) := by
  unfold splitLeafNode
  simp only [(allocPage_members s).1, leafAt_new, Res.bind]
  rfl

theorem splitNonLeafNode_eq (node : NonLeafNodeInt) (cur : Nat) (e : PageKeyPair)
    (s : BTreeIndex) :
    splitNonLeafNode node cur e s =
      if cur = s.rootPageNum then
        (updateRoot cur (splitNonLeafNode.pushup node e s)
            (splitNonLeafNode.written node cur e s)).bind
          fun _ s' => Res.ok (some (splitNonLeafNode.pushup node e s)) s'
      else
        Res.ok (some (splitNonLeafNode.pushup node e s))
          (splitNonLeafNode.written node cur e s) := by
  unfold splitNonLeafNode
  simp only [(allocPage_members s).1, nonLeafAt_new, Res.bind]
  rfl

/-- The pages after two stores, one into an existing page `cur` and one into the page just
allocated. -/
theorem pageAt_two_stores (s : BTreeIndex) (cur : Nat) (x y : Page) (hcur : 1 ≤ cur)
    (hle : cur ≤ s.pages.length) :
    pageAt cur (setPage (s.pages.length + 1) y (setPage cur x (allocPage s).2)) = some x ∧
    pageAt (s.pages.length + 1) (setPage (s.pages.length + 1) y (setPage cur x (allocPage s).2)) =
      some y ∧
    (∀ q, q ≠ cur → q ≤ s.pages.length →
      pageAt q (setPage (s.pages.length + 1) y (setPage cur x (allocPage s).2)) = pageAt q s) ∧
    (setPage (s.pages.length + 1) y (setPage cur x (allocPage s).2)).pages.length =
      s.pages.length + 1 := by
  have h0 : ∃ b, pageAt cur (allocPage s).2 = some b := by
    obtain ⟨c, rfl⟩ : ∃ c, cur = c + 1 := ⟨cur - 1, by omega⟩
    simp only [pageAt, allocPage, List.get?_eq_getElem?]
    rw [List.getElem?_append_left (by omega), List.getElem?_eq_getElem (by omega)]
    exact ⟨_, rfl⟩
  refine ⟨?_, ?_, ?_, ?_⟩
  · rw [pageAt_setPage_ne _ _ _ _ (by omega)]
    exact pageAt_setPage_same _ _ _ h0
  · refine pageAt_setPage_same _ _ _ ⟨Page.blank, ?_⟩
    rw [pageAt_setPage_ne _ _ _ _ (by omega)]
    exact pageAt_allocPage_new s
  · intro q hq hql
    rw [pageAt_setPage_ne _ _ _ _ (by omega), pageAt_setPage_ne _ _ _ _ hq,
      pageAt_allocPage_old _ _ hql]
  · rw [(setPage_members _ _ _).2.2.2.2.2.2, (setPage_members _ _ _).2.2.2.2.2.2,
      (allocPage_members s).2.2.2.2.2.2]

theorem strict_getD_inj (l : List Int) (hs : l.Pairwise (fun a b => a < b)) (i j : Nat)
    (hi : i < l.length) (hj : j < l.length) (h : l.getD i 0 = l.getD j 0) : i = j := by
  rw [List.getD_eq_getElem?_getD, List.getD_eq_getElem?_getD, List.getElem?_eq_getElem hi,
    List.getElem?_eq_getElem hj] at h
  simp only [Option.getD_some] at h
  rcases Nat.lt_trichotomy i j with hlt | heq | hgt
  · have := List.pairwise_iff_getElem.mp hs i j hi hj hlt
    omega
  · exact heq
  · have := List.pairwise_iff_getElem.mp hs j i hj hi hgt
    omega

theorem splitNonLeafNode_pushupIndex_lt (N : Nat) (node : NonLeafNodeInt) (key : Int)
    (hN : 1 ≤ N) : splitNonLeafNode.pushupIndex N node key < N := by
  unfold splitNonLeafNode.pushupIndex
  split
  · split <;> omega
  · omega

theorem splitNonLeafNode_move_left_length (mid n i : Nat)
    (st : NonLeafNodeInt × NonLeafNodeInt) :
    (splitNonLeafNode.move mid n i st).1.keyArray.length = st.1.keyArray.length := by
  induction n generalizing i st with
  | zero => rfl
  | succ n ih =>
    unfold splitNonLeafNode.move
    rw [ih]
    simp

/-- The key at the push index is in neither node after the move and the clearing, when the
keys of the split node are strictly increasing and that key is not 0. -/
theorem splitNonLeafNode_promoted_absent (N : Nat) (prev : NonLeafNodeInt) (e : PageKeyPair)
    (hN : 1 ≤ N) (hlen : prev.keyArray.length = N)
    (hs : prev.keyArray.Pairwise (fun a b => a < b))
    (hzero : prev.keyArray.getD (splitNonLeafNode.pushupIndex N prev e.key) 0 ≠ 0)
    (hne : e.key ≠ prev.keyArray.getD (splitNonLeafNode.pushupIndex N prev e.key) 0) :
    prev.keyArray.getD (splitNonLeafNode.pushupIndex N prev e.key) 0 ∉
        (splitNonLeafNode.nodes N prev (zeroNonLeaf N) e).1.keyArray ∧
      prev.keyArray.getD (splitNonLeafNode.pushupIndex N prev e.key) 0 ∉
        (splitNonLeafNode.nodes N prev (zeroNonLeaf N) e).2.keyArray := by
  have hp := splitNonLeafNode_pushupIndex_lt N prev e.key hN
  unfold splitNonLeafNode.nodes
  simp only
  generalize splitNonLeafNode.pushupIndex N prev e.key = p at hp hzero hne ⊢
  have hleft : prev.keyArray.getD p 0 ∉
      ((splitNonLeafNode.move (p + 1) (N - (p + 1)) (p + 1)
        (prev, zeroNonLeaf N)).1.keyArray.set p 0) := by
    intro hmem
    obtain ⟨j, hj, hjv⟩ := List.getElem_of_mem hmem
    rw [List.length_set, splitNonLeafNode_move_left_length] at hj
    simp only at hj
    rw [List.getElem_set] at hjv
    split at hjv
    · exact hzero hjv.symm
    · rename_i hpj
      have hcases := splitNonLeafNode_move_left_keys (p + 1) (N - (p + 1)) (p + 1)
        (prev, zeroNonLeaf N) j
      have hjl : j < (splitNonLeafNode.move (p + 1) (N - (p + 1)) (p + 1)
          (prev, zeroNonLeaf N)).1.keyArray.length := by
        rw [splitNonLeafNode_move_left_length]
        exact hj
      rw [List.getD_eq_getElem?_getD, List.getElem?_eq_getElem hjl, Option.getD_some,
        hjv] at hcases
      rcases hcases with h | h
      · exact hpj (strict_getD_inj _ hs p j (by omega) hj h)
      · exact hzero h
  have hright : prev.keyArray.getD p 0 ∉
      (splitNonLeafNode.move (p + 1) (N - (p + 1)) (p + 1)
        (prev, zeroNonLeaf N)).2.keyArray := by
    intro hmem
    rcases splitNonLeafNode_move_right_keys _ _ _ _ _ hmem with h | h | ⟨t, ht, htl, h⟩
    · simp only [zeroNonLeaf] at h
      exact hzero (List.eq_of_mem_replicate h)
    · exact hzero h
    · simp only at htl h
      have := strict_getD_inj _ hs p t (by omega) htl h
      omega
  split
  · refine ⟨?_, hright⟩
    intro hmem
    rcases insertNonLeafNode_keys _ _ _ _ hmem with h | h | h
    · exact hleft h
    · exact hzero h
    · exact hne h.symm
  · refine ⟨hleft, ?_⟩
    intro hmem
    rcases insertNonLeafNode_keys _ _ _ _ hmem with h | h | h
    · exact hright h
    · exact hzero h
    · exact hne h.symm

/-- A split that is followed by `updateRoot` when the split page is the root: it returns the
pushed-up entry, every page of the written state other than the header is kept, and every
leaf of the result is a leaf of the written state. -/
theorem split_finish (c : Prop) [Decidable c] (cur : Nat) (pe : PageKeyPair) (W : BTreeIndex)
    (metaInfo : IndexMetaInfo) (hN : 1 ≤ W.nodeOccupancy)
    (hm : pageAt W.headerPageNum W = some (Page.header metaInfo)) :
    ∃ s', (if c then (updateRoot cur pe W).bind fun _ s' => Res.ok (some pe) s'
        else Res.ok (some pe) W) = Res.ok (some pe) s' ∧
      (∀ q, q ≠ W.headerPageNum → q ≤ W.pages.length → pageAt q s' = pageAt q W) ∧
      (∀ q x, pageAt q s' = some (Page.leaf x) → pageAt q W = some (Page.leaf x)) := by
  by_cases hc : c
  · obtain ⟨s', h1, hlen, hroot, hhead, _, _, _, hframe⟩ :=
      updateRoot_spec cur pe W metaInfo hN hm
    refine ⟨s', ?_, hframe, ?_⟩
    · rw [if_pos hc, h1]
      rfl
    · intro q x hq
      have hle := pageAt_some_le _ _ _ hq
      by_cases hqh : q = W.headerPageNum
      · rw [hqh, hhead] at hq
        cases hq
      · by_cases hql : q = W.pages.length + 1
        · rw [hql, hroot] at hq
          cases hq
        · rw [← hframe q hqh (by omega)]
          exact hq
  · exact ⟨W, by rw [if_neg hc], fun _ _ _ => rfl, fun _ _ h => h⟩

theorem written_nonLeaf_pages (node : NonLeafNodeInt) (cur : Nat) (e : PageKeyPair)
    (s : BTreeIndex) (x : Page) (hcur : pageAt cur s = some x) :
    pageAt cur (splitNonLeafNode.written node cur e s) =
        some (Page.nonLeaf (splitNonLeafNode.nodes s.nodeOccupancy node
          (zeroNonLeaf s.nodeOccupancy) e).1) ∧
      pageAt (s.pages.length + 1) (splitNonLeafNode.written node cur e s) =
        some (Page.nonLeaf (splitNonLeafNode.nodes s.nodeOccupancy node
          (zeroNonLeaf s.nodeOccupancy) e).2) ∧
      (∀ q, q ≠ cur → q ≤ s.pages.length →
        pageAt q (splitNonLeafNode.written node cur e s) = pageAt q s) ∧
      (splitNonLeafNode.written node cur e s).pages.length = s.pages.length + 1 := by
  have hle := pageAt_some_le _ _ _ hcur
  exact pageAt_two_stores s cur _ _ hle.1 hle.2

theorem written_leaf_pages (leaf : LeafNodeInt) (cur : Nat) (e : RIDKeyPair)
    (s : BTreeIndex) (x : Page) (hcur : pageAt cur s = some x) :
    pageAt cur (splitLeafNode.written leaf cur e s) =
        some (Page.leaf (splitLeafNode.nodes s.leafOccupancy leaf
          (zeroLeaf s.leafOccupancy) (s.pages.length + 1) e).1) ∧
      pageAt (s.pages.length + 1) (splitLeafNode.written leaf cur e s) =
        some (Page.leaf (splitLeafNode.nodes s.leafOccupancy leaf
          (zeroLeaf s.leafOccupancy) (s.pages.length + 1) e).2) ∧
      (∀ q, q ≠ cur → q ≤ s.pages.length →
        pageAt q (splitLeafNode.written leaf cur e s) = pageAt q s) ∧
      (splitLeafNode.written leaf cur e s).pages.length = s.pages.length + 1 := by
  have hle := pageAt_some_le _ _ _ hcur
  exact pageAt_two_stores s cur _ _ hle.1 hle.2

/-- Where the keys of the two nodes come from after the moving loop and the clearing of
slot `p` (btree.cpp 392-401): a key slot of the split node holds 0 or the key of one of its
old slots other than `p`, a key slot of the new node holds 0 or the key of an old slot
behind `p`. -/
theorem splitNonLeafNode_move_sources (N p : Nat) (prev : NonLeafNodeInt)
    (hlen : prev.keyArray.length = N) :
    (∀ k ∈ (splitNonLeafNode.move (p + 1) (N - (p + 1)) (p + 1)
          (prev, zeroNonLeaf N)).1.keyArray.set p 0,
        k = 0 ∨ ∃ i, i < N ∧ i ≠ p ∧ k = prev.keyArray.getD i 0) ∧
      (∀ k ∈ (splitNonLeafNode.move (p + 1) (N - (p + 1)) (p + 1)
          (prev, zeroNonLeaf N)).2.keyArray,
        k = 0 ∨ ∃ i, p < i ∧ i < N ∧ k = prev.keyArray.getD i 0) := by
  constructor
  · intro k hmem
    obtain ⟨j, hj, hjv⟩ := List.getElem_of_mem hmem
    rw [List.length_set, splitNonLeafNode_move_left_length] at hj
    simp only at hj
    rw [List.getElem_set] at hjv
    split at hjv
    · exact Or.inl hjv.symm
    · rename_i hpj
      have hcases := splitNonLeafNode_move_left_keys (p + 1) (N - (p + 1)) (p + 1)
        (prev, zeroNonLeaf N) j
      have hjl : j < (splitNonLeafNode.move (p + 1) (N - (p + 1)) (p + 1)
          (prev, zeroNonLeaf N)).1.keyArray.length := by
        rw [splitNonLeafNode_move_left_length]
        exact hj
      rw [List.getD_eq_getElem?_getD, List.getElem?_eq_getElem hjl, Option.getD_some,
        hjv] at hcases
      rcases hcases with h | h
      · exact Or.inr ⟨j, by omega, fun h' => hpj h'.symm, h⟩
      · exact Or.inl h
  · intro k hmem
    rcases splitNonLeafNode_move_right_keys _ _ _ _ _ hmem with h | h | ⟨t, ht, htl, h⟩
    · simp only [zeroNonLeaf] at h
      exact Or.inl (List.eq_of_mem_replicate h)
    · exact Or.inl h
    · simp only at htl h
      exact Or.inr ⟨t, by omega, by omega, h⟩

/-- Where the keys of the two nodes made by `splitNonLeafNode` come from: every key slot
holds 0, the incoming key, or the key of an old slot other than the push index (for the new
node: of an old slot behind the push index).  The key slot at the push index is copied to
neither node. -/
theorem splitNonLeafNode_key_sources (N : Nat) (prev : NonLeafNodeInt) (e : PageKeyPair)
    (hlen : prev.keyArray.length = N) :
    (∀ k ∈ (splitNonLeafNode.nodes N prev (zeroNonLeaf N) e).1.keyArray,
        k = 0 ∨ k = e.key ∨ ∃ i, i < N ∧ i ≠ splitNonLeafNode.pushupIndex N prev e.key ∧
          k = prev.keyArray.getD i 0) ∧
      (∀ k ∈ (splitNonLeafNode.nodes N prev (zeroNonLeaf N) e).2.keyArray,
        k = 0 ∨ k = e.key ∨ ∃ i, splitNonLeafNode.pushupIndex N prev e.key < i ∧ i < N ∧
          k = prev.keyArray.getD i 0) := by
  obtain ⟨hleft, hright⟩ := splitNonLeafNode_move_sources N
    (splitNonLeafNode.pushupIndex N prev e.key) prev hlen
  unfold splitNonLeafNode.nodes
  simp only
  generalize splitNonLeafNode.pushupIndex N prev e.key = p at hleft hright ⊢
  split
  · refine ⟨?_, fun k hk => ?_⟩
    · intro k hk
      rcases insertNonLeafNode_keys _ _ _ _ hk with h | h | h
      · rcases hleft k h with h0 | h0
        · exact Or.inl h0
        · exact Or.inr (Or.inr h0)
      · exact Or.inl h
      · exact Or.inr (Or.inl h)
    · rcases hright k hk with h0 | h0
      · exact Or.inl h0
      · exact Or.inr (Or.inr h0)
  · refine ⟨fun k hk => ?_, ?_⟩
    · rcases hleft k hk with h0 | h0
      · exact Or.inl h0
      · exact Or.inr (Or.inr h0)
    · intro k hk
      rcases insertNonLeafNode_keys _ _ _ _ hk with h | h | h
      · rcases hright k h with h0 | h0
        · exact Or.inl h0
        · exact Or.inr (Or.inr h0)
      · exact Or.inl h
      · exact Or.inr (Or.inl h)

/-- C27: `splitNonLeafNode` on a full internal node (stored in page `prevPageNo` of a file
with a valid header page) returns the pushed-up entry made of the key at the push index
`p` and the page id of the new node, where `p = N/2` for odd `N` and, for even `N`,
`p = N/2 - 1` if the incoming key is smaller than `keyArray[N/2]` and `p = N/2` otherwise.
The promoted key is not copied to either side: key slot `p` of the split node is cleared
(line 401), and after the split every key slot of the left node holds 0, the incoming key
or the key of an old slot other than `p`, and every key slot of the right node holds 0,
the incoming key or the key of an old slot behind `p`.  Hence, if the keys of the node are
strictly increasing and the promoted key is not 0 and is not the incoming key, its value is
in no key slot of either node. -/
theorem splitNonLeafNode_promotes_key (prevNode : NonLeafNodeInt) (prevPageNo : Nat)
    (e : PageKeyPair) (s : BTreeIndex) (metaInfo : IndexMetaInfo) (hN : 1 ≤ s.nodeOccupancy)
    (hcur : pageAt prevPageNo s = some (Page.nonLeaf prevNode))
    (hm : pageAt s.headerPageNum s = some (Page.header metaInfo))
    (hlen : prevNode.keyArray.length = s.nodeOccupancy) :
    splitNonLeafNode.pushupIndex s.nodeOccupancy prevNode e.key =
        (if s.nodeOccupancy % 2 = 0 then
          if e.key < prevNode.keyArray.getD (s.nodeOccupancy / 2) 0 then s.nodeOccupancy / 2 - 1
          else s.nodeOccupancy / 2
        else s.nodeOccupancy / 2) ∧
    (∃ s', splitNonLeafNode prevNode prevPageNo e s =
        Res.ok (some ⟨s.pages.length + 1, prevNode.keyArray.getD
          (splitNonLeafNode.pushupIndex s.nodeOccupancy prevNode e.key) 0⟩) s' ∧
      pageAt prevPageNo s' =
        some (Page.nonLeaf (splitNonLeafNode.nodes s.nodeOccupancy prevNode
          (zeroNonLeaf s.nodeOccupancy) e).1) ∧
      pageAt (s.pages.length + 1) s' =
        some (Page.nonLeaf (splitNonLeafNode.nodes s.nodeOccupancy prevNode
          (zeroNonLeaf s.nodeOccupancy) e).2)) ∧
    ((splitNonLeafNode.move
          (splitNonLeafNode.pushupIndex s.nodeOccupancy prevNode e.key + 1)
          (s.nodeOccupancy - (splitNonLeafNode.pushupIndex s.nodeOccupancy prevNode e.key + 1))
          (splitNonLeafNode.pushupIndex s.nodeOccupancy prevNode e.key + 1)
          (prevNode, zeroNonLeaf s.nodeOccupancy)).1.keyArray.set
        (splitNonLeafNode.pushupIndex s.nodeOccupancy prevNode e.key) 0).getD
      (splitNonLeafNode.pushupIndex s.nodeOccupancy prevNode e.key) 0 = 0 ∧
    (∀ k ∈ (splitNonLeafNode.nodes s.nodeOccupancy prevNode
          (zeroNonLeaf s.nodeOccupancy) e).1.keyArray,
        k = 0 ∨ k = e.key ∨
          ∃ i, i < s.nodeOccupancy ∧
            i ≠ splitNonLeafNode.pushupIndex s.nodeOccupancy prevNode e.key ∧
            k = prevNode.keyArray.getD i 0) ∧
    (∀ k ∈ (splitNonLeafNode.nodes s.nodeOccupancy prevNode
          (zeroNonLeaf s.nodeOccupancy) e).2.keyArray,
        k = 0 ∨ k = e.key ∨
          ∃ i, splitNonLeafNode.pushupIndex s.nodeOccupancy prevNode e.key < i ∧
            i < s.nodeOccupancy ∧ k = prevNode.keyArray.getD i 0) ∧
    (prevNode.keyArray.Pairwise (fun a b => a < b) →
      prevNode.keyArray.getD
        (splitNonLeafNode.pushupIndex s.nodeOccupancy prevNode e.key) 0 ≠ 0 →
      e.key ≠ prevNode.keyArray.getD
        (splitNonLeafNode.pushupIndex s.nodeOccupancy prevNode e.key) 0 →
      prevNode.keyArray.getD (splitNonLeafNode.pushupIndex s.nodeOccupancy prevNode e.key) 0 ∉
          (splitNonLeafNode.nodes s.nodeOccupancy prevNode (zeroNonLeaf s.nodeOccupancy)
            e).1.keyArray ∧
        prevNode.keyArray.getD (splitNonLeafNode.pushupIndex s.nodeOccupancy prevNode e.key)
            0 ∉
          (splitNonLeafNode.nodes s.nodeOccupancy prevNode (zeroNonLeaf s.nodeOccupancy)
            e).2.keyArray) := by
  obtain ⟨hsrc1, hsrc2⟩ := splitNonLeafNode_key_sources s.nodeOccupancy prevNode e hlen
  have hp := splitNonLeafNode_pushupIndex_lt s.nodeOccupancy prevNode e.key hN
  refine ⟨rfl, ?_, ?_, hsrc1, hsrc2,
    fun hs hzero hne =>
      splitNonLeafNode_promoted_absent s.nodeOccupancy prevNode e hN hlen hs hzero hne⟩
  · obtain ⟨hw1, hw2, hw3, hw4⟩ := written_nonLeaf_pages prevNode prevPageNo e s _ hcur
    have hle := pageAt_some_le _ _ _ hm
    have hcurle := pageAt_some_le _ _ _ hcur
    have hneq : s.headerPageNum ≠ prevPageNo := by
      intro h
      rw [h, hcur] at hm
      cases hm
    have hmW : pageAt (splitNonLeafNode.written prevNode prevPageNo e s).headerPageNum
        (splitNonLeafNode.written prevNode prevPageNo e s) = some (Page.header metaInfo) := by
      have : (splitNonLeafNode.written prevNode prevPageNo e s).headerPageNum =
          s.headerPageNum := rfl
      rw [this, hw3 _ hneq hle.2, hm]
    obtain ⟨s', hs', hframe, _⟩ := split_finish (prevPageNo = s.rootPageNum) prevPageNo
      (splitNonLeafNode.pushup prevNode e s) (splitNonLeafNode.written prevNode prevPageNo e s)
      metaInfo hN hmW
    refine ⟨s', ?_, ?_, ?_⟩
    · rw [splitNonLeafNode_eq]
      exact hs'
    · rw [hframe _ (fun h => hneq h.symm) (by rw [hw4]; omega), hw1]
    · rw [hframe _ (by
        have : (splitNonLeafNode.written prevNode prevPageNo e s).headerPageNum =
          s.headerPageNum := rfl
        rw [this]
        omega) (by rw [hw4]), hw2]
  · rw [List.getD_eq_getElem?_getD, List.getElem?_set_self (by
      rw [splitNonLeafNode_move_left_length]
      simp only
      omega)]
    rfl

/-- Witness of C27: the root of a tree with two key slots per node, full with the keys
10, 20, splits when the entry `(30, page 9)` comes up. -/
theorem splitNonLeafNode_promotes_key_witness :
    splitNonLeafNode.pushupIndex 2 ⟨1, [10, 20], [2, 3, 5]⟩ 30 =
        (if 2 % 2 = 0 then
          if (30 : Int) < ([10, 20] : List Int).getD (2 / 2) 0 then 2 / 2 - 1 else 2 / 2
        else 2 / 2) ∧
    (∃ s', splitNonLeafNode ⟨1, [10, 20], [2, 3, 5]⟩ 4 ⟨9, 30⟩
          { BTreeIndex.create 2 2 [] 0 Datatype.INTEGER with
            pages := [Page.header ⟨[], 0, Datatype.INTEGER, 4⟩, Page.blank, Page.blank,
              Page.nonLeaf ⟨1, [10, 20], [2, 3, 5]⟩, Page.blank]
            rootPageNum := 4 } =
        Res.ok (some ⟨5 + 1, ([10, 20] : List Int).getD
          (splitNonLeafNode.pushupIndex 2 ⟨1, [10, 20], [2, 3, 5]⟩ 30) 0⟩) s' ∧
      pageAt 4 s' =
        some (Page.nonLeaf (splitNonLeafNode.nodes 2 ⟨1, [10, 20], [2, 3, 5]⟩
          (zeroNonLeaf 2) ⟨9, 30⟩).1) ∧
      pageAt (5 + 1) s' =
        some (Page.nonLeaf (splitNonLeafNode.nodes 2 ⟨1, [10, 20], [2, 3, 5]⟩
          (zeroNonLeaf 2) ⟨9, 30⟩).2)) ∧
    ([10, 20] : List Int).getD (splitNonLeafNode.pushupIndex 2 ⟨1, [10, 20], [2, 3, 5]⟩ 30) 0 ∉
      (splitNonLeafNode.nodes 2 ⟨1, [10, 20], [2, 3, 5]⟩ (zeroNonLeaf 2) ⟨9, 30⟩).1.keyArray ∧
    ([10, 20] : List Int).getD (splitNonLeafNode.pushupIndex 2 ⟨1, [10, 20], [2, 3, 5]⟩ 30) 0 ∉
      (splitNonLeafNode.nodes 2 ⟨1, [10, 20], [2, 3, 5]⟩ (zeroNonLeaf 2) ⟨9, 30⟩).2.keyArray :=
  have h := splitNonLeafNode_promotes_key ⟨1, [10, 20], [2, 3, 5]⟩ 4 ⟨9, 30⟩
    { BTreeIndex.create 2 2 [] 0 Datatype.INTEGER with
      pages := [Page.header ⟨[], 0, Datatype.INTEGER, 4⟩, Page.blank, Page.blank,
        Page.nonLeaf ⟨1, [10, 20], [2, 3, 5]⟩, Page.blank]
      rootPageNum := 4 }
    ⟨[], 0, Datatype.INTEGER, 4⟩ (by decide) rfl rfl rfl
  ⟨h.1, h.2.1, h.2.2.2.2.2 (by decide) (by decide) (by decide)⟩

/-! ## Splitting a full leaf -/

theorem splitLeafNode_migrate_spec (mid : Nat) (todo : List (Int × RecordId)) (A : List Int)
    (B : List RecordId) (done : List (Int × RecordId)) (rk : List Int) (rr : List RecordId)
    (sib sib2 : Nat) (hA : A.length = mid + done.length) (hB : B.length = mid + done.length)
    (hrk : todo.length ≤ rk.length) (hrr : todo.length ≤ rr.length) :
    splitLeafNode.migrate mid todo.length (mid + done.length)
        (⟨A ++ todo.map Prod.fst, B ++ todo.map Prod.snd, sib⟩,
          ⟨done.map Prod.fst ++ rk, done.map Prod.snd ++ rr, sib2⟩) =
      (⟨A ++ List.replicate todo.length 0,
          B ++ (todo.map Prod.snd).map (fun r => { r with page_number := 0 }), sib⟩,
        ⟨done.map Prod.fst ++ todo.map Prod.fst ++ rk.drop todo.length,
          done.map Prod.snd ++ todo.map Prod.snd ++ rr.drop todo.length, sib2⟩) := by
  induction todo generalizing A B done rk rr with
  | nil => simp [splitLeafNode.migrate]
  | cons t todo ih =>
    obtain ⟨x, rk', rfl⟩ : ∃ x rk', rk = x :: rk' := by
      cases rk with
      | nil => simp at hrk
      | cons x rk' => exact ⟨x, rk', rfl⟩
    obtain ⟨y, rr', rfl⟩ : ∃ y rr', rr = y :: rr' := by
      cases rr with
      | nil => simp at hrr
      | cons y rr' => exact ⟨y, rr', rfl⟩
    simp only [List.length_cons, Nat.add_le_add_iff_right] at hrk hrr
    simp only [List.length_cons, List.map_cons]
    unfold splitLeafNode.migrate
    simp only
    have e1 : (A ++ t.1 :: todo.map Prod.fst).getD (mid + done.length) 0 = t.1 :=
      getD_append_cons _ _ _ _ _ hA.symm
    have e2 : (B ++ t.2 :: todo.map Prod.snd).getD (mid + done.length) default = t.2 :=
      getD_append_cons _ _ _ _ _ hB.symm
    have e3 : (A ++ t.1 :: todo.map Prod.fst).set (mid + done.length) 0 =
        (A ++ [0]) ++ todo.map Prod.fst := by
      rw [set_append_cons _ _ _ _ _ hA.symm]
      simp
    have e4 : ∀ v, (B ++ t.2 :: todo.map Prod.snd).set (mid + done.length) v =
        (B ++ [v]) ++ todo.map Prod.snd := by
      intro v
      rw [set_append_cons _ _ _ _ _ hB.symm]
      simp
    have e5 : ∀ v, (done.map Prod.fst ++ x :: rk').set (mid + done.length - mid) v =
        (done ++ [(v, t.2)]).map Prod.fst ++ rk' := by
      intro v
      rw [set_append_cons _ _ _ _ _ (by simp)]
      simp
    have e6 : ∀ v, (done.map Prod.snd ++ y :: rr').set (mid + done.length - mid) v =
        (done ++ [(t.1, v)]).map Prod.snd ++ rr' := by
      intro v
      rw [set_append_cons _ _ _ _ _ (by simp)]
      simp
    rw [e1, e2, e3, e4, e5, e6]
    have hlen : mid + done.length + 1 = mid + (done ++ [(t.1, t.2)]).length := by
      simp [Nat.add_assoc]
    rw [hlen, ih (A ++ [0]) (B ++ [(⟨0, t.2.slot_number⟩ : RecordId)]) (done ++ [(t.1, t.2)]) rk' rr'
      (by simp [hA, Nat.add_assoc]) (by simp [hB, Nat.add_assoc]) hrk hrr]
    simp [List.replicate_succ]

theorem stableInsert_append_right (e : Int × RecordId) (l r : List (Int × RecordId))
    (h : ∀ b ∈ l, b.1 ≤ e.1) : stableInsert e (l ++ r) = l ++ stableInsert e r := by
  induction l with
  | nil => rfl
  | cons b l ih =>
    have hb : ¬ e.1 < b.1 := by
      have := h b (by simp)
      omega
    simp only [List.cons_append, stableInsert, if_neg hb]
    exact congrArg _ (ih (fun c hc => h c (by simp [hc])))

theorem stableInsert_append_left (e : Int × RecordId) (l r : List (Int × RecordId))
    (h : ∀ b ∈ r, e.1 < b.1) : stableInsert e (l ++ r) = stableInsert e l ++ r := by
  induction l with
  | nil =>
    cases r with
    | nil => rfl
    | cons b r => simp [stableInsert, h b (by simp)]
  | cons b l ih =>
    simp only [List.cons_append, stableInsert]
    split
    · rfl
    · exact congrArg _ ih

theorem splitLeafNode_midPoint_bounds (L : Nat) (leaf : LeafNodeInt) (key : Int)
    (hL : 2 ≤ L) :
    1 ≤ splitLeafNode.midPoint L leaf key ∧ splitLeafNode.midPoint L leaf key < L := by
  unfold splitLeafNode.midPoint
  split <;> omega

theorem splitLeafNode_midPoint_halves (L : Nat) (leaf : LeafNodeInt) (key : Int) :
    L / 2 ≤ splitLeafNode.midPoint L leaf key ∧
      L / 2 ≤ L - splitLeafNode.midPoint L leaf key := by
  unfold splitLeafNode.midPoint
  split <;> omega

theorem stableInsert_perm (e : Int × RecordId) (es : List (Int × RecordId)) :
    (stableInsert e es).Perm (e :: es) := by
  induction es with
  | nil => exact List.Perm.refl _
  | cons b l ih =>
    simp only [stableInsert]
    split
    · exact List.Perm.refl _
    · exact (List.Perm.cons b ih).trans (List.Perm.swap e b l)

/-- The two leaves made by `splitLeafNode` from a full leaf holding the ordered entries `E`:
the old leaf keeps the first `midPoint` entries and the new leaf gets the others, and the
new entry is inserted into the new leaf if the old `keyArray[midPoint - 1]` is smaller than
its key, into the old leaf otherwise.  The slots behind the entries are vacant. -/
theorem splitLeafNode_nodes_cases (L : Nat) (E : List (Int × RecordId)) (sib newPageNo : Nat)
    (e : RIDKeyPair) (hL : 2 ≤ L) (hlen : E.length = L)
    (hs : E.Pairwise (fun a b => a.1 ≤ b.1)) (hrid : ∀ b ∈ E, b.2.page_number ≠ 0) :
    ∃ El Er tk tr tk2 tr2,
      splitLeafNode.nodes L ⟨E.map Prod.fst, E.map Prod.snd, sib⟩ (zeroLeaf L) newPageNo e =
        (⟨El.map Prod.fst ++ tk, El.map Prod.snd ++ tr, newPageNo⟩,
          ⟨Er.map Prod.fst ++ tk2, Er.map Prod.snd ++ tr2, sib⟩) ∧
      (((E.map Prod.fst).getD
            (splitLeafNode.midPoint L ⟨E.map Prod.fst, E.map Prod.snd, sib⟩ e.key - 1) 0 <
            e.key ∧
          El = E.take (splitLeafNode.midPoint L ⟨E.map Prod.fst, E.map Prod.snd, sib⟩ e.key) ∧
          Er = stableInsert (e.key, e.rid)
            (E.drop (splitLeafNode.midPoint L ⟨E.map Prod.fst, E.map Prod.snd, sib⟩ e.key))) ∨
        (¬ (E.map Prod.fst).getD
            (splitLeafNode.midPoint L ⟨E.map Prod.fst, E.map Prod.snd, sib⟩ e.key - 1) 0 <
            e.key ∧
          El = stableInsert (e.key, e.rid)
            (E.take (splitLeafNode.midPoint L ⟨E.map Prod.fst, E.map Prod.snd, sib⟩ e.key)) ∧
          Er = E.drop (splitLeafNode.midPoint L ⟨E.map Prod.fst, E.map Prod.snd, sib⟩ e.key))) ∧
      El.length + tk.length = L ∧ tr.length = tk.length ∧ (∀ r ∈ tr, r.page_number = 0) ∧
      Er.length + tk2.length = L ∧ tr2.length = tk2.length ∧
      (∀ r ∈ tr2, r.page_number = 0) := by
  obtain ⟨hm1, hm2⟩ := splitLeafNode_midPoint_bounds L ⟨E.map Prod.fst, E.map Prod.snd, sib⟩
    e.key hL
  generalize hmid : splitLeafNode.midPoint L ⟨E.map Prod.fst, E.map Prod.snd, sib⟩ e.key = mid
    at hm1 hm2
  obtain ⟨m, rfl⟩ : ∃ m, mid = m + 1 := ⟨mid - 1, by omega⟩
  have hE : E = E.take (m + 1) ++ E.drop (m + 1) := (List.take_append_drop (m + 1) E).symm
  have hlt : (E.take (m + 1)).length = m + 1 := by
    rw [List.length_take]
    omega
  have hld : (E.drop (m + 1)).length = L - (m + 1) := by
    rw [List.length_drop, hlen]
  have hmig : splitLeafNode.migrate (m + 1) (L - (m + 1)) (m + 1)
      (⟨E.map Prod.fst, E.map Prod.snd, sib⟩, zeroLeaf L) =
      (⟨(E.take (m + 1)).map Prod.fst ++ List.replicate (L - (m + 1)) 0,
          (E.take (m + 1)).map Prod.snd ++
            ((E.drop (m + 1)).map Prod.snd).map (fun r => { r with page_number := 0 }), sib⟩,
        ⟨(E.drop (m + 1)).map Prod.fst ++ List.replicate (m + 1) 0,
          (E.drop (m + 1)).map Prod.snd ++ List.replicate (m + 1) ⟨0, 0⟩, 0⟩) := by
    have h := splitLeafNode_migrate_spec (m + 1) (E.drop (m + 1))
      ((E.take (m + 1)).map Prod.fst) ((E.take (m + 1)).map Prod.snd) []
      (List.replicate L 0) (List.replicate L ⟨0, 0⟩) sib 0
      (by rw [List.length_map, hlt]; rfl) (by rw [List.length_map, hlt]; rfl)
      (by rw [hld, List.length_replicate]; omega) (by rw [hld, List.length_replicate]; omega)
    rw [hld] at h
    simp only [List.length_nil, Nat.add_zero, List.map_nil, List.nil_append,
      List.drop_replicate] at h
    rw [← List.map_append, ← List.map_append, List.take_append_drop] at h
    have hLm : L - (L - (m + 1)) = m + 1 := by omega
    rw [hLm] at h
    unfold zeroLeaf
    exact h
  have hsE := hs
  rw [hE, List.pairwise_append] at hsE
  obtain ⟨hsl, hsr, hlr⟩ := hsE
  have hridl : ∀ b ∈ E.take (m + 1), b.2.page_number ≠ 0 :=
    fun b hb => hrid b (List.mem_of_mem_take hb)
  have hridr : ∀ b ∈ E.drop (m + 1), b.2.page_number ≠ 0 :=
    fun b hb => hrid b (List.mem_of_mem_drop hb)
  -- the pivot is the last key of the left half
  obtain ⟨El0, pv, hEl⟩ : ∃ El0 pv, E.take (m + 1) = El0 ++ [pv] := by
    rcases List.eq_nil_or_concat (E.take (m + 1)) with h | ⟨l, a, h⟩
    · rw [h] at hlt
      simp at hlt
    · exact ⟨l, a, by simpa using h⟩
  have hEl0 : El0.length = m := by
    have := hlt
    rw [hEl] at this
    simpa using this
  have hpivot : (List.map Prod.fst (E.take (m + 1)) ++ List.replicate (L - (m + 1)) 0).getD m 0 =
      pv.1 := by
    rw [hEl]
    simp only [List.map_append, List.map_cons, List.map_nil, List.append_assoc,
      List.singleton_append]
    exact getD_append_cons _ _ _ _ _ (by simp [hEl0])
  have hold : (E.map Prod.fst).getD (m + 1 - 1) 0 = pv.1 := by
    have h1 : E.map Prod.fst =
        El0.map Prod.fst ++ pv.1 :: (E.drop (m + 1)).map Prod.fst := by
      conv_lhs => rw [hE, hEl]
      simp
    rw [h1]
    exact getD_append_cons _ _ _ _ _ (by simp [hEl0])
  have hrep1 : ∀ {α : Type} (z : α), List.replicate (m + 1) z = z :: List.replicate m z := by
    intro α z
    rw [List.replicate_succ]
  obtain ⟨d, hd⟩ : ∃ d, L - (m + 1) = d + 1 := ⟨L - (m + 1) - 1, by omega⟩
  obtain ⟨f, Er0, hEr⟩ : ∃ f Er0, E.drop (m + 1) = f :: Er0 := by
    cases hdr : E.drop (m + 1) with
    | nil => rw [hdr] at hld; simp at hld; omega
    | cons f Er0 => exact ⟨f, Er0, rfl⟩
  unfold splitLeafNode.nodes
  simp only [hmid, hmig, hpivot, hold]
  by_cases hpv : pv.1 < e.key
  · -- the new entry goes into the new leaf
    simp only [if_pos hpv]
    have hins := insertLeafNode_spec L (E.drop (m + 1)) 0 ⟨0, 0⟩ (List.replicate m 0)
      (List.replicate m ⟨0, 0⟩) 0 e hsr hridr rfl
      (by intro r hr; rw [List.eq_of_mem_replicate hr])
      (by rw [hld, List.length_replicate]; omega)
    rw [← hrep1, ← hrep1] at hins
    rw [hins]
    refine ⟨E.take (m + 1), stableInsert (e.key, e.rid) (E.drop (m + 1)),
      List.replicate (L - (m + 1)) 0,
      ((E.drop (m + 1)).map Prod.snd).map (fun r => { r with page_number := 0 }),
      List.replicate m 0, List.replicate m ⟨0, 0⟩, rfl, Or.inl ⟨hpv, rfl, rfl⟩, ?_, ?_, ?_, ?_,
      ?_, ?_⟩
    · rw [hlt, List.length_replicate]
      omega
    · simp [hlen]
    · intro r hr
      simp only [List.mem_map] at hr
      obtain ⟨a, _, rfl⟩ := hr
      rfl
    · rw [stableInsert_length, hld, List.length_replicate]
      omega
    · simp
    · intro r hr
      rw [List.eq_of_mem_replicate hr]
  · -- the new entry goes into the old leaf
    simp only [if_neg hpv]
    have hrk : List.replicate (L - (m + 1)) (0 : Int) = 0 :: List.replicate d 0 := by
      rw [hd, List.replicate_succ]
    have hrr : ((E.drop (m + 1)).map Prod.snd).map
        (fun r : RecordId => ({ r with page_number := 0 } : RecordId)) =
        ⟨0, f.2.slot_number⟩ ::
          (Er0.map Prod.snd).map (fun r => { r with page_number := 0 }) := by
      rw [hEr]
      rfl
    have hEr0 : Er0.length = d := by
      have := hld
      rw [hEr, hd] at this
      simpa using this
    have hins := insertLeafNode_spec L (E.take (m + 1)) 0 ⟨0, f.2.slot_number⟩
      (List.replicate d 0) ((Er0.map Prod.snd).map (fun r => { r with page_number := 0 })) sib e
      hsl hridl rfl
      (by
        intro r hr
        simp only [List.mem_map] at hr
        obtain ⟨a, _, rfl⟩ := hr
        rfl)
      (by simp [hlt, hEr0]; omega)
    rw [← hrk, ← hrr] at hins
    rw [hins]
    refine ⟨stableInsert (e.key, e.rid) (E.take (m + 1)), E.drop (m + 1), List.replicate d 0,
      (Er0.map Prod.snd).map (fun r => { r with page_number := 0 }),
      List.replicate (m + 1) 0, List.replicate (m + 1) ⟨0, 0⟩, rfl, Or.inr ⟨hpv, rfl, rfl⟩, ?_,
      ?_, ?_, ?_, ?_, ?_⟩
    · rw [stableInsert_length, hlt, List.length_replicate]
      omega
    · simp [hEr0]
    · intro r hr
      simp only [List.mem_map] at hr
      obtain ⟨a, _, rfl⟩ := hr
      rfl
    · rw [hld, List.length_replicate]
      omega
    · simp
    · intro r hr
      rw [List.eq_of_mem_replicate hr]

theorem pairwise_head_le (X : List (Int × RecordId)) (f : Int × RecordId)
    (hX : X.Pairwise (fun a b => a.1 ≤ b.1)) (hf : X.head? = some f) :
    ∀ b ∈ X, f.1 ≤ b.1 := by
  cases X with
  | nil => simp at hf
  | cons x rest =>
    simp only [List.head?_cons, Option.some.injEq] at hf
    subst hf
    intro b hb
    rcases List.mem_cons.mp hb with rfl | hb
    · exact le_refl _
    · exact (List.pairwise_cons.mp hX).1 b hb

/-- C24: `splitLeafNode` on a full leaf of `L >= 2` slots holding the entries `E` in key
order (page `cur`, the header page valid) with a new entry of nonzero record page number:
it returns, and the old page then holds the entries `El` and the new page the entries `Er`
in their first slots, the other slots vacant.  `El ++ Er` is in key order and a permutation
of the new entry and `E`; both lists have between `L / 2` and `L` entries; the new entry is
inserted into the new leaf if the old `keyArray[mid - 1]` is smaller than its key and into
the old leaf otherwise; and the entry returned is the first key of `Er` with the page id of
the new leaf, every key of `El` being `<=` that key and every key of `Er` `>=` it. -/
theorem splitLeafNode_partitions_entries (E : List (Int × RecordId)) (sib cur : Nat)
    (e : RIDKeyPair) (s : BTreeIndex) (metaInfo : IndexMetaInfo)
    (hL : 2 ≤ s.leafOccupancy) (hN : 1 ≤ s.nodeOccupancy) (hlen : E.length = s.leafOccupancy)
    (hs : E.Pairwise (fun a b => a.1 ≤ b.1)) (hrid : ∀ b ∈ E, b.2.page_number ≠ 0)
    (he : e.rid.page_number ≠ 0)
    (hcur : pageAt cur s = some (Page.leaf ⟨E.map Prod.fst, E.map Prod.snd, sib⟩))
    (hm : pageAt s.headerPageNum s = some (Page.header metaInfo)) :
    ∃ El Er tk tr tk2 tr2 sep s',
      splitLeafNode ⟨E.map Prod.fst, E.map Prod.snd, sib⟩ cur e s =
        Res.ok (some ⟨s.pages.length + 1, sep⟩) s' ∧
      pageAt cur s' =
        some (Page.leaf ⟨El.map Prod.fst ++ tk, El.map Prod.snd ++ tr, s.pages.length + 1⟩) ∧
      pageAt (s.pages.length + 1) s' =
        some (Page.leaf ⟨Er.map Prod.fst ++ tk2, Er.map Prod.snd ++ tr2, sib⟩) ∧
      (El ++ Er).Perm ((e.key, e.rid) :: E) ∧
      (El ++ Er).Pairwise (fun a b => a.1 ≤ b.1) ∧
      ((∀ b ∈ El, b.2.page_number ≠ 0) ∧ (∀ r ∈ tr, r.page_number = 0) ∧
        El.length + tr.length = s.leafOccupancy ∧ tk.length = tr.length) ∧
      ((∀ b ∈ Er, b.2.page_number ≠ 0) ∧ (∀ r ∈ tr2, r.page_number = 0) ∧
        Er.length + tr2.length = s.leafOccupancy ∧ tk2.length = tr2.length) ∧
      (s.leafOccupancy / 2 ≤ El.length ∧ El.length ≤ s.leafOccupancy) ∧
      (s.leafOccupancy / 2 ≤ Er.length ∧ Er.length ≤ s.leafOccupancy) ∧
      (((E.map Prod.fst).getD (splitLeafNode.midPoint s.leafOccupancy
            ⟨E.map Prod.fst, E.map Prod.snd, sib⟩ e.key - 1) 0 < e.key ∧
          El = E.take (splitLeafNode.midPoint s.leafOccupancy
            ⟨E.map Prod.fst, E.map Prod.snd, sib⟩ e.key) ∧
          Er = stableInsert (e.key, e.rid) (E.drop (splitLeafNode.midPoint s.leafOccupancy
            ⟨E.map Prod.fst, E.map Prod.snd, sib⟩ e.key))) ∨
        (¬ (E.map Prod.fst).getD (splitLeafNode.midPoint s.leafOccupancy
            ⟨E.map Prod.fst, E.map Prod.snd, sib⟩ e.key - 1) 0 < e.key ∧
          El = stableInsert (e.key, e.rid) (E.take (splitLeafNode.midPoint s.leafOccupancy
            ⟨E.map Prod.fst, E.map Prod.snd, sib⟩ e.key)) ∧
          Er = E.drop (splitLeafNode.midPoint s.leafOccupancy
            ⟨E.map Prod.fst, E.map Prod.snd, sib⟩ e.key))) ∧
      Er.head?.map Prod.fst = some sep ∧ (∀ b ∈ El, b.1 ≤ sep) ∧ (∀ b ∈ Er, sep ≤ b.1) := by
  obtain ⟨El, Er, tk, tr, tk2, tr2, hnodes, hcase, hl1, hl2, hv1, hl3, hl4, hv2⟩ :=
    splitLeafNode_nodes_cases s.leafOccupancy E sib (s.pages.length + 1) e hL hlen hs hrid
  obtain ⟨hm1, hm2⟩ := splitLeafNode_midPoint_bounds s.leafOccupancy
    ⟨E.map Prod.fst, E.map Prod.snd, sib⟩ e.key hL
  obtain ⟨hh1, hh2⟩ := splitLeafNode_midPoint_halves s.leafOccupancy
    ⟨E.map Prod.fst, E.map Prod.snd, sib⟩ e.key
  generalize splitLeafNode.midPoint s.leafOccupancy
    ⟨E.map Prod.fst, E.map Prod.snd, sib⟩ e.key = mid at hcase hm1 hm2 hh1 hh2 ⊢
  have hE : E = E.take mid ++ E.drop mid := (List.take_append_drop mid E).symm
  have hlt : (E.take mid).length = mid := by
    rw [List.length_take]
    omega
  have hld : (E.drop mid).length = s.leafOccupancy - mid := by
    rw [List.length_drop, hlen]
  have hsE := hs
  rw [hE, List.pairwise_append] at hsE
  obtain ⟨hsl, hsr, hlr⟩ := hsE
  -- the last key of the left half is the old `keyArray[mid - 1]`
  have hpv : ∀ b ∈ E.take mid, b.1 ≤ (E.map Prod.fst).getD (mid - 1) 0 := by
    intro b hb
    obtain ⟨j, hj, hjv⟩ := List.getElem_of_mem hb
    rw [hlt] at hj
    have hjE : j < E.length := by omega
    have hmE : mid - 1 < E.length := by omega
    have hbj : b = E[j] := by
      rw [← hjv, List.getElem_take]
    have hget : (E.map Prod.fst).getD (mid - 1) 0 = (E[mid - 1]).1 := by
      rw [List.getD_eq_getElem?_getD, List.getElem?_map, List.getElem?_eq_getElem hmE]
      rfl
    rw [hget, hbj]
    rcases Nat.lt_or_ge j (mid - 1) with h | h
    · exact List.pairwise_iff_getElem.mp hs j (mid - 1) hjE hmE h
    · have : j = mid - 1 := by omega
      subst this
      exact le_refl _
  have hpvr : ∀ b ∈ E.drop mid, (E.map Prod.fst).getD (mid - 1) 0 ≤ b.1 := by
    intro b hb
    have hmE : mid - 1 < E.length := by omega
    have hget : (E.map Prod.fst).getD (mid - 1) 0 = (E[mid - 1]).1 := by
      rw [List.getD_eq_getElem?_getD, List.getElem?_map, List.getElem?_eq_getElem hmE]
      rfl
    rw [hget]
    have hmem : E[mid - 1] ∈ E.take mid := by
      rw [List.mem_take_iff_getElem]
      exact ⟨mid - 1, by omega, rfl⟩
    exact hlr _ hmem b hb
  have hperm : (El ++ Er).Perm ((e.key, e.rid) :: E) := by
    rcases hcase with ⟨_, rfl, rfl⟩ | ⟨_, rfl, rfl⟩
    · refine (List.Perm.append_left _ (stableInsert_perm _ _)).trans ?_
      refine List.perm_middle.trans ?_
      rw [List.take_append_drop]
    · refine (List.Perm.append_right _ (stableInsert_perm _ _)).trans ?_
      rw [List.cons_append, List.take_append_drop]
  have hsorted : (El ++ Er).Pairwise (fun a b => a.1 ≤ b.1) := by
    rcases hcase with ⟨hlt', rfl, rfl⟩ | ⟨hge, rfl, rfl⟩
    · rw [List.pairwise_append]
      refine ⟨hsl, stableInsert_pairwise _ _ hsr, ?_⟩
      intro a ha b hb
      rw [stableInsert_mem] at hb
      rcases hb with rfl | hb
      · have := hpv a ha
        show a.1 ≤ e.key
        omega
      · exact hlr a ha b hb
    · rw [List.pairwise_append]
      refine ⟨stableInsert_pairwise _ _ hsl, hsr, ?_⟩
      intro a ha b hb
      rw [stableInsert_mem] at ha
      rcases ha with rfl | ha
      · have := hpvr b hb
        show e.key ≤ b.1
        omega
      · exact hlr a ha b hb
  have hEl_len : s.leafOccupancy / 2 ≤ El.length ∧ El.length ≤ s.leafOccupancy := by
    rcases hcase with ⟨_, rfl, rfl⟩ | ⟨_, rfl, rfl⟩
    · rw [hlt]
      omega
    · rw [stableInsert_length, hlt]
      omega
  have hEr_len : s.leafOccupancy / 2 ≤ Er.length ∧ Er.length ≤ s.leafOccupancy := by
    rcases hcase with ⟨_, rfl, rfl⟩ | ⟨_, rfl, rfl⟩
    · rw [stableInsert_length, hld]
      omega
    · rw [hld]
      omega
  have hridEl : ∀ b ∈ El, b.2.page_number ≠ 0 := by
    intro b hb
    have : b ∈ (e.key, e.rid) :: E := hperm.subset (List.mem_append_left _ hb)
    rcases List.mem_cons.mp this with rfl | h
    · exact he
    · exact hrid b h
  have hridEr : ∀ b ∈ Er, b.2.page_number ≠ 0 := by
    intro b hb
    have : b ∈ (e.key, e.rid) :: E := hperm.subset (List.mem_append_right _ hb)
    rcases List.mem_cons.mp this with rfl | h
    · exact he
    · exact hrid b h
  obtain ⟨f, rest, hEr⟩ : ∃ f rest, Er = f :: rest := by
    cases hEr : Er with
    | nil =>
      rw [hEr] at hEr_len
      simp at hEr_len
      omega
    | cons f rest => exact ⟨f, rest, rfl⟩
  -- the state
  obtain ⟨hw1, hw2, hw3, hw4⟩ := written_leaf_pages ⟨E.map Prod.fst, E.map Prod.snd, sib⟩ cur e
    s _ hcur
  have hle := pageAt_some_le _ _ _ hm
  have hneq : s.headerPageNum ≠ cur := by
    intro h
    rw [h, hcur] at hm
    cases hm
  have hWh : (splitLeafNode.written ⟨E.map Prod.fst, E.map Prod.snd, sib⟩ cur e
      s).headerPageNum = s.headerPageNum := rfl
  have hmW : pageAt (splitLeafNode.written ⟨E.map Prod.fst, E.map Prod.snd, sib⟩ cur e
        s).headerPageNum
      (splitLeafNode.written ⟨E.map Prod.fst, E.map Prod.snd, sib⟩ cur e s) =
      some (Page.header metaInfo) := by
    rw [hWh, hw3 _ hneq hle.2, hm]
  obtain ⟨s', hs', hframe, _⟩ := split_finish (s.rootPageNum = cur) cur
    (splitLeafNode.pushup ⟨E.map Prod.fst, E.map Prod.snd, sib⟩ e s)
    (splitLeafNode.written ⟨E.map Prod.fst, E.map Prod.snd, sib⟩ cur e s) metaInfo hN hmW
  have hcurle := pageAt_some_le _ _ _ hcur
  have hpush : splitLeafNode.pushup ⟨E.map Prod.fst, E.map Prod.snd, sib⟩ e s =
      ⟨s.pages.length + 1, f.1⟩ := by
    unfold splitLeafNode.pushup
    rw [hnodes, hEr]
    rfl
  have hsepl : ∀ b ∈ El, b.1 ≤ f.1 := by
    intro b hb
    exact (List.pairwise_append.mp hsorted).2.2 b hb f (by rw [hEr]; simp)
  have hsepr : ∀ b ∈ Er, f.1 ≤ b.1 :=
    pairwise_head_le Er f (List.pairwise_append.mp hsorted).2.1 (by rw [hEr]; rfl)
  refine ⟨El, Er, tk, tr, tk2, tr2, f.1, s', ?_, ?_, ?_, hperm, hsorted,
    ⟨hridEl, hv1, by omega, hl2.symm⟩, ⟨hridEr, hv2, by omega, hl4.symm⟩, hEl_len, hEr_len,
    hcase, by rw [hEr]; rfl, hsepl, hsepr⟩
  · rw [splitLeafNode_eq, ← hpush]
    exact hs'
  · rw [hframe _ (by rw [hWh]; exact fun h => hneq h.symm) (by rw [hw4]; omega), hw1, hnodes]
  · rw [hframe _ (by rw [hWh]; omega) (by rw [hw4]), hw2, hnodes]

/-- Witness of C24: the full root leaf of `fullLeafIndex` (keys 10, 20) splits when the entry
of key 15 is inserted. -/
theorem splitLeafNode_partitions_entries_witness :
    ∃ El Er tk tr tk2 tr2 sep s',
      splitLeafNode ⟨[10, 20], [⟨1, 0⟩, ⟨1, 1⟩], 0⟩ 2 ⟨⟨1, 2⟩, 15⟩ fullLeafIndex =
        Res.ok (some ⟨3, sep⟩) s' ∧
      pageAt 2 s' = some (Page.leaf ⟨El.map Prod.fst ++ tk, El.map Prod.snd ++ tr, 3⟩) ∧
      pageAt 3 s' = some (Page.leaf ⟨Er.map Prod.fst ++ tk2, Er.map Prod.snd ++ tr2, 0⟩) ∧
      (El ++ Er).Perm [(15, ⟨1, 2⟩), (10, ⟨1, 0⟩), (20, ⟨1, 1⟩)] ∧
      (El ++ Er).Pairwise (fun a b => a.1 ≤ b.1) ∧
      ((∀ b ∈ El, b.2.page_number ≠ 0) ∧ (∀ r ∈ tr, r.page_number = 0) ∧
        El.length + tr.length = 2 ∧ tk.length = tr.length) ∧
      ((∀ b ∈ Er, b.2.page_number ≠ 0) ∧ (∀ r ∈ tr2, r.page_number = 0) ∧
        Er.length + tr2.length = 2 ∧ tk2.length = tr2.length) ∧
      (2 / 2 ≤ El.length ∧ El.length ≤ 2) ∧
      (2 / 2 ≤ Er.length ∧ Er.length ≤ 2) ∧
      (((10 : Int) < 15 ∧ El = [(10, ⟨1, 0⟩)] ∧
          Er = stableInsert (15, ⟨1, 2⟩) [(20, ⟨1, 1⟩)]) ∨
        (¬ (10 : Int) < 15 ∧ El = stableInsert (15, ⟨1, 2⟩) [(10, ⟨1, 0⟩)] ∧
          Er = [(20, ⟨1, 1⟩)])) ∧
      Er.head?.map Prod.fst = some sep ∧ (∀ b ∈ El, b.1 ≤ sep) ∧ (∀ b ∈ Er, sep ≤ b.1) :=
  splitLeafNode_partitions_entries [(10, ⟨1, 0⟩), (20, ⟨1, 1⟩)] 0 2 ⟨⟨1, 2⟩, 15⟩ fullLeafIndex
    ⟨['r'], 0, Datatype.INTEGER, 2⟩ (by decide) (by decide) rfl (by decide) (by decide)
    (by decide) rfl rfl

/-! ## The sibling chain across a leaf split -/

theorem splitLeafNode_migrate_sib (mid n i : Nat) (st : LeafNodeInt × LeafNodeInt) :
    (splitLeafNode.migrate mid n i st).1.rightSibPageNo = st.1.rightSibPageNo := by
  induction n generalizing i st with
  | zero => rfl
  | succ n ih =>
    unfold splitLeafNode.migrate
    rw [ih]

theorem insertLeafNode_shift_sib (key : Int) (n : Nat) (leaf : LeafNodeInt) :
    (insertLeafNode.shift key n leaf).2.rightSibPageNo = leaf.rightSibPageNo := by
  induction n generalizing leaf with
  | zero => rfl
  | succ n ih =>
    unfold insertLeafNode.shift
    split
    · rw [ih]
    · rfl

theorem insertLeafNode_sib (L : Nat) (leaf : LeafNodeInt) (e : RIDKeyPair) :
    (insertLeafNode L leaf e).rightSibPageNo = leaf.rightSibPageNo := by
  unfold insertLeafNode
  split
  · rfl
  · exact insertLeafNode_shift_sib _ _ _

theorem splitLeafNode_nodes_sib (L : Nat) (leaf newLeaf : LeafNodeInt) (newPageNo : Nat)
    (e : RIDKeyPair) :
    (splitLeafNode.nodes L leaf newLeaf newPageNo e).1.rightSibPageNo = newPageNo ∧
      (splitLeafNode.nodes L leaf newLeaf newPageNo e).2.rightSibPageNo =
        leaf.rightSibPageNo := by
  unfold splitLeafNode.nodes
  refine ⟨rfl, ?_⟩
  simp only
  split
  · exact splitLeafNode_migrate_sib _ _ _ _
  · rw [insertLeafNode_sib]
    exact splitLeafNode_migrate_sib _ _ _ _

/-- C25: `splitLeafNode` on the leaf stored in page `cur` (the header page valid) returns an
entry naming the new page `|pages| + 1`.  Afterwards page `cur` is a leaf whose right
sibling is the new page, the new page is a leaf whose right sibling is the former right
sibling of the split leaf, every other leaf of the file is unchanged, and the file has no
other leaf. -/
theorem splitLeafNode_threads_sibling_chain (leaf : LeafNodeInt) (cur : Nat) (e : RIDKeyPair)
    (s : BTreeIndex) (metaInfo : IndexMetaInfo) (hN : 1 ≤ s.nodeOccupancy)
    (hcur : pageAt cur s = some (Page.leaf leaf))
    (hm : pageAt s.headerPageNum s = some (Page.header metaInfo)) :
    ∃ pe s' l1 l2, splitLeafNode leaf cur e s = Res.ok (some pe) s' ∧
      pe.pageNo = s.pages.length + 1 ∧
      pageAt cur s' = some (Page.leaf l1) ∧ l1.rightSibPageNo = s.pages.length + 1 ∧
      pageAt (s.pages.length + 1) s' = some (Page.leaf l2) ∧
      l2.rightSibPageNo = leaf.rightSibPageNo ∧
      (∀ q x, q ≠ cur → pageAt q s = some (Page.leaf x) → pageAt q s' = some (Page.leaf x)) ∧
      (∀ q x, pageAt q s' = some (Page.leaf x) →
        q = cur ∨ q = s.pages.length + 1 ∨ pageAt q s = some (Page.leaf x)) := by
  obtain ⟨hw1, hw2, hw3, hw4⟩ := written_leaf_pages leaf cur e s _ hcur
  have hle := pageAt_some_le _ _ _ hm
  have hcurle := pageAt_some_le _ _ _ hcur
  have hneq : s.headerPageNum ≠ cur := by
    intro h
    rw [h, hcur] at hm
    cases hm
  have hWh : (splitLeafNode.written leaf cur e s).headerPageNum = s.headerPageNum := rfl
  have hmW : pageAt (splitLeafNode.written leaf cur e s).headerPageNum
      (splitLeafNode.written leaf cur e s) = some (Page.header metaInfo) := by
    rw [hWh, hw3 _ hneq hle.2, hm]
  obtain ⟨s', hs', hframe, hleaves⟩ := split_finish (s.rootPageNum = cur) cur
    (splitLeafNode.pushup leaf e s) (splitLeafNode.written leaf cur e s) metaInfo hN hmW
  obtain ⟨hsib1, hsib2⟩ := splitLeafNode_nodes_sib s.leafOccupancy leaf
    (zeroLeaf s.leafOccupancy) (s.pages.length + 1) e
  refine ⟨splitLeafNode.pushup leaf e s, s', _, _, ?_, rfl, ?_, hsib1, ?_, hsib2, ?_, ?_⟩
  · rw [splitLeafNode_eq]
    exact hs'
  · rw [hframe _ (by rw [hWh]; exact fun h => hneq h.symm) (by rw [hw4]; omega), hw1]
  · rw [hframe _ (by rw [hWh]; omega) (by rw [hw4]), hw2]
  · intro q x hq hqs
    have hqle := pageAt_some_le _ _ _ hqs
    have hqh : q ≠ s.headerPageNum := by
      intro h
      rw [h, hm] at hqs
      cases hqs
    rw [hframe q (by rw [hWh]; exact hqh) (by rw [hw4]; omega), hw3 q hq hqle.2]
    exact hqs
  · intro q x hq
    have hW := hleaves q x hq
    have hqle := pageAt_some_le _ _ _ hW
    rw [hw4] at hqle
    by_cases h1 : q = cur
    · exact Or.inl h1
    · by_cases h2 : q = s.pages.length + 1
      · exact Or.inr (Or.inl h2)
      · right; right
        rw [← hw3 q h1 (by omega)]
        exact hW

/-- Witness of C25: the root leaf of `fullLeafIndex` (page 2 of 2, no right sibling) splits
when the entry of key 15 is inserted. -/
theorem splitLeafNode_threads_sibling_chain_witness :
    ∃ pe s' l1 l2,
      splitLeafNode ⟨[10, 20], [⟨1, 0⟩, ⟨1, 1⟩], 0⟩ 2 ⟨⟨1, 2⟩, 15⟩ fullLeafIndex =
        Res.ok (some pe) s' ∧
      pe.pageNo = 3 ∧
      pageAt 2 s' = some (Page.leaf l1) ∧ l1.rightSibPageNo = 3 ∧
      pageAt 3 s' = some (Page.leaf l2) ∧ l2.rightSibPageNo = 0 ∧
      (∀ q x, q ≠ 2 → pageAt q fullLeafIndex = some (Page.leaf x) →
        pageAt q s' = some (Page.leaf x)) ∧
      (∀ q x, pageAt q s' = some (Page.leaf x) →
        q = 2 ∨ q = 3 ∨ pageAt q fullLeafIndex = some (Page.leaf x)) :=
  splitLeafNode_threads_sibling_chain ⟨[10, 20], [⟨1, 0⟩, ⟨1, 1⟩], 0⟩ 2 ⟨⟨1, 2⟩, 15⟩
    fullLeafIndex ⟨['r'], 0, Datatype.INTEGER, 2⟩ (by decide) rfl rfl

/-! ## Dirty flags on the insert path -/

theorem pageAt_allocPage_ne (q : Nat) (s : BTreeIndex) (h : q ≠ s.pages.length + 1) :
    pageAt q (allocPage s).2 = pageAt q s := by
  rcases Nat.lt_or_ge s.pages.length q with hlt | hle
  · cases q with
    | zero => rfl
    | succ n =>
      simp only [pageAt, allocPage, List.get?_eq_getElem?]
      rw [List.getElem?_eq_none (by simp; omega), List.getElem?_eq_none (by omega)]
  · exact pageAt_allocPage_old q s hle

theorem wrote_trans {W : List Nat} {s s1 s2 : BTreeIndex} {d1 d2 : List BufCall}
    (h1 : Wrote W s s1 d1) (h2 : Wrote W s1 s2 d2) : Wrote W s s2 (d1 ++ d2) := by
  obtain ⟨a1, a2, a3, a4, a5, a6⟩ := h1
  obtain ⟨b1, b2, b3, b4, b5, b6⟩ := h2
  refine ⟨by rw [b1, a1, List.append_assoc], by omega, by rw [b3, a3], by rw [b4, a4], ?_, ?_⟩
  · intro q hq
    by_cases h : pageAt q s1 = pageAt q s
    · exact List.mem_append_right _ (b5 q (by rw [h]; exact hq))
    · exact List.mem_append_left _ (a5 q h)
  · intro q hq
    rcases List.mem_append.mp hq with hq | hq
    · exact a6 q hq
    · rcases b6 q hq with h | h | h
      · exact Or.inl h
      · exact Or.inr (Or.inl (by rw [h, a3]))
      · exact Or.inr (Or.inr (by omega))

theorem wrote_mono {W W' : List Nat} {s s' : BTreeIndex} {d : List BufCall}
    (h : Wrote W s s' d) (hW : ∀ q ∈ W, q ∈ W') : Wrote W' s s' d := by
  obtain ⟨a1, a2, a3, a4, a5, a6⟩ := h
  refine ⟨a1, a2, a3, a4, a5, ?_⟩
  intro q hq
  rcases a6 q hq with h | h | h
  · exact Or.inl (hW q h)
  · exact Or.inr (Or.inl h)
  · exact Or.inr (Or.inr h)

/-- A store into page `cur` followed by the dirty unpin of that page. -/
theorem store_wrote (cur : Nat) (x : Page) (s : BTreeIndex) :
    Wrote [cur] s (unPinPage cur true (setPage cur x s)) [BufCall.unPinPage cur true] := by
  refine ⟨rfl, by rw [show (unPinPage cur true (setPage cur x s)).pages.length =
    (setPage cur x s).pages.length from rfl, (setPage_members cur x s).2.2.2.2.2.2],
    rfl, rfl, ?_, ?_⟩
  · intro q hq
    by_cases h : q = cur
    · rw [h]
      simp
    · exact absurd (pageAt_setPage_ne q cur x s h) hq
  · intro q hq
    simp only [List.mem_singleton, BufCall.unPinPage.injEq, and_true] at hq
    exact Or.inl (by simp [hq])

/-- A read of a page: no page changes and nothing is unpinned. -/
theorem read_wrote (W : List Nat) (p : Nat) (s : BTreeIndex) :
    Wrote W s { s with bufLog := s.bufLog ++ [BufCall.readPage p] } [BufCall.readPage p] := by
  refine ⟨rfl, le_refl _, rfl, rfl, ?_, ?_⟩
  · intro q hq
    exact absurd rfl hq
  · intro q hq
    simp at hq

theorem getElem?_alloc_set (L : List Page) (R : Page) (n : Nat) (hn : n ≠ L.length) :
    ((L ++ [Page.blank]).set L.length R)[n]? = L[n]? := by
  rw [List.getElem?_set_ne (fun h => hn h.symm)]
  rcases Nat.lt_or_ge n L.length with h | h
  · rw [List.getElem?_append_left h]
  · rw [List.getElem?_eq_none (by simp; omega), List.getElem?_eq_none h]

/-- The pages `updateRoot` leaves alone, and the calls it makes. -/
theorem updateRoot_frame (prev : Nat) (e : PageKeyPair) (s : BTreeIndex)
    (u : Unit) (s' : BTreeIndex) (h : updateRoot prev e s = Res.ok u s') :
    (∀ q, q ≠ s.headerPageNum → q ≠ s.pages.length + 1 → pageAt q s' = pageAt q s) ∧
      s'.pages.length = s.pages.length + 1 ∧ s'.headerPageNum = s.headerPageNum ∧
      s'.nodeOccupancy = s.nodeOccupancy ∧
      s'.bufLog = s.bufLog ++ [BufCall.allocPage (s.pages.length + 1),
        BufCall.readPage s.headerPageNum, BufCall.unPinPage s.headerPageNum true,
        BufCall.unPinPage (s.pages.length + 1) true] := by
  unfold updateRoot at h
  simp only at h
  obtain ⟨n, s1, h1, ha⟩ := Res.ok_bind _ _ _ _ h
  clear h
  have := nonLeafAt_ok _ _ _ _ h1
  subst this
  obtain ⟨_, s2, h2, hb⟩ := Res.ok_bind _ _ _ _ ha
  clear ha
  have := readPage_ok _ _ _ _ h2
  subst this
  obtain ⟨m, s3, h3, hc⟩ := Res.ok_bind _ _ _ _ hb
  clear hb
  have := headerAt_ok _ _ _ _ h3
  subst this
  simp only [Res.ok.injEq, true_and] at hc
  subst hc
  clear h1 h2 h3
  refine ⟨?_, ?_, rfl, rfl, by simp [unPinPage, setPage, allocPage]⟩
  · intro q hh hn
    cases q with
    | zero => rfl
    | succ k =>
      simp only [pageAt, unPinPage, setPage, allocPage, List.get?_eq_getElem?]
      split
      · exact getElem?_alloc_set _ _ _ (by omega)
      · rename_i j hj
        rw [List.getElem?_set_ne (by omega)]
        exact getElem?_alloc_set _ _ _ (by omega)
  · simp only [unPinPage, setPage, allocPage]
    split <;> simp

theorem updateRoot_wrote (W : List Nat) (prev : Nat) (e : PageKeyPair) (s : BTreeIndex)
    (u : Unit) (s' : BTreeIndex) (h : updateRoot prev e s = Res.ok u s') :
    ∃ d, Wrote W s s' d ∧ ∀ q, BufCall.unPinPage q false ∉ d := by
  obtain ⟨hf, hlen, hh, hN, hlog⟩ := updateRoot_frame prev e s u s' h
  refine ⟨_, ⟨hlog, by omega, hh, hN, ?_, ?_⟩, by simp⟩
  · intro q hq
    by_cases h1 : q = s.headerPageNum
    · rw [h1]
      simp
    · by_cases h2 : q = s.pages.length + 1
      · rw [h2]
        simp
      · exact absurd (hf q h1 h2) hq
  · intro q hq
    simp only [List.mem_cons, BufCall.unPinPage.injEq, and_true, List.mem_singleton,
      reduceCtorEq, false_or, List.not_mem_nil, or_false] at hq
    rcases hq with hq | hq
    · exact Or.inr (Or.inl hq)
    · exact Or.inr (Or.inr (by omega))

/-- The two stores and the two dirty unpins of a split, on the page `cur` and the new
page. -/
theorem split_stores_wrote (cur : Nat) (x y : Page) (s : BTreeIndex) (b : Bool) :
    Wrote [cur] s
      (unPinPage (if b then cur else s.pages.length + 1) true
        (unPinPage (if b then s.pages.length + 1 else cur) true
          (setPage (s.pages.length + 1) y (setPage cur x (allocPage s).2))))
      [BufCall.allocPage (s.pages.length + 1),
        BufCall.unPinPage (if b then s.pages.length + 1 else cur) true,
        BufCall.unPinPage (if b then cur else s.pages.length + 1) true] := by
  refine ⟨by simp [unPinPage, setPage, allocPage], ?_, rfl, rfl, ?_, ?_⟩
  · simp only [unPinPage]
    rw [(setPage_members _ _ _).2.2.2.2.2.2, (setPage_members _ _ _).2.2.2.2.2.2,
      (allocPage_members s).2.2.2.2.2.2]
    omega
  · intro q hq
    by_cases h1 : q = cur
    · cases b <;> simp [h1]
    · by_cases h2 : q = s.pages.length + 1
      · cases b <;> simp [h2]
      · refine absurd ?_ hq
        simp only [unPinPage]
        rw [show ∀ (t : BTreeIndex) (l : List BufCall), pageAt q { t with bufLog := l } =
          pageAt q t from fun _ _ => rfl]
        rw [show ∀ (t : BTreeIndex) (l : List BufCall), pageAt q { t with bufLog := l } =
          pageAt q t from fun _ _ => rfl]
        rw [pageAt_setPage_ne q _ _ _ h2, pageAt_setPage_ne q _ _ _ h1,
          pageAt_allocPage_ne q s h2]
  · intro q hq
    cases b
    · simp only [Bool.false_eq_true, if_false, List.mem_cons, BufCall.unPinPage.injEq,
        and_true, List.mem_singleton, reduceCtorEq, false_or, List.not_mem_nil,
        or_false] at hq
      rcases hq with hq | hq
      · exact Or.inl (by simp [hq])
      · exact Or.inr (Or.inr (by omega))
    · simp only [if_true, List.mem_cons, BufCall.unPinPage.injEq,
        and_true, List.mem_singleton, reduceCtorEq, false_or, List.not_mem_nil,
        or_false] at hq
      rcases hq with hq | hq
      · exact Or.inr (Or.inr (by omega))
      · exact Or.inl (by simp [hq])

theorem splitLeafNode_wrote (leaf : LeafNodeInt) (cur : Nat) (e : RIDKeyPair) (s : BTreeIndex)
    (r : Option PageKeyPair) (s' : BTreeIndex) (h : splitLeafNode leaf cur e s = Res.ok r s') :
    ∃ d, Wrote [cur] s s' d ∧ (∀ q, BufCall.unPinPage q false ∉ d) := by
  rw [splitLeafNode_eq] at h
  have hW := split_stores_wrote cur
    (Page.leaf (splitLeafNode.nodes s.leafOccupancy leaf (zeroLeaf s.leafOccupancy)
      (s.pages.length + 1) e).1)
    (Page.leaf (splitLeafNode.nodes s.leafOccupancy leaf (zeroLeaf s.leafOccupancy)
      (s.pages.length + 1) e).2) s true
  simp only [if_true] at hW
  split at h
  · obtain ⟨_, s2, h2, hb⟩ := Res.ok_bind _ _ _ _ h
    simp only [Res.ok.injEq] at hb
    obtain ⟨_, rfl⟩ := hb
    obtain ⟨d, hd, hc⟩ := updateRoot_wrote [cur] _ _ _ _ _ h2
    refine ⟨_, wrote_trans hW hd, ?_⟩
    intro q hq
    rcases List.mem_append.mp hq with hq | hq
    · simp at hq
    · exact hc q hq
  · simp only [Res.ok.injEq] at h
    obtain ⟨_, rfl⟩ := h
    exact ⟨_, hW, by simp⟩

theorem splitNonLeafNode_wrote (node : NonLeafNodeInt) (cur : Nat) (e : PageKeyPair)
    (s : BTreeIndex) (r : Option PageKeyPair) (s' : BTreeIndex)
    (h : splitNonLeafNode node cur e s = Res.ok r s') :
    ∃ d, Wrote [cur] s s' d ∧ (∀ q, BufCall.unPinPage q false ∉ d) := by
  rw [splitNonLeafNode_eq] at h
  have hW := split_stores_wrote cur
    (Page.nonLeaf (splitNonLeafNode.nodes s.nodeOccupancy node (zeroNonLeaf s.nodeOccupancy)
      e).1)
    (Page.nonLeaf (splitNonLeafNode.nodes s.nodeOccupancy node (zeroNonLeaf s.nodeOccupancy)
      e).2) s false
  simp only [Bool.false_eq_true, if_false] at hW
  split at h
  · obtain ⟨_, s2, h2, hb⟩ := Res.ok_bind _ _ _ _ h
    simp only [Res.ok.injEq] at hb
    obtain ⟨_, rfl⟩ := hb
    obtain ⟨d, hd, hc⟩ := updateRoot_wrote [cur] _ _ _ _ _ h2
    refine ⟨_, wrote_trans hW hd, ?_⟩
    intro q hq
    rcases List.mem_append.mp hq with hq | hq
    · simp at hq
    · exact hc q hq
  · simp only [Res.ok.injEq] at h
    obtain ⟨_, rfl⟩ := h
    exact ⟨_, hW, by simp⟩

/-! ## The way down -/

theorem lastChild_replicate_zero (m i : Nat) : lastChild (List.replicate m 0) i = 0 := by
  induction i with
  | zero => rfl
  | succ i ih =>
    have h0 : (List.replicate m 0).getD i 0 = 0 := by
      rw [List.getD_eq_getElem?_getD]
      rcases Nat.lt_or_ge i m with h | h
      · rw [List.getElem?_eq_getElem (by simp; exact h)]
        simp
      · rw [List.getElem?_eq_none (by simp; exact h)]
        rfl
    simp only [lastChild, h0, if_true]
    exact ih

theorem findSubTree_zero (N : Nat) (key : Int) : findSubTree N (zeroNonLeaf N) key = 0 := by
  simp only [findSubTree, findSubTree.index, zeroNonLeaf, lastChild_replicate_zero]

/-- What a returning call of `recInsert` on an internal page has done: the page holds an
internal node, the child chosen by `findSubTree` was read and the recursive call on it
returned; then the page was unpinned clean (no entry came up), or the entry was stored in
the node and the page unpinned dirty, or the node was split. -/
theorem recInsert_internal_inv (fuel cur : Nat) (e : RIDKeyPair) (s : BTreeIndex)
    (r : Option PageKeyPair) (s' : BTreeIndex)
    (h : recInsert fuel false cur e s = Res.ok r s') :
    ∃ node f rc sc, fuel = f + 1 ∧ pageAt cur s = some (Page.nonLeaf node) ∧
      recInsert f (node.level == 1) (findSubTree s.nodeOccupancy node e.key) e
          { s with bufLog := s.bufLog ++
            [BufCall.readPage (findSubTree s.nodeOccupancy node e.key)] } = Res.ok rc sc ∧
      ((rc = none ∧ r = none ∧ s' = unPinPage cur false sc) ∨
        ∃ e' node2, rc = some e' ∧ nonLeafAt cur sc = Res.ok node2 sc ∧
          ((node2.pageNoArray.getD sc.nodeOccupancy 0 = 0 ∧ r = none ∧
              s' = unPinPage cur true
                (setPage cur (Page.nonLeaf (insertNonLeafNode sc.nodeOccupancy node2 e')) sc)) ∨
            (node2.pageNoArray.getD sc.nodeOccupancy 0 ≠ 0 ∧
              splitNonLeafNode node2 cur e' sc = Res.ok r s'))) := by
  unfold recInsert at h
  simp only [if_true] at h
  obtain ⟨node, s1, h1, ha⟩ := Res.ok_bind _ _ _ _ h
  clear h
  have := nonLeafAt_ok _ _ _ _ h1
  subst this
  obtain ⟨_, s2, h2, hb⟩ := Res.ok_bind _ _ _ _ ha
  clear ha
  have hnode : pageAt cur s1 = some (Page.nonLeaf node) := by
    rcases nonLeafAt_kind _ _ _ _ h1 with hk | hk
    · exact hk
    · exfalso
      have hz : node = zeroNonLeaf s1.nodeOccupancy := by
        unfold nonLeafAt at h1
        rw [hk] at h1
        simp only [Res.ok.injEq, and_true] at h1
        exact h1.symm
      rw [hz, findSubTree_zero] at h2
      simp [readPage, pageAt] at h2
  have := readPage_ok _ _ _ _ h2
  subst this
  cases fuel with
  | zero => simp at hb
  | succ f =>
    simp only at hb
    obtain ⟨rc, sc, h3, hc⟩ := Res.ok_bind _ _ _ _ hb
    clear hb
    refine ⟨node, f, rc, sc, rfl, hnode, h3, ?_⟩
    cases rc with
    | none =>
      simp only [Res.ok.injEq] at hc
      exact Or.inl ⟨rfl, hc.1.symm, hc.2.symm⟩
    | some e' =>
      simp only at hc
      obtain ⟨node2, s4, h4, hd⟩ := Res.ok_bind _ _ _ _ hc
      clear hc
      have := nonLeafAt_ok _ _ _ _ h4
      subst this
      refine Or.inr ⟨e', node2, rfl, h4, ?_⟩
      split at hd
      · rename_i hroom
        simp only [Res.ok.injEq] at hd
        exact Or.inl ⟨hroom, hd.1.symm, hd.2.symm⟩
      · rename_i hfull
        exact Or.inr ⟨hfull, hd⟩

/-- What a returning call of `recInsert` on a page visited as a leaf has done: the page
holds a leaf or is zero-filled, and the entry was stored and the page unpinned dirty, or
the leaf was split. -/
theorem recInsert_leaf_inv (fuel cur : Nat) (e : RIDKeyPair) (s : BTreeIndex)
    (r : Option PageKeyPair) (s' : BTreeIndex)
    (h : recInsert fuel true cur e s = Res.ok r s') :
    ((∃ x, pageAt cur s = some (Page.leaf x)) ∨ pageAt cur s = some Page.blank) ∧
      ((∃ x, r = none ∧ s' = unPinPage cur true (setPage cur x s)) ∨
        ∃ leaf, splitLeafNode leaf cur e s = Res.ok r s') := by
  unfold recInsert at h
  simp only [Bool.true_eq_false, if_false] at h
  obtain ⟨leaf, s1, h1, ha⟩ := Res.ok_bind _ _ _ _ h
  clear h
  have := leafAt_ok _ _ _ _ h1
  subst this
  refine ⟨?_, ?_⟩
  · rcases leafAt_kind _ _ _ _ h1 with hk | hk
    · exact Or.inl ⟨leaf, hk⟩
    · exact Or.inr hk
  · split at ha
    · simp only [Res.ok.injEq] at ha
      exact Or.inl ⟨_, ha.1.symm, ha.2.symm⟩
    · exact Or.inr ⟨leaf, ha⟩

theorem descentDepth_congr (fuel : Nat) (b : Bool) (cur : Nat) (key : Int)
    (s s' : BTreeIndex) (hp : s'.pages = s.pages) (hN : s'.nodeOccupancy = s.nodeOccupancy) :
    descentDepth fuel b cur key s' = descentDepth fuel b cur key s := by
  induction fuel generalizing b cur with
  | zero =>
    cases b with
    | true => simp only [descentDepth, pageAt_congr cur s s' hp]
    | false => rfl
  | succ f ih =>
    cases b with
    | true => simp only [descentDepth, pageAt_congr cur s s' hp]
    | false =>
      simp only [descentDepth, pageAt_congr cur s s' hp, hN]
      split
      · rw [ih]
      · rfl

theorem descentPath_congr (fuel : Nat) (b : Bool) (cur : Nat) (key : Int)
    (s s' : BTreeIndex) (hp : s'.pages = s.pages) (hN : s'.nodeOccupancy = s.nodeOccupancy) :
    descentPath fuel b cur key s' = descentPath fuel b cur key s := by
  induction fuel generalizing b cur with
  | zero =>
    cases b <;> rfl
  | succ f ih =>
    cases b with
    | true => rfl
    | false =>
      simp only [descentPath, pageAt_congr cur s s' hp, hN]
      split
      · rw [ih]
      · rfl

theorem descentDepth_internal (f : Nat) (cur : Nat) (key : Int) (s : BTreeIndex)
    (n : NonLeafNodeInt) (hn : pageAt cur s = some (Page.nonLeaf n)) :
    descentDepth (f + 1) false cur key s =
      (descentDepth f (n.level == 1) (findSubTree s.nodeOccupancy n key) key s).map
        (fun d => d + 1) := by
  simp only [descentDepth, hn]

theorem descentPath_internal (f : Nat) (cur : Nat) (key : Int) (s : BTreeIndex)
    (n : NonLeafNodeInt) (hn : pageAt cur s = some (Page.nonLeaf n)) :
    descentPath (f + 1) false cur key s =
      cur :: descentPath f (n.level == 1) (findSubTree s.nodeOccupancy n key) key s := by
  simp only [descentPath, hn]

theorem descentPath_leaf (f : Nat) (cur : Nat) (key : Int) (s : BTreeIndex) :
    descentPath f true cur key s = [cur] := by
  cases f <;> rfl

theorem descentDepth_leaf (f : Nat) (cur : Nat) (key : Int) (s : BTreeIndex) (d : Nat)
    (h : descentDepth f true cur key s = some d) :
    d = 0 ∧ ((∃ x, pageAt cur s = some (Page.leaf x)) ∨ pageAt cur s = some Page.blank) := by
  have h' : (match pageAt cur s with
      | some (Page.leaf _) => some 0
      | some Page.blank => some 0
      | _ => none) = some d := by
    cases f <;> exact h
  split at h'
  · rename_i x hx
    simp only [Option.some.injEq] at h'
    exact ⟨h'.symm, Or.inl ⟨x, hx⟩⟩
  · rename_i hx
    simp only [Option.some.injEq] at h'
    exact ⟨h'.symm, Or.inr hx⟩
  · cases h'

theorem descentDepth_internal_inv (f : Nat) (cur : Nat) (key : Int) (s : BTreeIndex) (d : Nat)
    (h : descentDepth f false cur key s = some d) :
    ∃ n f' d', f = f' + 1 ∧ d = d' + 1 ∧ pageAt cur s = some (Page.nonLeaf n) ∧
      descentDepth f' (n.level == 1) (findSubTree s.nodeOccupancy n key) key s = some d' := by
  cases f with
  | zero => simp [descentDepth] at h
  | succ f' =>
    simp only [descentDepth] at h
    split at h
    · rename_i n hx
      simp only [Option.map_eq_some'] at h
      obtain ⟨d', hd', rfl⟩ := h
      exact ⟨n, f', d', rfl, rfl, hx, hd'⟩
    · cases h

/-- The depth of a page does not depend on the fuel. -/
theorem descentDepth_unique (f f' : Nat) (b : Bool) (cur : Nat) (key : Int) (s : BTreeIndex)
    (d d' : Nat) (h : descentDepth f b cur key s = some d)
    (h' : descentDepth f' b cur key s = some d') : d = d' := by
  induction f generalizing f' b cur d d' with
  | zero =>
    cases b with
    | true =>
      rw [(descentDepth_leaf _ _ _ _ _ h).1, (descentDepth_leaf _ _ _ _ _ h').1]
    | false =>
      obtain ⟨_, _, _, hf, _⟩ := descentDepth_internal_inv _ _ _ _ _ h
      cases hf
  | succ f ih =>
    cases b with
    | true =>
      rw [(descentDepth_leaf _ _ _ _ _ h).1, (descentDepth_leaf _ _ _ _ _ h').1]
    | false =>
      obtain ⟨n, g, e, hf, hd, hn, hc⟩ := descentDepth_internal_inv _ _ _ _ _ h
      obtain ⟨n', g', e', hf', hd', hn', hc'⟩ := descentDepth_internal_inv _ _ _ _ _ h'
      rw [hn] at hn'
      simp only [Option.some.injEq, Page.nonLeaf.injEq] at hn'
      subst hn'
      simp only [Nat.succ.injEq, Nat.add_right_cancel_iff] at hf
      subst hf
      rw [hd, hd', ih g' _ _ e e' hc hc']

/-- A page visited as an internal page is not visited again further down. -/
theorem descentPath_not_mem (f : Nat) (b : Bool) (next : Nat) (key : Int) (s : BTreeIndex)
    (cur f0 d0 d1 : Nat) (hd0 : descentDepth f0 false cur key s = some d0)
    (hd1 : descentDepth f b next key s = some d1) (hlt : d1 < d0) :
    cur ∉ descentPath f b next key s := by
  obtain ⟨n0, _, _, _, _, hcur, _⟩ := descentDepth_internal_inv _ _ _ _ _ hd0
  induction f generalizing b next d1 with
  | zero =>
    cases b with
    | true =>
      rw [descentPath_leaf, List.mem_singleton]
      rintro rfl
      rcases (descentDepth_leaf _ _ _ _ _ hd1).2 with ⟨x, hx⟩ | hx <;> rw [hcur] at hx <;>
        cases hx
    | false =>
      obtain ⟨_, _, _, hf, _⟩ := descentDepth_internal_inv _ _ _ _ _ hd1
      cases hf
  | succ f ih =>
    cases b with
    | true =>
      rw [descentPath_leaf, List.mem_singleton]
      rintro rfl
      rcases (descentDepth_leaf _ _ _ _ _ hd1).2 with ⟨x, hx⟩ | hx <;> rw [hcur] at hx <;>
        cases hx
    | false =>
      obtain ⟨n, g, e, hf, hd, hn, hc⟩ := descentDepth_internal_inv _ _ _ _ _ hd1
      simp only [Nat.succ.injEq, Nat.add_right_cancel_iff] at hf
      subst hf
      rw [descentPath_internal _ _ _ _ _ hn, List.mem_cons, not_or]
      refine ⟨?_, ih _ _ e hc (by omega)⟩
      rintro rfl
      have := descentDepth_unique _ _ _ _ _ _ _ _ hd0 hd1
      omega

/-- A call of `recInsert` that returns has reached the page it visits as a leaf. -/
theorem recInsert_depth (fuel : Nat) (b : Bool) (cur : Nat) (e : RIDKeyPair) (s : BTreeIndex)
    (r : Option PageKeyPair) (s' : BTreeIndex) (h : recInsert fuel b cur e s = Res.ok r s') :
    ∃ d, descentDepth fuel b cur e.key s = some d := by
  induction fuel generalizing b cur s r s' with
  | zero =>
    cases b with
    | true =>
      obtain ⟨hk, _⟩ := recInsert_leaf_inv _ _ _ _ _ _ h
      rcases hk with ⟨x, hx⟩ | hx <;> simp [descentDepth, hx]
    | false =>
      obtain ⟨_, _, _, _, hf, _⟩ := recInsert_internal_inv _ _ _ _ _ _ h
      cases hf
  | succ f ih =>
    cases b with
    | true =>
      obtain ⟨hk, _⟩ := recInsert_leaf_inv _ _ _ _ _ _ h
      rcases hk with ⟨x, hx⟩ | hx <;> simp [descentDepth, hx]
    | false =>
      obtain ⟨node, g, rc, sc, hf, hn, hc, _⟩ := recInsert_internal_inv _ _ _ _ _ _ h
      simp only [Nat.succ.injEq, Nat.add_right_cancel_iff] at hf
      subst hf
      obtain ⟨d, hd⟩ := ih _ _ _ _ _ hc
      rw [descentDepth_congr _ _ _ _ s
        { s with bufLog := s.bufLog ++
          [BufCall.readPage (findSubTree s.nodeOccupancy node e.key)] } rfl rfl] at hd
      exact ⟨d + 1, by rw [descentDepth_internal _ _ _ _ _ hn, hd]; rfl⟩

/-! ## The dirty flags of `recInsert` -/

theorem unpin_clean_wrote (W : List Nat) (cur : Nat) (s : BTreeIndex) :
    Wrote W s (unPinPage cur false s) [BufCall.unPinPage cur false] := by
  refine ⟨rfl, le_refl _, rfl, rfl, ?_, ?_⟩
  · intro q hq
    exact absurd rfl hq
  · intro q hq
    simp at hq

theorem recInsert_leaf_dirty (fuel cur : Nat) (e : RIDKeyPair) (s : BTreeIndex)
    (r : Option PageKeyPair) (s' : BTreeIndex)
    (h : recInsert fuel true cur e s = Res.ok r s') :
    ∃ d, Wrote [cur] s s' d ∧ ∀ q, BufCall.unPinPage q false ∉ d := by
  obtain ⟨_, hstep⟩ := recInsert_leaf_inv _ _ _ _ _ _ h
  rcases hstep with ⟨x, _, rfl⟩ | ⟨leaf, hsplit⟩
  · exact ⟨_, store_wrote cur x s, by simp⟩
  · exact splitLeafNode_wrote _ _ _ _ _ _ hsplit

/-- The dirty flags of a returning call of `recInsert`, on a state whose header page is a
header: every page whose content has changed is unpinned dirty, on the way down or as the
header page or as a new page; a page is unpinned clean only if nothing comes up, and a page
unpinned clean has the content it had before the call. -/
theorem recInsert_dirty (fuel : Nat) (b : Bool) (cur : Nat) (e : RIDKeyPair) (s : BTreeIndex)
    (r : Option PageKeyPair) (s' : BTreeIndex) (m : IndexMetaInfo)
    (h : recInsert fuel b cur e s = Res.ok r s')
    (hm : pageAt s.headerPageNum s = some (Page.header m)) :
    ∃ d, Wrote (descentPath fuel b cur e.key s) s s' d ∧
      ((∃ q, BufCall.unPinPage q false ∈ d) → r = none) ∧
      (∀ q, BufCall.unPinPage q false ∈ d → pageAt q s' = pageAt q s) := by
  induction fuel generalizing b cur s r s' with
  | zero =>
    cases b with
    | true =>
      obtain ⟨d, hd, hc⟩ := recInsert_leaf_dirty _ _ _ _ _ _ h
      exact ⟨d, hd, fun ⟨q, hq⟩ => absurd hq (hc q), fun q hq => absurd hq (hc q)⟩
    | false =>
      obtain ⟨_, _, _, _, hf, _⟩ := recInsert_internal_inv _ _ _ _ _ _ h
      cases hf
  | succ f ih =>
    cases b with
    | true =>
      obtain ⟨d, hd, hc⟩ := recInsert_leaf_dirty _ _ _ _ _ _ h
      rw [descentPath_leaf]
      exact ⟨d, hd, fun ⟨q, hq⟩ => absurd hq (hc q), fun q hq => absurd hq (hc q)⟩
    | false =>
      obtain ⟨node, g, rc, sc, hf, hn, hc, hstep⟩ := recInsert_internal_inv _ _ _ _ _ _ h
      simp only [Nat.succ.injEq, Nat.add_right_cancel_iff] at hf
      subst hf
      obtain ⟨dc, hdc, hRc, hCc⟩ := ih _ _ _ _ _ hc hm
      rw [descentPath_congr _ _ _ _ s
        { s with bufLog := s.bufLog ++
          [BufCall.readPage (findSubTree s.nodeOccupancy node e.key)] } rfl rfl] at hdc
      rw [descentPath_internal _ _ _ _ _ hn]
      have hdown : Wrote
          (cur :: descentPath f (node.level == 1) (findSubTree s.nodeOccupancy node e.key)
            e.key s) s sc
          ([BufCall.readPage (findSubTree s.nodeOccupancy node e.key)] ++ dc) :=
        wrote_trans (read_wrote _ _ s) (wrote_mono hdc (fun q hq => List.mem_cons_of_mem _ hq))
      rcases hstep with ⟨hrc, hr, hs'⟩ | ⟨e', node2, hrc, _, hstep⟩
      · -- nothing came up: the page is unpinned clean
        subst hs'
        refine ⟨_, wrote_trans hdown (unpin_clean_wrote _ cur sc), fun _ => hr, ?_⟩
        intro q hq
        have hq' : BufCall.unPinPage q false ∈ dc ∨ q = cur := by
          simp only [List.mem_append, List.mem_singleton, reduceCtorEq, false_or,
            BufCall.unPinPage.injEq, and_true] at hq
          exact hq
        rcases hq' with hq' | rfl
        · exact hCc q hq'
        · show pageAt q sc = pageAt q s
          by_contra hne
          have hdirty := hdc.2.2.2.2.1 q hne
          obtain ⟨d1, hd1⟩ := recInsert_depth _ _ _ _ _ _ _ hc
          rw [descentDepth_congr _ _ _ _ s
            { s with bufLog := s.bufLog ++
              [BufCall.readPage (findSubTree s.nodeOccupancy node e.key)] } rfl rfl] at hd1
          have hd0 : descentDepth (f + 1) false q e.key s = some (d1 + 1) := by
            rw [descentDepth_internal _ _ _ _ _ hn, hd1]
            rfl
          rcases hdc.2.2.2.2.2 q hdirty with hp | hp | hp
          · exact descentPath_not_mem _ _ _ _ _ _ _ _ _ hd0 hd1 (by omega) hp
          · have hp' : q = s.headerPageNum := hp
            rw [hp', hm] at hn
            cases hn
          · have hp' : s.pages.length < q := hp
            have := pageAt_some_le _ _ _ hn
            omega
      · -- an entry came up: every unpin is dirty
        have hnone : ∀ q, BufCall.unPinPage q false ∉ dc := by
          intro q hq
          have := hRc ⟨q, hq⟩
          rw [hrc] at this
          cases this
        have hfin : ∀ d2, Wrote [cur] sc s' d2 → (∀ q, BufCall.unPinPage q false ∉ d2) →
            ∃ d, Wrote
              (cur :: descentPath f (node.level == 1)
                (findSubTree s.nodeOccupancy node e.key) e.key s) s s' d ∧
              ((∃ q, BufCall.unPinPage q false ∈ d) → r = none) ∧
              (∀ q, BufCall.unPinPage q false ∈ d → pageAt q s' = pageAt q s) := by
          intro d2 hd2 hc2
          have hno : ∀ q, BufCall.unPinPage q false ∉
              ([BufCall.readPage (findSubTree s.nodeOccupancy node e.key)] ++ dc) ++ d2 := by
            intro q hq
            simp only [List.mem_append, List.mem_singleton, reduceCtorEq, false_or] at hq
            rcases hq with hq | hq
            · exact hnone q hq
            · exact hc2 q hq
          refine ⟨_, wrote_trans hdown (wrote_mono hd2 (fun q hq => ?_)),
            fun ⟨q, hq⟩ => absurd hq (hno q), fun q hq => absurd hq (hno q)⟩
          rw [List.mem_singleton] at hq
          rw [hq]
          exact List.mem_cons_self _ _
        rcases hstep with ⟨_, _, hs'⟩ | ⟨_, hsplit⟩
        · subst hs'
          exact hfin _ (store_wrote cur _ sc) (by simp)
        · obtain ⟨d2, hd2, hc2⟩ := splitNonLeafNode_wrote _ _ _ _ _ _ hsplit
          exact hfin d2 hd2 hc2

/-- The dirty flags of a returning call of `insertEntry`. -/
theorem insertEntry_dirty (fuel : Nat) (key : Int) (rid : RecordId) (s s' : BTreeIndex)
    (m : IndexMetaInfo) (hm : pageAt s.headerPageNum s = some (Page.header m))
    (h : insertEntry fuel key rid s = Res.ok () s') :
    ∃ d, s'.bufLog = s.bufLog ++ d ∧
      (∀ q, pageAt q s' ≠ pageAt q s → BufCall.unPinPage q true ∈ d) ∧
      (∀ q, BufCall.unPinPage q false ∈ d → pageAt q s' = pageAt q s) := by
  unfold insertEntry at h
  simp only at h
  obtain ⟨_, s1, h1, ha⟩ := Res.ok_bind _ _ _ _ h
  clear h
  have := readPage_ok _ _ _ _ h1
  subst this
  obtain ⟨r, s2, h2, hb⟩ := Res.ok_bind _ _ _ _ ha
  clear ha
  simp only [Res.ok.injEq, true_and] at hb
  subst hb
  obtain ⟨d, hd, _, hC⟩ := recInsert_dirty _ _ _ _ _ _ _ m h2 hm
  refine ⟨BufCall.readPage s.rootPageNum :: d, ?_, ?_, ?_⟩
  · rw [hd.1]
    simp
  · intro q hq
    exact List.mem_cons_of_mem _ (hd.2.2.2.2.1 q hq)
  · intro q hq
    simp only [List.mem_cons, reduceCtorEq, false_or] at hq
    exact hC q hq

/-! ## The scan functions unpin clean -/

theorem cleanSince_refl (s : BTreeIndex) : CleanSince s s :=
  ⟨[], by simp, by simp⟩

theorem cleanSince_same {s0 s : BTreeIndex} (h : CleanSince s0 s) (s' : BTreeIndex)
    (hl : s'.bufLog = s.bufLog) : CleanSince s0 s' := by
  obtain ⟨d, hd, hc⟩ := h
  exact ⟨d, by rw [hl, hd], hc⟩

theorem cleanSince_step {s0 s : BTreeIndex} (h : CleanSince s0 s) (s' : BTreeIndex)
    (c : BufCall) (hl : s'.bufLog = s.bufLog ++ [c])
    (hc : ∀ q, c ≠ BufCall.unPinPage q true) : CleanSince s0 s' := by
  obtain ⟨d, hd, hd'⟩ := h
  refine ⟨d ++ [c], by rw [hl, hd, List.append_assoc], ?_⟩
  intro q hq
  rcases List.mem_append.mp hq with hq | hq
  · exact hd' q hq
  · rw [List.mem_singleton] at hq
    exact hc q hq.symm

theorem Res.Holds.and {α : Type} {P Q : BTreeIndex → Prop} {r : Res α} (hP : r.Holds P)
    (hQ : r.Holds Q) : r.Holds (fun s => P s ∧ Q s) := by
  cases r with
  | ok a s => exact ⟨hP, hQ⟩
  | exn e s => exact ⟨hP, hQ⟩
  | fault => trivial
  | outOfFuel => trivial

theorem readCurrent_clean (s0 : BTreeIndex) (p : Nat) (s : BTreeIndex)
    (hs : CleanSince s0 s) : (readCurrent p s).Holds (CleanSince s0) := by
  unfold readCurrent readPage
  split
  · exact cleanSince_same hs _ rfl
  · exact cleanSince_step hs _ _ rfl (by simp)

theorem endScan_clean (s0 s : BTreeIndex) (hs : CleanSince s0 s) :
    (endScan s).Holds (CleanSince s0) := by
  unfold endScan
  split
  · exact hs
  · exact cleanSince_step hs _ _ rfl (by simp)

theorem startScan_descend_clean (s0 : BTreeIndex) (fuel : Nat) (s : BTreeIndex)
    (hs : CleanSince s0 s) : (startScan.descend fuel s).Holds (CleanSince s0) := by
  induction fuel generalizing s with
  | zero => trivial
  | succ fuel ih =>
    unfold startScan.descend
    refine Res.Holds.bind _ _ _ (currentNonLeaf_holds _ _ hs) ?_
    intro node s1 _ hs1
    refine Res.Holds.bind _ _ _
      (readCurrent_clean _ _ _ (cleanSince_step hs1 _ (BufCall.unPinPage s1.currentPageNum false) rfl
        (by simp))) ?_
    intro _ s2 _ hs2
    split
    · exact hs2
    · exact ih s2 hs2

theorem startScan_slots_clean (s0 : BTreeIndex) (curNode : LeafNodeInt) (n i : Nat)
    (s : BTreeIndex) (hs : CleanSince s0 s) :
    (startScan.slots curNode n i s).Holds (CleanSince s0) := by
  induction n generalizing i s with
  | zero => exact hs
  | succ n ih =>
    unfold startScan.slots
    simp only
    split
    · exact cleanSince_same hs _ rfl
    · split
      · exact cleanSince_step hs _ _ rfl (by simp)
      · split
        · split
          · exact cleanSince_step hs _ _ rfl (by simp)
          · refine Res.Holds.bind _ _ _
              (readCurrent_clean _ _ _ (cleanSince_step hs _ (BufCall.unPinPage s.currentPageNum false)
                rfl (by simp))) ?_
            intro _ s2 _ hs2
            split
            · exact hs2
            · exact ih _ s2 hs2
        · exact ih _ s hs

theorem startScan_leaves_clean (s0 : BTreeIndex) (fuel : Nat) (s : BTreeIndex)
    (hs : CleanSince s0 s) : (startScan.leaves fuel s).Holds (CleanSince s0) := by
  induction fuel generalizing s with
  | zero => trivial
  | succ fuel ih =>
    unfold startScan.leaves
    refine Res.Holds.bind _ _ _ (currentLeaf_holds _ _ hs) ?_
    intro node s1 _ hs1
    split
    · exact cleanSince_step hs1 _ _ rfl (by simp)
    · refine Res.Holds.bind _ _ _ (startScan_slots_clean _ _ _ _ _ hs1) ?_
      intro b s2 _ hs2
      split
      · exact hs2
      · exact ih s2 hs2

theorem startScan_clean (fuel : Nat) (lo : Int) (lop : Operator) (hi : Int)
    (hop : Operator) (s : BTreeIndex) :
    (startScan fuel lo lop hi hop s).Holds (CleanSince s) := by
  unfold startScan
  simp only
  split
  · exact cleanSince_same (cleanSince_refl s) _ rfl
  · split
    · exact cleanSince_same (cleanSince_refl s) _ rfl
    · unfold startScan.position
      refine Res.Holds.bind _ _ _ ?_ ?_
      · split
        · exact endScan_clean _ _ (cleanSince_same (cleanSince_refl s) _ rfl)
        · exact cleanSince_same (cleanSince_refl s) _ rfl
      · intro _ s1 _ hs1
        refine Res.Holds.bind _ _ _ (readCurrent_clean _ _ _ hs1) ?_
        intro _ s2 _ hs2
        refine Res.Holds.bind _ _ _ ?_ ?_
        · split
          · exact startScan_descend_clean _ _ _ hs2
          · exact hs2
        · intro _ s3 _ hs3
          exact startScan_leaves_clean _ _ _ hs3

theorem scanNext_clean (s : BTreeIndex) : (scanNext s).Holds (CleanSince s) := by
  unfold scanNext
  split
  · exact cleanSince_refl s
  · refine Res.Holds.bind _ _ _ (currentLeaf_holds _ _ (cleanSince_refl s)) ?_
    intro node s1 _ hs1
    refine Res.Holds.bind _ _ _ ?_ ?_
    · split
      · simp only
        split
        · exact cleanSince_step hs1 _ _ rfl (by simp)
        · refine Res.Holds.bind _ _ _
            (readCurrent_clean _ _ _ (cleanSince_step hs1 _ (BufCall.unPinPage s1.currentPageNum false)
              rfl (by simp))) ?_
          intro _ s2 _ hs2
          refine Res.Holds.bind _ _ _ (currentLeaf_holds _ _ hs2) ?_
          intro _ s3 _ hs3
          exact cleanSince_same hs3 _ rfl
      · exact hs1
    · intro node2 s2 _ hs2
      simp only
      split
      · exact cleanSince_same hs2 _ rfl
      · exact hs2

theorem splitNonLeafNode_unpins (node : NonLeafNodeInt) (cur : Nat) (e : PageKeyPair)
    (s : BTreeIndex) (r : Option PageKeyPair) (s' : BTreeIndex)
    (h : splitNonLeafNode node cur e s = Res.ok r s') :
    ∃ d, s'.bufLog = s.bufLog ++ d ∧ BufCall.unPinPage cur true ∈ d ∧
      ∀ q, BufCall.unPinPage q false ∉ d := by
  rw [splitNonLeafNode_eq] at h
  have hW : (splitNonLeafNode.written node cur e s).bufLog = s.bufLog ++
      [BufCall.allocPage (s.pages.length + 1), BufCall.unPinPage cur true,
        BufCall.unPinPage (s.pages.length + 1) true] := by
    simp [splitNonLeafNode.written, unPinPage, setPage, allocPage]
  split at h
  · obtain ⟨_, s2, h2, hb⟩ := Res.ok_bind _ _ _ _ h
    simp only [Res.ok.injEq] at hb
    obtain ⟨_, rfl⟩ := hb
    obtain ⟨_, _, _, _, hlog⟩ := updateRoot_frame _ _ _ _ _ h2
    refine ⟨_, by rw [hlog, hW, List.append_assoc], by simp, by simp⟩
  · simp only [Res.ok.injEq] at h
    obtain ⟨_, rfl⟩ := h
    exact ⟨_, hW, by simp, by simp⟩

/-- A returning call of `recInsert` on an internal page unpins the page clean if the call
on the child returned no entry, and dirty if it returned one. -/
theorem recInsert_internal_unpin (fuel cur : Nat) (e : RIDKeyPair) (s : BTreeIndex)
    (r : Option PageKeyPair) (s' : BTreeIndex)
    (h : recInsert fuel false cur e s = Res.ok r s') :
    ∃ node f rc sc d, fuel = f + 1 ∧ pageAt cur s = some (Page.nonLeaf node) ∧
      recInsert f (node.level == 1) (findSubTree s.nodeOccupancy node e.key) e
          { s with bufLog := s.bufLog ++
            [BufCall.readPage (findSubTree s.nodeOccupancy node e.key)] } = Res.ok rc sc ∧
      s'.bufLog = sc.bufLog ++ d ∧
      (BufCall.unPinPage cur false ∈ d ↔ rc = none) ∧
      (BufCall.unPinPage cur true ∈ d ↔ rc ≠ none) := by
  obtain ⟨node, f, rc, sc, hf, hn, hc, hstep⟩ := recInsert_internal_inv _ _ _ _ _ _ h
  rcases hstep with ⟨hrc, _, hs'⟩ | ⟨e', node2, hrc, _, hstep⟩
  · subst hs' hrc
    exact ⟨node, f, none, sc, [BufCall.unPinPage cur false], hf, hn, hc, rfl, by simp, by simp⟩
  · subst hrc
    rcases hstep with ⟨_, _, hs'⟩ | ⟨_, hsplit⟩
    · subst hs'
      refine ⟨node, f, some e', sc, [BufCall.unPinPage cur true], hf, hn, hc, ?_, by simp,
        by simp⟩
      simp [unPinPage, setPage]
    · obtain ⟨d, hd, hmem, hclean⟩ := splitNonLeafNode_unpins _ _ _ _ _ _ hsplit
      refine ⟨node, f, some e', sc, d, hf, hn, hc, hd, ?_, ?_⟩
      · simp only [reduceCtorEq, iff_false]
        exact hclean cur
      · simp only [ne_eq, reduceCtorEq, not_false_eq_true, iff_true]
        exact hmem

/-- C29: a returning call of `insertEntry` (on a file whose header page is a header) makes
buffer-manager calls `d` such that every page whose content has changed is unpinned with
dirty = true in `d`, and every page unpinned with dirty = false in `d` has the content it
had before the call.  A returning call of `recInsert` on an internal page unpins that page
clean exactly if the call on its child returned no entry, and dirty exactly if it
returned one.  `startScan`, `scanNext` and `endScan`, whether they return or throw, leave
every page and the tree members as they were and unpin no page with dirty = true. -/
theorem dirty_flag_discipline (fuel : Nat) (key : Int) (rid : RecordId) (s s' : BTreeIndex)
    (metaInfo : IndexMetaInfo)
    (hm : pageAt s.headerPageNum s = some (Page.header metaInfo))
    (h : insertEntry fuel key rid s = Res.ok () s') :
    (∃ d, s'.bufLog = s.bufLog ++ d ∧
      (∀ q, pageAt q s' ≠ pageAt q s → BufCall.unPinPage q true ∈ d) ∧
      (∀ q, BufCall.unPinPage q false ∈ d → pageAt q s' = pageAt q s)) ∧
    (∀ f cur e t r t', recInsert f false cur e t = Res.ok r t' →
      ∃ node g rc tc d, f = g + 1 ∧ pageAt cur t = some (Page.nonLeaf node) ∧
        recInsert g (node.level == 1) (findSubTree t.nodeOccupancy node e.key) e
            { t with bufLog := t.bufLog ++
              [BufCall.readPage (findSubTree t.nodeOccupancy node e.key)] } = Res.ok rc tc ∧
        t'.bufLog = tc.bufLog ++ d ∧
        (BufCall.unPinPage cur false ∈ d ↔ rc = none) ∧
        (BufCall.unPinPage cur true ∈ d ↔ rc ≠ none)) ∧
    (∀ f lo lop hi hop t,
      (startScan f lo lop hi hop t).Holds (fun t' => SameFile t t' ∧ CleanSince t t')) ∧
    (∀ t, (scanNext t).Holds (fun t' => SameFile t t' ∧ CleanSince t t')) ∧
    (∀ t, (endScan t).Holds (fun t' => SameFile t t' ∧ CleanSince t t')) :=
  ⟨insertEntry_dirty fuel key rid s s' metaInfo hm h,
    fun f cur e t r t' ht => recInsert_internal_unpin f cur e t r t' ht,
    fun f lo lop hi hop t =>
      Res.Holds.and (startScan_sameFile f lo lop hi hop t) (startScan_clean f lo lop hi hop t),
    fun t => Res.Holds.and (scanNext_sameFile t) (scanNext_clean t),
    fun t => Res.Holds.and (endScan_sameFile t t (SameFile.refl t))
      (endScan_clean t t (cleanSince_refl t))⟩

/-- Witness of C29: the entry of key 15 inserted into `fullLeafIndex`, whose root leaf
splits. -/
theorem dirty_flag_discipline_witness :
    (∃ d, ((insertEntry 2 15 ⟨1, 2⟩ fullLeafIndex).state.getD fullLeafIndex).bufLog =
        fullLeafIndex.bufLog ++ d ∧
      (∀ q, pageAt q ((insertEntry 2 15 ⟨1, 2⟩ fullLeafIndex).state.getD fullLeafIndex) ≠
        pageAt q fullLeafIndex → BufCall.unPinPage q true ∈ d) ∧
      (∀ q, BufCall.unPinPage q false ∈ d →
        pageAt q ((insertEntry 2 15 ⟨1, 2⟩ fullLeafIndex).state.getD fullLeafIndex) =
          pageAt q fullLeafIndex)) ∧
    (∀ f cur e t r t', recInsert f false cur e t = Res.ok r t' →
      ∃ node g rc tc d, f = g + 1 ∧ pageAt cur t = some (Page.nonLeaf node) ∧
        recInsert g (node.level == 1) (findSubTree t.nodeOccupancy node e.key) e
            { t with bufLog := t.bufLog ++
              [BufCall.readPage (findSubTree t.nodeOccupancy node e.key)] } = Res.ok rc tc ∧
        t'.bufLog = tc.bufLog ++ d ∧
        (BufCall.unPinPage cur false ∈ d ↔ rc = none) ∧
        (BufCall.unPinPage cur true ∈ d ↔ rc ≠ none)) ∧
    (∀ f lo lop hi hop t,
      (startScan f lo lop hi hop t).Holds (fun t' => SameFile t t' ∧ CleanSince t t')) ∧
    (∀ t, (scanNext t).Holds (fun t' => SameFile t t' ∧ CleanSince t t')) ∧
    (∀ t, (endScan t).Holds (fun t' => SameFile t t' ∧ CleanSince t t')) :=
  dirty_flag_discipline 2 15 ⟨1, 2⟩ fullLeafIndex
    ((insertEntry 2 15 ⟨1, 2⟩ fullLeafIndex).state.getD fullLeafIndex)
    ⟨['r'], 0, Datatype.INTEGER, 2⟩ rfl
    (Res.eq_ok_of_isSome _ fullLeafIndex (by decide))

/-- C11 (counterexample): two slots per leaf and per internal node, and the key 1 inserted
three times.  The third insert splits the full root leaf: the entry goes to the old leaf
(page 2), the new leaf (page 3) gets one entry of key 1, and the new root (page 4, the only
internal page) gets the separator 1.  The left child holds keys equal to the separator. -/
theorem separator_equal_key_in_left_child :
    (BTreeIndex.build 2 2 2 [(1, ⟨1, 0⟩), (1, ⟨1, 1⟩), (1, ⟨1, 2⟩)]).map
        (fun s => (pageAt 4 s, internalPages s)) =
      some (some (Page.nonLeaf ⟨1, [1, 0], [2, 3, 0]⟩), [4]) ∧
    (BTreeIndex.build 2 2 2 [(1, ⟨1, 0⟩), (1, ⟨1, 1⟩), (1, ⟨1, 2⟩)]).map
        (fun s => (subtreeKeys 2 true 2 s, subtreeKeys 2 true 3 s)) =
      some ([1, 1], [1]) ∧
    (BTreeIndex.build 2 2 2 [(1, ⟨1, 0⟩), (1, ⟨1, 1⟩), (1, ⟨1, 2⟩)]).map
        (fun s => separatorsHold 2 s) = some false := by
  decide!
/-! ## Separator correctness before the first internal split -/

theorem pairwise_le_of_lt (B : List (Int × RecordId))
    (h : B.Pairwise (fun a b => a.1 < b.1)) : B.Pairwise (fun a b => a.1 ≤ b.1) :=
  h.imp (fun hab => le_of_lt hab)

theorem stableInsert_strict (e : Int × RecordId) (B : List (Int × RecordId))
    (hs : B.Pairwise (fun a b => a.1 < b.1)) (hk : ∀ b ∈ B, b.1 ≠ e.1) :
    (stableInsert e B).Pairwise (fun a b => a.1 < b.1) := by
  obtain ⟨pre, suf, hl, hpre, hsuf, hins⟩ := stableInsert_split e B (pairwise_le_of_lt B hs)
  rw [hins]
  rw [hl, List.pairwise_append] at hs
  rw [List.pairwise_append, List.pairwise_cons]
  refine ⟨hs.1, ⟨fun c hc => hsuf c hc, hs.2.1⟩, ?_⟩
  intro a ha c hc
  rcases List.mem_cons.mp hc with rfl | hc
  · have h1 := hpre a ha
    have h2 := hk a (by rw [hl]; exact List.mem_append_left _ ha)
    omega
  · exact hs.2.2 a ha c hc

/-- An entry inserted into one block of a strictly increasing list of entries. -/
theorem stableInsert_between (e : Int × RecordId) (pre B post : List (Int × RecordId))
    (hs : (pre ++ B ++ post).Pairwise (fun a b => a.1 < b.1))
    (hpre : ∀ b ∈ pre, b.1 < e.1) (hpost : ∀ b ∈ post, e.1 < b.1)
    (hk : ∀ b ∈ B, b.1 ≠ e.1) :
    (pre ++ stableInsert e B ++ post).Pairwise (fun a b => a.1 < b.1) := by
  rw [List.pairwise_append, List.pairwise_append] at hs ⊢
  obtain ⟨⟨h1, h2, h3⟩, h4, h5⟩ := hs
  refine ⟨⟨h1, stableInsert_strict e B h2 hk, ?_⟩, h4, ?_⟩
  · intro a ha c hc
    rw [stableInsert_mem] at hc
    rcases hc with rfl | hc
    · exact hpre a ha
    · exact h3 a ha c hc
  · intro a ha c hc
    rcases List.mem_append.mp ha with ha | ha
    · exact h5 a (List.mem_append_left _ ha) c hc
    · rw [stableInsert_mem] at ha
      rcases ha with rfl | ha
      · exact hpost c hc
      · exact h5 a (List.mem_append_right _ ha) c hc

/-- What a returning `insertEntry` has done: the root was read and `recInsert` returned. -/
theorem insertEntry_inv (fuel : Nat) (key : Int) (rid : RecordId) (s s' : BTreeIndex)
    (h : insertEntry fuel key rid s = Res.ok () s') :
    ∃ r, recInsert fuel (decide (s.rootPageNum = s.initRootPageNo)) s.rootPageNum ⟨rid, key⟩
      { s with bufLog := s.bufLog ++ [BufCall.readPage s.rootPageNum] } = Res.ok r s' := by
  unfold insertEntry at h
  simp only at h
  obtain ⟨_, s1, h1, ha⟩ := Res.ok_bind _ _ _ _ h
  clear h
  have := readPage_ok _ _ _ _ h1
  subst this
  obtain ⟨r, s2, h2, hb⟩ := Res.ok_bind _ _ _ _ ha
  clear ha
  simp only [Res.ok.injEq, true_and] at hb
  subst hb
  exact ⟨r, h2⟩

theorem leafAt_of_page (p : Nat) (s : BTreeIndex) (x : LeafNodeInt)
    (h : pageAt p s = some (Page.leaf x)) : leafAt p s = Res.ok x s := by
  simp only [leafAt, h]

theorem nonLeafAt_of_page (p : Nat) (s : BTreeIndex) (x : NonLeafNodeInt)
    (h : pageAt p s = some (Page.nonLeaf x)) : nonLeafAt p s = Res.ok x s := by
  simp only [nonLeafAt, h]

/-- A leaf block with room takes the entry: `recInsert` on the leaf returns no entry and
leaves the block with the entry inserted. -/
theorem recInsert_leaf_room (f cp : Nat) (e : RIDKeyPair) (s : BTreeIndex)
    (B : List (Int × RecordId)) (hB : IsLeafBlock s cp B)
    (hs : B.Pairwise (fun a b => a.1 ≤ b.1)) (hlen : B.length < s.leafOccupancy) :
    ∃ X, recInsert f true cp e s =
        Res.ok none (unPinPage cp true (setPage cp (Page.leaf X) s)) ∧
      ∃ tk tr sib, X = ⟨(stableInsert (e.key, e.rid) B).map Prod.fst ++ tk,
          (stableInsert (e.key, e.rid) B).map Prod.snd ++ tr, sib⟩ ∧
        (stableInsert (e.key, e.rid) B).length + tr.length = s.leafOccupancy ∧
        tk.length = tr.length ∧ (∀ r ∈ tr, r.page_number = 0) := by
  obtain ⟨tk, tr, sib, hp, hl, hlt, hv, hrid⟩ := hB
  obtain ⟨y, tr', rfl⟩ : ∃ y tr', tr = y :: tr' := by
    cases tr with
    | nil => simp at hl; omega
    | cons y tr' => exact ⟨y, tr', rfl⟩
  obtain ⟨x, tk', rfl⟩ : ∃ x tk', tk = x :: tk' := by
    cases tk with
    | nil => simp at hlt
    | cons x tk' => exact ⟨x, tk', rfl⟩
  simp only [List.length_cons] at hl hlt
  have hroom : ((B.map Prod.snd ++ y :: tr').getD (s.leafOccupancy - 1) default).page_number
      = 0 := by
    rw [List.getD_eq_getElem?_getD]
    have hidx : s.leafOccupancy - 1 < (B.map Prod.snd ++ y :: tr').length := by
      simp
      omega
    rw [List.getElem?_eq_getElem hidx, Option.getD_some]
    have hmem : (B.map Prod.snd ++ y :: tr')[s.leafOccupancy - 1] ∈ y :: tr' := by
      rw [List.getElem_append_right (by simp; omega)]
      exact List.getElem_mem _
    exact hv _ hmem
  have hins := insertLeafNode_spec s.leafOccupancy B x y tk' tr' sib e hs hrid
    (hv y (by simp)) (fun r hr => hv r (by simp [hr])) (by omega)
  refine ⟨_, ?_, tk', tr', sib, rfl, ?_, by omega, fun r hr => hv r (by simp [hr])⟩
  · cases f <;>
    · unfold recInsert
      simp only [Bool.true_eq_false, if_false, leafAt_of_page _ _ _ hp, Res.bind, hroom,
        if_true, hins]
  · rw [stableInsert_length]
    omega

/-- A full leaf block is split: `recInsert` on the leaf is `splitLeafNode`. -/
theorem recInsert_leaf_full (f cp : Nat) (e : RIDKeyPair) (s : BTreeIndex)
    (B : List (Int × RecordId)) (hB : IsLeafBlock s cp B) (hL : 1 ≤ s.leafOccupancy)
    (hlen : B.length = s.leafOccupancy) :
    ∃ sib, pageAt cp s = some (Page.leaf ⟨B.map Prod.fst, B.map Prod.snd, sib⟩) ∧
      recInsert f true cp e s =
        splitLeafNode ⟨B.map Prod.fst, B.map Prod.snd, sib⟩ cp e s := by
  obtain ⟨tk, tr, sib, hp, hl, hlt, hv, hrid⟩ := hB
  have htr : tr = [] := List.eq_nil_of_length_eq_zero (by omega)
  subst htr
  have htk : tk = [] := List.eq_nil_of_length_eq_zero (by simpa using hlt)
  subst htk
  simp only [List.append_nil] at hp
  have hfull : ((B.map Prod.snd).getD (s.leafOccupancy - 1) default).page_number ≠ 0 := by
    rw [List.getD_eq_getElem?_getD]
    have hidx : s.leafOccupancy - 1 < (B.map Prod.snd).length := by
      simp
      omega
    rw [List.getElem?_eq_getElem hidx, Option.getD_some, List.getElem_map]
    exact hrid _ (List.getElem_mem _)
  refine ⟨sib, hp, ?_⟩
  cases f <;>
  · unfold recInsert
    simp only [Bool.true_eq_false, if_false, leafAt_of_page _ _ _ hp, Res.bind, hfull]
theorem take_le_pivot (E : List (Int × RecordId)) (mid : Nat)
    (hs : E.Pairwise (fun a b => a.1 ≤ b.1)) (h1 : 1 ≤ mid) (h2 : mid ≤ E.length) :
    ∀ b ∈ E.take mid, b.1 ≤ (E.map Prod.fst).getD (mid - 1) 0 := by
  intro b hb
  obtain ⟨j, hj, hjv⟩ := List.getElem_of_mem hb
  rw [List.length_take] at hj
  have hjE : j < E.length := by omega
  have hmE : mid - 1 < E.length := by omega
  have hbj : b = E[j] := by
    rw [← hjv, List.getElem_take]
  have hget : (E.map Prod.fst).getD (mid - 1) 0 = (E[mid - 1]).1 := by
    rw [List.getD_eq_getElem?_getD, List.getElem?_map, List.getElem?_eq_getElem hmE]
    rfl
  rw [hget, hbj]
  rcases Nat.lt_or_ge j (mid - 1) with h | h
  · exact List.pairwise_iff_getElem.mp hs j (mid - 1) hjE hmE h
  · have : j = mid - 1 := by omega
    subst this
    exact le_refl _

theorem pivot_lt_drop (E : List (Int × RecordId)) (mid : Nat)
    (hs : E.Pairwise (fun a b => a.1 < b.1)) (h1 : 1 ≤ mid) (h2 : mid ≤ E.length) :
    ∀ b ∈ E.drop mid, (E.map Prod.fst).getD (mid - 1) 0 < b.1 := by
  intro b hb
  have hmE : mid - 1 < E.length := by omega
  have hget : (E.map Prod.fst).getD (mid - 1) 0 = (E[mid - 1]).1 := by
    rw [List.getD_eq_getElem?_getD, List.getElem?_map, List.getElem?_eq_getElem hmE]
    rfl
  rw [hget]
  have hmem : E[mid - 1] ∈ E.take mid := by
    rw [List.mem_take_iff_getElem]
    exact ⟨mid - 1, by omega, rfl⟩
  have hE := hs
  rw [← List.take_append_drop mid E, List.pairwise_append] at hE
  exact hE.2.2 _ hmem b hb

/-- The two leaves made by `splitLeafNode` from a full leaf holding the entries `E` with
strictly increasing keys: together they hold the entries with the new one in key order,
and neither is empty. -/
theorem splitLeafNode_nodes_distinct (L : Nat) (E : List (Int × RecordId))
    (sib newPageNo : Nat) (e : RIDKeyPair) (hL : 2 ≤ L) (hlen : E.length = L)
    (hs : E.Pairwise (fun a b => a.1 < b.1)) (hrid : ∀ b ∈ E, b.2.page_number ≠ 0) :
    ∃ El Er tk tr tk2 tr2,
      splitLeafNode.nodes L ⟨E.map Prod.fst, E.map Prod.snd, sib⟩ (zeroLeaf L) newPageNo e =
        (⟨El.map Prod.fst ++ tk, El.map Prod.snd ++ tr, newPageNo⟩,
          ⟨Er.map Prod.fst ++ tk2, Er.map Prod.snd ++ tr2, sib⟩) ∧
      El ++ Er = stableInsert (e.key, e.rid) E ∧ El ≠ [] ∧ Er ≠ [] ∧
      El.length + tr.length = L ∧ tk.length = tr.length ∧ (∀ r ∈ tr, r.page_number = 0) ∧
      Er.length + tr2.length = L ∧ tk2.length = tr2.length ∧
      (∀ r ∈ tr2, r.page_number = 0) := by
  obtain ⟨El, Er, tk, tr, tk2, tr2, hnodes, hcase, hl1, hl2, hv1, hl3, hl4, hv2⟩ :=
    splitLeafNode_nodes_cases L E sib newPageNo e hL hlen (pairwise_le_of_lt E hs) hrid
  obtain ⟨hm1, hm2⟩ := splitLeafNode_midPoint_bounds L ⟨E.map Prod.fst, E.map Prod.snd, sib⟩
    e.key hL
  generalize splitLeafNode.midPoint L ⟨E.map Prod.fst, E.map Prod.snd, sib⟩ e.key = mid
    at hcase hm1 hm2
  have hlt : (E.take mid).length = mid := by
    rw [List.length_take]
    omega
  have hld : (E.drop mid).length = L - mid := by
    rw [List.length_drop, hlen]
  refine ⟨El, Er, tk, tr, tk2, tr2, hnodes, ?_, ?_, ?_, by omega, hl2.symm, hv1, by omega,
    hl4.symm, hv2⟩
  · rcases hcase with ⟨hp, rfl, rfl⟩ | ⟨hp, rfl, rfl⟩
    · rw [← stableInsert_append_right, List.take_append_drop]
      intro b hb
      have := take_le_pivot E mid (pairwise_le_of_lt E hs) hm1 (by omega) b hb
      show b.1 ≤ e.key
      omega
    · rw [← stableInsert_append_left, List.take_append_drop]
      intro b hb
      have := pivot_lt_drop E mid hs hm1 (by omega) b hb
      show e.key < b.1
      omega
  · rcases hcase with ⟨_, rfl, rfl⟩ | ⟨_, rfl, rfl⟩
    · intro h
      rw [h] at hlt
      simp at hlt
      omega
    · intro h
      have := stableInsert_length (e.key, e.rid) (E.take mid)
      rw [h] at this
      simp at this
  · rcases hcase with ⟨_, rfl, rfl⟩ | ⟨_, rfl, rfl⟩
    · intro h
      have := stableInsert_length (e.key, e.rid) (E.drop mid)
      rw [h] at this
      simp at this
    · intro h
      rw [h] at hld
      simp at hld
      omega

theorem updateRoot_occupancy (prev : Nat) (e : PageKeyPair) (s : BTreeIndex)
    (u : Unit) (s' : BTreeIndex) (h : updateRoot prev e s = Res.ok u s') :
    s'.leafOccupancy = s.leafOccupancy ∧ s'.nodeOccupancy = s.nodeOccupancy := by
  unfold updateRoot at h
  simp only at h
  obtain ⟨n, s1, h1, ha⟩ := Res.ok_bind _ _ _ _ h
  clear h
  have := nonLeafAt_ok _ _ _ _ h1
  subst this
  obtain ⟨_, s2, h2, hb⟩ := Res.ok_bind _ _ _ _ ha
  clear ha
  have := readPage_ok _ _ _ _ h2
  subst this
  obtain ⟨m, s3, h3, hc⟩ := Res.ok_bind _ _ _ _ hb
  clear hb
  have := headerAt_ok _ _ _ _ h3
  subst this
  simp only [Res.ok.injEq, true_and] at hc
  subst hc
  exact ⟨rfl, rfl⟩
theorem head?_append_of_ne_nil {α : Type} (l r : List α) (h : l ≠ []) :
    (l ++ r).head? = l.head? := by
  cases l with
  | nil => exact absurd rfl h
  | cons a l => rfl

/-- The page of a leaf block after a store into that page. -/
theorem isLeafBlock_store (s : BTreeIndex) (cp : Nat) (b : Bool) (B : List (Int × RecordId))
    (tk : List Int) (tr : List RecordId) (sib : Nat) (hex : ∃ q, pageAt cp s = some q)
    (hl : B.length + tr.length = s.leafOccupancy) (hlt : tk.length = tr.length)
    (hv : ∀ r ∈ tr, r.page_number = 0) (hrid : ∀ b ∈ B, b.2.page_number ≠ 0) :
    IsLeafBlock
      (unPinPage cp b
        (setPage cp (Page.leaf ⟨B.map Prod.fst ++ tk, B.map Prod.snd ++ tr, sib⟩) s)) cp B :=
  ⟨tk, tr, sib, pageAt_setPage_same cp _ s hex, hl, hlt, hv, hrid⟩

theorem stableInsert_rid (e : Int × RecordId) (B : List (Int × RecordId))
    (he : e.2.page_number ≠ 0) (hrid : ∀ b ∈ B, b.2.page_number ≠ 0) :
    ∀ b ∈ stableInsert e B, b.2.page_number ≠ 0 := by
  intro b hb
  rw [stableInsert_mem] at hb
  rcases hb with rfl | hb
  · exact he
  · exact hrid b hb

/-- The call of `recInsert` on the root of a tree that is its root leaf: the leaf takes the
entry, or it is split and the tree becomes a root of level 1 over two leaves. -/
theorem levelZero_recInsert (fuel : Nat) (key : Int) (rid : RecordId) (s s' : BTreeIndex)
    (r : Option PageKeyPair) (B : List (Int × RecordId)) (h0 : LevelZero s B)
    (hk : ∀ b ∈ B, b.1 ≠ key) (hrid : rid.page_number ≠ 0)
    (hr : recInsert fuel true s.rootPageNum ⟨rid, key⟩ s = Res.ok r s') :
    LevelZero s' (stableInsert (key, rid) B) ∨
      ∃ cs, LevelOne s' cs ∧ cs.flatMap Prod.snd = stableInsert (key, rid) B := by
  obtain ⟨m, hm⟩ := h0.header
  have hleaf := h0.leaf
  obtain ⟨tk0, tr0, sib0, hp0, hl0, hlt0, hv0, hrid0⟩ := hleaf
  have hne : s.headerPageNum ≠ s.rootPageNum := by
    intro hh
    rw [hh, hp0] at hm
    cases hm
  rcases Nat.lt_or_ge B.length s.leafOccupancy with hroom | hfull
  · -- the leaf has room
    obtain ⟨X, hX, tk, tr, sib, rfl, hl, hlt, hv⟩ :=
      recInsert_leaf_room fuel s.rootPageNum ⟨rid, key⟩
        s B h0.leaf
        (pairwise_le_of_lt B h0.sorted) hroom
    rw [hX] at hr
    simp only [Res.ok.injEq] at hr
    obtain ⟨_, rfl⟩ := hr
    left
    refine ⟨h0.hL, h0.hN, h0.root, ?_, stableInsert_strict _ B h0.sorted hk, ⟨m, ?_⟩, ?_⟩
    · exact isLeafBlock_store _ _ _ _ tk tr sib ⟨_, hp0⟩ hl hlt hv
        (stableInsert_rid _ B hrid hrid0)
    · show pageAt s.headerPageNum (setPage s.rootPageNum _ _) = _
      rw [pageAt_setPage_ne _ _ _ _ hne]
      exact hm
    · intro q n hq
      have hq' : pageAt q (setPage s.rootPageNum
          (Page.leaf ⟨(stableInsert (key, rid) B).map Prod.fst ++ tk,
            (stableInsert (key, rid) B).map Prod.snd ++ tr, sib⟩) s) =
          some (Page.nonLeaf n) := hq
      by_cases hqr : q = s.rootPageNum
      · rw [hqr, pageAt_setPage_same _ _ _ ⟨_, hp0⟩] at hq'
        cases hq'
      · rw [pageAt_setPage_ne _ _ _ _ hqr] at hq'
        exact h0.only q n hq'
  · -- the leaf is full: it is split and the root grows
    have hlen : B.length = s.leafOccupancy := by omega
    obtain ⟨sib, hp, hsplit⟩ := recInsert_leaf_full fuel s.rootPageNum ⟨rid, key⟩
      s B h0.leaf
      (by have := h0.hL; exact Nat.le_of_succ_le this) hlen
    rw [hsplit, splitLeafNode_eq] at hr
    simp only [if_true] at hr
    obtain ⟨El, Er, tk, tr, tk2, tr2, hnodes, happ, hEl, hEr, hl1, hlt1, hv1, hl2, hlt2, hv2⟩ :=
      splitLeafNode_nodes_distinct s.leafOccupancy B sib (s.pages.length + 1) ⟨rid, key⟩
        h0.hL hlen h0.sorted hrid0
    obtain ⟨hw1, hw2, hw3, hw4⟩ := written_leaf_pages ⟨B.map Prod.fst, B.map Prod.snd, sib⟩
      s.rootPageNum ⟨rid, key⟩
      s _ hp
    have hle := pageAt_some_le _ _ _ hm
    have hrle := pageAt_some_le _ _ _ hp0
    have hmW : pageAt (splitLeafNode.written ⟨B.map Prod.fst, B.map Prod.snd, sib⟩
          s.rootPageNum ⟨rid, key⟩
          s).headerPageNum
        (splitLeafNode.written ⟨B.map Prod.fst, B.map Prod.snd, sib⟩ s.rootPageNum ⟨rid, key⟩
          s) =
        some (Page.header m) := by
      show pageAt s.headerPageNum _ = _
      rw [hw3 _ hne hle.2]
      exact hm
    obtain ⟨s2, hs2, hlen2, hroot2, hhead2, hrn2, hir2, hh2, hframe2⟩ :=
      updateRoot_spec s.rootPageNum
        (splitLeafNode.pushup ⟨B.map Prod.fst, B.map Prod.snd, sib⟩ ⟨rid, key⟩
          s)
        (splitLeafNode.written ⟨B.map Prod.fst, B.map Prod.snd, sib⟩ s.rootPageNum ⟨rid, key⟩
          s) m h0.hN hmW
    have hocc1 : s2.leafOccupancy = s.leafOccupancy := (updateRoot_occupancy _ _ _ _ _ hs2).1
    have hocc2 : s2.nodeOccupancy = s.nodeOccupancy := (updateRoot_occupancy _ _ _ _ _ hs2).2
    rw [hs2] at hr
    simp only [Res.bind, Res.ok.injEq] at hr
    obtain ⟨_, rfl⟩ := hr
    have hWlen : (splitLeafNode.written ⟨B.map Prod.fst, B.map Prod.snd, sib⟩ s.rootPageNum
        ⟨rid, key⟩ s
        ).pages.length = s.pages.length + 1 := hw4
    have hWh : (splitLeafNode.written ⟨B.map Prod.fst, B.map Prod.snd, sib⟩ s.rootPageNum
        ⟨rid, key⟩ s
        ).headerPageNum = s.headerPageNum := rfl
    rw [hWlen] at hroot2 hhead2 hrn2 hframe2 hlen2
    rw [hWh] at hframe2 hhead2
    rw [hnodes] at hw1 hw2
    obtain ⟨f, Er', rfl⟩ : ∃ f Er', Er = f :: Er' := by
      cases Er with
      | nil => exact absurd rfl hEr
      | cons f Er' => exact ⟨f, Er', rfl⟩
    have hridAll := stableInsert_rid (key, rid) B hrid hrid0
    rw [← happ] at hridAll
    right
    refine ⟨[(s.rootPageNum, El), (s.pages.length + 1, f :: Er')],
      ⟨?_, ?_, ?_, ?_, ?_, ?_, ?_, ?_⟩, ?_⟩
    · rw [hocc1]; exact h0.hL
    · rw [hocc2]; exact h0.hN
    · rw [hrn2, hir2]
      show s.pages.length + 1 + 1 ≠ s.initRootPageNo
      rw [← h0.root]
      omega
    · refine ⟨s.rootPageNum, El, [(s.pages.length + 1, f :: Er')],
        List.replicate (s.nodeOccupancy - 1) 0, s.nodeOccupancy - 1, rfl, ?_, ?_, ?_⟩
      · rw [hrn2, hroot2]
        have hlev : (if (splitLeafNode.written ⟨B.map Prod.fst, B.map Prod.snd, sib⟩
            s.rootPageNum ⟨rid, key⟩
            s).initRootPageNo =
            (splitLeafNode.written ⟨B.map Prod.fst, B.map Prod.snd, sib⟩ s.rootPageNum
              ⟨rid, key⟩
              s).rootPageNum
            then (1 : Int) else 0) = 1 := by
          rw [if_pos]
          exact h0.root.symm
        rw [hlev]
        have hpk : (splitLeafNode.pushup ⟨B.map Prod.fst, B.map Prod.snd, sib⟩ ⟨rid, key⟩
            s) =
            ⟨s.pages.length + 1, f.1⟩ := by
          unfold splitLeafNode.pushup
          rw [hnodes]
          rfl
        rw [hpk]
        rfl
      · rw [hocc2]
        have := h0.hN
        simp
        omega
      · rw [hocc2]
        have := h0.hN
        simp
        omega
    · intro q n hq
      rw [hrn2]
      by_contra hqn
      have hqle := pageAt_some_le _ _ _ hq
      rw [hlen2] at hqle
      by_cases hqh : q = s.headerPageNum
      · rw [hqh, hhead2] at hq
        cases hq
      · rw [hframe2 q hqh (by omega)] at hq
        by_cases hq1 : q = s.rootPageNum
        · rw [hq1, hw1] at hq
          cases hq
        · by_cases hq2 : q = s.pages.length + 1
          · rw [hq2, hw2] at hq
            cases hq
          · rw [hw3 q hq1 (by omega)] at hq
            exact h0.only q n hq
    · intro c hc
      simp only [List.mem_cons, List.mem_singleton, List.not_mem_nil, or_false] at hc
      rcases hc with rfl | rfl
      · refine ⟨⟨tk, tr, s.pages.length + 1, ?_, by rw [hocc1]; exact hl1, hlt1, hv1,
          fun b hb => hridAll b (List.mem_append_left _ hb)⟩, hEl⟩
        show pageAt s.rootPageNum s2 = _
        rw [hframe2 _ (fun hh => hne hh.symm) (by omega)]
        exact hw1
      · refine ⟨⟨tk2, tr2, sib, ?_, by rw [hocc1]; exact hl2, hlt2, hv2,
          fun b hb => hridAll b (List.mem_append_right _ hb)⟩, by simp⟩
        show pageAt (s.pages.length + 1) s2 = _
        rw [hframe2 _ (by omega) (by omega)]
        exact hw2
    · simp only [List.flatMap_cons, List.flatMap_nil, List.append_nil]
      rw [happ]
      exact stableInsert_strict _ B h0.sorted hk
    · simp only [List.map_cons, List.map_nil, List.nodup_cons, List.mem_singleton,
        List.not_mem_nil, not_false_eq_true, List.nodup_nil, and_true]
      omega
    · simp only [List.flatMap_cons, List.flatMap_nil, List.append_nil]
      exact happ

theorem levelZero_log (s : BTreeIndex) (B : List (Int × RecordId)) (l : List BufCall)
    (h0 : LevelZero s B) : LevelZero { s with bufLog := l } B :=
  ⟨h0.hL, h0.hN, h0.root, h0.leaf, h0.sorted, h0.header, h0.only⟩

/-- One `insertEntry` on a tree that is its root leaf. -/
theorem levelZero_step (fuel : Nat) (key : Int) (rid : RecordId) (s s' : BTreeIndex)
    (B : List (Int × RecordId)) (h0 : LevelZero s B) (hk : ∀ b ∈ B, b.1 ≠ key)
    (hrid : rid.page_number ≠ 0) (h : insertEntry fuel key rid s = Res.ok () s') :
    LevelZero s' (stableInsert (key, rid) B) ∨
      ∃ cs, LevelOne s' cs ∧ cs.flatMap Prod.snd = stableInsert (key, rid) B := by
  obtain ⟨r, hr⟩ := insertEntry_inv _ _ _ _ _ h
  rw [decide_eq_true h0.root] at hr
  exact levelZero_recInsert fuel key rid
    { s with bufLog := s.bufLog ++ [BufCall.readPage s.rootPageNum] } s' r B
    (levelZero_log s B _ h0) hk hrid hr
theorem headerAt_kind (p : Nat) (s : BTreeIndex) (m : IndexMetaInfo) (s' : BTreeIndex)
    (h : headerAt p s = Res.ok m s') :
    (∃ x, pageAt p s = some (Page.header x)) ∨ pageAt p s = some Page.blank := by
  unfold headerAt at h
  split at h
  · rename_i x hx
    exact Or.inl ⟨x, hx⟩
  · rename_i hx
    exact Or.inr hx
  · cases h

/-- A page that holds an internal node holds one after every step of the insert path. -/
theorem isNonLeaf_stepClosed (q : Nat) :
    StepClosed (fun s => ∃ n, pageAt q s = some (Page.nonLeaf n)) where
  log := fun s l hs => hs
  alloc := fun s ⟨n, hn⟩ =>
    ⟨n, by rw [pageAt_allocPage_old q s (pageAt_some_le _ _ _ hn).2]; exact hn⟩
  leaf := fun s p x ⟨n, hn⟩ hk => by
    have hq : q ≠ p := by
      rintro rfl
      rcases hk with hk | ⟨m, hk⟩ <;> rw [hn] at hk <;> cases hk
    exact ⟨n, by rw [pageAt_setPage_ne q p _ s hq]; exact hn⟩
  nonLeaf := fun s p x ⟨n, hn⟩ hk => by
    by_cases hq : q = p
    · subst hq
      exact ⟨x, pageAt_setPage_same _ _ _ ⟨_, hn⟩⟩
    · exact ⟨n, by rw [pageAt_setPage_ne q p _ s hq]; exact hn⟩
  root := fun s prev e ⟨n, hn⟩ => by
    have hle := (pageAt_some_le _ _ _ hn).2
    unfold updateRoot
    simp only
    refine Res.Holds.bind _ _ _ (nonLeafAt_holds _ _ _
      ⟨n, by rw [pageAt_allocPage_old q s hle]; exact hn⟩) ?_
    intro node s1 h1 hs1
    have := nonLeafAt_ok _ _ _ _ h1
    subst this
    have hX : ∃ n, pageAt q (setPage (allocPage s).1
        (Page.nonLeaf
          { level := if (allocPage s).2.initRootPageNo = (allocPage s).2.rootPageNum then 1
              else 0
            pageNoArray := (node.pageNoArray.set 0 prev).set 1 e.pageNo
            keyArray := node.keyArray.set 0 e.key }) (allocPage s).2) =
        some (Page.nonLeaf n) := by
      obtain ⟨n', hn'⟩ := hs1
      refine ⟨n', ?_⟩
      rw [pageAt_setPage_ne q _ _ _ (by rw [(allocPage_members s).1]; omega)]
      exact hn'
    refine Res.Holds.bind _ _ _ (readPage_holds _ _ _ hX (fun l => hX)) ?_
    intro _ s2 h2 hs2
    refine Res.Holds.bind _ _ _ (headerAt_holds _ _ _ hs2) ?_
    intro m s3 h3 hs3
    have := headerAt_ok _ _ _ _ h3
    subst this
    obtain ⟨n3, hn3⟩ := hs3
    have hq : q ≠ s3.headerPageNum := by
      rintro rfl
      rcases headerAt_kind _ _ _ _ h3 with ⟨x, hx⟩ | hx <;> rw [hn3] at hx <;> cases hx
    refine ⟨n3, ?_⟩
    show pageAt q (setPage s3.headerPageNum _ s3) = _
    rw [pageAt_setPage_ne q _ _ _ hq]
    exact hn3

/-- After a returning `splitNonLeafNode` the split page and the new page hold internal
nodes. -/
theorem splitNonLeafNode_two_internal (node : NonLeafNodeInt) (cur : Nat) (e : PageKeyPair)
    (s : BTreeIndex) (r : Option PageKeyPair) (s' : BTreeIndex) (x : Page)
    (hcur : pageAt cur s = some x) (h : splitNonLeafNode node cur e s = Res.ok r s') :
    (∃ n, pageAt cur s' = some (Page.nonLeaf n)) ∧
      ∃ n, pageAt (s.pages.length + 1) s' = some (Page.nonLeaf n) := by
  obtain ⟨hw1, hw2, _, _⟩ := written_nonLeaf_pages node cur e s x hcur
  rw [splitNonLeafNode_eq] at h
  split at h
  · obtain ⟨_, s2, h2, hb⟩ := Res.ok_bind _ _ _ _ h
    simp only [Res.ok.injEq] at hb
    obtain ⟨_, rfl⟩ := hb
    have ha := (isNonLeaf_stepClosed cur).root _ cur (splitNonLeafNode.pushup node e s)
      ⟨_, hw1⟩
    have hb := (isNonLeaf_stepClosed (s.pages.length + 1)).root _ cur
      (splitNonLeafNode.pushup node e s) ⟨_, hw2⟩
    rw [h2] at ha hb
    exact ⟨ha, hb⟩
  · simp only [Res.ok.injEq] at h
    obtain ⟨_, rfl⟩ := h
    exact ⟨⟨_, hw1⟩, ⟨_, hw2⟩⟩

/-- Two pages that hold internal nodes still do after a returning `insertEntry`. -/
theorem insertEntry_keeps_internal (fuel : Nat) (key : Int) (rid : RecordId)
    (s s' : BTreeIndex) (q : Nat) (hq : ∃ n, pageAt q s = some (Page.nonLeaf n))
    (h : insertEntry fuel key rid s = Res.ok () s') :
    ∃ n, pageAt q s' = some (Page.nonLeaf n) := by
  have := insertEntry_closed (isNonLeaf_stepClosed q) fuel key rid s hq
  rw [h] at this
  exact this
theorem headKey_mem (B : List (Int × RecordId)) (h : B ≠ []) :
    ∃ x ∈ B, x.1 = headKey B := by
  cases B with
  | nil => exact absurd rfl h
  | cons b B => exact ⟨b, by simp, rfl⟩

/-- The last child slot of a node without a vacant child slot is occupied. -/
theorem full_node_last_child (N c0 : Nat) (pids : List Nat) (hc0 : c0 ≠ 0)
    (hocc : ∀ p ∈ pids, p ≠ 0) (hN : pids.length = N) :
    (c0 :: (pids ++ List.replicate 0 0)).getD N 0 ≠ 0 := by
  simp only [List.replicate_zero, List.append_nil]
  rw [List.getD_eq_getElem?_getD, List.getElem?_eq_getElem (by simp; omega),
    Option.getD_some]
  have hmem := List.getElem_mem (l := c0 :: pids) (n := N) (by simp; omega)
  rcases List.mem_cons.mp hmem with h | h
  · rw [h]
    exact hc0
  · exact hocc _ h

/-- One call of `recInsert` on the root of level 1 whose descent goes to the leaf `cp` with
the entries `Bc`: the leaf takes the entry; or the leaf is split and the root takes the new
separator and leaf behind the pairs `lo`; or the root is split too, and the file has two
internal pages. -/
theorem levelOne_child (fuel : Nat) (key : Int) (rid : RecordId) (s s' : BTreeIndex)
    (r : Option PageKeyPair) (c0 : Nat) (lo hi : List (Int × Nat)) (tk : List Int)
    (z cp : Nat) (Bc : List (Int × RecordId)) (hL : 2 ≤ s.leafOccupancy)
    (hroot : pageAt s.rootPageNum s =
      some (Page.nonLeaf ⟨1, (lo ++ hi).map Prod.fst ++ tk,
        c0 :: ((lo ++ hi).map Prod.snd ++ List.replicate z 0)⟩))
    (hltk : lo.length + hi.length + tk.length = s.nodeOccupancy)
    (hlz : lo.length + hi.length + 1 + z = s.nodeOccupancy + 1)
    (hc0 : c0 ≠ 0) (hocc : ∀ b ∈ lo ++ hi, b.2 ≠ 0)
    (hcp : findSubTree s.nodeOccupancy ⟨1, (lo ++ hi).map Prod.fst ++ tk,
        c0 :: ((lo ++ hi).map Prod.snd ++ List.replicate z 0)⟩ key = cp)
    (hB : IsLeafBlock s cp Bc) (hBs : Bc.Pairwise (fun a b => a.1 < b.1))
    (hrid : rid.page_number ≠ 0)
    (hlo : ∀ b ∈ lo, ∀ x ∈ stableInsert (key, rid) Bc, b.1 ≤ x.1)
    (hhi : ∀ b ∈ hi, ∀ x ∈ stableInsert (key, rid) Bc, x.1 < b.1)
    (hr : recInsert fuel false s.rootPageNum ⟨rid, key⟩ s = Res.ok r s') :
    (IsLeafBlock s' cp (stableInsert (key, rid) Bc) ∧
        (∀ q, q ≠ cp → pageAt q s' = pageAt q s) ∧
        s'.rootPageNum = s.rootPageNum ∧ s'.initRootPageNo = s.initRootPageNo ∧
        s'.leafOccupancy = s.leafOccupancy ∧ s'.nodeOccupancy = s.nodeOccupancy) ∨
      (∃ El Er tk' z', El ++ Er = stableInsert (key, rid) Bc ∧ El ≠ [] ∧ Er ≠ [] ∧
        IsLeafBlock s' cp El ∧ IsLeafBlock s' (s.pages.length + 1) Er ∧
        pageAt s.rootPageNum s' =
          some (Page.nonLeaf
            ⟨1, (lo ++ (headKey Er, s.pages.length + 1) :: hi).map Prod.fst ++ tk',
              c0 :: ((lo ++ (headKey Er, s.pages.length + 1) :: hi).map Prod.snd ++
                List.replicate z' 0)⟩) ∧
        z = z' + 1 ∧ tk.length = tk'.length + 1 ∧
        (∀ q, q ≠ cp → q ≠ s.rootPageNum → q ≤ s.pages.length → pageAt q s' = pageAt q s) ∧
        s'.pages.length = s.pages.length + 1 ∧
        s'.rootPageNum = s.rootPageNum ∧ s'.initRootPageNo = s.initRootPageNo ∧
        s'.leafOccupancy = s.leafOccupancy ∧ s'.nodeOccupancy = s.nodeOccupancy) ∨
      ∃ a b, a ≠ b ∧ (∃ n, pageAt a s' = some (Page.nonLeaf n)) ∧
        ∃ n, pageAt b s' = some (Page.nonLeaf n) := by
  obtain ⟨node, f, rc, sc, hf, hn, hc, hstep⟩ := recInsert_internal_inv _ _ _ _ _ _ hr
  rw [hroot] at hn
  simp only [Option.some.injEq, Page.nonLeaf.injEq] at hn
  subst hn
  rw [hcp] at hc
  have hc' : recInsert f true cp ⟨rid, key⟩
      { s with bufLog := s.bufLog ++ [BufCall.readPage cp] } = Res.ok rc sc := hc
  clear hc
  have hB1 : IsLeafBlock { s with bufLog := s.bufLog ++ [BufCall.readPage cp] } cp Bc := hB
  obtain ⟨tk0, tr0, sib0, hp0, hl0, hlt0, hv0, hrid0⟩ := hB
  have hcr : cp ≠ s.rootPageNum := by
    rintro rfl
    rw [hroot] at hp0
    cases hp0
  have hrle := pageAt_some_le _ _ _ hroot
  have hcle := pageAt_some_le _ _ _ hp0
  rcases Nat.lt_or_ge Bc.length s.leafOccupancy with hroom | hfull
  · -- the leaf has room
    obtain ⟨X, hX, tk2, tr2, sib2, rfl, hl, hlt, hv⟩ :=
      recInsert_leaf_room f cp ⟨rid, key⟩ _ Bc hB1 (pairwise_le_of_lt Bc hBs) hroom
    rw [hX] at hc'
    simp only [Res.ok.injEq] at hc'
    obtain ⟨hrc, rfl⟩ := hc'
    rcases hstep with ⟨_, _, hs'⟩ | ⟨e', node2, hrc', _⟩
    · subst hs'
      left
      refine ⟨⟨tk2, tr2, sib2, ?_, hl, hlt, hv, stableInsert_rid _ Bc hrid hrid0⟩, ?_, rfl, rfl,
        rfl, rfl⟩
      · show pageAt cp (setPage cp _ _) = _
        exact pageAt_setPage_same cp _ _ ⟨_, hp0⟩
      · intro q hq
        show pageAt q (setPage cp _ _) = _
        rw [pageAt_setPage_ne q cp _ _ hq]
        rfl
    · rw [hrc'] at hrc
      cases hrc
  · -- the leaf is full
    have hlen : Bc.length = s.leafOccupancy := by omega
    obtain ⟨sib, hp, hsplit⟩ := recInsert_leaf_full f cp ⟨rid, key⟩
      { s with bufLog := s.bufLog ++ [BufCall.readPage cp] } Bc hB1
      (Nat.le_of_succ_le hL) hlen
    rw [hsplit, splitLeafNode_eq, if_neg (fun h => hcr h.symm)] at hc'
    simp only [Res.ok.injEq] at hc'
    obtain ⟨hrc, rfl⟩ := hc'
    obtain ⟨El, Er, tkl, trl, tkr, trr, hnodes, happ, hEl, hEr, hl1, hlt1, hv1, hl2, hlt2,
      hv2⟩ := splitLeafNode_nodes_distinct s.leafOccupancy Bc sib (s.pages.length + 1)
        ⟨rid, key⟩ hL hlen hBs hrid0
    obtain ⟨hw1, hw2, hw3, hw4⟩ := written_leaf_pages ⟨Bc.map Prod.fst, Bc.map Prod.snd, sib⟩
      cp ⟨rid, key⟩ { s with bufLog := s.bufLog ++ [BufCall.readPage cp] } _ hp
    have hw1' : pageAt cp (splitLeafNode.written ⟨Bc.map Prod.fst, Bc.map Prod.snd, sib⟩ cp
        ⟨rid, key⟩ { s with bufLog := s.bufLog ++ [BufCall.readPage cp] }) =
        some (Page.leaf ⟨El.map Prod.fst ++ tkl, El.map Prod.snd ++ trl, s.pages.length + 1⟩) := by
      rw [hw1]
      exact congrArg (fun x => some (Page.leaf x.1)) hnodes
    have hw2' : pageAt (s.pages.length + 1)
        (splitLeafNode.written ⟨Bc.map Prod.fst, Bc.map Prod.snd, sib⟩ cp
          ⟨rid, key⟩ { s with bufLog := s.bufLog ++ [BufCall.readPage cp] }) =
        some (Page.leaf ⟨Er.map Prod.fst ++ tkr, Er.map Prod.snd ++ trr, sib⟩) := by
      rw [hw2]
      exact congrArg (fun x => some (Page.leaf x.2)) hnodes
    have hw3' : ∀ q, q ≠ cp → q ≤ s.pages.length →
        pageAt q (splitLeafNode.written ⟨Bc.map Prod.fst, Bc.map Prod.snd, sib⟩ cp
          ⟨rid, key⟩ { s with bufLog := s.bufLog ++ [BufCall.readPage cp] }) = pageAt q s :=
      hw3
    have hw4' : (splitLeafNode.written ⟨Bc.map Prod.fst, Bc.map Prod.snd, sib⟩ cp
        ⟨rid, key⟩ { s with bufLog := s.bufLog ++ [BufCall.readPage cp] }).pages.length =
        s.pages.length + 1 := hw4
    have hridAll := stableInsert_rid (key, rid) Bc hrid hrid0
    rw [← happ] at hridAll
    have hpk : splitLeafNode.pushup ⟨Bc.map Prod.fst, Bc.map Prod.snd, sib⟩ ⟨rid, key⟩
        { s with bufLog := s.bufLog ++ [BufCall.readPage cp] } =
        ⟨s.pages.length + 1, headKey Er⟩ := by
      unfold splitLeafNode.pushup
      rw [hnodes]
      cases Er with
      | nil => exact absurd rfl hEr
      | cons f Er' => rfl
    rcases hstep with ⟨hrc', _, _⟩ | ⟨e', node2, hrc', hnl, hstep⟩
    · rw [hrc'] at hrc
      cases hrc
    · rw [hrc'] at hrc
      simp only [Option.some.injEq] at hrc
      rw [← hrc, hpk] at hrc'
      subst hrc
      have hrootW : pageAt s.rootPageNum
          (splitLeafNode.written ⟨Bc.map Prod.fst, Bc.map Prod.snd, sib⟩ cp
            ⟨rid, key⟩ { s with bufLog := s.bufLog ++ [BufCall.readPage cp] }) =
          some (Page.nonLeaf ⟨1, (lo ++ hi).map Prod.fst ++ tk,
            c0 :: ((lo ++ hi).map Prod.snd ++ List.replicate z 0)⟩) := by
        rw [hw3' _ (fun h => hcr h.symm) hrle.2]
        exact hroot
      have hnl' := nonLeafAt_of_page _ _ _ hrootW
      have hnode2 : node2 = ⟨1, (lo ++ hi).map Prod.fst ++ tk,
          c0 :: ((lo ++ hi).map Prod.snd ++ List.replicate z 0)⟩ := by
        have hnl'' : nonLeafAt s.rootPageNum
            (splitLeafNode.written ⟨Bc.map Prod.fst, Bc.map Prod.snd, sib⟩ cp
              ⟨rid, key⟩ { s with bufLog := s.bufLog ++ [BufCall.readPage cp] }) =
            Res.ok node2 _ := hnl
        rw [hnl'] at hnl''
        simp only [Res.ok.injEq, and_true] at hnl''
        exact hnl''.symm
      subst hnode2
      rcases hstep with ⟨hgetD, _, hs'⟩ | ⟨_, hsplitN⟩
      · -- the root has room
        have hgetD' : (c0 :: ((lo ++ hi).map Prod.snd ++ List.replicate z 0)).getD
            s.nodeOccupancy 0 = 0 := hgetD
        have hz : z ≠ 0 := by
          rintro rfl
          exact full_node_last_child s.nodeOccupancy c0 ((lo ++ hi).map Prod.snd) hc0
            (by
              intro p hp
              simp only [List.mem_map] at hp
              obtain ⟨b, hb, rfl⟩ := hp
              exact hocc b hb)
            (by simp; omega) hgetD'
        obtain ⟨z', rfl⟩ : ∃ z', z = z' + 1 := ⟨z - 1, by omega⟩
        obtain ⟨x, tk', rfl⟩ : ∃ x tk', tk = x :: tk' := by
          cases tk with
          | nil => simp at hltk; omega
          | cons x tk' => exact ⟨x, tk', rfl⟩
        obtain ⟨hx, hxm, hxk⟩ := headKey_mem Er hEr
        have hxs : hx ∈ stableInsert (key, rid) Bc := by
          rw [← happ]
          exact List.mem_append_right _ hxm
        have hins := insertNonLeafNode_spec s.nodeOccupancy 1 c0 lo hi x tk' z'
          ⟨s.pages.length + 1, headKey Er⟩ hc0 hocc
          (fun b hb => by rw [← hxk]; exact hlo b hb hx hxs)
          (fun b hb => by rw [← hxk]; exact hhi b hb hx hxs) (by omega)
        subst hs'
        right; left
        refine ⟨El, Er, tk', z', happ, hEl, hEr, ⟨tkl, trl, s.pages.length + 1, ?_, hl1, hlt1,
          hv1, fun b hb => hridAll b (List.mem_append_left _ hb)⟩,
          ⟨tkr, trr, sib, ?_, hl2, hlt2, hv2,
            fun b hb => hridAll b (List.mem_append_right _ hb)⟩, ?_, rfl, rfl, ?_, ?_, rfl,
          rfl, rfl, rfl⟩
        · show pageAt cp (setPage s.rootPageNum _ _) = _
          rw [pageAt_setPage_ne cp _ _ _ hcr]
          exact hw1'
        · show pageAt (s.pages.length + 1) (setPage s.rootPageNum _ _) = _
          rw [pageAt_setPage_ne _ _ _ _ (by omega)]
          exact hw2'
        · show pageAt s.rootPageNum (setPage s.rootPageNum _ _) = _
          rw [pageAt_setPage_same _ _ _ ⟨_, hrootW⟩, hpk]
          exact congrArg (fun x => some (Page.nonLeaf x)) hins
        · intro q hq1 hq2 hq3
          show pageAt q (setPage s.rootPageNum _ _) = _
          rw [pageAt_setPage_ne q _ _ _ hq2]
          exact hw3' q hq1 hq3
        · show (setPage s.rootPageNum _ _).pages.length = _
          rw [(setPage_members _ _ _).2.2.2.2.2.2]
          exact hw4'
      · -- the root is full
        obtain ⟨ha, hb⟩ := splitNonLeafNode_two_internal _ _ _ _ _ _ _ hrootW hsplitN
        right; right
        refine ⟨s.rootPageNum, _, ?_, ha, hb⟩
        rw [hw4']
        omega
theorem seps_pairwise (rest : List (Nat × List (Int × RecordId)))
    (hne : ∀ c ∈ rest, c.2 ≠ [])
    (hs : (rest.flatMap Prod.snd).Pairwise (fun a b => a.1 < b.1)) :
    ((sepPairs rest).map Prod.fst).Pairwise (fun a b => a < b) := by
  induction rest with
  | nil => exact List.Pairwise.nil
  | cons c rest ih =>
    rw [List.flatMap_cons, List.pairwise_append] at hs
    simp only [sepPairs, List.map_cons, List.map_map, List.pairwise_cons]
    refine ⟨?_, ?_⟩
    · intro a ha
      simp only [List.mem_map, Function.comp] at ha
      obtain ⟨d, hd, rfl⟩ := ha
      obtain ⟨y, hy, hyk⟩ := headKey_mem c.2 (hne c (by simp))
      obtain ⟨w, hw, hwk⟩ := headKey_mem d.2 (hne d (by simp [hd]))
      rw [← hyk, ← hwk]
      exact hs.2.2 y hy w (List.mem_flatMap.mpr ⟨d, hd, hw⟩)
    · have := ih (fun d hd => hne d (by simp [hd])) hs.2.1
      simpa only [sepPairs, List.map_map] using this

/-- The leaf `findSubTree` selects in a root of level 1 for a key: the leaves are
`A ++ c :: P` with `c` the selected one, the pairs of the root are `lo ++ hi` with the
separators of `lo` (those of `A` without its first leaf, and of `c`) smaller than the key
and those of `hi` (of `P`) not smaller. -/
theorem levelOne_focus (N : Nat) (key : Int) (c0 : Nat) (b0 : List (Int × RecordId))
    (rest : List (Nat × List (Int × RecordId))) (tk : List Int) (z : Nat)
    (hne : ∀ c ∈ rest, c.2 ≠ []) (hc0 : c0 ≠ 0) (hpid : ∀ c ∈ rest, c.1 ≠ 0)
    (hs : (rest.flatMap Prod.snd).Pairwise (fun a b => a.1 < b.1))
    (hlz : rest.length + 1 + z = N + 1) :
    ∃ A c P lo hi, (c0, b0) :: rest = A ++ c :: P ∧ sepPairs rest = lo ++ hi ∧
      findSubTree N ⟨1, (sepPairs rest).map Prod.fst ++ tk,
        c0 :: ((sepPairs rest).map Prod.snd ++ List.replicate z 0)⟩ key = c.1 ∧
      (∀ b ∈ lo, b.1 < key) ∧ (∀ b ∈ hi, key ≤ b.1) ∧
      (∀ b ∈ lo, ∃ d ∈ A ++ [c], b.1 = headKey d.2 ∧ d.2 ≠ []) ∧
      hi = sepPairs P ∧
      (A ≠ [] → headKey c.2 < key) ∧
      (∀ B', (A = [] ∨ headKey B' = headKey c.2) →
        ∃ b0' rest', A ++ (c.1, B') :: P = (c0, b0') :: rest' ∧ sepPairs rest' = lo ++ hi) ∧
      (∀ B1 B2 p, (A = [] ∨ headKey B1 = headKey c.2) →
        ∃ b0' rest', A ++ (c.1, B1) :: (p, B2) :: P = (c0, b0') :: rest' ∧
          sepPairs rest' = lo ++ (headKey B2, p) :: hi) := by
  have hocc : ∀ p ∈ c0 :: (sepPairs rest).map Prod.snd, p ≠ 0 := by
    intro p hp
    rcases List.mem_cons.mp hp with rfl | hp
    · exact hc0
    · simp only [sepPairs, List.map_map, List.mem_map, Function.comp] at hp
      obtain ⟨d, hd, rfl⟩ := hp
      exact hpid d hd
  obtain ⟨lo', hi', hkeys, hlo', hhi', hidx⟩ := findSubTree_index_spec N
    ⟨1, (sepPairs rest).map Prod.fst ++ tk,
      c0 :: ((sepPairs rest).map Prod.snd ++ List.replicate z 0)⟩
    ((sepPairs rest).map Prod.fst) tk (c0 :: (sepPairs rest).map Prod.snd) z key rfl
    (List.cons_append _ _ _).symm (by simp) (by simp [sepPairs]; omega) hocc
    ((seps_pairwise rest hne hs).imp (fun h => le_of_lt h))
  have hfind : findSubTree N ⟨1, (sepPairs rest).map Prod.fst ++ tk,
      c0 :: ((sepPairs rest).map Prod.snd ++ List.replicate z 0)⟩ key =
      (c0 :: ((sepPairs rest).map Prod.snd ++ List.replicate z 0)).getD lo'.length 0 := by
    unfold findSubTree
    rw [hidx]
  have hkeys' : rest.map (fun c => headKey c.2) = lo' ++ hi' := by
    rw [← hkeys]
    simp [sepPairs]
  obtain ⟨R1, R2, hrest, hR1, hR2⟩ := List.map_eq_append_iff.mp hkeys'
  subst hrest
  have hseps : sepPairs (R1 ++ R2) = sepPairs R1 ++ sepPairs R2 := by
    simp [sepPairs]
  have hloR : ∀ b ∈ sepPairs R1, b.1 < key := by
    intro b hb
    simp only [sepPairs, List.mem_map] at hb
    obtain ⟨d, hd, rfl⟩ := hb
    exact hlo' _ (by rw [← hR1]; exact List.mem_map.mpr ⟨d, hd, rfl⟩)
  have hhiR : ∀ b ∈ sepPairs R2, key ≤ b.1 := by
    intro b hb
    simp only [sepPairs, List.mem_map] at hb
    obtain ⟨d, hd, rfl⟩ := hb
    exact hhi' _ (by rw [← hR2]; exact List.mem_map.mpr ⟨d, hd, rfl⟩)
  have hlen1 : lo'.length = R1.length := by
    rw [← hR1, List.length_map]
  rcases List.eq_nil_or_concat R1 with h | ⟨R0, c, h⟩
  · -- the first leaf is selected
    subst h
    refine ⟨[], (c0, b0), R2, [], sepPairs R2, rfl, by simp [sepPairs], ?_, by simp, hhiR,
      by simp, rfl, fun h => absurd rfl h, ?_, ?_⟩
    · rw [hfind, hlen1]
      rfl
    · intro B' _
      exact ⟨B', R2, rfl, rfl⟩
    · intro B1 B2 p _
      exact ⟨B1, (p, B2) :: R2, rfl, rfl⟩
  · -- a leaf behind a separator is selected
    have h' : R1 = R0 ++ [c] := by simpa using h
    subst h'
    have hcsep : (headKey c.2, c.1) ∈ sepPairs (R0 ++ [c]) := by
      simp [sepPairs]
    refine ⟨(c0, b0) :: R0, c, R2, sepPairs (R0 ++ [c]), sepPairs R2, by simp, hseps, ?_,
      hloR, hhiR, ?_, rfl, fun _ => hloR _ hcsep, ?_, ?_⟩
    · rw [hfind, hlen1]
      have hp : c0 :: ((sepPairs (R0 ++ [c] ++ R2)).map Prod.snd ++ List.replicate z 0) =
          (c0 :: R0.map Prod.fst) ++ c.1 :: (R2.map Prod.fst ++ List.replicate z 0) := by
        simp [sepPairs, Function.comp_def]
      rw [hp]
      exact getD_append_cons _ _ _ _ _ (by simp)
    · intro b hb
      simp only [sepPairs, List.mem_map] at hb
      obtain ⟨d, hd, rfl⟩ := hb
      exact ⟨d, by simp only [List.cons_append, List.mem_cons]; exact Or.inr hd, rfl,
        hne d (by
          rcases List.mem_append.mp hd with hd | hd
          · simp [hd]
          · simp only [List.mem_singleton] at hd
            simp [hd])⟩
    · intro B' hB'
      refine ⟨b0, R0 ++ (c.1, B') :: R2, by simp, ?_⟩
      rcases hB' with hB' | hB'
      · cases hB'
      · simp [sepPairs, hB']
    · intro B1 B2 p hB1
      refine ⟨b0, R0 ++ (c.1, B1) :: (p, B2) :: R2, by simp, ?_⟩
      rcases hB1 with hB1 | hB1
      · cases hB1
      · simp [sepPairs, hB1]
theorem headKey_le (B : List (Int × RecordId)) (hs : B.Pairwise (fun a b => a.1 < b.1)) :
    ∀ x ∈ B, headKey B ≤ x.1 := by
  cases B with
  | nil => simp
  | cons b B =>
    intro x hx
    rcases List.mem_cons.mp hx with rfl | hx
    · exact le_refl _
    · exact le_of_lt ((List.pairwise_cons.mp hs).1 x hx)

theorem headKey_stableInsert (e : Int × RecordId) (B : List (Int × RecordId)) (hB : B ≠ [])
    (h : headKey B < e.1) : headKey (stableInsert e B) = headKey B := by
  cases B with
  | nil => exact absurd rfl hB
  | cons b B =>
    have hb : ¬ e.1 < b.1 := by
      have : b.1 < e.1 := h
      omega
    simp only [stableInsert, if_neg hb]
    rfl

theorem headKey_append (l r : List (Int × RecordId)) (h : l ≠ []) :
    headKey (l ++ r) = headKey l := by
  cases l with
  | nil => exact absurd rfl h
  | cons a l => rfl

theorem stableInsert_ne_nil (e : Int × RecordId) (B : List (Int × RecordId)) :
    stableInsert e B ≠ [] := by
  intro h
  have := stableInsert_length e B
  rw [h] at this
  simp at this

theorem isLeafBlock_frame (s s' : BTreeIndex) (p : Nat) (B : List (Int × RecordId))
    (h : IsLeafBlock s p B) (hp : pageAt p s' = pageAt p s)
    (hL : s'.leafOccupancy = s.leafOccupancy) : IsLeafBlock s' p B := by
  obtain ⟨tk, tr, sib, h1, h2, h3, h4, h5⟩ := h
  exact ⟨tk, tr, sib, by rw [hp]; exact h1, by rw [hL]; exact h2, h3, h4, h5⟩

theorem flat_focus (A P : List (Nat × List (Int × RecordId)))
    (c : Nat × List (Int × RecordId)) :
    (A ++ c :: P).flatMap Prod.snd = A.flatMap Prod.snd ++ c.2 ++ P.flatMap Prod.snd := by
  simp

/-- One call of `recInsert` on the root of a tree of level 1, with a key that is not in the
tree: the tree is of level 1 again, with the entry in one of the leaves, or the root has been
split and the file has two internal pages. -/
theorem levelOne_recInsert (fuel : Nat) (key : Int) (rid : RecordId) (s s' : BTreeIndex)
    (r : Option PageKeyPair) (cs : List (Nat × List (Int × RecordId))) (h1 : LevelOne s cs)
    (hk : ∀ x ∈ cs.flatMap Prod.snd, x.1 ≠ key) (hrid : rid.page_number ≠ 0)
    (hr : recInsert fuel false s.rootPageNum ⟨rid, key⟩ s = Res.ok r s') :
    (∃ cs', LevelOne s' cs' ∧
        ∀ x ∈ cs'.flatMap Prod.snd, x = (key, rid) ∨ x ∈ cs.flatMap Prod.snd) ∨
      ∃ a b, a ≠ b ∧ (∃ n, pageAt a s' = some (Page.nonLeaf n)) ∧
        ∃ n, pageAt b s' = some (Page.nonLeaf n) := by
  obtain ⟨c0, b0, rest, tk, z, hcs, hroot, hltk, hlz⟩ := h1.root
  have hleaves := h1.leaves
  have hsorted := h1.sorted
  have hnodup := h1.nodup
  have honly := h1.only
  have hpidpos : ∀ d ∈ cs, d.1 ≠ 0 := by
    intro d hd
    obtain ⟨⟨_, _, _, hp, _⟩, _⟩ := hleaves d hd
    have := pageAt_some_le _ _ _ hp
    omega
  have hpidle : ∀ d ∈ cs, d.1 ≤ s.pages.length := by
    intro d hd
    obtain ⟨⟨_, _, _, hp, _⟩, _⟩ := hleaves d hd
    exact (pageAt_some_le _ _ _ hp).2
  have hpidroot : ∀ d ∈ cs, d.1 ≠ s.rootPageNum := by
    intro d hd hdr
    obtain ⟨⟨_, _, _, hp, _⟩, _⟩ := hleaves d hd
    rw [hdr, hroot] at hp
    cases hp
  have hrestsorted : (rest.flatMap Prod.snd).Pairwise (fun a b => a.1 < b.1) := by
    have := hsorted
    rw [hcs, List.flatMap_cons, List.pairwise_append] at this
    exact this.2.1
  obtain ⟨A, c, P, lo, hi, hdec, hsp, hfind, hlo, hhi, hloA, hhiP, hAk, hrep1, hrep2⟩ :=
    levelOne_focus s.nodeOccupancy key c0 b0 rest tk z
      (fun d hd => (hleaves d (by rw [hcs]; exact List.mem_cons_of_mem _ hd)).2)
      (hpidpos (c0, b0) (by rw [hcs]; exact List.mem_cons_self _ _))
      (fun d hd => hpidpos d (by rw [hcs]; exact List.mem_cons_of_mem _ hd)) hrestsorted hlz
  have hcsA : cs = A ++ c :: P := by rw [hcs, hdec]
  have hlenrest : rest.length = lo.length + hi.length := by
    have := congrArg List.length hsp
    simpa [sepPairs] using this
  rw [hsp] at hroot hfind
  have hcmem : c ∈ cs := by rw [hcsA]; simp
  have hAmem : ∀ d ∈ A, d ∈ cs := fun d hd => by rw [hcsA]; simp [hd]
  have hPmem : ∀ d ∈ P, d ∈ cs := fun d hd => by rw [hcsA]; simp [hd]
  obtain ⟨hcblk, hcne⟩ := hleaves c hcmem
  have hS := hsorted
  rw [hcsA, flat_focus, List.pairwise_append, List.pairwise_append] at hS
  obtain ⟨⟨hSA, hSc, hSAc⟩, hSP, hScross⟩ := hS
  have hkc : ∀ x ∈ c.2, x.1 ≠ key := fun x hx =>
    hk x (by rw [hcsA, flat_focus]; simp [hx])
  have hpre : ∀ x ∈ A.flatMap Prod.snd, x.1 < key := by
    intro x hx
    have hA : A ≠ [] := by
      rintro rfl
      simp at hx
    obtain ⟨y, hy, hyk⟩ := headKey_mem c.2 hcne
    have h1 := hSAc x hx y hy
    have h2 := hAk hA
    omega
  have hpost : ∀ w ∈ P.flatMap Prod.snd, key < w.1 := by
    intro w hw
    obtain ⟨d, hd, hwd⟩ := List.mem_flatMap.mp hw
    have hdsorted : d.2.Pairwise (fun a b => a.1 < b.1) := by
      obtain ⟨P1, P2, rfl⟩ := List.append_of_mem hd
      rw [flat_focus, List.pairwise_append, List.pairwise_append] at hSP
      exact hSP.1.2.1
    have h1 := headKey_le d.2 hdsorted w hwd
    have h2 := hhi (headKey d.2, d.1) (by rw [hhiP]; exact List.mem_map.mpr ⟨d, hd, rfl⟩)
    have h3 := hk w (by rw [hcsA, flat_focus]; simp [hw])
    have h2' : key ≤ headKey d.2 := h2
    omega
  have hlo' : ∀ b ∈ lo, ∀ x ∈ stableInsert (key, rid) c.2, b.1 ≤ x.1 := by
    intro b hb x hx
    rw [stableInsert_mem] at hx
    rcases hx with rfl | hx
    · exact le_of_lt (hlo b hb)
    · obtain ⟨d, hd, hbd, hdne⟩ := hloA b hb
      rw [hbd]
      rcases List.mem_append.mp hd with hd | hd
      · obtain ⟨y, hy, hyk⟩ := headKey_mem d.2 hdne
        rw [← hyk]
        exact le_of_lt (hSAc y (List.mem_flatMap.mpr ⟨d, hd, hy⟩) x hx)
      · simp only [List.mem_singleton] at hd
        subst hd
        exact headKey_le _ hSc x hx
  have hhi' : ∀ b ∈ hi, ∀ x ∈ stableInsert (key, rid) c.2, x.1 < b.1 := by
    intro b hb x hx
    rw [hhiP] at hb
    simp only [sepPairs, List.mem_map] at hb
    obtain ⟨d, hd, rfl⟩ := hb
    obtain ⟨w, hw, hwk⟩ := headKey_mem d.2 (hleaves d (hPmem d hd)).2
    have hwP : w ∈ P.flatMap Prod.snd := List.mem_flatMap.mpr ⟨d, hd, hw⟩
    show x.1 < headKey d.2
    rw [← hwk]
    rw [stableInsert_mem] at hx
    rcases hx with rfl | hx
    · exact hpost w hwP
    · exact hScross x (List.mem_append_right _ hx) w hwP
  have hocc : ∀ b ∈ lo ++ hi, b.2 ≠ 0 := by
    intro b hb
    rw [← hsp] at hb
    simp only [sepPairs, List.mem_map] at hb
    obtain ⟨d, hd, rfl⟩ := hb
    exact hpidpos d (by rw [hcs]; exact List.mem_cons_of_mem _ hd)
  have hnewsorted : (A.flatMap Prod.snd ++ stableInsert (key, rid) c.2 ++
      P.flatMap Prod.snd).Pairwise (fun a b => a.1 < b.1) := by
    refine stableInsert_between (key, rid) _ c.2 _ ?_ hpre hpost hkc
    rw [← flat_focus, ← hcsA]
    exact hsorted
  have hnd := hnodup
  rw [hcsA] at hnd
  simp only [List.map_append, List.map_cons] at hnd
  have hAne : ∀ d ∈ A, d.1 ≠ c.1 := by
    intro d hd hdc
    rw [List.nodup_append] at hnd
    exact hnd.2.2 (List.mem_map.mpr ⟨d, hd, rfl⟩) (by rw [hdc]; simp)
  have hPne : ∀ d ∈ P, d.1 ≠ c.1 := by
    intro d hd hdc
    rw [List.nodup_append, List.nodup_cons] at hnd
    exact hnd.2.1.1 (by rw [← hdc]; exact List.mem_map.mpr ⟨d, hd, rfl⟩)
  rcases levelOne_child fuel key rid s s' r c0 lo hi tk z c.1 c.2 h1.hL hroot (by omega)
      (by omega) (hpidpos (c0, b0) (by rw [hcs]; exact List.mem_cons_self _ _)) hocc hfind
      hcblk hSc hrid hlo' hhi' hr with
    ⟨hBlk, hframe, m1, m2, m3, m4⟩ |
    ⟨El, Er, tk', z', happ, hEl, hEr, hBl, hBr, hrootN, hz, htk, hframe, hlen', m1, m2, m3,
      m4⟩ | htwo
  · -- the leaf took the entry
    left
    refine ⟨A ++ (c.1, stableInsert (key, rid) c.2) :: P, ⟨?_, ?_, ?_, ?_, ?_, ?_, ?_, ?_⟩, ?_⟩
    · rw [m3]; exact h1.hL
    · rw [m4]; exact h1.hN
    · rw [m1, m2]; exact h1.root_ne
    · obtain ⟨b0', rest', heq, hsp'⟩ := hrep1 (stableInsert (key, rid) c.2) (by
        by_cases hA : A = []
        · exact Or.inl hA
        · exact Or.inr (headKey_stableInsert _ _ hcne (hAk hA)))
      refine ⟨c0, b0', rest', tk, z, heq, ?_, ?_, ?_⟩
      · rw [m1, hframe _ (fun h => hpidroot c hcmem h.symm), hsp']
        exact hroot
      · have := congrArg List.length hsp'
        simp only [sepPairs, List.length_map, List.length_append] at this
        rw [m4]
        omega
      · have := congrArg List.length hsp'
        simp only [sepPairs, List.length_map, List.length_append] at this
        rw [m4]
        omega
    · intro q n hq
      rw [m1]
      by_cases hqc : q = c.1
      · obtain ⟨_, _, _, hp, _⟩ := hBlk
        rw [hqc, hp] at hq
        cases hq
      · rw [hframe q hqc] at hq
        exact honly q n hq
    · intro d hd
      rcases List.mem_append.mp hd with hd | hd
      · obtain ⟨hb, hn⟩ := hleaves d (hAmem d hd)
        exact ⟨isLeafBlock_frame s s' _ _ hb (hframe _ (hAne d hd)) m3, hn⟩
      · rcases List.mem_cons.mp hd with rfl | hd
        · exact ⟨hBlk, stableInsert_ne_nil _ _⟩
        · obtain ⟨hb, hn⟩ := hleaves d (hPmem d hd)
          exact ⟨isLeafBlock_frame s s' _ _ hb (hframe _ (hPne d hd)) m3, hn⟩
    · rw [flat_focus]
      exact hnewsorted
    · simp only [List.map_append, List.map_cons]
      exact hnd
    · intro x hx
      rw [flat_focus] at hx
      rw [hcsA, flat_focus]
      simp only [List.mem_append, stableInsert_mem] at hx ⊢
      tauto
  · -- the leaf was split and the root took the new leaf
    left
    have hflat : (A ++ (c.1, El) :: (s.pages.length + 1, Er) :: P).flatMap Prod.snd =
        A.flatMap Prod.snd ++ stableInsert (key, rid) c.2 ++ P.flatMap Prod.snd := by
      rw [← happ]
      simp
    refine ⟨A ++ (c.1, El) :: (s.pages.length + 1, Er) :: P,
      ⟨?_, ?_, ?_, ?_, ?_, ?_, ?_, ?_⟩, ?_⟩
    · rw [m3]; exact h1.hL
    · rw [m4]; exact h1.hN
    · rw [m1, m2]; exact h1.root_ne
    · obtain ⟨b0', rest', heq, hsp'⟩ := hrep2 El Er (s.pages.length + 1) (by
        by_cases hA : A = []
        · exact Or.inl hA
        · right
          rw [← headKey_append El Er hEl, happ]
          exact headKey_stableInsert _ _ hcne (hAk hA))
      refine ⟨c0, b0', rest', tk', z', heq, ?_, ?_, ?_⟩
      · rw [m1, hsp']
        exact hrootN
      · have := congrArg List.length hsp'
        simp only [sepPairs, List.length_map, List.length_append, List.length_cons] at this
        rw [m4]
        omega
      · have := congrArg List.length hsp'
        simp only [sepPairs, List.length_map, List.length_append, List.length_cons] at this
        rw [m4]
        omega
    · intro q n hq
      rw [m1]
      by_contra hqr
      have hqle := (pageAt_some_le _ _ _ hq).2
      rw [hlen'] at hqle
      by_cases hqc : q = c.1
      · obtain ⟨_, _, _, hp, _⟩ := hBl
        rw [hqc, hp] at hq
        cases hq
      · by_cases hqn : q = s.pages.length + 1
        · obtain ⟨_, _, _, hp, _⟩ := hBr
          rw [hqn, hp] at hq
          cases hq
        · rw [hframe q hqc hqr (by omega)] at hq
          exact hqr (honly q n hq)
    · intro d hd
      rcases List.mem_append.mp hd with hd | hd
      · obtain ⟨hb, hn⟩ := hleaves d (hAmem d hd)
        exact ⟨isLeafBlock_frame s s' _ _ hb
          (hframe _ (hAne d hd) (hpidroot d (hAmem d hd)) (hpidle d (hAmem d hd))) m3, hn⟩
      · rcases List.mem_cons.mp hd with rfl | hd
        · exact ⟨hBl, hEl⟩
        · rcases List.mem_cons.mp hd with rfl | hd
          · exact ⟨hBr, hEr⟩
          · obtain ⟨hb, hn⟩ := hleaves d (hPmem d hd)
            exact ⟨isLeafBlock_frame s s' _ _ hb
              (hframe _ (hPne d hd) (hpidroot d (hPmem d hd)) (hpidle d (hPmem d hd))) m3, hn⟩
    · rw [hflat]
      exact hnewsorted
    · simp only [List.map_append, List.map_cons]
      rw [List.nodup_append] at hnd ⊢
      obtain ⟨n1, n2, n3⟩ := hnd
      rw [List.nodup_cons] at n2
      have hnewA : s.pages.length + 1 ∉ A.map Prod.fst := by
        intro h
        obtain ⟨d, hd, hdk⟩ := List.mem_map.mp h
        have := hpidle d (hAmem d hd)
        omega
      have hnewP : s.pages.length + 1 ∉ P.map Prod.fst := by
        intro h
        obtain ⟨d, hd, hdk⟩ := List.mem_map.mp h
        have := hpidle d (hPmem d hd)
        omega
      have hcle := hpidle c hcmem
      refine ⟨n1, ?_, ?_⟩
      · rw [List.nodup_cons, List.nodup_cons]
        refine ⟨?_, hnewP, n2.2⟩
        intro h
        rcases List.mem_cons.mp h with h | h
        · omega
        · exact n2.1 h
      · intro a ha hb
        rcases List.mem_cons.mp hb with rfl | hb
        · exact n3 ha (List.mem_cons_self _ _)
        · rcases List.mem_cons.mp hb with rfl | hb
          · exact hnewA ha
          · exact n3 ha (List.mem_cons_of_mem _ hb)
    · intro x hx
      rw [hflat] at hx
      rw [hcsA, flat_focus]
      simp only [List.mem_append, stableInsert_mem] at hx ⊢
      tauto
  · exact Or.inr htwo
theorem levelOne_log (s : BTreeIndex) (cs : List (Nat × List (Int × RecordId)))
    (l : List BufCall) (h1 : LevelOne s cs) : LevelOne { s with bufLog := l } cs :=
  ⟨h1.hL, h1.hN, h1.root_ne, h1.root, h1.only, h1.leaves, h1.sorted, h1.nodup⟩

/-- One `insertEntry` on a tree of level 1, with a key that is not in the tree. -/
theorem levelOne_step (fuel : Nat) (key : Int) (rid : RecordId) (s s' : BTreeIndex)
    (cs : List (Nat × List (Int × RecordId))) (h1 : LevelOne s cs)
    (hk : ∀ x ∈ cs.flatMap Prod.snd, x.1 ≠ key) (hrid : rid.page_number ≠ 0)
    (h : insertEntry fuel key rid s = Res.ok () s') :
    (∃ cs', LevelOne s' cs' ∧
        ∀ x ∈ cs'.flatMap Prod.snd, x = (key, rid) ∨ x ∈ cs.flatMap Prod.snd) ∨
      ∃ a b, a ≠ b ∧ (∃ n, pageAt a s' = some (Page.nonLeaf n)) ∧
        ∃ n, pageAt b s' = some (Page.nonLeaf n) := by
  obtain ⟨r, hr⟩ := insertEntry_inv _ _ _ _ _ h
  rw [decide_eq_false h1.root_ne] at hr
  exact levelOne_recInsert fuel key rid
    { s with bufLog := s.bufLog ++ [BufCall.readPage s.rootPageNum] } s' r cs
    (levelOne_log s cs _ h1) hk hrid hr

/-! ## The separators of a tree of level 1 -/

theorem mem_pages_pageAt (s : BTreeIndex) (pg : Page) (h : pg ∈ s.pages) :
    ∃ q, pageAt q s = some pg := by
  obtain ⟨i, hi, hget⟩ := List.getElem_of_mem h
  refine ⟨i + 1, ?_⟩
  simp only [pageAt, List.get?_eq_getElem?]
  rw [List.getElem?_eq_getElem hi, hget]

theorem subtreeKeys_leafBlock (f : Nat) (s : BTreeIndex) (p : Nat)
    (B : List (Int × RecordId)) (h : IsLeafBlock s p B) :
    subtreeKeys f true p s = B.map Prod.fst := by
  obtain ⟨tk, tr, sib, hp, hl, hlt, hv, hrid⟩ := h
  have hent : leafEntries ⟨B.map Prod.fst ++ tk, B.map Prod.snd ++ tr, sib⟩
      s.leafOccupancy 0 = B := by
    have := leafEntries_spec [] B tk tr sib s.leafOccupancy (by omega) hrid (by
      cases tr with
      | nil => left; simpa using hl.symm
      | cons y tr' => right; exact ⟨y, tr', rfl, hv y (by simp)⟩)
    simpa using this
  cases f <;> simp only [subtreeKeys, leafAt_of_page _ _ _ hp, hent]

/-- The keys of a leaf of a tree of level 1 lie in the range of its child slot. -/
theorem levelOne_range (c0 : Nat) (b0 : List (Int × RecordId))
    (rest A P : List (Nat × List (Int × RecordId))) (c : Nat × List (Int × RecordId))
    (tk : List Int) (hdec : (c0, b0) :: rest = A ++ c :: P)
    (hne : ∀ d ∈ rest, d.2 ≠ [])
    (hs : (((c0, b0) :: rest).flatMap Prod.snd).Pairwise (fun a b => a.1 < b.1)) :
    ∀ k ∈ c.2.map Prod.fst,
      inChildRange ((sepPairs rest).map Prod.fst ++ tk) rest.length A.length k = true := by
  intro k hk
  obtain ⟨x, hx, rfl⟩ := List.mem_map.mp hk
  rw [hdec, flat_focus, List.pairwise_append, List.pairwise_append] at hs
  obtain ⟨⟨_, hSc, _⟩, _, hScross⟩ := hs
  simp only [inChildRange, Bool.and_eq_true, Bool.or_eq_true, decide_eq_true_eq]
  refine ⟨?_, ?_⟩
  · -- the lower bound
    cases A with
    | nil => left; rfl
    | cons a A' =>
      right
      simp only [List.cons_append, List.cons.injEq] at hdec
      obtain ⟨_, hrest⟩ := hdec
      have hkeys : (sepPairs rest).map Prod.fst ++ tk =
          A'.map (fun d => headKey d.2) ++ headKey c.2 ::
            (P.map (fun d => headKey d.2) ++ tk) := by
        rw [hrest]
        simp [sepPairs, Function.comp_def]
      rw [hkeys, List.length_cons, Nat.add_sub_cancel,
        getD_append_cons _ _ _ _ _ (by simp)]
      exact headKey_le c.2 hSc x hx
  · -- the upper bound
    cases P with
    | nil =>
      left
      have := congrArg List.length hdec
      simp only [List.length_cons, List.length_append, List.length_nil] at this
      omega
    | cons d P' =>
      right
      have hkd : ((sepPairs rest).map Prod.fst ++ tk).getD A.length 0 = headKey d.2 ∧
          d ∈ rest := by
        cases A with
        | nil =>
          simp only [List.nil_append, List.cons.injEq] at hdec
          obtain ⟨_, hrest⟩ := hdec
          rw [hrest]
          exact ⟨rfl, List.mem_cons_self _ _⟩
        | cons a A' =>
          simp only [List.cons_append, List.cons.injEq] at hdec
          obtain ⟨_, hrest⟩ := hdec
          have hkeys : (sepPairs rest).map Prod.fst ++ tk =
              (A' ++ [c]).map (fun d => headKey d.2) ++ headKey d.2 ::
                (P'.map (fun d => headKey d.2) ++ tk) := by
            rw [hrest]
            simp [sepPairs, Function.comp_def]
          rw [hkeys]
          exact ⟨getD_append_cons _ _ _ _ _ (by simp), by rw [hrest]; simp⟩
      rw [hkd.1]
      obtain ⟨y, hy, hyk⟩ := headKey_mem d.2 (hne d hkd.2)
      rw [← hyk]
      exact hScross x (List.mem_append_right _ hx) y
        (List.mem_flatMap.mpr ⟨d, List.mem_cons_self _ _, hy⟩)
theorem levelOne_nodeSeparators (f : Nat) (s : BTreeIndex)
    (cs : List (Nat × List (Int × RecordId))) (h1 : LevelOne s cs) (node : NonLeafNodeInt)
    (hnode : pageAt s.rootPageNum s = some (Page.nonLeaf node)) :
    nodeSeparatorsHold f s node = true := by
  obtain ⟨c0, b0, rest, tk, z, hcs, hroot, hltk, hlz⟩ := h1.root
  rw [hroot] at hnode
  simp only [Option.some.injEq, Page.nonLeaf.injEq] at hnode
  subst hnode
  have hleaves := h1.leaves
  have hpidpos : ∀ d ∈ cs, d.1 ≠ 0 := by
    intro d hd
    obtain ⟨⟨_, _, _, hp, _⟩, _⟩ := hleaves d hd
    have := pageAt_some_le _ _ _ hp
    omega
  have hlast : lastChild (c0 :: ((sepPairs rest).map Prod.snd ++ List.replicate z 0))
      (s.nodeOccupancy + 1) = rest.length + 1 := by
    have := lastChild_pairs c0 (sepPairs rest) z
      (hpidpos (c0, b0) (by rw [hcs]; exact List.mem_cons_self _ _))
      (by
        intro b hb
        simp only [sepPairs, List.mem_map] at hb
        obtain ⟨d, hd, rfl⟩ := hb
        exact hpidpos d (by rw [hcs]; exact List.mem_cons_of_mem _ hd))
    have hl : (sepPairs rest).length = rest.length := by simp [sepPairs]
    rw [hl] at this
    rw [← hlz]
    exact this
  unfold nodeSeparatorsHold
  simp only [hlast, Nat.add_sub_cancel]
  rw [List.all_eq_true]
  intro i hi
  rw [List.mem_range] at hi
  have hilt : i < ((c0, b0) :: rest).length := by simpa using hi
  have hdec : (c0, b0) :: rest =
      ((c0, b0) :: rest).take i ++ ((c0, b0) :: rest)[i] :: ((c0, b0) :: rest).drop (i + 1) := by
    rw [← List.drop_eq_getElem_cons hilt, List.take_append_drop]
  generalize hA : ((c0, b0) :: rest).take i = A at hdec
  generalize hc : ((c0, b0) :: rest)[i] = c at hdec
  generalize hP : ((c0, b0) :: rest).drop (i + 1) = P at hdec
  have hAlen : A.length = i := by
    rw [← hA, List.length_take]
    omega
  have hcmem : c ∈ cs := by
    rw [hcs, hdec]
    simp
  have hchild : (c0 :: ((sepPairs rest).map Prod.snd ++ List.replicate z 0)).getD i 0 =
      c.1 := by
    have hp : c0 :: ((sepPairs rest).map Prod.snd ++ List.replicate z 0) =
        A.map Prod.fst ++ c.1 :: (P.map Prod.fst ++ List.replicate z 0) := by
      have h2 : c0 :: (sepPairs rest).map Prod.snd = ((c0, b0) :: rest).map Prod.fst := by
        simp [sepPairs, Function.comp_def]
      rw [← List.cons_append, h2, hdec]
      simp
    rw [hp]
    exact getD_append_cons _ _ _ _ _ (by simp [hAlen])
  have hlev : ((1 : Int) == 1) = true := rfl
  simp only [hchild, hlev]
  rw [subtreeKeys_leafBlock f s c.1 c.2 (hleaves c hcmem).1, List.all_eq_true]
  intro k hk
  have := levelOne_range c0 b0 rest A P c tk hdec
    (fun d hd => (hleaves d (by rw [hcs]; exact List.mem_cons_of_mem _ hd)).2)
    (by rw [← hcs]; exact h1.sorted) k hk
  rw [hAlen] at this
  exact this

/-- Separator correctness of a tree of level 1. -/
theorem levelOne_separators (f : Nat) (s : BTreeIndex)
    (cs : List (Nat × List (Int × RecordId))) (h1 : LevelOne s cs) :
    separatorsHold f s = true := by
  unfold separatorsHold
  rw [List.all_eq_true]
  intro pg hpg
  cases pg with
  | nonLeaf node =>
    obtain ⟨q, hq⟩ := mem_pages_pageAt s _ hpg
    have hqr := h1.only q node hq
    rw [hqr] at hq
    exact levelOne_nodeSeparators f s cs h1 node hq
  | blank => rfl
  | header m => rfl
  | leaf x => rfl

/-- Separator correctness of a tree that is its root leaf: there is no internal page. -/
theorem levelZero_separators (f : Nat) (s : BTreeIndex) (B : List (Int × RecordId))
    (h0 : LevelZero s B) : separatorsHold f s = true := by
  unfold separatorsHold
  rw [List.all_eq_true]
  intro pg hpg
  cases pg with
  | nonLeaf node =>
    obtain ⟨q, hq⟩ := mem_pages_pageAt s _ hpg
    exact absurd hq (h0.only q node)
  | blank => rfl
  | header m => rfl
  | leaf x => rfl

/-! ## The internal pages of the file -/

theorem mem_internalPages (s : BTreeIndex) (a : Nat) :
    a ∈ internalPages s ↔ ∃ n, pageAt a s = some (Page.nonLeaf n) := by
  unfold internalPages
  rw [List.mem_filterMap]
  constructor
  · rintro ⟨i, hi, h⟩
    rw [List.mem_range] at hi
    have hget : s.pages.getD i Page.blank = s.pages[i] := by
      rw [List.getD_eq_getElem?_getD, List.getElem?_eq_getElem hi]
      rfl
    rw [hget] at h
    split at h
    · rename_i n hn
      simp only [Option.some.injEq] at h
      subst h
      refine ⟨n, ?_⟩
      simp only [pageAt, List.get?_eq_getElem?]
      rw [List.getElem?_eq_getElem hi, hn]
    · cases h
  · rintro ⟨n, hn⟩
    have hle := pageAt_some_le _ _ _ hn
    obtain ⟨i, rfl⟩ : ∃ i, a = i + 1 := ⟨a - 1, by omega⟩
    refine ⟨i, List.mem_range.mpr (by omega), ?_⟩
    simp only [pageAt, List.get?_eq_getElem?] at hn
    rw [List.getD_eq_getElem?_getD, hn]
    rfl

theorem internalPages_nodup (s : BTreeIndex) : (internalPages s).Nodup := by
  unfold internalPages
  refine List.Nodup.filterMap ?_ (List.nodup_range _)
  intro i j b hi hj
  simp only [Option.mem_def] at hi hj
  split at hi
  · split at hj
    · simp only [Option.some.injEq] at hi hj
      omega
    · cases hj
  · cases hi

theorem two_le_internalPages (s : BTreeIndex) (a b : Nat) (hab : a ≠ b)
    (ha : ∃ n, pageAt a s = some (Page.nonLeaf n))
    (hb : ∃ n, pageAt b s = some (Page.nonLeaf n)) : 2 ≤ (internalPages s).length := by
  have h1 := (mem_internalPages s a).mpr ha
  have h2 := (mem_internalPages s b).mpr hb
  have hsub : [a, b].Subperm (internalPages s) := by
    refine List.subperm_of_subset ?_ ?_
    · simp [hab]
    · intro x hx
      simp only [List.mem_cons, List.mem_singleton, List.not_mem_nil, or_false] at hx
      rcases hx with rfl | rfl
      · exact h1
      · exact h2
  exact hsub.length_le
/-! ## Separators of an index built from distinct keys -/

/-- A new file is its empty root leaf. -/
theorem levelZero_create (L N : Nat) (hL : 2 ≤ L) (hN : 1 ≤ N) :
    LevelZero (BTreeIndex.create L N [] 0 Datatype.INTEGER) [] := by
  refine ⟨hL, hN, rfl, ?_, List.Pairwise.nil, ⟨_, rfl⟩, ?_⟩
  · refine ⟨List.replicate L 0, List.replicate L ⟨0, 0⟩, 0, rfl, ?_, ?_, ?_, ?_⟩
    · simp [BTreeIndex.create]
    · simp
    · intro r hr
      rw [List.eq_of_mem_replicate hr]
    · intro b hb
      cases hb
  · intro q n hq
    match q, hq with
    | 0, hq => simp [pageAt] at hq
    | 1, hq => simp [pageAt, BTreeIndex.create] at hq
    | 2, hq => simp [pageAt, BTreeIndex.create] at hq
    | q + 3, hq => simp [pageAt, BTreeIndex.create] at hq

/-- The shape of the tree after a run of returning `insertEntry` calls with keys that are
distinct from each other and from the keys in the tree: a root leaf, a tree of level 1, or
a file with two internal pages. -/
theorem insertEntries_shape (fuel : Nat) (es : List (Int × RecordId)) :
    ∀ (F : List (Int × RecordId)) (s s' : BTreeIndex),
      ((F ++ es).map Prod.fst).Nodup → (∀ b ∈ es, b.2.page_number ≠ 0) →
      ((∃ B, LevelZero s B ∧ ∀ x ∈ B, x ∈ F) ∨
        (∃ cs, LevelOne s cs ∧ ∀ x ∈ cs.flatMap Prod.snd, x ∈ F) ∨
        ∃ a b, a ≠ b ∧ (∃ n, pageAt a s = some (Page.nonLeaf n)) ∧
          ∃ n, pageAt b s = some (Page.nonLeaf n)) →
      insertEntries fuel es s = Res.ok () s' →
      (∃ B, LevelZero s' B) ∨ (∃ cs, LevelOne s' cs) ∨
        ∃ a b, a ≠ b ∧ (∃ n, pageAt a s' = some (Page.nonLeaf n)) ∧
          ∃ n, pageAt b s' = some (Page.nonLeaf n) := by
  induction es with
  | nil =>
    intro F s s' _ _ hg h
    simp only [insertEntries, Res.ok.injEq, true_and] at h
    subst h
    rcases hg with ⟨B, h0, _⟩ | ⟨cs, h1, _⟩ | h2
    · exact Or.inl ⟨B, h0⟩
    · exact Or.inr (Or.inl ⟨cs, h1⟩)
    · exact Or.inr (Or.inr h2)
  | cons e es ih =>
    intro F s s' hnd hrid hg h
    simp only [insertEntries] at h
    obtain ⟨u, s1, hstep, hrest⟩ := Res.ok_bind _ _ _ _ h
    cases u
    have hnd' : ((F ++ [e] ++ es).map Prod.fst).Nodup := by
      simpa using hnd
    have hfresh : ∀ x ∈ F, x.1 ≠ e.1 := by
      intro x hx heq
      rw [List.map_append, List.map_cons, List.nodup_append] at hnd
      exact hnd.2.2 (List.mem_map_of_mem Prod.fst hx)
        (by rw [heq]; exact List.mem_cons_self _ _)
    have hre : e.2.page_number ≠ 0 := hrid e (List.mem_cons_self _ _)
    refine ih (F ++ [e]) s1 s' hnd' (fun b hb => hrid b (List.mem_cons_of_mem _ hb)) ?_ hrest
    rcases hg with ⟨B, h0, hB⟩ | ⟨cs, h1, hcs⟩ | ⟨a, b, hab, ha, hb⟩
    · rcases levelZero_step fuel e.1 e.2 s s1 B h0 (fun b hb => hfresh b (hB b hb)) hre hstep
        with h0' | ⟨cs, h1', hflat⟩
      · refine Or.inl ⟨_, h0', ?_⟩
        intro x hx
        rw [stableInsert_mem] at hx
        rcases hx with rfl | hx
        · simp
        · exact List.mem_append_left _ (hB x hx)
      · refine Or.inr (Or.inl ⟨cs, h1', ?_⟩)
        intro x hx
        rw [hflat, stableInsert_mem] at hx
        rcases hx with rfl | hx
        · simp
        · exact List.mem_append_left _ (hB x hx)
    · rcases levelOne_step fuel e.1 e.2 s s1 cs h1 (fun x hx => hfresh x (hcs x hx)) hre hstep
        with ⟨cs', h1', hflat⟩ | h2
      · refine Or.inr (Or.inl ⟨cs', h1', ?_⟩)
        intro x hx
        rcases hflat x hx with rfl | hx
        · simp
        · exact List.mem_append_left _ (hcs x hx)
      · exact Or.inr (Or.inr h2)
    · exact Or.inr (Or.inr ⟨a, b, hab,
        insertEntry_keeps_internal fuel e.1 e.2 s s1 a ha hstep,
        insertEntry_keeps_internal fuel e.1 e.2 s s1 b hb hstep⟩)

theorem option_eq_some_getD (o : Option BTreeIndex) (s0 : BTreeIndex)
    (h : o.isSome = true) : o = some (o.getD s0) := by
  cases o <;> simp at h ⊢

/-- C11 (amended): in an index built with leaf capacity at least 2 and internal capacity
at least 1 from entries with pairwise distinct keys (and record ids of nonzero page
number), as long as the file holds at most one internal page, every key of the subtree
under child `i` of an internal node is at least the separator left of the child (if
`i > 0`) and less than the separator right of it (if the child is not the last). -/
theorem separators_hold_before_internal_split (fuel L N f : Nat)
    (es : List (Int × RecordId)) (s : BTreeIndex) (hL : 2 ≤ L) (hN : 1 ≤ N)
    (hkeys : (es.map Prod.fst).Nodup) (hrid : ∀ b ∈ es, b.2.page_number ≠ 0)
    (h : BTreeIndex.build fuel L N es = some s) (hint : (internalPages s).length ≤ 1) :
    separatorsHold f s = true := by
  unfold BTreeIndex.build at h
  have hok : insertEntries fuel es (BTreeIndex.create L N [] 0 Datatype.INTEGER) =
      Res.ok () s := by
    cases hr : insertEntries fuel es (BTreeIndex.create L N [] 0 Datatype.INTEGER) with
    | ok u s1 =>
      rw [hr] at h
      simp only [Res.state, Option.some.injEq] at h
      rw [h]
    | exn e s1 => rw [hr] at h; cases h
    | fault => rw [hr] at h; cases h
    | outOfFuel => rw [hr] at h; cases h
  rcases insertEntries_shape fuel es [] _ s (by simpa using hkeys) hrid
      (Or.inl ⟨[], levelZero_create L N hL hN, fun x hx => hx⟩) hok
    with ⟨B, h0⟩ | ⟨cs, h1⟩ | ⟨a, b, hab, ha, hb⟩
  · exact levelZero_separators f s B h0
  · exact levelOne_separators f s cs h1
  · have := two_le_internalPages s a b hab ha hb
    omega

theorem separators_hold_before_internal_split_witness :
    separatorsHold 2
      ((BTreeIndex.build 2 2 2 [(1, ⟨1, 0⟩), (3, ⟨1, 1⟩), (2, ⟨1, 2⟩), (4, ⟨1, 3⟩)]).getD
        (BTreeIndex.create 2 2 [] 0 Datatype.INTEGER)) = true :=
  separators_hold_before_internal_split 2 2 2 2
    [(1, ⟨1, 0⟩), (3, ⟨1, 1⟩), (2, ⟨1, 2⟩), (4, ⟨1, 3⟩)] _ (by decide) (by decide)
    (by decide) (by decide) (option_eq_some_getD _ _ (by decide!)) (by decide!)

/-! ## The range predicate of the earlier version -/

/-- On every valid operator pair the earlier `keyIsInRange` tests the closed interval: its
branches compare the lower operator with `LT`/`LTE` and the upper operator with `GT`/`GTE`,
which no valid pair has. -/
theorem P3_keyIsInRange_valid (low high k : Int) (lop hop : Operator)
    (hl : lop = Operator.GT ∨ lop = Operator.GTE)
    (hh : hop = Operator.LT ∨ hop = Operator.LTE) :
    P3.keyIsInRange low lop high hop k = (decide (low ≤ k) && decide (k ≤ high)) := by
  rcases hl with rfl | rfl <;> rcases hh with rfl | rfl <;> simp [P3.keyIsInRange]

/-- C34 (failing input): with the bounds `(5, GT)` and `(10, LT)` the earlier
`keyIsInRange` accepts the keys 5 and 10, which the later one and the four-way table
reject. -/
theorem P3_keyIsInRange_accepts_excluded_bound :
    P3.keyIsInRange 5 Operator.GT 10 Operator.LT 5 = true ∧
      keyIsInRange 5 Operator.GT 10 Operator.LT 5 = false ∧
      P3.keyIsInRange 5 Operator.GT 10 Operator.LT 10 = true ∧
      keyIsInRange 5 Operator.GT 10 Operator.LT 10 = false := by
  decide
/-! ## Array bounds in the split of an internal node -/

theorem splitNonLeafNode_moveAccesses_last (mid n i : Nat) (hn : 1 ≤ n) :
    (NodeArray.prevKey, ((i + n : Nat) : Int)) ∈ splitNonLeafNode.moveAccesses mid n i := by
  induction n generalizing i with
  | zero => omega
  | succ n ih =>
    unfold splitNonLeafNode.moveAccesses
    rcases Nat.eq_zero_or_pos n with h0 | hpos
    · subst h0
      simp
    · refine List.mem_append_right _ ?_
      have := ih (i + 1) hpos
      rw [show i + 1 + n = i + (n + 1) by omega] at this
      exact this

/-- Every split of a full internal node of capacity `N >= 2` indexes an array outside its
bounds: the last iteration of the moving loop stores into `prevNode->keyArray[N]`; when
the loop has no iteration (`N = 2`, push index 1), `insertNonLeafNode` stores into
`keyArray[-1]` of the empty new node, or shifts into `keyArray[2]` of the split node. -/
theorem splitNonLeafNode_accesses_outside (N : Nat) (prevNode : NonLeafNodeInt)
    (e : PageKeyPair) (hN : 2 ≤ N) (hk : prevNode.keyArray.length = N)
    (hp : prevNode.pageNoArray.length = N + 1) (hfull : ∀ c ∈ prevNode.pageNoArray, c ≠ 0) :
    ∃ a ∈ splitNonLeafNode.accesses N prevNode (zeroNonLeaf N) e,
      NodeArray.outside N a = true := by
  have hlt := splitNonLeafNode_pushupIndex_lt N prevNode e.key (by omega)
  rcases Nat.lt_or_ge (splitNonLeafNode.pushupIndex N prevNode e.key + 1) N with hm | hm
  · refine ⟨(NodeArray.prevKey, (N : Int)), ?_, by simp [NodeArray.outside]⟩
    have := splitNonLeafNode_moveAccesses_last
      (splitNonLeafNode.pushupIndex N prevNode e.key + 1)
      (N - (splitNonLeafNode.pushupIndex N prevNode e.key + 1))
      (splitNonLeafNode.pushupIndex N prevNode e.key + 1) (by omega)
    rw [show splitNonLeafNode.pushupIndex N prevNode e.key + 1 +
      (N - (splitNonLeafNode.pushupIndex N prevNode e.key + 1)) = N by omega] at this
    unfold splitNonLeafNode.accesses
    simp only [List.mem_append]
    exact Or.inl (Or.inl (Or.inr this))
  · have hN2 : N = 2 := by
      have : splitNonLeafNode.pushupIndex N prevNode e.key ≤ N / 2 := by
        unfold splitNonLeafNode.pushupIndex
        split
        · split <;> omega
        · omega
      omega
    subst hN2
    have hpi : splitNonLeafNode.pushupIndex 2 prevNode e.key = 1 := by omega
    obtain ⟨lvl, ks, cs⟩ := prevNode
    simp only at hk hp hfull
    match ks, hk with
    | [k0, k1], _ =>
      match cs, hp with
      | [c0, c1, c2], _ =>
        have hc2 : c2 ≠ 0 := hfull c2 (by simp)
        by_cases hneg : e.key < 0
        · refine ⟨(NodeArray.prevKey, 2), ?_, by decide⟩
          unfold splitNonLeafNode.accesses
          simp only [hpi]
          simp [splitNonLeafNode.move, zeroNonLeaf, hneg, insertNonLeafNode.accesses,
            lastChild, hc2, insertNonLeafNode.shiftAccesses]
        · refine ⟨(NodeArray.newKey, -1), ?_, by decide⟩
          unfold splitNonLeafNode.accesses
          simp only [hpi]
          simp [splitNonLeafNode.move, zeroNonLeaf, hneg, insertNonLeafNode.accesses,
            lastChild]

/-- C32 (failing input): the split of the full internal node with the keys `[2, 5]` and the
children `[2, 5, 3]` (capacity 2) for the incoming entry `(3, page 6)`.  The one iteration
of the moving loop (`i = 1`) stores into `prevNode->keyArray[2]`, one slot past the key
array. -/
theorem splitNonLeafNode_stores_past_key_array :
    (splitNonLeafNode.accesses 2 ⟨1, [2, 5], [2, 5, 3]⟩ (zeroNonLeaf 2) ⟨6, 3⟩).filter
        (NodeArray.outside 2) = [(NodeArray.prevKey, 2)] ∧
      splitNonLeafNode.moveAccesses 1 1 1 =
        [(NodeArray.prevKey, 1), (NodeArray.newKey, 0), (NodeArray.prevPageNo, 2),
          (NodeArray.newPageNo, 0), (NodeArray.prevPageNo, 2), (NodeArray.prevKey, 2)] := by
  decide
/-! ## The leaf insert of the earlier version -/

theorem P3_shift_stops (key : Int) (i : Nat) (leaf : LeafNodeInt)
    (hc : P3.insertLeafNode.shiftCond key i leaf = false) (fuel : Nat) :
    P3.insertLeafNode.shift key fuel i leaf = some (insertLeafNode.shift key i leaf) := by
  have h2 : insertLeafNode.shift key i leaf = (i, leaf) := by
    cases i with
    | zero => rfl
    | succ j =>
      unfold insertLeafNode.shift
      simp only [P3.insertLeafNode.shiftCond, decide_eq_false_iff_not] at hc
      rw [if_neg hc]
  rw [h2]
  cases fuel <;> simp [P3.insertLeafNode.shift, hc]

theorem P3_shiftBody_cond (key : Int) (i : Nat) (leaf : LeafNodeInt)
    (hc : P3.insertLeafNode.shiftCond key i leaf = true) :
    (P3.insertLeafNode.shiftBody i leaf).1 = i ∧
      P3.insertLeafNode.shiftCond key (P3.insertLeafNode.shiftBody i leaf).1
        (P3.insertLeafNode.shiftBody i leaf).2 = true := by
  refine ⟨rfl, ?_⟩
  cases i with
  | zero => simp [P3.insertLeafNode.shiftCond] at hc
  | succ j =>
    simp only [P3.insertLeafNode.shiftCond, P3.insertLeafNode.shiftBody] at hc ⊢
    have hg : ∀ v, (leaf.keyArray.set (j + 1) v).getD j 0 = leaf.keyArray.getD j 0 := by
      intro v
      rw [List.getD_eq_getElem?_getD, List.getElem?_set_ne (by omega),
        ← List.getD_eq_getElem?_getD]
    simp only [decide_eq_true_eq] at hc ⊢
    rw [hg]
    exact hc

theorem P3_shift_stalls (key : Int) (i : Nat) (leaf : LeafNodeInt)
    (hc : P3.insertLeafNode.shiftCond key i leaf = true) (fuel : Nat) :
    P3.insertLeafNode.shift key fuel i leaf = none := by
  induction fuel generalizing leaf with
  | zero => simp [P3.insertLeafNode.shift, hc]
  | succ fuel ih =>
    unfold P3.insertLeafNode.shift
    rw [if_pos hc]
    exact ih _ (P3_shiftBody_cond key i leaf hc).2

/-- The loop condition of the shifting loop at its entry, on a leaf whose occupied slots are
a prefix: it compares the last occupied key with the new key. -/
theorem P3_shiftCond_entry (L : Nat) (es : List (Int × RecordId)) (x : Int) (y : RecordId)
    (tk : List Int) (tr : List RecordId) (sib : Nat) (key : Int)
    (hrid : ∀ b ∈ es, b.2.page_number ≠ 0) (hy : y.page_number = 0)
    (htr : ∀ r ∈ tr, r.page_number = 0) (hL : L = es.length + (tr.length + 1)) :
    insertLeafNode.locate (es.map Prod.snd ++ y :: tr) L = es.length ∧
      ∀ d, P3.insertLeafNode.shiftCond key es.length
          ⟨es.map Prod.fst ++ x :: tk, d, sib⟩ =
        match es.getLast? with
        | none => false
        | some b => decide (key < b.1) := by
  constructor
  · have := insertLeafNode_locate_spec (es.map Prod.snd) (y :: tr)
      (by
        intro r hr
        rw [List.getLast?_eq_some_iff] at hr
        obtain ⟨ys, hys⟩ := hr
        have hmem : r ∈ es.map Prod.snd := by rw [hys]; simp
        obtain ⟨c, hc, rfl⟩ := List.mem_map.mp hmem
        exact hrid c hc)
      (by
        intro r hr
        rcases List.mem_cons.mp hr with rfl | hr
        · exact hy
        · exact htr r hr)
    simpa [hL] using this
  · intro d
    rcases List.eq_nil_or_concat es with rfl | ⟨pre, b, rfl⟩
    · rfl
    · have hlast : (pre ++ [b]).getLast? = some b := by simp
      simp only [List.concat_eq_append, List.length_append, List.length_singleton, hlast,
        P3.insertLeafNode.shiftCond]
      have hget : (List.map Prod.fst (pre ++ [b]) ++ x :: tk).getD pre.length 0 = b.1 := by
        have := getD_append_cons (pre.map Prod.fst) b.1 (x :: tk) 0 pre.length (by simp)
        simpa using this
      rw [hget]

/-- C35: on a non-full sorted leaf whose occupied slots are the prefix `es`, if the leaf is
vacant or its last occupied key is at most the new key, the earlier `insertLeafNode`
returns, for every bound on the iterations, exactly the leaf the later `insertLeafNode`
returns.  If the last occupied key is greater than the new key, the shifting loop is
entered with its condition true, one iteration leaves the index as it was and the
condition true, and the earlier `insertLeafNode` returns under no bound on the
iterations. -/
theorem P3_insertLeafNode_agrees_or_stalls (L : Nat) (es : List (Int × RecordId)) (x : Int)
    (y : RecordId) (tk : List Int) (tr : List RecordId) (sib : Nat) (e : RIDKeyPair)
    (hs : es.Pairwise (fun a b => a.1 ≤ b.1)) (hrid : ∀ b ∈ es, b.2.page_number ≠ 0)
    (hy : y.page_number = 0) (htr : ∀ r ∈ tr, r.page_number = 0)
    (hL : L = es.length + (tr.length + 1)) :
    ((∀ b, es.getLast? = some b → b.1 ≤ e.key) →
      ∀ fuel,
        P3.insertLeafNode fuel L ⟨es.map Prod.fst ++ x :: tk, es.map Prod.snd ++ y :: tr, sib⟩
            e =
          some (insertLeafNode L
            ⟨es.map Prod.fst ++ x :: tk, es.map Prod.snd ++ y :: tr, sib⟩ e) ∧
          insertLeafNode L ⟨es.map Prod.fst ++ x :: tk, es.map Prod.snd ++ y :: tr, sib⟩ e =
            ⟨(stableInsert (e.key, e.rid) es).map Prod.fst ++ tk,
              (stableInsert (e.key, e.rid) es).map Prod.snd ++ tr, sib⟩) ∧
    ((∃ b, es.getLast? = some b ∧ e.key < b.1) →
      P3.insertLeafNode.shiftCond e.key
          (insertLeafNode.locate (es.map Prod.snd ++ y :: tr) L)
          ⟨es.map Prod.fst ++ x :: tk, es.map Prod.snd ++ y :: tr, sib⟩ = true ∧
        (P3.insertLeafNode.shiftBody
            (insertLeafNode.locate (es.map Prod.snd ++ y :: tr) L)
            ⟨es.map Prod.fst ++ x :: tk, es.map Prod.snd ++ y :: tr, sib⟩).1 =
          insertLeafNode.locate (es.map Prod.snd ++ y :: tr) L ∧
        P3.insertLeafNode.shiftCond e.key
            (P3.insertLeafNode.shiftBody
              (insertLeafNode.locate (es.map Prod.snd ++ y :: tr) L)
              ⟨es.map Prod.fst ++ x :: tk, es.map Prod.snd ++ y :: tr, sib⟩).1
            (P3.insertLeafNode.shiftBody
              (insertLeafNode.locate (es.map Prod.snd ++ y :: tr) L)
              ⟨es.map Prod.fst ++ x :: tk, es.map Prod.snd ++ y :: tr, sib⟩).2 = true ∧
        ∀ fuel,
          P3.insertLeafNode fuel L
            ⟨es.map Prod.fst ++ x :: tk, es.map Prod.snd ++ y :: tr, sib⟩ e = none) := by
  obtain ⟨hloc, hcond⟩ := P3_shiftCond_entry L es x y tk tr sib e.key hrid hy htr hL
  have hc := hcond (es.map Prod.snd ++ y :: tr)
  constructor
  · intro hle fuel
    refine ⟨?_, insertLeafNode_spec L es x y tk tr sib e hs hrid hy htr hL⟩
    have hfalse : P3.insertLeafNode.shiftCond e.key es.length
        ⟨es.map Prod.fst ++ x :: tk, es.map Prod.snd ++ y :: tr, sib⟩ = false := by
      rw [hc]
      cases hlast : es.getLast? with
      | none => rfl
      | some b =>
        have := hle b hlast
        simp only [decide_eq_false_iff_not]
        omega
    unfold P3.insertLeafNode insertLeafNode
    split
    · rfl
    · simp only [hloc]
      rw [P3_shift_stops e.key es.length _ hfalse fuel]
      rfl
  · rintro ⟨b, hlast, hlt⟩
    have htrue : P3.insertLeafNode.shiftCond e.key es.length
        ⟨es.map Prod.fst ++ x :: tk, es.map Prod.snd ++ y :: tr, sib⟩ = true := by
      rw [hc, hlast]
      simpa using hlt
    rw [hloc]
    refine ⟨htrue, (P3_shiftBody_cond _ _ _ htrue).1, (P3_shiftBody_cond _ _ _ htrue).2, ?_⟩
    intro fuel
    have hne : es ≠ [] := by
      rintro rfl
      cases hlast
    have h0 : ((es.map Prod.snd ++ y :: tr).getD 0 default).page_number ≠ 0 := by
      cases es with
      | nil => exact absurd rfl hne
      | cons c l => simpa using hrid c (by simp)
    unfold P3.insertLeafNode
    simp only [if_neg h0, hloc]
    rw [P3_shift_stalls e.key es.length _ htrue fuel]
    rfl

theorem P3_insertLeafNode_agrees_or_stalls_witness :
    (∀ fuel,
      P3.insertLeafNode fuel 3 ⟨[1, 3, 0], [⟨1, 0⟩, ⟨1, 1⟩, ⟨0, 0⟩], 0⟩ ⟨⟨1, 2⟩, 5⟩ =
          some (insertLeafNode 3 ⟨[1, 3, 0], [⟨1, 0⟩, ⟨1, 1⟩, ⟨0, 0⟩], 0⟩ ⟨⟨1, 2⟩, 5⟩) ∧
        insertLeafNode 3 ⟨[1, 3, 0], [⟨1, 0⟩, ⟨1, 1⟩, ⟨0, 0⟩], 0⟩ ⟨⟨1, 2⟩, 5⟩ =
          ⟨[1, 3, 5], [⟨1, 0⟩, ⟨1, 1⟩, ⟨1, 2⟩], 0⟩) ∧
    (P3.insertLeafNode.shiftCond 2 2 ⟨[1, 3, 0], [⟨1, 0⟩, ⟨1, 1⟩, ⟨0, 0⟩], 0⟩ = true ∧
      (P3.insertLeafNode.shiftBody 2 ⟨[1, 3, 0], [⟨1, 0⟩, ⟨1, 1⟩, ⟨0, 0⟩], 0⟩).1 = 2 ∧
      P3.insertLeafNode.shiftCond 2 2 ⟨[1, 3, 3], [⟨1, 0⟩, ⟨1, 1⟩, ⟨1, 1⟩], 0⟩ = true ∧
      ∀ fuel,
        P3.insertLeafNode fuel 3 ⟨[1, 3, 0], [⟨1, 0⟩, ⟨1, 1⟩, ⟨0, 0⟩], 0⟩ ⟨⟨1, 2⟩, 2⟩ =
          none) :=
  ⟨(P3_insertLeafNode_agrees_or_stalls 3 [(1, ⟨1, 0⟩), (3, ⟨1, 1⟩)] 0 ⟨0, 0⟩ [] [] 0
      ⟨⟨1, 2⟩, 5⟩ (by decide) (by decide) rfl (by simp) rfl).1
      (fun b hb => by
        simp only [List.getLast?, List.getLast, Option.some.injEq] at hb
        subst hb
        decide),
    (P3_insertLeafNode_agrees_or_stalls 3 [(1, ⟨1, 0⟩), (3, ⟨1, 1⟩)] 0 ⟨0, 0⟩ [] [] 0
      ⟨⟨1, 2⟩, 2⟩ (by decide) (by decide) rfl (by simp) rfl).2
      ⟨(3, ⟨1, 1⟩), rfl, by decide⟩⟩

/-! ## Properties kept by the insert path, store by store -/

end BTree
